import Mathlib

/-!
Verification development for the NAK pre-RA instruction scheduler
(`opt_instr_sched_prepass.rs`) and the SM75 latency oracle
(`sm75_instr_latencies.rs`).

Rust functions that can panic are embedded as `Option`-valued functions
(`Option.none` models a panic / abort).  Machine integers (`i32`, `i8`)
are embedded as `Int`; `u32`/`usize` as `Nat`.  Repository components
that are referenced by the scheduler but are not part of the provided
sources (the IR accessors, the liveness provider, `DepGraph`,
`calc_statistics`, `side_effect_type`, `occupancy_in_warps_per_sm`, the
`sched_common` latency dispatchers) are modelled from the specification;
each such definition carries a doc comment saying so.
-/

namespace Nak

/-- Register files, from the data model: `{GPR, UGPR, Pred, UPred, Bar, Carry, Mem}`. -/
inductive RegFile where
  | GPR
  | UGPR
  | Pred
  | UPred
  | Bar
  | Carry
  | Mem
deriving DecidableEq

/-- Modelled from the spec: an SSA value is a unique identifier carrying a
register-file label; two SSA values are equal iff identifiers match. -/
structure SSAValue where
  idx : Nat
  file : RegFile
deriving DecidableEq

/-- A total map from register file to `α` (`PerRegFile<T>` in the source). -/
structure PerRegFile (α : Type) where
  gpr : α
  ugpr : α
  pred : α
  upred : α
  bar : α
  carry : α
  mem : α
deriving DecidableEq

def PerRegFile.get (p : PerRegFile α) : RegFile → α
  | RegFile.GPR => p.gpr
  | RegFile.UGPR => p.ugpr
  | RegFile.Pred => p.pred
  | RegFile.UPred => p.upred
  | RegFile.Bar => p.bar
  | RegFile.Carry => p.carry
  | RegFile.Mem => p.mem

def PerRegFile.set (p : PerRegFile α) (f : RegFile) (x : α) : PerRegFile α :=
  match f with
  | RegFile.GPR => { p with gpr := x }
  | RegFile.UGPR => { p with ugpr := x }
  | RegFile.Pred => { p with pred := x }
  | RegFile.UPred => { p with upred := x }
  | RegFile.Bar => { p with bar := x }
  | RegFile.Carry => { p with carry := x }
  | RegFile.Mem => { p with mem := x }

/-- `PerRegFile::new_with` in the source. -/
def PerRegFile.new_with (f : RegFile → α) : PerRegFile α :=
  ⟨f RegFile.GPR, f RegFile.UGPR, f RegFile.Pred, f RegFile.UPred,
   f RegFile.Bar, f RegFile.Carry, f RegFile.Mem⟩

/-- Modelled from the spec: a register destination (`RegRef`) exposing its
file and component count, as consumed by the oracle (`as_reg().comps()`,
`is_gpr()`). -/
structure Reg where
  file : RegFile
  comps : Nat
deriving DecidableEq

/-- Modelled from the spec: a destination is either `None`, an SSA value
list, or a register. -/
inductive Dst where
  | none : Dst
  | ssa (vals : List SSAValue) : Dst
  | reg (r : Reg) : Dst
deriving DecidableEq

/-- SSA values written by a destination (`Dst::iter_ssa`). -/
def Dst.iter_ssa : Dst → List SSAValue
  | Dst.none => []
  | Dst.ssa vals => vals
  | Dst.reg _ => []

/-- Modelled from the spec: `SSARef::file()` of a destination SSA vector,
`some f` when the (non-empty) vector is uniformly in file `f`. -/
def ssaVecFile : List SSAValue → Option RegFile
  | [] => Option.none
  | v :: rest => if rest.all (fun w => w.file = v.file) then some v.file else Option.none

/-- Modelled from the spec: a source operand, exposing the SSA values it
reads (`src_ref.iter_ssa`) and whether it is a bindless cbuf reference. -/
structure Src where
  ssas : List SSAValue
  bindlessCbuf : Bool
deriving DecidableEq

/-- Opcode kinds matched by the SM75 oracle.  `Other` stands for any opcode
hitting the catch-all panic arm of the classifiers. -/
inductive OpKind where
  | IMad | IMul | IMad64 | PopC | IAdd3 | IAdd3X | BMsk | Lop3 | Flo | ISetP
  | IAbs | Lea | LeaX | IMnMx | I2I | Shf | FFma | FAdd | FMul | FMnMx
  | FSwzAdd | FSet | FSetP | DAdd | DFma | DMul | DSetP | DMnMx | HAdd2
  | HFma2 | HMul2 | HSet2 | HSetP2 | HMnMx2 | Ipa | MuFu | F2F | F2I | I2F
  | FRnd | AL2P | Mov | Sel | BRev | PLop3 | Prmt | Nop | Vote | S2R | R2UR
  | CS2R | BMov | Bar | IDp4 | BClear | Bra | BSSy | Kill | Exit | BSync
  | Tex | Tld | Tld4 | Tmml | Txd | Txq | Ldc | ALd | ASt | Out | OutFinal
  | Ld | St | Atom | CCtl | MemBar | SuLd | SuSt | SuAtom | PixLd | Isberd
  | LdTram | Shfl | Lop2 | PSetP | Other
deriving DecidableEq

/-- Modelled from the spec: an IR opcode as consumed by the oracle — its
kind, its destination and source slices (`dsts_as_slice`, `srcs_as_slice`),
and whether the op is uniform (`is_uniform`).  The per-variant payloads the
oracle inspects (`cs2r.dst`, `bmov.dst`) are the first destination. -/
structure Op where
  kind : OpKind
  dsts : List Dst
  srcs : List Src
  uniform : Bool
deriving DecidableEq

/-- The 19 SM75 register latency classes. -/
inductive RegLatencySM75 where
  | CoupledDisp64
  | CoupledDisp
  | CoupledAlu
  | CoupledFMA
  | IMADLo
  | IMADWideAB
  | IMADWideLower
  | IMADWideUpper
  | RedirectedFP64
  | RedirectedFP16
  | RedirectedHMMA_884_F16
  | RedirectedHMMA_884_F32
  | RedirectedHMMA_1688
  | RedirectedHMMA_16816
  | IMMA
  | Decoupled
  | DecoupledOther
  | BMov
  | GuardPredicate
deriving DecidableEq

/-- The `pred!` macro of the source: `b + p` when the producer is
predicated, else `p`. -/
def predLat (has_pred : Bool) (b p : Nat) : Nat :=
  if has_pred then b + p else p

namespace RegLatencySM75

/-- `RegLatencySM75::op_category`.  `Option.none` models the panic arms. -/
def op_category (op : Op) (reader : Bool) (op_reg_idx : Nat) : Option RegLatencySM75 :=
  match op.kind with
  | OpKind.IMad | OpKind.IMul => some IMADLo
  | OpKind.IMad64 =>
    if reader then
      match op_reg_idx with
      | 0 => some IMADWideAB
      | 1 => some IMADWideAB
      | 2 => some IMADWideLower
      | _ => Option.none
    else
      some IMADWideUpper
  | OpKind.PopC => some Decoupled
  | OpKind.IAdd3 => some CoupledAlu
  | OpKind.IAdd3X => some CoupledAlu
  | OpKind.BMsk => some CoupledAlu
  | OpKind.Lop3 => some CoupledAlu
  | OpKind.Flo => some Decoupled
  | OpKind.ISetP => some CoupledAlu
  | OpKind.IAbs => some CoupledAlu
  | OpKind.Lea => some CoupledAlu
  | OpKind.LeaX => some CoupledAlu
  | OpKind.IMnMx => some CoupledAlu
  | OpKind.I2I => some CoupledAlu
  | OpKind.Shf => some CoupledAlu
  | OpKind.FFma => some CoupledFMA
  | OpKind.FAdd => some CoupledFMA
  | OpKind.FMul => some CoupledFMA
  | OpKind.FMnMx => some CoupledAlu
  | OpKind.FSwzAdd => some CoupledFMA
  | OpKind.FSet => some CoupledAlu
  | OpKind.FSetP => some CoupledAlu
  | OpKind.DAdd => some RedirectedFP64
  | OpKind.DFma => some RedirectedFP64
  | OpKind.DMul => some RedirectedFP64
  | OpKind.DSetP => some RedirectedFP64
  | OpKind.DMnMx => some RedirectedFP64
  | OpKind.HAdd2 => some RedirectedFP16
  | OpKind.HFma2 => some RedirectedFP16
  | OpKind.HMul2 => some RedirectedFP16
  | OpKind.HSet2 => some RedirectedFP16
  | OpKind.HSetP2 => some RedirectedFP16
  | OpKind.HMnMx2 => some RedirectedFP16
  | OpKind.Ipa => some Decoupled
  | OpKind.MuFu => some Decoupled
  | OpKind.F2F => some Decoupled
  | OpKind.F2I => some Decoupled
  | OpKind.I2F => some Decoupled
  | OpKind.FRnd => some Decoupled
  | OpKind.AL2P => some Decoupled
  | OpKind.Mov => some CoupledAlu
  | OpKind.Sel => some CoupledAlu
  | OpKind.BRev => some Decoupled
  | OpKind.PLop3 => some CoupledAlu
  | OpKind.Prmt => some CoupledAlu
  | OpKind.Nop => some CoupledDisp
  | OpKind.Vote => some CoupledDisp
  | OpKind.S2R => some Decoupled
  | OpKind.R2UR => if reader then some Decoupled else Option.none
  | OpKind.CS2R =>
    match op.dsts.head? with
    | some (Dst.reg r) => some (if r.comps = 2 then CoupledDisp64 else CoupledAlu)
    | _ => Option.none
  | OpKind.BMov =>
    match op.dsts.head? with
    | some (Dst.reg r) => some (if r.file = RegFile.GPR then BMov else Decoupled)
    | _ => some Decoupled
  | OpKind.Bar => some Decoupled
  | OpKind.IDp4 => some CoupledFMA
  | OpKind.BClear => some Decoupled
  | OpKind.Bra => some Decoupled
  | OpKind.BSSy => some Decoupled
  | OpKind.Kill => some Decoupled
  | OpKind.Exit => some Decoupled
  | OpKind.BSync => some Decoupled
  | OpKind.Tex => some Decoupled
  | OpKind.Tld => some Decoupled
  | OpKind.Tld4 => some Decoupled
  | OpKind.Tmml => some Decoupled
  | OpKind.Txd => some Decoupled
  | OpKind.Txq => some Decoupled
  | OpKind.Ldc => some Decoupled
  | OpKind.ALd => some Decoupled
  | OpKind.ASt => some Decoupled
  | OpKind.Out => some Decoupled
  | OpKind.OutFinal => some Decoupled
  | OpKind.Ld => some Decoupled
  | OpKind.St => some Decoupled
  | OpKind.Atom => some Decoupled
  | OpKind.CCtl => some DecoupledOther
  | OpKind.MemBar => some Decoupled
  | OpKind.SuLd => some Decoupled
  | OpKind.SuSt => some Decoupled
  | OpKind.SuAtom => some Decoupled
  | OpKind.PixLd => some Decoupled
  | OpKind.Isberd => some Decoupled
  | OpKind.LdTram => some Decoupled
  | OpKind.Shfl => some Decoupled
  | _ => Option.none

/-- `RegLatencySM75::read_after_write`. -/
def read_after_write (writer reader : RegLatencySM75) : Option Nat :=
  match writer with
  | IMADWideAB | DecoupledOther => Option.none
  | _ =>
  match reader with
  | CoupledDisp64 | CoupledDisp | CoupledAlu =>
    some (match writer with
      | CoupledDisp64 => 6
      | CoupledAlu | CoupledDisp => 4
      | CoupledFMA | IMADLo => 5
      | IMADWideLower => 3
      | IMADWideUpper => 5
      | RedirectedFP64 => 9
      | RedirectedFP16 => 8
      | RedirectedHMMA_884_F16 => 13
      | RedirectedHMMA_884_F32 => 10
      | RedirectedHMMA_1688 => 14
      | RedirectedHMMA_16816 => 22
      | IMMA => 10
      | _ => 1)
  | CoupledFMA | IMADLo =>
    some (match writer with
      | CoupledDisp64 => 6
      | CoupledAlu | CoupledDisp => 5
      | CoupledFMA | IMADLo => 4
      | IMADWideLower => 2
      | IMADWideUpper => 4
      | RedirectedFP64 => 9
      | RedirectedFP16 => 8
      | RedirectedHMMA_884_F16 => 13
      | RedirectedHMMA_884_F32 => 10
      | RedirectedHMMA_1688 => 14
      | RedirectedHMMA_16816 => 22
      | IMMA => 10
      | _ => 1)
  | IMADWideAB =>
    some (match writer with
      | CoupledDisp64 => 6
      | CoupledAlu | CoupledDisp => 5
      | CoupledFMA | IMADLo => 4
      | IMADWideLower => 4
      | IMADWideUpper => 6
      | RedirectedFP64 => 9
      | RedirectedFP16 => 8
      | RedirectedHMMA_884_F16 => 13
      | RedirectedHMMA_884_F32 => 10
      | RedirectedHMMA_1688 => 14
      | RedirectedHMMA_16816 => 22
      | IMMA => 10
      | _ => 1)
  | IMADWideLower =>
    some (match writer with
      | CoupledDisp64 => 6
      | CoupledAlu | CoupledDisp => 5
      | CoupledFMA | IMADLo => 4
      | IMADWideLower => 2
      | IMADWideUpper => 2
      | RedirectedFP64 => 9
      | RedirectedFP16 => 8
      | RedirectedHMMA_884_F16 => 13
      | RedirectedHMMA_884_F32 => 10
      | RedirectedHMMA_1688 => 14
      | RedirectedHMMA_16816 => 22
      | IMMA => 10
      | _ => 1)
  | IMADWideUpper =>
    some (match writer with
      | CoupledDisp64 => 4
      | CoupledAlu | CoupledDisp => 3
      | CoupledFMA | IMADLo => 2
      | IMADWideLower => 2
      | IMADWideUpper => 2
      | RedirectedFP64 => 7
      | RedirectedFP16 => 6
      | RedirectedHMMA_884_F16 => 11
      | RedirectedHMMA_884_F32 => 8
      | RedirectedHMMA_1688 => 12
      | RedirectedHMMA_16816 => 20
      | IMMA => 8
      | _ => 1)
  | RedirectedFP64 =>
    some (match writer with
      | CoupledDisp64 => 6
      | CoupledAlu | CoupledDisp => 6
      | CoupledFMA | IMADLo => 6
      | IMADWideLower => 6
      | IMADWideUpper => 6
      | RedirectedFP64 => 8
      | RedirectedFP16 => 8
      | RedirectedHMMA_884_F16 => 13
      | RedirectedHMMA_884_F32 => 10
      | RedirectedHMMA_1688 => 14
      | RedirectedHMMA_16816 => 22
      | IMMA => 10
      | _ => 1)
  | RedirectedFP16 =>
    some (match writer with
      | CoupledDisp64 => 6
      | CoupledAlu | CoupledDisp => 6
      | CoupledFMA | IMADLo => 6
      | IMADWideLower => 6
      | IMADWideUpper => 6
      | RedirectedFP64 => 9
      | RedirectedFP16 => 6
      | RedirectedHMMA_884_F16 => 13
      | RedirectedHMMA_884_F32 => 10
      | RedirectedHMMA_1688 => 14
      | RedirectedHMMA_16816 => 22
      | IMMA => 10
      | _ => 1)
  | RedirectedHMMA_884_F16 | RedirectedHMMA_884_F32 | RedirectedHMMA_1688
  | RedirectedHMMA_16816 | Decoupled =>
    some (match writer with
      | CoupledDisp64 => 6
      | CoupledAlu | CoupledDisp => 6
      | CoupledFMA | IMADLo => 6
      | IMADWideLower => 6
      | IMADWideUpper => 6
      | RedirectedFP64 => 9
      | RedirectedFP16 => 8
      | RedirectedHMMA_884_F16 => 13
      | RedirectedHMMA_884_F32 => 10
      | RedirectedHMMA_1688 => 14
      | RedirectedHMMA_16816 => 22
      | IMMA => 10
      | _ => 1)
  | IMMA | DecoupledOther =>
    some (match writer with
      | CoupledDisp64 => 8
      | CoupledAlu | CoupledDisp => 8
      | CoupledFMA | IMADLo => 8
      | IMADWideLower => 8
      | IMADWideUpper => 8
      | RedirectedFP64 => 9
      | RedirectedFP16 => 8
      | RedirectedHMMA_884_F16 => 13
      | RedirectedHMMA_884_F32 => 10
      | RedirectedHMMA_1688 => 14
      | RedirectedHMMA_16816 => 22
      | IMMA => 10
      | _ => 1)
  | BMov | GuardPredicate => Option.none

/-- `RegLatencySM75::write_after_write`. -/
def write_after_write (writer1 writer2 : RegLatencySM75) (has_pred : Bool) : Option Nat :=
  match writer1 with
  | IMADWideAB | DecoupledOther => Option.none
  | _ =>
  match writer2 with
  | CoupledDisp64 =>
    some (match writer1 with
      | CoupledDisp64 | CoupledDisp | CoupledAlu | CoupledFMA | IMADLo
      | IMADWideLower | IMADWideUpper => 1
      | RedirectedFP64 => 4
      | RedirectedFP16 => 3
      | RedirectedHMMA_884_F16 => 8
      | RedirectedHMMA_884_F32 => predLat has_pred 2 2
      | RedirectedHMMA_1688 => 9
      | RedirectedHMMA_16816 => 17
      | IMMA => 5
      | _ => 1)
  | CoupledDisp | CoupledAlu =>
    some (match writer1 with
      | CoupledDisp64 => 2
      | CoupledDisp | CoupledAlu | CoupledFMA | IMADLo
      | IMADWideLower | IMADWideUpper => 1
      | RedirectedFP64 => predLat has_pred 4 1
      | RedirectedFP16 => predLat has_pred 3 1
      | RedirectedHMMA_884_F16 => predLat has_pred 8 1
      | RedirectedHMMA_884_F32 => predLat has_pred 5 1
      | RedirectedHMMA_1688 => predLat has_pred 9 1
      | RedirectedHMMA_16816 => predLat has_pred 17 1
      | IMMA => predLat has_pred 5 1
      | _ => 1)
  | CoupledFMA | IMADLo =>
    some (match writer1 with
      | CoupledDisp64 => 2
      | CoupledDisp | CoupledAlu | CoupledFMA | IMADLo | IMADWideLower => 1
      | IMADWideUpper => predLat has_pred 1 1
      | RedirectedFP64 => predLat has_pred 4 1
      | RedirectedFP16 => predLat has_pred 3 1
      | RedirectedHMMA_884_F16 => predLat has_pred 8 1
      | RedirectedHMMA_884_F32 => predLat has_pred 5 1
      | RedirectedHMMA_1688 => predLat has_pred 9 1
      | RedirectedHMMA_16816 => predLat has_pred 17 1
      | IMMA => predLat has_pred 5 1
      | _ => 1)
  | IMADWideLower =>
    some (match writer1 with
      | CoupledDisp64 => predLat has_pred 2 2
      | CoupledDisp | CoupledAlu => predLat has_pred 2 1
      | CoupledFMA | IMADLo => predLat has_pred 1 1
      | IMADWideLower => 1
      | IMADWideUpper => 1
      | RedirectedFP64 => predLat has_pred 4 3
      | RedirectedFP16 => predLat has_pred 3 3
      | RedirectedHMMA_884_F16 => predLat has_pred 8 3
      | RedirectedHMMA_884_F32 => predLat has_pred 5 3
      | RedirectedHMMA_1688 => predLat has_pred 9 3
      | RedirectedHMMA_16816 => predLat has_pred 17 3
      | IMMA => predLat has_pred 5 3
      | _ => 1)
  | IMADWideUpper =>
    some (match writer1 with
      | CoupledDisp64 => predLat has_pred 1 1
      | CoupledDisp | CoupledAlu | CoupledFMA | IMADLo
      | IMADWideLower | IMADWideUpper => 1
      | RedirectedFP64 => predLat has_pred 4 1
      | RedirectedFP16 => predLat has_pred 3 1
      | RedirectedHMMA_884_F16 => predLat has_pred 8 1
      | RedirectedHMMA_884_F32 => predLat has_pred 5 1
      | RedirectedHMMA_1688 => predLat has_pred 9 1
      | RedirectedHMMA_16816 => predLat has_pred 17 1
      | IMMA => predLat has_pred 5 1
      | _ => 1)
  | RedirectedFP64 =>
    some (match writer1 with
      | CoupledDisp64 | CoupledDisp | CoupledAlu | CoupledFMA | IMADLo
      | IMADWideLower | IMADWideUpper => 2
      | RedirectedFP64 => 1
      | RedirectedFP16 => 2
      | RedirectedHMMA_884_F16 => 5
      | RedirectedHMMA_884_F32 => 2
      | RedirectedHMMA_1688 => 6
      | RedirectedHMMA_16816 => 14
      | IMMA => 2
      | _ => 1)
  | RedirectedFP16 =>
    some (match writer1 with
      | CoupledDisp64 | CoupledDisp | CoupledAlu | CoupledFMA | IMADLo
      | IMADWideLower | IMADWideUpper => 2
      | RedirectedFP64 => predLat has_pred 1 1
      | RedirectedFP16 => 1
      | RedirectedHMMA_884_F16 => predLat has_pred 6 1
      | RedirectedHMMA_884_F32 => predLat has_pred 3 1
      | RedirectedHMMA_1688 => predLat has_pred 7 1
      | RedirectedHMMA_16816 => predLat has_pred 15 1
      | IMMA => predLat has_pred 3 1
      | _ => 1)
  | RedirectedHMMA_884_F16 =>
    some (match writer1 with
      | CoupledDisp64 | CoupledDisp | CoupledAlu | CoupledFMA | IMADLo
      | IMADWideLower | IMADWideUpper => 2
      | RedirectedFP64 => predLat has_pred 3 2
      | RedirectedFP16 => predLat has_pred 2 2
      | RedirectedHMMA_884_F16 => 1
      | RedirectedHMMA_884_F32 => predLat has_pred 2 4
      | RedirectedHMMA_1688 => predLat has_pred 6 4
      | RedirectedHMMA_16816 => predLat has_pred 16 2
      | IMMA => predLat has_pred 2 4
      | _ => 1)
  | RedirectedHMMA_884_F32 =>
    some (match writer1 with
      | CoupledDisp64 | CoupledDisp | CoupledAlu | CoupledFMA | IMADLo
      | IMADWideLower | IMADWideUpper => 2
      | RedirectedFP64 => predLat has_pred 3 2
      | RedirectedFP16 => predLat has_pred 2 2
      | RedirectedHMMA_884_F16 => predLat has_pred 4 5
      | RedirectedHMMA_884_F32 => 1
      | RedirectedHMMA_1688 => predLat has_pred 6 4
      | RedirectedHMMA_16816 => predLat has_pred 16 2
      | IMMA => predLat has_pred 2 4
      | _ => 1)
  | RedirectedHMMA_1688 =>
    some (match writer1 with
      | CoupledDisp64 | CoupledDisp | CoupledAlu | CoupledFMA | IMADLo
      | IMADWideLower | IMADWideUpper | RedirectedFP64 | RedirectedFP16 => 2
      | RedirectedHMMA_884_F16 => 4
      | RedirectedHMMA_884_F32 => 2
      | RedirectedHMMA_1688 => 1
      | RedirectedHMMA_16816 => 16
      | IMMA => 2
      | _ => 1)
  | RedirectedHMMA_16816 =>
    some (match writer1 with
      | CoupledDisp64 | CoupledDisp | CoupledAlu | CoupledFMA | IMADLo
      | IMADWideLower | IMADWideUpper | RedirectedFP64 | RedirectedFP16 => 2
      | RedirectedHMMA_884_F16 => 4
      | RedirectedHMMA_884_F32 => 2
      | RedirectedHMMA_1688 => 6
      | RedirectedHMMA_16816 => 1
      | IMMA => 2
      | _ => 1)
  | IMMA =>
    some (match writer1 with
      | CoupledDisp64 | CoupledDisp | CoupledAlu | CoupledFMA | IMADLo
      | IMADWideLower | IMADWideUpper => predLat has_pred 2 2
      | RedirectedFP64 => predLat has_pred 2 3
      | RedirectedFP16 => predLat has_pred 2 2
      | RedirectedHMMA_884_F16 => predLat has_pred 2 7
      | RedirectedHMMA_884_F32 => predLat has_pred 2 4
      | RedirectedHMMA_1688 => predLat has_pred 6 4
      | RedirectedHMMA_16816 => predLat has_pred 14 4
      | IMMA => 1
      | _ => 1)
  | Decoupled =>
    some (match writer1 with
      | CoupledDisp64 | CoupledDisp | CoupledAlu | CoupledFMA | IMADLo
      | IMADWideLower | IMADWideUpper | RedirectedFP64 | RedirectedFP16
      | RedirectedHMMA_884_F16 | RedirectedHMMA_884_F32
      | RedirectedHMMA_1688 => 6
      | RedirectedHMMA_16816 => 14
      | IMMA => 2
      | _ => 1)
  | BMov =>
    some (match writer1 with
      | CoupledDisp64 | CoupledDisp | CoupledAlu | CoupledFMA | IMADLo
      | IMADWideLower | IMADWideUpper | RedirectedFP64 | RedirectedFP16
      | RedirectedHMMA_884_F16 | RedirectedHMMA_884_F32
      | RedirectedHMMA_1688 => 9
      | RedirectedHMMA_16816 => 14
      | IMMA => 9
      | _ => 1)
  | IMADWideAB | DecoupledOther | GuardPredicate => Option.none

/-- `RegLatencySM75::write_after_read`. -/
def write_after_read (reader writer : RegLatencySM75) : Option Nat :=
  match writer with
  | CoupledDisp64 | CoupledDisp | CoupledAlu | CoupledFMA | IMADLo
  | IMADWideLower | IMADWideUpper =>
    some (match reader with
      | RedirectedHMMA_1688 => 5
      | RedirectedHMMA_16816 => 13
      | _ => 1)
  | RedirectedFP64 =>
    some (match reader with
      | RedirectedFP64 => 1
      | RedirectedHMMA_1688 => 6
      | RedirectedHMMA_16816 => 14
      | Decoupled => 1
      | _ => 2)
  | RedirectedFP16 =>
    some (match reader with
      | RedirectedFP16 => 1
      | RedirectedHMMA_1688 => 6
      | RedirectedHMMA_16816 => 14
      | Decoupled => 1
      | _ => 2)
  | RedirectedHMMA_884_F16 =>
    some (match reader with
      | RedirectedHMMA_884_F16 => 1
      | RedirectedHMMA_1688 => 6
      | RedirectedHMMA_16816 => 14
      | Decoupled => 1
      | _ => 2)
  | RedirectedHMMA_884_F32 =>
    some (match reader with
      | RedirectedHMMA_884_F32 => 1
      | RedirectedHMMA_1688 => 6
      | RedirectedHMMA_16816 => 14
      | Decoupled => 1
      | _ => 2)
  | RedirectedHMMA_1688 =>
    some (match reader with
      | RedirectedHMMA_1688 => 1
      | RedirectedHMMA_16816 => 14
      | Decoupled => 1
      | _ => 2)
  | RedirectedHMMA_16816 =>
    some (match reader with
      | RedirectedHMMA_1688 => 6
      | RedirectedHMMA_16816 => 1
      | Decoupled => 1
      | _ => 2)
  | IMMA =>
    some (match reader with
      | RedirectedHMMA_1688 => 6
      | RedirectedHMMA_16816 => 14
      | IMMA => 1
      | Decoupled => 1
      | _ => 2)
  | Decoupled =>
    some (match reader with
      | RedirectedHMMA_1688 => 2
      | RedirectedHMMA_16816 => 14
      | Decoupled => 1
      | _ => 2)
  | BMov =>
    some (match reader with
      | RedirectedHMMA_1688 => 9
      | RedirectedHMMA_16816 => 14
      | Decoupled => 1
      | _ => 9)
  | IMADWideAB | DecoupledOther | GuardPredicate => Option.none

/-- `RegLatencySM75::pred_read_after_write`. -/
def pred_read_after_write (writer reader : RegLatencySM75) : Option Nat :=
  match reader with
  | CoupledDisp =>
    match writer with
    | CoupledDisp | CoupledAlu | CoupledFMA | IMADLo
    | IMADWideUpper | IMADWideLower => some 12
    | RedirectedFP64 => some 15
    | RedirectedFP16 => some 14
    | Decoupled => some 1
    | _ => Option.none
  | CoupledAlu =>
    match writer with
    | CoupledDisp | CoupledAlu => some 4
    | CoupledFMA | IMADLo | IMADWideUpper | IMADWideLower => some 5
    | RedirectedFP64 => some 9
    | RedirectedFP16 => some 8
    | Decoupled => some 1
    | _ => Option.none
  | CoupledFMA | IMADLo =>
    match writer with
    | CoupledDisp | CoupledAlu => some 5
    | CoupledFMA | IMADLo | IMADWideUpper | IMADWideLower => some 4
    | RedirectedFP64 => some 9
    | RedirectedFP16 => some 8
    | Decoupled => some 1
    | _ => Option.none
  | IMADWideUpper | IMADWideLower =>
    match writer with
    | CoupledDisp | CoupledAlu => some 5
    | CoupledFMA | IMADLo => some 4
    | IMADWideUpper | IMADWideLower => some 2
    | RedirectedFP64 => some 9
    | RedirectedFP16 => some 8
    | Decoupled => some 1
    | _ => Option.none
  | RedirectedFP64 =>
    match writer with
    | CoupledDisp | CoupledAlu | CoupledFMA | IMADLo
    | IMADWideUpper | IMADWideLower => some 12
    | RedirectedFP64 => some 8
    | RedirectedFP16 => some 14
    | Decoupled => some 1
    | _ => Option.none
  | RedirectedFP16 =>
    match writer with
    | CoupledDisp | CoupledAlu | CoupledFMA | IMADLo
    | IMADWideUpper | IMADWideLower => some 12
    | RedirectedFP64 => some 15
    | RedirectedFP16 => some 6
    | Decoupled => some 1
    | _ => Option.none
  | Decoupled | GuardPredicate =>
    match writer with
    | CoupledDisp | CoupledAlu | CoupledFMA | IMADLo
    | IMADWideUpper | IMADWideLower => some 12
    | RedirectedFP64 => some 15
    | RedirectedFP16 => some 14
    | Decoupled => some 1
    | _ => Option.none
  | _ => Option.none

/-- `RegLatencySM75::pred_write_after_write`. -/
def pred_write_after_write (writer1 writer2 : RegLatencySM75) (has_pred : Bool) : Option Nat :=
  match writer2 with
  | CoupledDisp | CoupledAlu | CoupledFMA | IMADLo =>
    match writer1 with
    | CoupledDisp | CoupledAlu | CoupledFMA | IMADLo
    | IMADWideUpper | IMADWideLower => some 1
    | RedirectedFP64 => some (predLat has_pred 4 1)
    | RedirectedFP16 => some (predLat has_pred 3 1)
    | Decoupled => some 1
    | _ => Option.none
  | IMADWideUpper | IMADWideLower =>
    match writer1 with
    | CoupledDisp | CoupledAlu => some (predLat has_pred 1 2)
    | CoupledFMA | IMADLo => some (predLat has_pred 1 1)
    | IMADWideUpper | IMADWideLower => some 1
    | RedirectedFP64 => some (predLat has_pred 4 3)
    | RedirectedFP16 => some (predLat has_pred 3 3)
    | Decoupled => some 1
    | _ => Option.none
  | RedirectedFP64 =>
    match writer1 with
    | CoupledDisp | CoupledAlu | CoupledFMA | IMADLo
    | IMADWideUpper | IMADWideLower => some (predLat has_pred 2 2)
    | RedirectedFP64 => some 1
    | RedirectedFP16 => some (predLat has_pred 2 4)
    | Decoupled => some 1
    | _ => Option.none
  | RedirectedFP16 =>
    match writer1 with
    | CoupledDisp | CoupledAlu | CoupledFMA | IMADLo
    | IMADWideUpper | IMADWideLower => some (predLat has_pred 2 4)
    | RedirectedFP64 => some (predLat has_pred 2 7)
    | RedirectedFP16 => some 1
    | Decoupled => some 1
    | _ => Option.none
  | Decoupled =>
    match writer1 with
    | CoupledDisp | CoupledAlu | CoupledFMA | IMADLo
    | IMADWideUpper | IMADWideLower | RedirectedFP64 | RedirectedFP16 => some 2
    | Decoupled => some 1
    | _ => Option.none
  | _ => Option.none

/-- `RegLatencySM75::pred_write_after_read`. -/
def pred_write_after_read (reader writer : RegLatencySM75) : Option Nat :=
  match writer with
  | CoupledDisp | CoupledAlu | CoupledFMA | IMADLo
  | IMADWideUpper | IMADWideLower => some 1
  | RedirectedFP64 =>
    some (match reader with
      | CoupledAlu | CoupledFMA | IMADLo | IMADWideUpper | IMADWideLower
      | RedirectedFP16 => 2
      | _ => 1)
  | RedirectedFP16 =>
    some (match reader with
      | CoupledAlu | CoupledFMA | IMADLo | IMADWideUpper | IMADWideLower
      | RedirectedFP64 => 2
      | _ => 1)
  | Decoupled =>
    some (match reader with
      | CoupledAlu | CoupledFMA | IMADLo | IMADWideUpper | IMADWideLower
      | RedirectedFP16 | RedirectedFP64 => 2
      | _ => 1)
  | _ => Option.none

end RegLatencySM75

/-- The SM75 uniform-register latency classes. -/
inductive URegLatencySM75 where
  | Udp
  | VectorCoupled
  | VectorDecoupled
  | Uldc
  | Umov
  | VectorCoupledBindless
  | VectorDecoupledBindless
  | VoteU
  | GuardPredicate
  | R2UR
deriving DecidableEq

namespace URegLatencySM75

/-- `URegLatencySM75::op_category`.  `Option.none` models the panic arms,
including the out-of-bounds source index of the bindless-cbuf probe. -/
def op_category (op : Op) (reader : Bool) (op_reg_idx : Nat) : Option URegLatencySM75 :=
  match (if reader then (op.srcs.get? op_reg_idx).map Src.bindlessCbuf else some false) with
  | Option.none => Option.none
  | some bindless =>
    let vcoupled := if op.uniform then Udp
      else if bindless then VectorCoupledBindless else VectorCoupled
    let vdecoupled := if op.uniform then Udp
      else if bindless then VectorDecoupledBindless else VectorDecoupled
    match op.kind with
    | OpKind.BMsk => some vcoupled
    | OpKind.BRev => some vcoupled
    | OpKind.Flo => some vdecoupled
    | OpKind.IAdd3 => some vcoupled
    | OpKind.IAdd3X => some vcoupled
    | OpKind.IAbs => some vcoupled
    | OpKind.IMnMx => some vcoupled
    | OpKind.IMad => some vcoupled
    | OpKind.IMad64 => some vcoupled
    | OpKind.ISetP => some vcoupled
    | OpKind.Ldc => some (if op.uniform then Uldc else vdecoupled)
    | OpKind.Lea => some vcoupled
    | OpKind.LeaX => some vcoupled
    | OpKind.Lop2 => some vcoupled
    | OpKind.Lop3 => some vcoupled
    | OpKind.MuFu => some vdecoupled
    | OpKind.Mov => some (if op.uniform then Umov else vcoupled)
    | OpKind.PLop3 => some vcoupled
    | OpKind.PopC => some vdecoupled
    | OpKind.Prmt => some vcoupled
    | OpKind.PSetP => some vcoupled
    | OpKind.Sel => some vcoupled
    | OpKind.Shf => some vcoupled
    | OpKind.Shfl => some vdecoupled
    | OpKind.I2F => some vdecoupled
    | OpKind.F2I => some vdecoupled
    | OpKind.F2F => some vdecoupled
    | OpKind.R2UR => if !reader then some R2UR else Option.none
    | OpKind.Vote => some VoteU
    | OpKind.FRnd => some vdecoupled
    | OpKind.FAdd => some vcoupled
    | OpKind.FMul => some vcoupled
    | OpKind.FFma => some vcoupled
    | OpKind.FSetP => some vcoupled
    | OpKind.FMnMx => some vcoupled
    | OpKind.HAdd2 => some vcoupled
    | OpKind.HMul2 => some vcoupled
    | OpKind.HSet2 => some vcoupled
    | OpKind.HFma2 => some vcoupled
    | OpKind.HSetP2 => some vcoupled
    | OpKind.DMul => some vdecoupled
    | OpKind.DFma => some vdecoupled
    | OpKind.DAdd => some vdecoupled
    | OpKind.DSetP => some vdecoupled
    | _ => Option.none

/-- `URegLatencySM75::read_after_write`. -/
def read_after_write (writer reader : URegLatencySM75) : Option Nat :=
  match reader with
  | Udp =>
    match writer with
    | Udp => some 4
    | R2UR => some 2
    | Uldc | VoteU | Umov => some 2
    | _ => Option.none
  | VectorCoupled =>
    match writer with
    | Udp => some 6
    | R2UR => some 2
    | Uldc | VoteU | Umov => some 2
    | _ => Option.none
  | VectorDecoupled =>
    match writer with
    | Udp => some 9
    | R2UR => some 2
    | Uldc | VoteU | Umov => some 2
    | _ => Option.none
  | Uldc | VectorCoupledBindless | VectorDecoupledBindless =>
    match writer with
    | Udp => some 12
    | R2UR => some 2
    | Uldc | VoteU | Umov => some 5
    | _ => Option.none
  | Umov =>
    match writer with
    | Udp => some 7
    | R2UR => some 2
    | Uldc | VoteU | Umov => some 2
    | _ => Option.none
  | _ => Option.none

/-- `URegLatencySM75::write_after_write`. -/
def write_after_write (writer1 writer2 : URegLatencySM75) (has_pred : Bool) : Option Nat :=
  match writer2 with
  | Udp =>
    match writer1 with
    | Udp => some 1
    | R2UR => some 2
    | Uldc | VoteU | Umov => some 1
    | _ => Option.none
  | R2UR =>
    match writer1 with
    | Udp => some (predLat has_pred 4 6)
    | R2UR => some 2
    | Uldc | VoteU | Umov => some 4
    | _ => Option.none
  | Uldc | VoteU | Umov =>
    match writer1 with
    | Udp => some 7
    | R2UR => some 2
    | Uldc | VoteU | Umov => some 1
    | _ => Option.none
  | _ => Option.none

/-- `URegLatencySM75::write_after_read`. -/
def write_after_read (reader writer : URegLatencySM75) : Option Nat :=
  match writer with
  | Udp => some 1
  | R2UR => some 1
  | Uldc | VoteU | Umov =>
    some (match reader with
      | Udp => 3
      | _ => 1)
  | _ => Option.none

/-- `URegLatencySM75::pred_read_after_write`. -/
def pred_read_after_write (writer reader : URegLatencySM75) : Option Nat :=
  match reader with
  | Udp =>
    match writer with
    | Udp => some 4
    | VoteU => some 1
    | _ => Option.none
  | VectorCoupled =>
    match writer with
    | Udp => some 6
    | VoteU => some 1
    | _ => Option.none
  | GuardPredicate =>
    match writer with
    | Udp => some 11
    | VoteU => some 5
    | _ => Option.none
  | _ => Option.none

/-- `URegLatencySM75::pred_write_after_write`. -/
def pred_write_after_write (writer1 writer2 : URegLatencySM75) : Option Nat :=
  match writer2 with
  | Udp => some 1
  | VoteU =>
    match writer1 with
    | Udp => some 7
    | VoteU => some 1
    | _ => Option.none
  | _ => Option.none

/-- `URegLatencySM75::pred_write_after_read`. -/
def pred_write_after_read (reader writer : URegLatencySM75) : Option Nat :=
  match writer with
  | Udp => some 1
  | VoteU =>
    some (match reader with
      | Udp => 2
      | _ => 1)
  | _ => Option.none

end URegLatencySM75

/-- The register file a destination writes, as the `SM75Latency` entry
points compute it: outer `Option.none` models a panic (destination index
out of bounds, or `vec.file().unwrap()` on a mixed vector); `some
Option.none` is `Dst::None`. -/
def dstFileOf (op : Op) (dst_idx : Nat) : Option (Option RegFile) :=
  match op.dsts.get? dst_idx with
  | Option.none => Option.none
  | some Dst.none => some Option.none
  | some (Dst.ssa vec) =>
    match ssaVecFile vec with
    | Option.none => Option.none
    | some f => some (some f)
  | some (Dst.reg r) => some (some r.file)

namespace SM75Latency

/-- `SM75Latency::needs_scoreboards`. -/
def needs_scoreboards (op : Op) : Option Bool :=
  if op.uniform then
    (URegLatencySM75.op_category op false 0).map (fun c =>
      match c with
      | URegLatencySM75.R2UR => true
      | _ => false)
  else
    (RegLatencySM75.op_category op true 0).map (fun c =>
      match c with
      | RegLatencySM75.RedirectedFP64
      | RegLatencySM75.RedirectedHMMA_884_F16
      | RegLatencySM75.RedirectedHMMA_884_F32
      | RegLatencySM75.RedirectedHMMA_1688
      | RegLatencySM75.RedirectedHMMA_16816
      | RegLatencySM75.IMMA
      | RegLatencySM75.Decoupled => true
      | _ => false)

/-- `SM75Latency::raw`. -/
def raw (write : Op) (dst_idx : Nat) (read : Op) (src_idx : Nat) : Option Nat :=
  match dstFileOf write dst_idx with
  | Option.none => Option.none
  | some Option.none => some 0
  | some (some RegFile.GPR) => do
    let w ← RegLatencySM75.op_category write false dst_idx
    let r ← RegLatencySM75.op_category read true src_idx
    RegLatencySM75.read_after_write w r
  | some (some RegFile.UGPR) => do
    let w ← URegLatencySM75.op_category write false dst_idx
    let r ← URegLatencySM75.op_category read true src_idx
    URegLatencySM75.read_after_write w r
  | some (some RegFile.Pred) => do
    let w ← RegLatencySM75.op_category write false dst_idx
    let r ← RegLatencySM75.op_category read true src_idx
    RegLatencySM75.pred_read_after_write w r
  | some (some RegFile.UPred) => do
    let w ← URegLatencySM75.op_category write false dst_idx
    let r ← URegLatencySM75.op_category read true src_idx
    URegLatencySM75.pred_read_after_write w r
  | some (some RegFile.Carry) => some 6
  | some (some _) => Option.none

/-- `SM75Latency::war`. -/
def war (read : Op) (src_idx : Nat) (write : Op) (dst_idx : Nat) : Option Nat :=
  match dstFileOf write dst_idx with
  | Option.none => Option.none
  | some Option.none => some 0
  | some (some RegFile.GPR) => do
    let w ← RegLatencySM75.op_category write false dst_idx
    let r ← RegLatencySM75.op_category read true src_idx
    RegLatencySM75.write_after_read r w
  | some (some RegFile.UGPR) => do
    let w ← URegLatencySM75.op_category write false dst_idx
    let r ← URegLatencySM75.op_category read true src_idx
    URegLatencySM75.write_after_read r w
  | some (some RegFile.Pred) => do
    let w ← RegLatencySM75.op_category write false dst_idx
    let r ← RegLatencySM75.op_category read false src_idx
    RegLatencySM75.pred_write_after_read r w
  | some (some RegFile.UPred) => do
    let w ← URegLatencySM75.op_category write false dst_idx
    let r ← URegLatencySM75.op_category read true src_idx
    URegLatencySM75.pred_write_after_read r w
  | some (some RegFile.Carry) => some 6
  | some (some _) => Option.none

/-- `SM75Latency::waw`. -/
def waw (a : Op) (a_dst_idx : Nat) (b : Op) (b_dst_idx : Nat) (a_op_pred : Bool) : Option Nat :=
  match dstFileOf a a_dst_idx with
  | Option.none => Option.none
  | some Option.none => some 0
  | some (some RegFile.GPR) => do
    let w1 ← RegLatencySM75.op_category a false a_dst_idx
    let w2 ← RegLatencySM75.op_category b false b_dst_idx
    RegLatencySM75.write_after_write w1 w2 a_op_pred
  | some (some RegFile.UGPR) => do
    let w1 ← URegLatencySM75.op_category a false a_dst_idx
    let w2 ← URegLatencySM75.op_category b false b_dst_idx
    URegLatencySM75.write_after_write w1 w2 a_op_pred
  | some (some RegFile.Pred) => do
    let w1 ← RegLatencySM75.op_category a false a_dst_idx
    let w2 ← RegLatencySM75.op_category b false b_dst_idx
    RegLatencySM75.pred_write_after_write w1 w2 a_op_pred
  | some (some RegFile.UPred) => do
    let w1 ← URegLatencySM75.op_category a false a_dst_idx
    let w2 ← URegLatencySM75.op_category b false b_dst_idx
    URegLatencySM75.pred_write_after_write w1 w2
  | some (some RegFile.Carry) => some 6
  | some (some _) => Option.none

/-- `SM75Latency::paw`.  Note: unlike `raw`, `war` and `waw` there is no
`Carry` arm; a `Carry` destination falls into the panic arm. -/
def paw (write : Op) (dst_idx : Nat) : Option Nat :=
  match dstFileOf write dst_idx with
  | Option.none => Option.none
  | some Option.none => some 0
  | some (some RegFile.Pred) => do
    let w ← RegLatencySM75.op_category write false dst_idx
    RegLatencySM75.pred_read_after_write w RegLatencySM75.GuardPredicate
  | some (some RegFile.UPred) => do
    let w ← URegLatencySM75.op_category write false dst_idx
    URegLatencySM75.pred_read_after_write w URegLatencySM75.GuardPredicate
  | some (some _) => Option.none

end SM75Latency

/-! ## Occupancy, spill model and schedule-mode driver -/

/-- `SW_RESERVED_GPRS` (= 2). -/
def SW_RESERVED_GPRS : Int := 2

/-- `SW_RESERVED_GPRS_SPILL` (= 2). -/
def SW_RESERVED_GPRS_SPILL : Int := 2

/-- `TARGET_FREE` (= 4). -/
def TARGET_FREE : Int := 4

/-- Modelled from the spec: `occupancy_in_warps_per_sm` is not among the
provided sources.  Per the spec it is the warps-per-SM occupancy, a
monotone non-increasing step function of the per-thread register
footprint: registers are allocated in a granularity of 8 per thread with
a minimum of 8, a warp has 32 threads, the SM holds `TOTAL_REGS = 65536`
registers, and at most 32 warps are resident. -/
def occupancy_in_warps_per_sm (regs : Nat) : Nat :=
  min 32 (2048 / max 8 (((regs + 7) / 8) * 8))

/-- The local `prev_multiple_of` helper of `next_occupancy_cliff`. -/
def prev_multiple_of (x y : Nat) : Nat :=
  (x / y) * y

/-- `next_occupancy_cliff`: how many GPRs can be used without costing
occupancy, assuming at least `x` GPRs are needed. -/
def next_occupancy_cliff (x : Nat) : Nat :=
  let total_regs : Nat := 65536
  let threads := occupancy_in_warps_per_sm x * 32
  let threads := max threads 1
  prev_multiple_of (total_regs / threads) 8

/-- `u32::try_from` on an `i32` value: fails (panics) on negatives. -/
def tryIntToNat (x : Int) : Option Nat :=
  if 0 ≤ x then some x.toNat else Option.none

/-- `u8::try_from` on an `i32` value. -/
def tryIntToU8 (x : Int) : Option Nat :=
  if 0 ≤ x ∧ x ≤ 255 then some x.toNat else Option.none

/-- `next_occupancy_cliff_with_reserved`.  The `u32 → i32` conversion of
the result cannot fail (the cliff is at most 65536); the `i32 → u32`
conversion of the argument panics on negatives. -/
def next_occupancy_cliff_with_reserved (gprs reserved : Int) : Option Int :=
  (tryIntToNat (gprs + reserved)).map (fun g =>
    (next_occupancy_cliff g : Int) - reserved)

/-- `SPILL_FILES`: the spill ladder with its weights. -/
def SPILL_FILES : List (RegFile × RegFile × Int) :=
  [(RegFile.Bar, RegFile.GPR, 6 + 6),
   (RegFile.Pred, RegFile.GPR, 12 + 6),
   (RegFile.UPred, RegFile.UGPR, 12 + 6),
   (RegFile.UGPR, RegFile.GPR, 15 + 6),
   (RegFile.GPR, RegFile.Mem, 32 + 32)]

/-- `calc_used_gprs`: how many GPRs are used after cascading the overflow
of every file down the spill ladder. -/
def calc_used_gprs (p max_regs : PerRegFile Int) : Int :=
  (SPILL_FILES.foldl (fun q sdw =>
    let src := sdw.1
    let dest := sdw.2.1
    if q.get src > max_regs.get src then
      q.set dest (q.get dest + (q.get src - max_regs.get src))
    else q) p).get RegFile.GPR

/-- `calc_score_part`: walking the ladder, accumulate spill badness and
free-register goodness separately. -/
def calc_score_part (p max_regs : PerRegFile Int) : Int × Int :=
  let r := SPILL_FILES.foldl (fun (acc : PerRegFile Int × Int × Int) sdw =>
    let (q, badness, goodness) := acc
    let src := sdw.1
    let dest := sdw.2.1
    let weight := sdw.2.2
    if q.get src > max_regs.get src then
      let spill_count := q.get src - max_regs.get src
      (q.set dest (q.get dest + spill_count), badness + spill_count * weight, goodness)
    else
      let free_count := max_regs.get src - q.get src
      (q, badness, goodness + free_count * weight)) (p, 0, 0)
  (r.2.1, r.2.2)

/-- `ScheduleThresholds`. -/
structure ScheduleThresholds where
  heuristic_threshold : Int
  quit_threshold : Int
deriving DecidableEq

/-- The score type `(bool, Reverse<i32>, i32)`.  The middle component
stores the badness directly; the reversal lives in the order relation
`scoreLe` below. -/
def Score : Type := Bool × Int × Int

instance : DecidableEq Score := by
  unfold Score
  infer_instance

/-- The derived lexicographic order on `Score`, with `false < true` on the
first component and the `Reverse` order (smaller badness ranks higher) on
the second. -/
def scoreLe (s t : Score) : Bool :=
  (!s.1 && t.1) ||
    (s.1 = t.1 && (t.2.1 < s.2.1 || (s.2.1 = t.2.1 && s.2.2 ≤ t.2.2)))

/-- Strict version of `scoreLe`. -/
def scoreLt (s t : Score) : Bool :=
  scoreLe s t && !(s = t : Bool)

/-- `calc_score`: the lexicographic scheduling score.  The
`i32::try_from(delay_cycles)` conversion is embedded as the `Int`
coercion. -/
def calc_score (net peak1 peak2 max_regs : PerRegFile Int) (delay_cycles : Nat)
    (thresholds : ScheduleThresholds) : Score :=
  let peak_gprs := max (calc_used_gprs peak1 max_regs) (calc_used_gprs peak2 max_regs)
  if peak_gprs ≤ thresholds.quit_threshold then
    let bg := calc_score_part net max_regs
    (true, bg.1 + (delay_cycles : Int), bg.2)
  else
    (false, 0, 0)

/-- `ScheduleType`: a register-limit mode (the `u8` target embedded as a
`Nat` that fits in `[0, 255]`) or the spill mode. -/
inductive ScheduleType where
  | RegLimit (gpr_target : Nat)
  | Spill
deriving DecidableEq

/-- The `while gpr_target < max_regs[GPR]` loop of `get_schedule_types`,
with explicit fuel; running out of fuel yields `Option.none`, as do the
`try_into().unwrap()` panics. -/
def schedTypesLoop (max_gpr max_gpr_target reserved : Int) :
    Nat → Int → List ScheduleType → Option (List ScheduleType)
  | 0, _, _ => Option.none
  | fuel + 1, gpr_target, out =>
    if gpr_target < max_gpr then
      match tryIntToU8 gpr_target with
      | Option.none => Option.none
      | some g =>
        let out := out ++ [ScheduleType.RegLimit g]
        if gpr_target ≥ max_gpr_target then
          some out
        else
          match next_occupancy_cliff_with_reserved (gpr_target + 1) reserved with
          | Option.none => Option.none
          | some gt => schedTypesLoop max_gpr max_gpr_target reserved fuel gt out
    else
      match tryIntToU8 (max_gpr - SW_RESERVED_GPRS) with
      | Option.none => Option.none
      | some g =>
        let out := out ++ [ScheduleType.RegLimit g]
        some (if max_gpr_target > max_gpr then out ++ [ScheduleType.Spill] else out)

/-- `get_schedule_types`, with explicit loop fuel. -/
def get_schedule_types (fuel : Nat) (max_regs : PerRegFile Int)
    (min_gpr_target max_gpr_target reserved_gprs : Int) : Option (List ScheduleType) :=
  match next_occupancy_cliff_with_reserved min_gpr_target reserved_gprs with
  | Option.none => Option.none
  | some g0 =>
    schedTypesLoop (max_regs.get RegFile.GPR) max_gpr_target reserved_gprs fuel g0 []

/-! ## Scheduler data model

The scheduler treats instructions opaquely.  Per the spec, an instruction
exposes ordered sources, ordered destinations, an optional SSA predicate
guard, and an opaque opcode consumed through collaborator functions. -/

/-- Modelled from the spec: the predicate-guard reference of an
instruction (`PredRef`). -/
inductive PredRef where
  | none : PredRef
  | ssa (v : SSAValue) : PredRef
  | reg (r : Reg) : PredRef
deriving DecidableEq

/-- Modelled from the spec: the instruction view the scheduler consumes. -/
structure Instr (O : Type) where
  op : O
  srcs : List Src
  dsts : List Dst
  pred : PredRef
deriving DecidableEq

/-- `SideEffect`, the classification returned by `side_effect_type`. -/
inductive SideEffect where
  | None
  | Memory
  | Barrier
deriving DecidableEq

/-- Modelled from the spec: a basic block owns its instruction vector. -/
structure Block (O : Type) where
  instrs : List (Instr O)
deriving DecidableEq

/-- Modelled from the spec: a function is a list of basic blocks;
`preds` models `blocks.pred_indices` as a per-block list. -/
structure Function (O : Type) where
  blocks : List (Block O)
  preds : List (List Nat)
deriving DecidableEq

/-- Modelled from the spec: `LiveSet` — a set of SSA values whose
insert/remove report whether membership changed, with per-file counts. -/
@[reducible] def LiveSet : Type := List SSAValue

def LiveSet.new : LiveSet := ([] : List SSAValue)

def LiveSet.contains (l : LiveSet) (s : SSAValue) : Bool :=
  decide (s ∈ l)

def LiveSet.insert (l : LiveSet) (s : SSAValue) : LiveSet × Bool :=
  if s ∈ l then (l, false) else ((s :: (l : List SSAValue) : List SSAValue), true)

def LiveSet.remove (l : LiveSet) (s : SSAValue) : LiveSet × Bool :=
  if s ∈ l then ((List.erase (l : List SSAValue) s : List SSAValue), true) else (l, false)

def LiveSet.count (l : LiveSet) (f : RegFile) : Nat :=
  (List.filter (fun s => decide (s.file = f)) (l : List SSAValue)).length

def LiveSet.filterSet (l : LiveSet) (p : SSAValue → Bool) : LiveSet :=
  (List.filter p (l : List SSAValue) : List SSAValue)

/-- Modelled from the spec: the external collaborators of the scheduler
core — the shader model (`sm()`, `hw_reserved_gprs()`), the op classifier
`side_effect_type`, the `sched_common` latency dispatchers `raw_latency`
and `paw_latency` (with the shader model already fixed),
`estimate_variable_latency`, the per-op flags, and the liveness provider
(`block_live(b).is_live_in`, `LiveSet::insert_instr_top_down`,
`SimpleLiveness::calc_max_live`).  None of these is part of the provided
sources. -/
structure Collab (O : Type) where
  hw_reserved_gprs : Nat
  side_effect_type : O → SideEffect
  raw_latency : O → Nat → O → Nat → Nat
  paw_latency : O → Nat → Nat
  estimate_variable_latency : O → Nat
  is_virtual : O → Bool
  has_fixed_latency : O → Bool
  is_live_in : Nat → SSAValue → Bool
  insert_instr_top_down : Nat → Nat → Instr O → LiveSet → LiveSet × PerRegFile Nat
  calc_max_live : Function O → PerRegFile Nat

/-! ## Dependency graph (modelled from the spec) -/

/-- `EdgeLabel`: an edge carries a required cycle separation. -/
structure EdgeLabel where
  latency : Nat
deriving DecidableEq

/-- A dependency-graph edge as stored in its source node. -/
structure DepEdge where
  head_idx : Nat
  label : EdgeLabel
deriving DecidableEq

/-- Modelled from the spec: a node's mutable statistics — its
`ready_cycle` and the count of not-yet-scheduled dependents. -/
structure DepNodeLabel where
  ready_cycle : Nat
  num_uses : Int
deriving DecidableEq

/-- A dependency-graph node: label plus outgoing adjacency list. -/
structure DepNode where
  label : DepNodeLabel
  outgoing_edges : List DepEdge
deriving DecidableEq

/-- Modelled from the spec: a dense node array indexed by instruction
position. -/
structure DepGraph where
  nodes : List DepNode
deriving DecidableEq

def DepGraph.new (n : Nat) : DepGraph :=
  ⟨List.replicate n ⟨⟨0, 0⟩, []⟩⟩

/-- `DepGraph::add_edge` appends an edge to the source node's adjacency
list (only ever called with in-range sources). -/
def DepGraph.add_edge (g : DepGraph) (a b : Nat) (lbl : EdgeLabel) : DepGraph :=
  match g.nodes.get? a with
  | Option.none => g
  | some nd => ⟨g.nodes.set a { nd with outgoing_edges := nd.outgoing_edges ++ [⟨b, lbl⟩] }⟩

/-- All edges of a graph as `(source, head)` pairs, with multiplicity. -/
def DepGraph.edgeList (g : DepGraph) : List (Nat × Nat) :=
  (g.nodes.enum.map (fun p => p.2.outgoing_edges.map (fun e => (p.1, e.head_idx)))).flatten

/-- Modelled from the spec: `DepGraph::reverse` flips every edge and keeps
the node labels. -/
def DepGraph.reverse (g : DepGraph) : DepGraph :=
  ⟨(List.range g.nodes.length).map (fun u =>
    { label := (((g.nodes.get? u).map DepNode.label).getD ⟨0, 0⟩),
      outgoing_edges := (g.nodes.enum.map (fun p =>
        (p.2.outgoing_edges.filter (fun e => e.head_idx == u)).map
          (fun e => DepEdge.mk p.1 e.label))).flatten })⟩

/-- Modelled from the spec: `calc_statistics` initialises every node's
`num_uses` to its number of dependents and returns the initial ready
list — the instructions with no dependents. -/
def calc_statistics (g : DepGraph) : DepGraph × List Nat :=
  (⟨g.nodes.map (fun nd =>
      { nd with label := { nd.label with num_uses := (nd.outgoing_edges.length : Int) } })⟩,
   (List.range g.nodes.length).filter (fun i =>
     ((g.nodes.get? i).map (fun nd => nd.outgoing_edges.isEmpty)).getD false))

/-- Longest-path length from a node, with fuel (the graphs in use are
acyclic with depth below the node count). -/
def longestPathLen (g : DepGraph) : Nat → Nat → Nat
  | 0, _ => 0
  | fuel + 1, i =>
    (((g.nodes.get? i).map DepNode.outgoing_edges).getD []).foldl
      (fun acc e => max acc (longestPathLen g fuel e.head_idx + 1)) 0

/-- Modelled from the spec: a ready-list entry, ordered by critical-path
length then by instruction index (the spec allows any strict total order
preferring critical-path length). -/
structure ReadyInstr where
  key : Nat
  index : Nat
deriving DecidableEq

def ReadyInstr.new (g : DepGraph) (i : Nat) : ReadyInstr :=
  ⟨longestPathLen g g.nodes.length i, i⟩

def ReadyInstr.le (a b : ReadyInstr) : Bool :=
  a.key < b.key || (a.key = b.key && a.index ≤ b.index)

/-- Modelled from the spec: a future-ready entry additionally carries its
ready cycle; the set is ordered by `Reverse(ready_cycle)` then index. -/
structure FutureReadyInstr where
  ready_cycle : Nat
  index : Nat
deriving DecidableEq

def FutureReadyInstr.new (g : DepGraph) (i : Nat) : FutureReadyInstr :=
  ⟨(((g.nodes.get? i).map (fun nd => nd.label.ready_cycle)).getD 0), i⟩

def FutureReadyInstr.le (a b : FutureReadyInstr) : Bool :=
  b.ready_cycle < a.ready_cycle ||
    (a.ready_cycle = b.ready_cycle && a.index ≤ b.index)

/-- An ordered set held as a list: set-semantics insert. -/
def setInsert [DecidableEq α] (l : List α) (x : α) : List α :=
  if x ∈ l then l else x :: l

/-- The maximum element under `le`, favouring later elements on ties, as
`BTreeSet::last` / `Iterator::max` do. -/
def listMax (le : α → α → Bool) : List α → Option α
  | [] => Option.none
  | x :: rest => some (rest.foldl (fun acc y => if le acc y then y else acc) x)

/-! ## Dependency-graph builder -/

/-- The `defs` map of `generate_dep_graph`: SSA value to the most recent
`(instruction, destination index)` writing it. -/
def defsInsert : List (SSAValue × Nat × Nat) → SSAValue → Nat × Nat → List (SSAValue × Nat × Nat)
  | [], s, v => [(s, v)]
  | p :: rest, s, v => if p.1 = s then (s, v) :: rest else p :: defsInsert rest s v

def defsGet (m : List (SSAValue × Nat × Nat)) (s : SSAValue) : Option (Nat × Nat) :=
  (m.find? (fun p => decide (p.1 = s))).map (fun p => p.2)

/-- One RAW-edge attempt of `generate_dep_graph`: look the source SSA
value up in the `defs` map and add the latency-labelled edge. -/
def depUseEdge (c : Collab O) (instrs : List (Instr O)) (defs : List (SSAValue × Nat × Nat))
    (ip : Nat) (op : O) (src_idx : Nat) (g : DepGraph) (ssa : SSAValue) : DepGraph :=
  match defsGet defs ssa with
  | Option.none => g
  | some dd =>
    match instrs.get? dd.1 with
    | Option.none => g
    | some def_instr =>
      let latency := c.raw_latency def_instr.op dd.2 op src_idx
      let latency :=
        if !(c.is_virtual def_instr.op) && !(c.has_fixed_latency def_instr.op) then
          max latency (c.estimate_variable_latency def_instr.op)
        else latency
      g.add_edge dd.1 ip ⟨latency⟩

/-- The PAW-edge attempt of `generate_dep_graph` for a predicated
instruction. -/
def depPredEdge (c : Collab O) (instrs : List (Instr O)) (defs : List (SSAValue × Nat × Nat))
    (ip : Nat) (g : DepGraph) (ssa : SSAValue) : DepGraph :=
  match defsGet defs ssa with
  | Option.none => g
  | some dd =>
    match instrs.get? dd.1 with
    | Option.none => g
    | some def_instr =>
      let latency := c.paw_latency def_instr.op dd.2
      let latency :=
        if !(c.has_fixed_latency def_instr.op) then
          max latency (c.estimate_variable_latency def_instr.op)
        else latency
      g.add_edge dd.1 ip ⟨latency⟩

/-- One instruction of the `generate_dep_graph` fold: the memory chain
edge, the RAW edges, the PAW edge, then the `defs`-map update. -/
def depStep (c : Collab O) (instrs : List (Instr O))
    (acc : DepGraph × List (SSAValue × Nat × Nat) × Option Nat × Nat) (instr : Instr O) :
    DepGraph × List (SSAValue × Nat × Nat) × Option Nat × Nat :=
  match acc with
  | (g, defs, last_memory_op, ip) =>
  let gm : DepGraph × Option Nat :=
    if c.side_effect_type instr.op = SideEffect.Memory then
      (match last_memory_op with
       | some mem_ip => g.add_edge mem_ip ip ⟨0⟩
       | Option.none => g,
       some ip)
    else (g, last_memory_op)
  match gm with
  | (g, last_memory_op) =>
  let g := instr.srcs.enum.foldl (fun g si =>
    si.2.ssas.foldl (depUseEdge c instrs defs ip instr.op si.1) g) g
  let g :=
    match instr.pred with
    | PredRef.ssa ssa => depPredEdge c instrs defs ip g ssa
    | _ => g
  let defs := instr.dsts.enum.foldl (fun ds di =>
    di.2.iter_ssa.foldl (fun ds ssa => defsInsert ds ssa (ip, di.1)) ds) defs
  (g, defs, last_memory_op, ip + 1)

/-- `generate_dep_graph`: data (RAW and PAW) edges from the `defs` map,
plus the memory-ordering chain between consecutive `Memory` side-effect
instructions. -/
def generate_dep_graph (c : Collab O) (instrs : List (Instr O)) : DepGraph :=
  (instrs.foldl (depStep c instrs) (DepGraph.new instrs.length, [], Option.none, 0)).1

/-! ## Net-live tracker -/

/-- `InstrCount`: the net change in live values caused by scheduling an
instruction, with the two intra-instruction peaks (the `i8` counters are
embedded as `Int`). -/
structure InstrCount where
  net : PerRegFile Int
  peak1 : PerRegFile Int
  peak2 : PerRegFile Int
deriving DecidableEq

def InstrCount.zero : InstrCount :=
  ⟨PerRegFile.new_with (fun _ => 0), PerRegFile.new_with (fun _ => 0),
   PerRegFile.new_with (fun _ => 0)⟩

/-- The `ssa_to_instr` hash map of `NetLive`, as an association list:
`entry(ssa).or_insert_with(Vec::new).push(i)`. -/
def alistPush : List (SSAValue × List Nat) → SSAValue → Nat → List (SSAValue × List Nat)
  | [], s, i => [(s, [i])]
  | p :: rest, s, i =>
    if p.1 = s then (p.1, p.2 ++ [i]) :: rest else p :: alistPush rest s i

def alistGet (m : List (SSAValue × List Nat)) (s : SSAValue) : Option (List Nat) :=
  (m.find? (fun p => decide (p.1 = s))).map (fun p => p.2)

def alistContains (m : List (SSAValue × List Nat)) (s : SSAValue) : Bool :=
  (alistGet m s).isSome

/-- `HashMap::remove`, returning the removed value. -/
def alistRemove : List (SSAValue × List Nat) → SSAValue → List (SSAValue × List Nat) × Option (List Nat)
  | [], _ => ([], Option.none)
  | p :: rest, s =>
    if p.1 = s then (rest, some p.2)
    else
      let r := alistRemove rest s
      (p :: r.1, r.2)

/-- `NetLive`: per-instruction net live-count deltas plus the map from
still-pending source SSA values to the instructions using them. -/
structure NetLive where
  counts : List InstrCount
  ssa_to_instr : List (SSAValue × List Nat)

/-- One non-live-out source value entering the use set of the first
sweep of `NetLive::new`. -/
def useStep (live_out : LiveSet) (a : LiveSet) (ssa : SSAValue) : LiveSet :=
  if live_out.contains ssa then a else (LiveSet.insert a ssa).1

/-- The same step threading the `ssa_to_instr` map: every first
insertion records the using instruction. -/
def usePairStep (live_out : LiveSet) (instr_idx : Nat)
    (acc : LiveSet × List (SSAValue × List Nat)) (ssa : SSAValue) :
    LiveSet × List (SSAValue × List Nat) :=
  if live_out.contains ssa then acc
  else
    match acc with
    | (use_set, s2i) =>
      match use_set.insert ssa with
      | (use_set, true) => (use_set, alistPush s2i ssa instr_idx)
      | (use_set, false) => (use_set, s2i)

/-- One instruction of the first sweep of `NetLive::new`. -/
def sweep1Step (live_out : LiveSet)
    (acc : List (SSAValue × List Nat) × List InstrCount × Nat) (instr : Instr O) :
    List (SSAValue × List Nat) × List InstrCount × Nat :=
  match acc with
  | (s2i, counts, instr_idx) =>
  let r := instr.srcs.foldl (fun (acc2 : LiveSet × List (SSAValue × List Nat)) src =>
    src.ssas.foldl (usePairStep live_out instr_idx) acc2) (LiveSet.new, s2i)
  match r with
  | (use_set, s2i) =>
    let net := PerRegFile.new_with (fun f => (use_set.count f : Int))
    (s2i, counts ++ [⟨net, PerRegFile.new_with (fun _ => 0), net⟩], instr_idx + 1)

/-- One destination value of the second sweep of `NetLive::new`. -/
def dstStep (s2i : List (SSAValue × List Nat)) (live_out : LiveSet) (is_vector : Bool)
    (c : InstrCount) (ssa : SSAValue) : InstrCount :=
  let c :=
    if alistContains s2i ssa || live_out.contains ssa then
      { c with net := c.net.set ssa.file (c.net.get ssa.file - 1) }
    else
      { c with peak1 := c.peak1.set ssa.file (c.peak1.get ssa.file + 1),
               peak2 := c.peak2.set ssa.file (c.peak2.get ssa.file + 1) }
  if is_vector then c
  else { c with peak2 := c.peak2.set ssa.file (c.peak2.get ssa.file - 1) }

/-- `NetLive::new` — first sweep collects each instruction's use set (its
sources not in `live_out`, deduplicated) into `net`/`peak2` and records
the users of every such SSA value; the second sweep accounts for each
instruction's definitions. -/
def NetLive.new (instrs : List (Instr O)) (live_out : LiveSet) : NetLive :=
  let first := instrs.foldl (sweep1Step live_out) ([], [], 0)
  match first with
  | (s2i, counts1, _) =>
  let counts := (counts1.zip instrs).map (fun ci =>
    ci.2.dsts.foldl (fun c dst =>
      dst.iter_ssa.foldl
        (dstStep s2i live_out (decide (dst.iter_ssa.length > 1))) c) ci.1)
  ⟨counts, s2i⟩

/-- `NetLive::remove`: when an SSA value becomes live, drop its entry and
decrement `net`/`peak2` of every instruction using it.  (The entries are
built non-empty and only ever appended to, so the non-emptiness assert of
the source cannot fire.) -/
def NetLive.remove (nl : NetLive) (ssa : SSAValue) : NetLive × Bool :=
  match alistRemove nl.ssa_to_instr ssa with
  | (m, some instr_idxs) =>
    let counts := instr_idxs.foldl (fun cs i =>
      match cs.get? i with
      | some c =>
        cs.set i { c with net := c.net.set ssa.file (c.net.get ssa.file - 1),
                          peak2 := c.peak2.set ssa.file (c.peak2.get ssa.file - 1) }
      | Option.none => cs) nl.counts
    (⟨counts, m⟩, true)
  | (_, Option.none) => (nl, false)

/-- `NetLive` indexing (`Index<usize> for NetLive`). -/
def NetLive.idx (nl : NetLive) (i : Nat) : InstrCount :=
  (nl.counts.get? i).getD InstrCount.zero

/-! ## Ready-list scheduler -/

/-- `GenerateOrder`: the per-unit scheduling state. -/
structure GenerateOrder (O : Type) where
  max_regs : PerRegFile Int
  net_live : NetLive
  live : LiveSet
  instrs : List (Instr O)

def GenerateOrder.new (max_regs : PerRegFile Int) (instrs : List (Instr O))
    (live_out : LiveSet) : GenerateOrder O :=
  ⟨max_regs, NetLive.new instrs live_out, live_out, instrs⟩

def GenerateOrder.new_used_regs (s : GenerateOrder O) (net : PerRegFile Int) : PerRegFile Int :=
  PerRegFile.new_with (fun file => (s.live.count file : Int) + net.get file)

def GenerateOrder.current_used_gprs (s : GenerateOrder O) : Int :=
  calc_used_gprs (PerRegFile.new_with (fun f => (s.live.count f : Int))) s.max_regs

def GenerateOrder.new_used_gprs_net (s : GenerateOrder O) (instr_index : Nat) : Int :=
  calc_used_gprs (s.new_used_regs (s.net_live.idx instr_index).net) s.max_regs

def GenerateOrder.new_used_gprs_peak1 (s : GenerateOrder O) (instr_index : Nat) : Int :=
  calc_used_gprs (s.new_used_regs (s.net_live.idx instr_index).peak1) s.max_regs

def GenerateOrder.new_used_gprs_peak2 (s : GenerateOrder O) (instr_index : Nat) : Int :=
  calc_used_gprs (s.new_used_regs (s.net_live.idx instr_index).peak2) s.max_regs

def GenerateOrder.new_score (s : GenerateOrder O) (instr_index : Nat) (delay_cycles : Nat)
    (thresholds : ScheduleThresholds) : Score :=
  calc_score (s.new_used_regs (s.net_live.idx instr_index).net)
    (s.new_used_regs (s.net_live.idx instr_index).peak1)
    (s.new_used_regs (s.net_live.idx instr_index).peak2)
    s.max_regs delay_cycles thresholds

/-- The inner drain loop: move future-ready entries whose cycle has come
into the ready set.  The fuel is the size of the future set. -/
def drainFuture (g : DepGraph) : Nat → Nat → List ReadyInstr → List FutureReadyInstr →
    List ReadyInstr × List FutureReadyInstr
  | 0, _, ready, future => (ready, future)
  | fuel + 1, current, ready, future =>
    match listMax FutureReadyInstr.le future with
    | Option.none => (ready, future)
    | some fr =>
      if current ≥ fr.ready_cycle then
        drainFuture g fuel current (setInsert ready (ReadyInstr.new g fr.index)) (future.erase fr)
      else (ready, future)

/-- Order on the `(Score, ReadyInstr)` pairs maximised in the
high-pressure regime (the derived lexicographic tuple order). -/
def scoredReadyLe (a b : Score × ReadyInstr) : Bool :=
  scoreLt a.1 b.1 || (a.1 = b.1 && ReadyInstr.le a.2 b.2)

/-- Order on the `(Score, FutureReadyInstr)` pairs. -/
def scoredFutureLe (a b : Score × FutureReadyInstr) : Bool :=
  scoreLt a.1 b.1 || (a.1 = b.1 && FutureReadyInstr.le a.2 b.2)

/-- One candidate selection, the body of step 3 of the loop: which index
to schedule, the updated ready/future sets, and the (possibly
fast-forwarded) cycle.  `Option.none` models the panics (`unwrap` on an
empty ready set, the fast-forward asserts). -/
def pickNext (s : GenerateOrder O) (thresholds : ScheduleThresholds) (used_gprs : Int)
    (ready : List ReadyInstr) (future : List FutureReadyInstr) (current : Nat) :
    Option (Nat × List ReadyInstr × List FutureReadyInstr × Nat) :=
  if used_gprs ≤ thresholds.heuristic_threshold then
    match listMax ReadyInstr.le ready with
    | some ri => some (ri.index, ready.erase ri, future, current)
    | Option.none => Option.none
  else
    match listMax scoredReadyLe (ready.map (fun ri => (s.new_score ri.index 0 thresholds, ri))) with
    | Option.none => Option.none
    | some best =>
      let candidates := future.filterMap (fun fr =>
        let sc := s.new_score fr.index (fr.ready_cycle - current) thresholds
        if scoreLt best.1 sc then some (sc, fr) else Option.none)
      match listMax scoredFutureLe candidates with
      | some bc =>
        if bc.2.ready_cycle > current then
          some (bc.2.index, ready, future.erase bc.2, bc.2.ready_cycle)
        else Option.none
      | Option.none => some (best.2.index, ready.erase best.2, future, current)

/-- The bottom-up liveness replay for one scheduled instruction: the
candidate's definitions die and its sources become live through
`NetLive::remove`.  `Option.none` models the debug assertion (an SSA
value inserted twice outside the multi-use tolerance). -/
def liveStep (instr : Instr O) (live : LiveSet) (nl : NetLive) : Option (LiveSet × NetLive) :=
  let live := instr.dsts.foldl (fun lv dst =>
    dst.iter_ssa.foldl (fun lv ssa => (LiveSet.remove lv ssa).1) lv) live
  instr.srcs.foldl (fun (acc : Option (LiveSet × NetLive)) src =>
    src.ssas.foldl (fun acc2 ssa =>
      match acc2 with
      | Option.none => Option.none
      | some lvnl =>
        match lvnl with
        | (lv, nl) =>
        match NetLive.remove nl ssa with
        | (nl, true) => some ((LiveSet.insert lv ssa).1, nl)
        | (nl, false) =>
          match LiveSet.insert lv ssa with
          | (_, true) => Option.none
          | (lv, false) => some (lv, nl)) acc) (some (live, nl))

/-- Steps 5–7 of the loop for a chosen candidate: drain its outgoing
edges (updating dependents' `ready_cycle`/`num_uses` and the future set),
then replay the bottom-up liveness update — the candidate's definitions
die and its sources become live through `NetLive::remove`.  `Option.none`
models the debug assertions (an SSA value inserted twice outside the
multi-use tolerance, and the net-live reconciliation). -/
def scheduleCand (s : GenerateOrder O) (g : DepGraph) (future : List FutureReadyInstr)
    (current : Nat) (next_idx : Nat) :
    Option (GenerateOrder O × DepGraph × List FutureReadyInstr) :=
  match g.nodes.get? next_idx with
  | Option.none => Option.none
  | some node =>
    let g : DepGraph := ⟨g.nodes.set next_idx { node with outgoing_edges := [] }⟩
    let gf := node.outgoing_edges.foldl
      (fun (acc : DepGraph × List FutureReadyInstr) edge =>
        match acc with
        | (g, future) =>
        match g.nodes.get? edge.head_idx with
        | Option.none => (g, future)
        | some dep =>
          let newLbl : DepNodeLabel :=
            ⟨max dep.label.ready_cycle (current + edge.label.latency), dep.label.num_uses - 1⟩
          let g : DepGraph := ⟨g.nodes.set edge.head_idx { dep with label := newLbl }⟩
          let future :=
            if newLbl.num_uses ≤ 0 then setInsert future (FutureReadyInstr.new g edge.head_idx)
            else future
          (g, future)) (g, future)
    match gf with
    | (g, future) =>
    match s.instrs.get? next_idx with
    | Option.none => Option.none
    | some instr =>
      match liveStep instr s.live s.net_live with
      | Option.none => Option.none
      | some lvnl =>
        match lvnl with
        | (lv, nl) => some ({ s with live := lv, net_live := nl }, g, future)

/-- The main scheduling loop of `GenerateOrder::generate_order`, with
explicit fuel (one unit per iteration; `Option.none` is a panic or fuel
exhaustion, `some Option.none` is the quit-threshold failure). -/
def generateOrderGo (thresholds : ScheduleThresholds) :
    Nat → GenerateOrder O → DepGraph → List ReadyInstr → List FutureReadyInstr → Nat →
    List Nat → Option (Option (List Nat × PerRegFile Int))
  | 0, _, _, _, _, _, _ => Option.none
  | fuel + 1, s, g, ready, future, current, order =>
    let used_gprs := s.current_used_gprs
    match drainFuture g future.length current ready future with
    | (ready, future) =>
    if ready.isEmpty then
      match listMax FutureReadyInstr.le future with
      | Option.none =>
        some (some (order, PerRegFile.new_with (fun f => (s.live.count f : Int))))
      | some fr =>
        if fr.ready_cycle > current then
          generateOrderGo thresholds fuel s g ready future fr.ready_cycle order
        else Option.none
    else
      match pickNext s thresholds used_gprs ready future current with
      | Option.none => Option.none
      | some pk =>
        match pk with
        | (next_idx, ready, future, current) =>
        let predicted_peak := max (s.new_used_gprs_peak1 next_idx) (s.new_used_gprs_peak2 next_idx)
        let predicted_net := s.new_used_gprs_net next_idx
        if predicted_peak > thresholds.quit_threshold then
          some Option.none
        else
          match scheduleCand s g future current next_idx with
          | Option.none => Option.none
          | some sgf =>
            match sgf with
            | (s, g, future) =>
            let order := order ++ [next_idx]
            let current := current + 1
            if s.current_used_gprs = predicted_net then
              generateOrderGo thresholds fuel s g ready future current order
            else Option.none

/-- `GenerateOrder::generate_order`. -/
def GenerateOrder.generate_order (s : GenerateOrder O) (g : DepGraph)
    (init_ready_list : List Nat) (thresholds : ScheduleThresholds) (fuel : Nat) :
    Option (Option (List Nat × PerRegFile Int)) :=
  let ready := init_ready_list.foldl (fun r i => setInsert r (ReadyInstr.new g i)) []
  generateOrderGo thresholds fuel s g ready [] 0 []

/-! ## Order application and per-unit scheduling -/

/-- `InstructionOrder`. -/
structure InstructionOrder where
  order : List Nat
deriving DecidableEq

/-- The slot walk of `InstructionOrder::apply`: every index takes its
instruction out of its slot; an empty or out-of-range slot is the
`expect` panic (an instruction scheduled twice). -/
def applySlots : List (Option (Instr O)) → List Nat → Option (List (Instr O))
  | _, [] => some []
  | slots, i :: rest =>
    match slots.get? i with
    | some (some instr) =>
      (applySlots (slots.set i Option.none) rest).map (fun out => instr :: out)
    | _ => Option.none

/-- `InstructionOrder::apply` (the length assert, then the slot walk). -/
def InstructionOrder.apply (io : InstructionOrder) (instrs : List (Instr O)) :
    Option (List (Instr O)) :=
  if io.order.length = instrs.length then
    applySlots (instrs.map some) io.order
  else Option.none

/-- `sched_buffer`: build the dependency graph, initialise the
statistics, reverse the graph, run the bottom-up scheduler, reconcile the
computed live-in counts, and reverse the emitted order. -/
def sched_buffer (c : Collab O) (max_regs : PerRegFile Int) (instrs : List (Instr O))
    (live_in_count : PerRegFile Nat) (live_out : LiveSet) (thresholds : ScheduleThresholds)
    (fuel : Nat) : Option (Option InstructionOrder) :=
  let g0 := generate_dep_graph c instrs
  match calc_statistics g0 with
  | (g1, init_ready_list) =>
  let g := g1.reverse
  match (GenerateOrder.new max_regs instrs live_out).generate_order g init_ready_list
      thresholds fuel with
  | Option.none => Option.none
  | some Option.none => some Option.none
  | some (some res) =>
    match res with
    | (new_order, live_in_count2) =>
      if live_in_count2 = PerRegFile.new_with (fun f => (live_in_count.get f : Int)) then
        some (some ⟨new_order.reverse⟩)
      else Option.none

/-! ## Schedule units and the three-pass driver -/

/-- `ScheduleUnit`: a run of instructions in one block sharing a
reorderability flag. -/
structure ScheduleUnit (O : Type) where
  block_idx : Nat
  can_reorder : Bool
  live_in_count : PerRegFile Nat
  live_out : Option LiveSet
  instrs : List (Instr O)
  new_order : Option InstructionOrder
  last_tried_schedule_type : Option ScheduleType
  peak_gpr_count : Int

/-- `ScheduleUnit::schedule`: record the tried type, run `sched_buffer`,
and keep a successful order.  `Option.none` models the `can_reorder`
assert and the `live_out` unwrap. -/
def ScheduleUnit.schedule (u : ScheduleUnit O) (c : Collab O) (max_regs : PerRegFile Int)
    (schedule_type : ScheduleType) (thresholds : ScheduleThresholds) (fuel : Nat) :
    Option (ScheduleUnit O) :=
  if u.can_reorder then
    match u.live_out with
    | Option.none => Option.none
    | some lo =>
      let u := { u with last_tried_schedule_type := some schedule_type }
      match sched_buffer c max_regs u.instrs u.live_in_count lo thresholds fuel with
      | Option.none => Option.none
      | some Option.none => some u
      | some (some x) => some { u with new_order := some x }
  else Option.none

/-- `ScheduleType::thresholds`. -/
def ScheduleType.thresholds (st : ScheduleType) (max_regs : PerRegFile Int)
    (schedule_unit : ScheduleUnit O) : ScheduleThresholds :=
  match st with
  | ScheduleType.RegLimit gpr_target =>
    ⟨(gpr_target : Int) - TARGET_FREE, (gpr_target : Int)⟩
  | ScheduleType.Spill =>
    ⟨max_regs.get RegFile.GPR - SW_RESERVED_GPRS_SPILL - TARGET_FREE,
     schedule_unit.peak_gpr_count⟩

/-- The unit-closing step of `ScheduleUnits::push_instr`: when the last
unit is reorderable and still open, record `live_before_instr` as its
live-out (the block-index assert is `Option.none` on mismatch). -/
def closeLastUnit (units : List (ScheduleUnit O)) (block_idx : Nat)
    (live_before_instr : LiveSet) : Option (List (ScheduleUnit O)) :=
  match units.getLast? with
  | Option.none => some units
  | some last =>
    if last.can_reorder && last.live_out.isNone then
      if last.block_idx = block_idx then
        some (units.dropLast ++ [{ last with live_out := some live_before_instr }])
      else Option.none
    else some units

/-- `ScheduleUnits::push_instr`. -/
def pushInstrUnits (units : List (ScheduleUnit O)) (instr : Instr O) (block_idx : Nat)
    (can_reorder : Bool) (live_before_instr : LiveSet) (max_regs : PerRegFile Int) :
    Option (List (ScheduleUnit O)) :=
  let current_usable :=
    match units.getLast? with
    | some last => last.block_idx = block_idx && last.can_reorder = can_reorder
    | Option.none => false
  if current_usable then
    match units.getLast? with
    | some last => some (units.dropLast ++ [{ last with instrs := last.instrs ++ [instr] }])
    | Option.none => Option.none
  else
    match closeLastUnit units block_idx live_before_instr with
    | Option.none => Option.none
    | some units =>
      some (units ++ [{
        block_idx := block_idx,
        can_reorder := can_reorder,
        live_in_count := PerRegFile.new_with (fun f => live_before_instr.count f),
        live_out := Option.none,
        instrs := [instr],
        new_order := Option.none,
        last_tried_schedule_type := Option.none,
        peak_gpr_count := calc_used_gprs
          (PerRegFile.new_with (fun f => (live_before_instr.count f : Int))) max_regs }])

/-- `ScheduleUnits::update_gpr_count`. -/
def updateGprCount (units : List (ScheduleUnit O)) (count : Int) :
    Option (List (ScheduleUnit O)) :=
  match units.getLast? with
  | Option.none => Option.none
  | some last =>
    some (units.dropLast ++ [{ last with peak_gpr_count := max last.peak_gpr_count count }])

/-- `ScheduleUnits::finish_block`. -/
def finishBlock (units : List (ScheduleUnit O)) (block_idx : Nat) (live_out : LiveSet) :
    Option (List (ScheduleUnit O)) :=
  match units.getLast? with
  | Option.none => Option.none
  | some last =>
    if last.can_reorder then
      if last.live_out.isNone && last.block_idx = block_idx then
        some (units.dropLast ++ [{ last with live_out := some live_out }])
      else Option.none
    else some units

/-- The per-instruction step of the first pass: classify reorderability,
push the instruction into a unit, advance the top-down live set, and
update the pressure statistics. -/
def pass1Step (c : Collab O) (max_regs : PerRegFile Int) (block_idx : Nat) :
    Nat × LiveSet × List (ScheduleUnit O) × Int × Int → Instr O →
    Option (Nat × LiveSet × List (ScheduleUnit O) × Int × Int)
  | (ip, live_set, units, min_t, max_t), instr =>
  let can_reorder :=
    match c.side_effect_type instr.op with
    | SideEffect.Barrier => false
    | _ => true
  match pushInstrUnits units instr block_idx can_reorder live_set max_regs with
  | Option.none => Option.none
  | some units =>
    match c.insert_instr_top_down block_idx ip instr live_set with
    | (live_set, live_count_raw) =>
    let live_count := PerRegFile.new_with (fun f => ((live_count_raw.get f : Nat) : Int))
    let used_gprs := calc_used_gprs live_count max_regs
    match updateGprCount units used_gprs with
    | Option.none => Option.none
    | some units =>
      let max_t := max max_t used_gprs
      let min_t := if can_reorder then min_t else max min_t used_gprs
      some (ip + 1, live_set, units, min_t, max_t)

/-- The first pass of `Function::opt_instr_sched_prepass` for one block:
seed the live set from the first predecessor, walk the instructions
top-down partitioning them into schedule units while tracking register
pressure, then close the block. -/
def pass1Block (c : Collab O) (max_regs : PerRegFile Int) (F : Function O) (block_idx : Nat)
    (st : List LiveSet × List (ScheduleUnit O) × Int × Int) :
    Option (List LiveSet × List (ScheduleUnit O) × Int × Int) :=
  match st with
  | (live_out_sets, units0, min0, max0) =>
  let live0 : Option LiveSet :=
    match F.preds.getD block_idx [] with
    | [] => some LiveSet.new
    | pred :: _ =>
      (live_out_sets.get? pred).map (fun ls =>
        ls.filterSet (fun ssa => c.is_live_in block_idx ssa))
  match live0, F.blocks.get? block_idx with
  | some live_init, some block =>
    let inner := block.instrs.foldl
      (fun acc instr => Option.bind acc (fun st1 => pass1Step c max_regs block_idx st1 instr))
      (some (0, live_init, units0, min0, max0))
    match inner with
    | Option.none => Option.none
    | some st1 =>
      match st1 with
      | (_, live_set, units, min_t, max_t) =>
      match finishBlock units block_idx live_set with
      | Option.none => Option.none
      | some units => some (live_out_sets ++ [live_set], units, min_t, max_t)
  | _, _ => Option.none

/-- The second-pass inner loop for one reorderable unit: try the current
schedule type (the head of the remaining stack), and on failure pop to
the next type while more than one remains.  The Rust stack is reversed
with `last()` active; here the list keeps the original order with the
head active. -/
def pass2Unit (c : Collab O) (max_regs : PerRegFile Int) (fuel : Nat) :
    List ScheduleType → ScheduleUnit O → Option (ScheduleUnit O × List ScheduleType)
  | [], _ => Option.none
  | st :: rest, u =>
    let thresholds := ScheduleType.thresholds st max_regs u
    match u.schedule c max_regs st thresholds fuel with
    | Option.none => Option.none
    | some u' =>
      if u'.new_order.isSome then some (u', st :: rest)
      else
        match rest with
        | [] => some (u', [st])
        | _ :: _ => pass2Unit c max_regs fuel rest u'

/-- The second-pass step for one unit: non-reorderable units pass
through; reorderable units run the schedule-type loop, threading the
remaining type stack. -/
def pass2Step (c : Collab O) (max_regs : PerRegFile Int) (fuel : Nat)
    (usst : List (ScheduleUnit O) × List ScheduleType) (u : ScheduleUnit O) :
    Option (List (ScheduleUnit O) × List ScheduleType) :=
  match usst with
  | (us, stypes) =>
    if !u.can_reorder then some (us ++ [u], stypes)
    else
      match pass2Unit c max_regs fuel stypes u with
      | Option.none => Option.none
      | some ust =>
        match ust with
        | (u2, stypes2) => some (us ++ [u2], stypes2)

/-- The third pass for one unit: re-schedule at the final type when the
unit's last tried type differs, then splice the (re)ordered instructions
onto the unit's block. -/
def pass3Unit (c : Collab O) (max_regs : PerRegFile Int) (fuel : Nat)
    (st_final : ScheduleType) (blocks : List (Block O)) (u : ScheduleUnit O) :
    Option (List (Block O)) :=
  let u? : Option (ScheduleUnit O) :=
    if u.can_reorder && !(decide (u.last_tried_schedule_type = some st_final)) then
      u.schedule c max_regs st_final (st_final.thresholds max_regs u) fuel
    else some u
  match u? with
  | Option.none => Option.none
  | some u =>
    let out? : Option (List (Instr O)) :=
      match u.new_order with
      | some order => order.apply u.instrs
      | Option.none => some u.instrs
    match out?, blocks.get? u.block_idx with
    | some out, some blk =>
      some (blocks.set u.block_idx { blk with instrs := blk.instrs ++ out })
    | _, _ => Option.none

/-- `Function::opt_instr_sched_prepass`, with explicit fuel threaded to
the schedule-type loop and the per-unit scheduling loop.  `Option.none`
models a panic (assertion failure, unwrap, out-of-bounds index) or fuel
exhaustion. -/
def Function.opt_instr_sched_prepass (F : Function O) (c : Collab O)
    (max_regs : PerRegFile Int) (fuel : Nat) : Option (Function O) :=
  let orig_instr_counts := F.blocks.map (fun b => b.instrs.length)
  let reserved_gprs := SW_RESERVED_GPRS + (c.hw_reserved_gprs : Int)
  let p1 := (List.range F.blocks.length).foldl
    (fun acc b => acc.bind (pass1Block c max_regs F b)) (some ([], [], 1, 1))
  match p1 with
  | Option.none => Option.none
  | some st =>
    match st with
    | (_, schedule_units, min_gpr_target, max_gpr_target) =>
    match get_schedule_types fuel max_regs min_gpr_target max_gpr_target reserved_gprs with
    | Option.none => Option.none
    | some schedule_types =>
      let p2 := schedule_units.foldl
        (fun acc u => Option.bind acc (fun usst => pass2Step c max_regs fuel usst u))
        (some ([], schedule_types))
      match p2 with
      | Option.none => Option.none
      | some usst =>
        match usst with
        | (units2, stypes_rest) =>
        match stypes_rest.head? with
        | Option.none => Option.none
        | some st_final =>
          let blocks0 := F.blocks.map (fun b => { b with instrs := ([] : List (Instr O)) })
          let p3 := units2.foldl
            (fun acc u => acc.bind (fun blocks => pass3Unit c max_regs fuel st_final blocks u))
            (some blocks0)
          match p3 with
          | Option.none => Option.none
          | some blocks =>
            if blocks.map (fun b => b.instrs.length) = orig_instr_counts then
              let F' : Function O := { blocks := blocks, preds := F.preds }
              match st_final with
              | ScheduleType.RegLimit limit =>
                if (c.calc_max_live F').get RegFile.GPR ≤ limit then some F' else Option.none
              | ScheduleType.Spill => some F'
            else Option.none

/-! ## Projections used in the statements about the pass -/

/-- The instructions assigned (in order) to the schedule units of block
`b`. -/
def unitsInstrs (b : Nat) (units : List (ScheduleUnit O)) : List (Instr O) :=
  ((units.filter (fun u => decide (u.block_idx = b))).map (fun u => u.instrs)).flatten

/-- The instruction list of block `b` of a function. -/
def blockInstrs (F : Function O) (b : Nat) : List (Instr O) :=
  ((F.blocks.get? b).map (fun blk => blk.instrs)).getD []

/-- The subsequence of instructions classified as `Memory` side effects. -/
def memFilter (c : Collab O) (l : List (Instr O)) : List (Instr O) :=
  l.filter (fun i => decide (c.side_effect_type i.op = SideEffect.Memory))

/-- The `Memory` side-effect test on a single instruction. -/
@[reducible] def memP (c : Collab O) : Instr O → Bool :=
  fun i => decide (c.side_effect_type i.op = SideEffect.Memory)

/-- The `Memory` side-effect test lifted to an index into `instrs`. -/
@[reducible] def memIdxP (c : Collab O) (instrs : List (Instr O)) : Nat → Bool :=
  fun k => ((instrs.get? k).map (memP c)).getD false

/-- The instruction list of block `b` in a block list. -/
def blocksGet (blocks : List (Block O)) (b : Nat) : List (Instr O) :=
  ((blocks.get? b).map (fun blk => blk.instrs)).getD []

/-! ## Concrete inputs used by witnesses and counterexamples -/

/-- A collaborator bundle over `Nat` opcodes for the pipeline witnesses:
no side effects, fixed latencies, and a trivial liveness provider. -/
def wCollab : Collab Nat where
  hw_reserved_gprs := 0
  side_effect_type := fun _ => SideEffect.None
  raw_latency := fun _ _ _ _ => 4
  paw_latency := fun _ _ => 12
  estimate_variable_latency := fun _ => 0
  is_virtual := fun _ => false
  has_fixed_latency := fun _ => true
  is_live_in := fun _ _ => true
  insert_instr_top_down := fun _ _ _ lv => (lv, PerRegFile.new_with (fun _ => 0))
  calc_max_live := fun _ => PerRegFile.new_with (fun _ => 0)

/-- GPR SSA value number 0. -/
def wS0 : SSAValue := ⟨0, RegFile.GPR⟩

/-- GPR SSA value number 1. -/
def wS1 : SSAValue := ⟨1, RegFile.GPR⟩

/-- A defining instruction: writes `wS0`. -/
def wInstr0 : Instr Nat := ⟨0, [], [Dst.ssa [wS0]], PredRef.none⟩

/-- A consuming instruction: reads `wS0`, writes `wS1`. -/
def wInstr1 : Instr Nat := ⟨1, [⟨[wS0], false⟩], [Dst.ssa [wS1]], PredRef.none⟩

/-- A one-block function with a definition followed by its use. -/
def wFunc : Function Nat := ⟨[⟨[wInstr0, wInstr1]⟩], [[]]⟩

/-- A generous register budget. -/
def wMaxRegs : PerRegFile Int := PerRegFile.new_with (fun _ => 100)

/-- A collaborator bundle classifying every op as a `Memory` side effect,
for the function-level pipeline witnesses. -/
def wCollabM : Collab Nat where
  hw_reserved_gprs := 0
  side_effect_type := fun _ => SideEffect.Memory
  raw_latency := fun _ _ _ _ => 4
  paw_latency := fun _ _ => 12
  estimate_variable_latency := fun _ => 0
  is_virtual := fun _ => false
  has_fixed_latency := fun _ => true
  is_live_in := fun _ _ => true
  insert_instr_top_down := fun _ _ _ lv => (lv, PerRegFile.new_with (fun _ => 0))
  calc_max_live := fun _ => PerRegFile.new_with (fun _ => 0)

/-- A one-block single-instruction function. -/
def wFuncM : Function Nat := ⟨[⟨[wInstr0]⟩], [[]]⟩

/-- An `ISetP` writing a predicate. -/
def isetpPredOp : Op :=
  ⟨OpKind.ISetP, [Dst.ssa [⟨0, RegFile.Pred⟩]], [], false⟩

/-- An op whose first destination is a `Carry` register. -/
def carryDstOp : Op :=
  ⟨OpKind.IAdd3, [Dst.reg ⟨RegFile.Carry, 1⟩], [], false⟩

/-- An op whose first destination is `Dst::None`. -/
def noneDstOp : Op :=
  ⟨OpKind.IAdd3, [Dst.none], [], false⟩

/-- A non-uniform `DAdd`: classifies as `RedirectedFP64`. -/
def dAddOp : Op :=
  ⟨OpKind.DAdd, [Dst.ssa [⟨2, RegFile.GPR⟩]], [], false⟩

/-- A non-uniform `HAdd2`: classifies as `RedirectedFP16`. -/
def hAdd2Op : Op :=
  ⟨OpKind.HAdd2, [Dst.ssa [⟨3, RegFile.GPR⟩]], [], false⟩

/-- An all-zero register tally. -/
def pZero : PerRegFile Int :=
  PerRegFile.new_with (fun _ => 0)

/-- Zero thresholds, for the score-monotonicity witness. -/
def thZero : ScheduleThresholds :=
  ⟨0, 0⟩

/-- A register budget of 10 in every file, for the schedule-type witness. -/
def mrTen : PerRegFile Int :=
  PerRegFile.new_with (fun _ => 10)

/-! ## Projections and predicates for the scheduler-order statements -/

/-- The adjacency list of node `a` (empty out of range). -/
def edgesOf (g : DepGraph) (a : Nat) : List DepEdge :=
  ((g.nodes.get? a).map DepNode.outgoing_edges).getD []

/-- The `num_uses` statistic of node `b` (zero out of range). -/
def numUsesOf (g : DepGraph) (b : Nat) : Int :=
  ((g.nodes.get? b).map (fun nd => nd.label.num_uses)).getD 0

/-- The number of edges into `b` whose source is not in `order`. -/
def pendPreds (G : DepGraph) (order : List Nat) (b : Nat) : Nat :=
  (((List.range G.nodes.length).filter (fun a => decide (a ∉ order))).map
    (fun a => (edgesOf G a).countP (fun e => decide (e.head_idx = b)))).sum

/-- Well-formedness of the reversed dependency graph fed to the
scheduler: edge heads are in range and no edge is a self-loop. -/
def GraphWF (G : DepGraph) : Prop :=
  ∀ pr ∈ G.edgeList, pr.2 < G.nodes.length ∧ pr.1 ≠ pr.2

/-- The loop invariant of `generateOrderGo` relative to the initial
(reversed) graph `G`: the emitted order is duplicate-free and
edge-respecting, the live graph agrees with `G` off the emitted set,
`num_uses` counts the pending predecessor edges, every ready/future
entry has all its predecessors emitted, and the pending entry indices
are jointly duplicate-free. -/
def GoInv (G : DepGraph) (g : DepGraph) (ready : List ReadyInstr)
    (future : List FutureReadyInstr) (order : List Nat) : Prop :=
  order.Nodup ∧
  g.nodes.length = G.nodes.length ∧
  (∀ a, edgesOf g a = if a ∈ order then [] else edgesOf G a) ∧
  (∀ b, b ∉ order → numUsesOf g b = (pendPreds G order b : Int)) ∧
  (∀ x ∈ ready, x.index ∉ order ∧ pendPreds G order x.index = 0) ∧
  (∀ x ∈ future, x.index ∉ order ∧ pendPreds G order x.index = 0) ∧
  (∀ p x, order.get? p = some x → ∀ pr ∈ G.edgeList, pr.2 = x → pr.1 ∈ order.take p) ∧
  (ready.map (fun r => r.index) ++ future.map (fun f => f.index)).Nodup

/-- The memory-chain part of one `depStep`. -/
def depMemG (c : Collab O) (instr : Instr O) (g : DepGraph) (lm : Option Nat) (ip : Nat) :
    DepGraph :=
  if c.side_effect_type instr.op = SideEffect.Memory then
    (match lm with
     | some m => g.add_edge m ip ⟨0⟩
     | Option.none => g)
  else g

/-- The RAW-edge part of one `depStep`. -/
def depSrcsG (c : Collab O) (instrs : List (Instr O)) (defs : List (SSAValue × Nat × Nat))
    (ip : Nat) (instr : Instr O) (g0 : DepGraph) : DepGraph :=
  instr.srcs.enum.foldl (fun gg (si : Nat × Src) =>
    si.2.ssas.foldl (depUseEdge c instrs defs ip instr.op si.1) gg) g0

/-- The PAW-edge part of one `depStep`. -/
def depPredG (c : Collab O) (instrs : List (Instr O)) (defs : List (SSAValue × Nat × Nat))
    (ip : Nat) (instr : Instr O) (g0 : DepGraph) : DepGraph :=
  match instr.pred with
  | PredRef.ssa pssa => depPredEdge c instrs defs ip g0 pssa
  | _ => g0
/-- `a` occurs (strictly) before `b` in `l`. -/
def listBefore (l : List Nat) (a b : Nat) : Prop :=
  ∃ p q, p < q ∧ l.get? p = some a ∧ l.get? q = some b

/-- A unit order, when recorded, came from a successful `sched_buffer`
run over the unit\'s own instructions. -/
def orderSound (c : Collab O) (mr : PerRegFile Int) (u : ScheduleUnit O) : Prop :=
  ∀ io, u.new_order = some io →
    ∃ lic lo th fu, sched_buffer c mr u.instrs lic lo th fu = some (some io)

/-- All flattened source SSA values of an instruction (`srcs()` then
`iter_ssa()`). -/
def flatSrcs (instr : Instr O) : List SSAValue :=
  (instr.srcs.map (fun s => s.ssas)).flatten

/-- All flattened destination SSA values of an instruction (`dsts()` then
`iter_ssa()`). -/
def flatDsts (instr : Instr O) : List SSAValue :=
  (instr.dsts.map Dst.iter_ssa).flatten

/-- The deduplicated non-live-out source values of one instruction — the
`use_set` of the first sweep of `NetLive::new`. -/
def useSet (lo : LiveSet) (instr : Instr O) : LiveSet :=
  (flatSrcs instr).foldl (useStep lo) LiveSet.new

/-- The per-file use count recorded by the first sweep for one
instruction. -/
def netPR (lo : LiveSet) (u : Instr O) : PerRegFile Int :=
  PerRegFile.new_with (fun f => ((useSet lo u).count f : Int))

/-- Instruction `j` of `instrs` uses `s` outside the live-out set. -/
def userB (instrs : List (Instr O)) (lo : LiveSet) (s : SSAValue) (j : Nat) : Bool :=
  ((instrs.get? j).map (fun u => (useSet lo u).contains s)).getD false

/-- The indices of the instructions using `s`, in program order. -/
def usersOf (instrs : List (Instr O)) (lo : LiveSet) (s : SSAValue) : List Nat :=
  (List.range instrs.length).filter (userB instrs lo s)

/-- The indices of the users of `s` within a slice starting at `k0`. -/
def usersFrom (lo : LiveSet) (l : List (Instr O)) (k0 : Nat) (s : SSAValue) : List Nat :=
  ((List.range l.length).filter
    (fun j => ((l.get? j).map (fun u => (useSet lo u).contains s)).getD false)).map
    (fun j => k0 + j)

/-- Instruction `i` of `instrs` defines `s`. -/
def definerB (instrs : List (Instr O)) (s : SSAValue) (i : Nat) : Bool :=
  ((instrs.get? i).map (fun u => decide (s ∈ flatDsts u))).getD false

/-- A defined value is consumed below its definition: it has a user in
the unit or is in the unit live-out. -/
def dyingB (instrs : List (Instr O)) (lo : LiveSet) (d : SSAValue) : Bool :=
  !(usersOf instrs lo d).isEmpty || lo.contains d

/-- The net-live replay invariant: after bottom-up processing of the
instructions in `done`, the live set holds exactly the values live at
that cut, the pending-use map holds exactly the values not yet made live,
and every unprocessed instruction\'s `net` counter is its pending new
uses minus its consumed definitions, per register file. -/
def NLInv (instrs : List (Instr O)) (lo : LiveSet) (done : List Nat)
    (live : LiveSet) (nl : NetLive) : Prop :=
  nl.counts.length = instrs.length ∧
  (nl.ssa_to_instr.map Prod.fst).Nodup ∧
  live.Nodup ∧
  (∀ s : SSAValue, s ∈ live ↔
    ((s ∈ lo ∨ done.any (userB instrs lo s) = true) ∧ done.any (definerB instrs s) = false)) ∧
  (∀ s : SSAValue, alistGet nl.ssa_to_instr s =
    (if done.any (userB instrs lo s) = true ∨ usersOf instrs lo s = [] then Option.none
     else some (usersOf instrs lo s))) ∧
  (∀ i ui, i ∉ done → instrs.get? i = some ui → ∀ f : RegFile,
    (nl.idx i).net.get f =
      ((useSet lo ui).countP
          (fun s => decide (s.file = f) && !(done.any (userB instrs lo s))) : Int) -
        ((flatDsts ui).countP
          (fun d => decide (d.file = f) && dyingB instrs lo d) : Int))

/-- The invariant threaded through the source loop of the bottom-up
liveness replay of one instruction: `pre` is the already-processed prefix
of the instruction\'s flattened sources, `live1` the live set after its
definitions died. -/
def MidInv (instrs : List (Instr O)) (lo : LiveSet) (done : List Nat) (ui : Instr O)
    (live1 : LiveSet) (pre : List SSAValue) (lv : LiveSet) (nl : NetLive) : Prop :=
  nl.counts.length = instrs.length ∧
  (nl.ssa_to_instr.map Prod.fst).Nodup ∧
  lv.Nodup ∧
  (∀ s : SSAValue, s ∈ lv ↔ (s ∈ live1 ∨
    (s ∈ pre ∧ lo.contains s = false ∧ done.any (userB instrs lo s) = false))) ∧
  (∀ s : SSAValue, alistGet nl.ssa_to_instr s =
    (if done.any (userB instrs lo s) = true ∨ s ∈ pre ∨ usersOf instrs lo s = []
     then Option.none else some (usersOf instrs lo s))) ∧
  (∀ i2 ui2, i2 ∉ done → instrs.get? i2 = some ui2 → ∀ f : RegFile,
    (nl.idx i2).net.get f =
      ((useSet lo ui2).countP (fun s => decide (s.file = f) &&
          (!(done.any (userB instrs lo s)) && !(decide (s ∈ pre)))) : Int) -
        ((flatDsts ui2).countP
          (fun d => decide (d.file = f) && dyingB instrs lo d) : Int)) ∧
  (∀ f : RegFile, (lv.countP (fun s => decide (s.file = f)) : Int) =
    (live1.countP (fun s => decide (s.file = f)) : Int) +
      ((useSet lo ui).countP (fun s => decide (s.file = f) &&
        (!(done.any (userB instrs lo s)) && decide (s ∈ pre))) : Int))

/-! ## Theorems -/

set_option maxRecDepth 100000 in
/-- Claim C5: for every `x` in `[0, 255]`, `next_occupancy_cliff x` is at
least `x`, has the same occupancy as `x`, and one more register drops the
occupancy — i.e. it is the largest budget of `x`'s occupancy plateau. -/
theorem next_occupancy_cliff_correct (x : Nat) (hx : x ≤ 255) :
    x ≤ next_occupancy_cliff x ∧
    occupancy_in_warps_per_sm (next_occupancy_cliff x) = occupancy_in_warps_per_sm x ∧
    occupancy_in_warps_per_sm (next_occupancy_cliff x + 1) <
      occupancy_in_warps_per_sm (next_occupancy_cliff x) := by
  have h : ∀ y : Nat, y < 256 →
      y ≤ next_occupancy_cliff y ∧
      occupancy_in_warps_per_sm (next_occupancy_cliff y) = occupancy_in_warps_per_sm y ∧
      occupancy_in_warps_per_sm (next_occupancy_cliff y + 1) <
        occupancy_in_warps_per_sm (next_occupancy_cliff y) := by decide
  exact h x (by omega)

/-- Witness for C5 at `x = 100`. -/
theorem next_occupancy_cliff_correct_witness :
    100 ≤ 255 ∧
    (100 ≤ next_occupancy_cliff 100 ∧
     occupancy_in_warps_per_sm (next_occupancy_cliff 100) = occupancy_in_warps_per_sm 100 ∧
     occupancy_in_warps_per_sm (next_occupancy_cliff 100 + 1) <
       occupancy_in_warps_per_sm (next_occupancy_cliff 100)) :=
  ⟨by decide, next_occupancy_cliff_correct 100 (by decide)⟩

/-- Claim C6 (amended): `raw`, `war` and `waw` return the flat constant 6
when the destination's register file is `Carry` and 0 when the
destination is `None`; `paw` returns 0 for a `None` destination but
panics on a `Carry` destination (it has no `Carry` arm). -/
theorem sm75_entry_dispatch :
    (∀ (w : Op) (i : Nat) (r : Op) (j : Nat) (b : Op) (bi : Nat) (p : Bool),
      dstFileOf w i = some (some RegFile.Carry) →
      SM75Latency.raw w i r j = some 6 ∧ SM75Latency.war r j w i = some 6 ∧
        SM75Latency.waw w i b bi p = some 6 ∧ SM75Latency.paw w i = Option.none) ∧
    (∀ (w : Op) (i : Nat) (r : Op) (j : Nat) (b : Op) (bi : Nat) (p : Bool),
      dstFileOf w i = some Option.none →
      SM75Latency.raw w i r j = some 0 ∧ SM75Latency.war r j w i = some 0 ∧
        SM75Latency.waw w i b bi p = some 0 ∧ SM75Latency.paw w i = some 0) := by
  constructor
  · intro w i r j b bi p h
    refine ⟨?_, ?_, ?_, ?_⟩
    · rw [SM75Latency.raw, h]
    · rw [SM75Latency.war, h]
    · rw [SM75Latency.waw, h]
    · rw [SM75Latency.paw, h]
  · intro w i r j b bi p h
    refine ⟨?_, ?_, ?_, ?_⟩
    · rw [SM75Latency.raw, h]
    · rw [SM75Latency.war, h]
    · rw [SM75Latency.waw, h]
    · rw [SM75Latency.paw, h]

/-- Counterexample to C6 as stated: on a `Carry` destination, `paw` does
not return 6 — it panics. -/
theorem paw_carry_counterexample :
    SM75Latency.paw carryDstOp 0 = Option.none ∧
      ¬ SM75Latency.paw carryDstOp 0 = some 6 := by decide

/-- Witness for C6 at concrete producers. -/
theorem sm75_entry_dispatch_witness :
    (SM75Latency.raw carryDstOp 0 isetpPredOp 0 = some 6) ∧
    (SM75Latency.raw noneDstOp 0 isetpPredOp 0 = some 0) :=
  ⟨(sm75_entry_dispatch.1 carryDstOp 0 isetpPredOp 0 carryDstOp 0 false (by decide)).1,
   (sm75_entry_dispatch.2 noneDstOp 0 isetpPredOp 0 noneDstOp 0 false (by decide)).1⟩

/-- Claim C7: the latency-table spot checks — `raw(CoupledDisp64 →
CoupledAlu) = 6`, `raw(RedirectedHMMA_16816 → IMMA) = 22`, and `paw` of a
`Pred`-writing `ISetP` classifies the writer as `CoupledAlu`, the reader
as `GuardPredicate`, and returns 12. -/
theorem sm75_latency_spot_checks :
    RegLatencySM75.read_after_write RegLatencySM75.CoupledDisp64 RegLatencySM75.CoupledAlu
        = some 6 ∧
    RegLatencySM75.read_after_write RegLatencySM75.RedirectedHMMA_16816 RegLatencySM75.IMMA
        = some 22 ∧
    RegLatencySM75.op_category isetpPredOp false 0 = some RegLatencySM75.CoupledAlu ∧
    RegLatencySM75.pred_read_after_write RegLatencySM75.CoupledAlu
        RegLatencySM75.GuardPredicate = some 12 ∧
    SM75Latency.paw isetpPredOp 0 = some 12 := by decide

/-- Claim C8 (amended): for every non-uniform op classified (in reader
role, index 0) as `RedirectedFP64` or one of the four `RedirectedHMMA`
flavours, `needs_scoreboards` returns true.  `RedirectedFP16` is
deliberately excluded by the code ("we don't think fp16 needs
scoreboarding on any known hw"), and uniform ops take the uniform-class
path. -/
theorem needs_scoreboards_redirected (op : Op) (hu : op.uniform = false)
    (c : RegLatencySM75) (hc : RegLatencySM75.op_category op true 0 = some c)
    (hmem : c = RegLatencySM75.RedirectedFP64 ∨
      c = RegLatencySM75.RedirectedHMMA_884_F16 ∨
      c = RegLatencySM75.RedirectedHMMA_884_F32 ∨
      c = RegLatencySM75.RedirectedHMMA_1688 ∨
      c = RegLatencySM75.RedirectedHMMA_16816) :
    SM75Latency.needs_scoreboards op = some true := by
  simp only [SM75Latency.needs_scoreboards, hu, Bool.false_eq_true, if_false, hc,
    Option.map_some]
  rcases hmem with h | h | h | h | h <;> subst h <;> rfl

/-- Counterexample to C8 as stated: a non-uniform `HAdd2` classifies as
`RedirectedFP16`, a Redirected class, yet `needs_scoreboards` is false. -/
theorem needs_scoreboards_fp16_counterexample :
    RegLatencySM75.op_category hAdd2Op true 0 = some RegLatencySM75.RedirectedFP16 ∧
    SM75Latency.needs_scoreboards hAdd2Op = some false := by decide

/-- Witness for C8 on a non-uniform `DAdd`. -/
theorem needs_scoreboards_redirected_witness :
    SM75Latency.needs_scoreboards dAddOp = some true :=
  needs_scoreboards_redirected dAddOp (by decide) RegLatencySM75.RedirectedFP64
    (by decide) (Or.inl rfl)

/-- Claim C9: with every other input fixed, a larger `delay_cycles` never
yields a strictly higher-ranked `calc_score`. -/
theorem calc_score_delay_monotone (net peak1 peak2 max_regs : PerRegFile Int)
    (th : ScheduleThresholds) (d1 d2 : Nat) (h : d1 ≤ d2) :
    scoreLe (calc_score net peak1 peak2 max_regs d2 th)
      (calc_score net peak1 peak2 max_regs d1 th) = true := by
  unfold calc_score
  by_cases hq : max (calc_used_gprs peak1 max_regs) (calc_used_gprs peak2 max_regs)
      ≤ th.quit_threshold
  · simp only [hq, if_true]
    simp [scoreLe]
    omega
  · simp only [hq, if_false]
    simp [scoreLe]

/-- Witness for C9 at delays 0 and 5. -/
theorem calc_score_delay_monotone_witness :
    scoreLe (calc_score pZero pZero pZero pZero 5 thZero)
      (calc_score pZero pZero pZero pZero 0 thZero) = true :=
  calc_score_delay_monotone pZero pZero pZero pZero thZero 0 5 (by decide)

/-- Every successful run of the `get_schedule_types` loop produces a list
containing a `RegLimit` entry. -/
theorem schedTypesLoop_mem (mg mt res : Int) :
    ∀ (fuel : Nat) (gt : Int) (acc out : List ScheduleType),
      schedTypesLoop mg mt res fuel gt acc = some out →
      ∃ g, ScheduleType.RegLimit g ∈ out := by
  intro fuel
  induction fuel with
  | zero => intro gt acc out h; simp [schedTypesLoop] at h
  | succ n ih =>
    intro gt acc out h
    unfold schedTypesLoop at h
    by_cases hlt : gt < mg
    · simp only [hlt, if_true] at h
      cases htry : tryIntToU8 gt with
      | none => rw [htry] at h; simp at h
      | some g =>
        rw [htry] at h
        simp only at h
        by_cases hge : gt ≥ mt
        · simp only [hge, if_true, Option.some_inj] at h
          exact ⟨g, by rw [← h]; simp⟩
        · simp only [hge, if_false] at h
          cases hcl : next_occupancy_cliff_with_reserved (gt + 1) res with
          | none => rw [hcl] at h; simp at h
          | some gt2 =>
            rw [hcl] at h
            simp only at h
            exact ih gt2 (acc ++ [ScheduleType.RegLimit g]) out h
    · simp only [hlt, if_false] at h
      cases htry : tryIntToU8 (mg - SW_RESERVED_GPRS) with
      | none => rw [htry] at h; simp at h
      | some g =>
        rw [htry] at h
        simp only [Option.some_inj] at h
        refine ⟨g, ?_⟩
        by_cases hsp : mt > mg
        · simp only [hsp, if_true] at h
          rw [← h]; simp
        · simp only [hsp, if_false] at h
          rw [← h]; simp

/-- Claim C10: whenever `get_schedule_types` returns, the returned list
is non-empty and contains at least one `RegLimit` entry, so the
`schedule_types.last().unwrap()` calls of the second and third passes
cannot fail. -/
theorem get_schedule_types_nonempty (fuel : Nat) (max_regs : PerRegFile Int)
    (min_gpr_target max_gpr_target reserved_gprs : Int) (out : List ScheduleType)
    (h : get_schedule_types fuel max_regs min_gpr_target max_gpr_target reserved_gprs
      = some out) :
    out ≠ [] ∧ ∃ g, ScheduleType.RegLimit g ∈ out := by
  unfold get_schedule_types at h
  cases hcl : next_occupancy_cliff_with_reserved min_gpr_target reserved_gprs with
  | none => rw [hcl] at h; simp at h
  | some g0 =>
    rw [hcl] at h
    simp only at h
    obtain ⟨g, hg⟩ := schedTypesLoop_mem (max_regs.get RegFile.GPR) max_gpr_target
      reserved_gprs fuel g0 [] out h
    exact ⟨List.ne_nil_of_mem hg, g, hg⟩

/-- Witness for C10 at a concrete budget. -/
theorem get_schedule_types_nonempty_witness :
    [ScheduleType.RegLimit 8] ≠ ([] : List ScheduleType) ∧
    ∃ g, ScheduleType.RegLimit g ∈ [ScheduleType.RegLimit 8] :=
  get_schedule_types_nonempty 1 mrTen 1 1 2 [ScheduleType.RegLimit 8] (by decide)

/-! ## Lemmas on order application and unit bookkeeping -/

/-- Folding an `Option.bind` step from `Option.none` stays `Option.none`. -/
theorem foldl_bind_none {σ α : Type} (g : σ → α → Option σ) (l : List α) :
    l.foldl (fun acc x => Option.bind acc (fun s => g s x)) Option.none = Option.none := by
  induction l with
  | nil => rfl
  | cons x xs ih => simpa using ih

/-- A successful slot walk emits exactly one instruction per index. -/
theorem applySlots_length :
    ∀ (order : List Nat) (slots : List (Option (Instr O))) (out : List (Instr O)),
      applySlots slots order = some out → out.length = order.length := by
  intro order
  induction order with
  | nil =>
    intro slots out h
    simp only [applySlots, Option.some_inj] at h
    simp [← h]
  | cons i rest ih =>
    intro slots out h
    simp only [applySlots] at h
    split at h
    · rename_i instr hs
      rcases Option.map_eq_some'.mp h with ⟨out', h1, h2⟩
      rw [← h2]
      simp [ih _ _ h1]
    · simp at h

/-- Taking a full slot removes exactly that instruction from the slot
pool. -/
theorem reduceOption_set_none :
    ∀ (slots : List (Option (Instr O))) (i : Nat) (instr : Instr O),
      slots.get? i = some (some instr) →
      slots.reduceOption.Perm (instr :: (slots.set i Option.none).reduceOption) := by
  intro slots
  induction slots with
  | nil => intro i instr h; simp at h
  | cons hd tl ih =>
    intro i instr h
    cases i with
    | zero =>
      simp only [List.get?] at h
      injection h with h
      subst h
      simp [List.reduceOption_cons_of_some, List.reduceOption_cons_of_none, List.set]
    | succ n =>
      simp only [List.get?] at h
      have hperm := ih n instr h
      cases hd with
      | none =>
        simpa [List.reduceOption_cons_of_none, List.set] using hperm
      | some x =>
        simp only [List.reduceOption_cons_of_some, List.set]
        exact (hperm.cons x).trans (List.Perm.swap instr x _)

/-- A successful slot walk emits a sublist (up to permutation) of the
slot pool. -/
theorem applySlots_perm :
    ∀ (order : List Nat) (slots : List (Option (Instr O))) (out : List (Instr O)),
      applySlots slots order = some out →
      ∃ rest, slots.reduceOption.Perm (out ++ rest) := by
  intro order
  induction order with
  | nil =>
    intro slots out h
    simp only [applySlots, Option.some_inj] at h
    exact ⟨slots.reduceOption, by simp [← h]⟩
  | cons i rest ih =>
    intro slots out h
    simp only [applySlots] at h
    split at h
    · rename_i instr hs
      rcases Option.map_eq_some'.mp h with ⟨out', h1, h2⟩
      rcases ih _ _ h1 with ⟨rem, hrem⟩
      refine ⟨rem, ?_⟩
      rw [← h2]
      exact (reduceOption_set_none slots i instr hs).trans (hrem.cons instr)
    · simp at h

/-- Reducing a list of definitely-present options. -/
theorem reduceOption_map_some (l : List (Instr O)) : (l.map some).reduceOption = l := by
  induction l with
  | nil => rfl
  | cons x xs ih => simp [List.reduceOption_cons_of_some, ih]

/-- A successful `InstructionOrder::apply` emits a permutation of the
unit's instructions. -/
theorem apply_perm (io : InstructionOrder) (instrs out : List (Instr O))
    (h : io.apply instrs = some out) : out.Perm instrs := by
  unfold InstructionOrder.apply at h
  split at h
  · rename_i hlen
    have hl := applySlots_length io.order (instrs.map some) out h
    rcases applySlots_perm io.order (instrs.map some) out h with ⟨rest, hperm⟩
    rw [reduceOption_map_some] at hperm
    have hlen2 : instrs.length = out.length + rest.length := by
      simpa using hperm.length_eq
    have : rest = [] := by
      have : rest.length = 0 := by omega
      exact List.length_eq_zero.mp this
    subst this
    simpa using hperm.symm
  · simp at h

/-- Decomposing a list at its last element. -/
theorem getLast?_decomp :
    ∀ (l : List α) (x : α), l.getLast? = some x → l = l.dropLast ++ [x] := by
  intro l
  induction l with
  | nil => intro x h; simp at h
  | cons hd tl ih =>
    intro x h
    cases tl with
    | nil => simp_all
    | cons h2 t2 =>
      rw [List.getLast?_cons_cons] at h
      have := ih x h
      calc hd :: h2 :: t2 = hd :: ((h2 :: t2).dropLast ++ [x]) := by rw [← this]
        _ = (hd :: h2 :: t2).dropLast ++ [x] := by simp

/-- `unitsInstrs` distributes over append. -/
theorem unitsInstrs_append (b : Nat) (xs ys : List (ScheduleUnit O)) :
    unitsInstrs b (xs ++ ys) = unitsInstrs b xs ++ unitsInstrs b ys := by
  simp [unitsInstrs, List.filter_append]

/-- `unitsInstrs` of a single unit. -/
theorem unitsInstrs_singleton (b : Nat) (u : ScheduleUnit O) :
    unitsInstrs b [u] = if u.block_idx = b then u.instrs else [] := by
  simp only [unitsInstrs, List.filter]
  split <;> rename_i hsp
  · simp only [decide_eq_true_eq] at hsp
    simp [hsp]
  · simp only [decide_eq_false_iff_not] at hsp
    simp [hsp]

/-- Replacing the last unit by one with the same block index and
instructions leaves `unitsInstrs` unchanged. -/
theorem unitsInstrs_modify_last (units : List (ScheduleUnit O)) (last u' : ScheduleUnit O)
    (hl : units.getLast? = some last) (hb : u'.block_idx = last.block_idx)
    (hi : u'.instrs = last.instrs) (b : Nat) :
    unitsInstrs b (units.dropLast ++ [u']) = unitsInstrs b units := by
  conv_rhs => rw [getLast?_decomp units last hl]
  rw [unitsInstrs_append, unitsInstrs_append, unitsInstrs_singleton, unitsInstrs_singleton,
    hb, hi]

/-- `closeLastUnit` does not change any unit's block or instructions. -/
theorem closeLastUnit_unitsInstrs (units units' : List (ScheduleUnit O)) (bi : Nat)
    (lv : LiveSet) (h : closeLastUnit units bi lv = some units') (b : Nat) :
    unitsInstrs b units' = unitsInstrs b units := by
  unfold closeLastUnit at h
  split at h
  · injection h with h
    subst h; rfl
  · rename_i last hl
    split at h
    · split at h
      · injection h with h
        subst h
        exact unitsInstrs_modify_last units last { last with live_out := some lv } hl rfl rfl b
      · simp at h
    · injection h with h
      subst h; rfl

/-- `updateGprCount` does not change any unit's block or instructions. -/
theorem updateGprCount_unitsInstrs (units units' : List (ScheduleUnit O)) (cnt : Int)
    (h : updateGprCount units cnt = some units') (b : Nat) :
    unitsInstrs b units' = unitsInstrs b units := by
  unfold updateGprCount at h
  split at h
  · simp at h
  · rename_i last hl
    injection h with h
    subst h
    exact unitsInstrs_modify_last units last
      { last with peak_gpr_count := max last.peak_gpr_count cnt } hl rfl rfl b

/-- `finishBlock` does not change any unit's block or instructions. -/
theorem finishBlock_unitsInstrs (units units' : List (ScheduleUnit O)) (bi : Nat)
    (lv : LiveSet) (h : finishBlock units bi lv = some units') (b : Nat) :
    unitsInstrs b units' = unitsInstrs b units := by
  unfold finishBlock at h
  split at h
  · simp at h
  · rename_i last hl
    split at h
    · split at h
      · injection h with h
        subst h
        exact unitsInstrs_modify_last units last { last with live_out := some lv } hl rfl rfl b
      · simp at h
    · injection h with h
      subst h; rfl

/-- Appending a fresh single-instruction unit for block `bi` after
closing the previous unit. -/
theorem unitsInstrs_close_append (units units1 : List (ScheduleUnit O)) (bi : Nat)
    (lv : LiveSet) (u : ScheduleUnit O) (instr : Instr O)
    (hcl : closeLastUnit units bi lv = some units1)
    (hub : u.block_idx = bi) (hui : u.instrs = [instr]) :
    unitsInstrs bi (units1 ++ [u]) = unitsInstrs bi units ++ [instr] ∧
    ∀ b, b ≠ bi → unitsInstrs b (units1 ++ [u]) = unitsInstrs b units := by
  have hpres := closeLastUnit_unitsInstrs units units1 bi lv hcl
  constructor
  · rw [unitsInstrs_append, unitsInstrs_singleton, hub, if_pos rfl, hui, hpres bi]
  · intro b hb
    rw [unitsInstrs_append, unitsInstrs_singleton, hub,
      if_neg (fun hc => hb hc.symm), hpres b]
    simp

/-- `push_instr` appends the instruction to its block's unit stream and
leaves every other block's stream unchanged. -/
theorem pushInstrUnits_unitsInstrs (units units' : List (ScheduleUnit O)) (instr : Instr O)
    (bi : Nat) (cr : Bool) (lv : LiveSet) (mr : PerRegFile Int)
    (h : pushInstrUnits units instr bi cr lv mr = some units') :
    unitsInstrs bi units' = unitsInstrs bi units ++ [instr] ∧
    ∀ b, b ≠ bi → unitsInstrs b units' = unitsInstrs b units := by
  unfold pushInstrUnits at h
  cases hgl : units.getLast? with
  | some last =>
    rw [hgl] at h
    by_cases hcu : last.block_idx = bi ∧ last.can_reorder = cr
    · have hcond : (decide (last.block_idx = bi) && decide (last.can_reorder = cr)) = true := by
        simp [hcu.1, hcu.2]
      simp only [hcond, if_true, hgl, Option.some_inj] at h
      subst h
      have hdec := getLast?_decomp units last hgl
      constructor
      · conv_rhs => rw [hdec]
        rw [unitsInstrs_append, unitsInstrs_append, unitsInstrs_singleton,
          unitsInstrs_singleton]
        simp only [hcu.1, if_pos rfl]
        simp
      · intro b hb
        conv_rhs => rw [hdec]
        rw [unitsInstrs_append, unitsInstrs_append, unitsInstrs_singleton,
          unitsInstrs_singleton]
        simp only [hcu.1]
        rw [if_neg (fun hc => hb hc.symm), if_neg (fun hc => hb hc.symm)]
    · have hcond : (decide (last.block_idx = bi) && decide (last.can_reorder = cr)) = false := by
        rcases Decidable.not_and_iff_or_not.mp hcu with hx | hx <;> simp [hx]
      simp only [hcond, Bool.false_eq_true, if_false] at h
      cases hcl : closeLastUnit units bi lv with
      | none => rw [hcl] at h; simp at h
      | some units1 =>
        rw [hcl] at h
        simp only [Option.some_inj] at h
        subst h
        exact unitsInstrs_close_append units units1 bi lv _ instr hcl rfl rfl
  | none =>
    rw [hgl] at h
    simp only [Bool.false_eq_true, if_false] at h
    cases hcl : closeLastUnit units bi lv with
    | none => rw [hcl] at h; simp at h
    | some units1 =>
      rw [hcl] at h
      simp only [Option.some_inj] at h
      subst h
      exact unitsInstrs_close_append units units1 bi lv _ instr hcl rfl rfl

/-! ## Lemmas about the three passes -/

/-- One first-pass step extends the current block's unit stream by the
pushed instruction. -/
theorem pass1Step_unitsInstrs (c : Collab O) (mr : PerRegFile Int) (bi : Nat)
    (st1 st1' : Nat × LiveSet × List (ScheduleUnit O) × Int × Int) (instr : Instr O)
    (h : pass1Step c mr bi st1 instr = some st1') :
    unitsInstrs bi st1'.2.2.1 = unitsInstrs bi st1.2.2.1 ++ [instr] ∧
    ∀ b, b ≠ bi → unitsInstrs b st1'.2.2.1 = unitsInstrs b st1.2.2.1 := by
  obtain ⟨ip, lv, units, mint, maxt⟩ := st1
  rw [pass1Step] at h
  rcases hins : c.insert_instr_top_down bi ip instr lv with ⟨lv2, cnts⟩
  rw [hins] at h
  dsimp only at h
  cases hpush : pushInstrUnits units instr bi
      (match c.side_effect_type instr.op with
       | SideEffect.Barrier => false
       | _ => true) lv mr with
  | none => rw [hpush] at h; simp at h
  | some units1 =>
    rw [hpush] at h
    dsimp only at h
    cases hupd : updateGprCount units1
        (calc_used_gprs (PerRegFile.new_with (fun f => ((cnts.get f : Nat) : Int))) mr) with
    | none => rw [hupd] at h; simp at h
    | some units2 =>
      rw [hupd] at h
      simp only [Option.some_inj] at h
      subst h
      have hp := pushInstrUnits_unitsInstrs units units1 instr bi _ lv mr hpush
      have hu := updateGprCount_unitsInstrs units1 units2 _ hupd
      exact ⟨by simp only [hu bi]; exact hp.1,
        fun b hb => by simp only [hu b]; exact hp.2 b hb⟩

/-- The first-pass fold over a block's instructions appends exactly those
instructions to the block's unit stream. -/
theorem pass1Inner_unitsInstrs (c : Collab O) (mr : PerRegFile Int) (bi : Nat) :
    ∀ (l : List (Instr O)) (st1 st1' : Nat × LiveSet × List (ScheduleUnit O) × Int × Int),
      l.foldl (fun acc instr => Option.bind acc (fun s => pass1Step c mr bi s instr))
        (some st1) = some st1' →
      unitsInstrs bi st1'.2.2.1 = unitsInstrs bi st1.2.2.1 ++ l ∧
      ∀ b, b ≠ bi → unitsInstrs b st1'.2.2.1 = unitsInstrs b st1.2.2.1 := by
  intro l
  induction l with
  | nil =>
    intro st1 st1' h
    simp only [List.foldl_nil, Option.some_inj] at h
    subst h
    exact ⟨by simp, fun b _ => rfl⟩
  | cons i rest ih =>
    intro st1 st1' h
    rw [List.foldl_cons] at h
    simp only [Option.some_bind, Option.none_bind] at h
    cases hstep : pass1Step c mr bi st1 i with
    | none =>
      rw [hstep] at h
      rw [foldl_bind_none] at h
      simp at h
    | some st2 =>
      rw [hstep] at h
      have h1 := pass1Step_unitsInstrs c mr bi st1 st2 i hstep
      have h2 := ih st2 st1' h
      refine ⟨?_, fun b hb => (h2.2 b hb).trans (h1.2 b hb)⟩
      rw [h2.1, h1.1]
      simp

/-- `pass1Block` appends exactly its block's instructions to that block's
unit stream, leaving other blocks' streams unchanged. -/
theorem pass1Block_unitsInstrs (c : Collab O) (mr : PerRegFile Int) (F : Function O)
    (bi : Nat) (st st' : List LiveSet × List (ScheduleUnit O) × Int × Int)
    (h : pass1Block c mr F bi st = some st') :
    unitsInstrs bi st'.2.1 = unitsInstrs bi st.2.1 ++ blockInstrs F bi ∧
    ∀ b, b ≠ bi → unitsInstrs b st'.2.1 = unitsInstrs b st.2.1 := by
  obtain ⟨lsets, units0, min0, max0⟩ := st
  unfold pass1Block at h
  dsimp only at h
  split at h
  · rename_i live_init block hlive hblock
    cases hin : (block.instrs.foldl
        (fun acc instr => Option.bind acc (fun s => pass1Step c mr bi s instr))
        (some (0, live_init, units0, min0, max0))) with
    | none => rw [hin] at h; simp at h
    | some st1 =>
      rw [hin] at h
      simp only at h
      obtain ⟨ip1, lv1, units1, mint1, maxt1⟩ := st1
      cases hfin : finishBlock units1 bi lv1 with
      | none => rw [hfin] at h; simp at h
      | some units2 =>
        rw [hfin] at h
        simp only [Option.some_inj] at h
        subst h
        have hinner := pass1Inner_unitsInstrs c mr bi block.instrs
          (0, live_init, units0, min0, max0) (ip1, lv1, units1, mint1, maxt1) hin
        have hfb := finishBlock_unitsInstrs units1 units2 bi lv1 hfin
        have hbi : blockInstrs F bi = block.instrs := by
          unfold blockInstrs
          rw [hblock]
          rfl
        refine ⟨?_, fun b hb => ?_⟩
        · simpa [hfb bi, hbi] using hinner.1
        · simpa [hfb b] using hinner.2 b hb
  · simp at h

/-- After the whole first pass, the unit streams partition the function's
blocks: block `b`'s stream is exactly its instruction list. -/
theorem pass1_unitsInstrs (c : Collab O) (mr : PerRegFile Int) (F : Function O) :
    ∀ (n : Nat) (st' : List LiveSet × List (ScheduleUnit O) × Int × Int),
      (List.range n).foldl (fun acc b => Option.bind acc (fun s => pass1Block c mr F b s))
        (some ([], [], 1, 1)) = some st' →
      ∀ b, unitsInstrs b st'.2.1 = if b < n then blockInstrs F b else [] := by
  intro n
  induction n with
  | zero =>
    intro st' h b
    simp only [List.range_zero, List.foldl_nil, Option.some_inj] at h
    subst h
    simp [unitsInstrs]
  | succ m ih =>
    intro st' h b
    rw [List.range_succ, List.foldl_append] at h
    cases hmid : (List.range m).foldl
        (fun acc b => Option.bind acc (fun s => pass1Block c mr F b s))
        (some ([], [], 1, 1)) with
    | none =>
      rw [hmid] at h
      simp at h
    | some stm =>
      rw [hmid] at h
      simp only [List.foldl_cons, List.foldl_nil, Option.bind_some] at h
      have hblk := pass1Block_unitsInstrs c mr F m stm st' h
      have hmidI := ih stm hmid
      by_cases hb : b = m
      · subst hb
        rw [hblk.1, hmidI b]
        simp [Nat.lt_irrefl]
      · rw [hblk.2 b hb, hmidI b]
        rcases Nat.lt_trichotomy b m with hlt | heq | hgt
        · rw [if_pos hlt, if_pos (by omega)]
        · exact absurd heq hb
        · rw [if_neg (by omega), if_neg (by omega)]

/-- `ScheduleUnit::schedule` only changes `last_tried_schedule_type` and
`new_order`. -/
theorem schedule_fields (u u' : ScheduleUnit O) (c : Collab O) (mr : PerRegFile Int)
    (st : ScheduleType) (th : ScheduleThresholds) (fuel : Nat)
    (h : u.schedule c mr st th fuel = some u') :
    u'.instrs = u.instrs ∧ u'.block_idx = u.block_idx ∧ u'.can_reorder = u.can_reorder := by
  unfold ScheduleUnit.schedule at h
  split at h
  · split at h
    · simp at h
    · dsimp only at h
      split at h
      · simp at h
      · injection h with h
        subst h
        exact ⟨rfl, rfl, rfl⟩
      · injection h with h
        subst h
        exact ⟨rfl, rfl, rfl⟩
  · simp at h

/-- The second-pass type loop only changes `last_tried_schedule_type` and
`new_order` of the unit. -/
theorem pass2Unit_fields (c : Collab O) (mr : PerRegFile Int) (fuel : Nat) :
    ∀ (stypes : List ScheduleType) (u u' : ScheduleUnit O) (stR : List ScheduleType),
      pass2Unit c mr fuel stypes u = some (u', stR) →
      u'.instrs = u.instrs ∧ u'.block_idx = u.block_idx ∧ u'.can_reorder = u.can_reorder := by
  intro stypes
  induction stypes with
  | nil =>
    intro u u' stR h
    exact absurd h (by rw [pass2Unit]; simp)
  | cons st rest ih =>
    intro u u' stR h
    rw [pass2Unit] at h
    cases hs : ScheduleUnit.schedule u c mr st (ScheduleType.thresholds st mr u) fuel with
    | none => rw [hs] at h; simp at h
    | some u1 =>
      rw [hs] at h
      dsimp only at h
      have hf := schedule_fields u u1 c mr st _ fuel hs
      split at h
      · simp only [Option.some_inj, Prod.mk.injEq] at h
        rw [← h.1]
        exact hf
      · cases rest with
        | nil =>
          simp only [Option.some_inj, Prod.mk.injEq] at h
          rw [← h.1]
          exact hf
        | cons r1 rrest =>
          have := ih u1 u' stR h
          exact ⟨this.1.trans hf.1, this.2.1.trans hf.2.1, this.2.2.trans hf.2.2⟩

/-- `unitsInstrs` of a cons. -/
theorem unitsInstrs_cons (b : Nat) (u : ScheduleUnit O) (us : List (ScheduleUnit O)) :
    unitsInstrs b (u :: us) =
      (if u.block_idx = b then u.instrs else []) ++ unitsInstrs b us := by
  rw [show u :: us = [u] ++ us from rfl, unitsInstrs_append, unitsInstrs_singleton]

/-- `unitsInstrs` only depends on the block indices and instruction
lists of the units. -/
theorem unitsInstrs_congr_proj :
    ∀ (xs ys : List (ScheduleUnit O)),
      xs.map (fun u => (u.block_idx, u.instrs)) = ys.map (fun u => (u.block_idx, u.instrs)) →
      ∀ b, unitsInstrs b xs = unitsInstrs b ys := by
  intro xs
  induction xs with
  | nil =>
    intro ys h b
    cases ys with
    | nil => rfl
    | cons y yt => simp at h
  | cons x xt ih =>
    intro ys h b
    cases ys with
    | nil => simp at h
    | cons y yt =>
      simp only [List.map_cons, List.cons.injEq, Prod.mk.injEq] at h
      rw [unitsInstrs_cons, unitsInstrs_cons, h.1.1, h.1.2, ih yt h.2 b]

/-- The second-pass fold preserves every unit's block index and
instruction list, appending the processed units to the accumulator. -/
theorem pass2_fold_proj (c : Collab O) (mr : PerRegFile Int) (fuel : Nat) :
    ∀ (units : List (ScheduleUnit O)) (acc0 : List (ScheduleUnit O) × List ScheduleType)
      (units2 : List (ScheduleUnit O)) (stR : List ScheduleType),
      units.foldl (fun acc u => Option.bind acc (fun usst => pass2Step c mr fuel usst u))
        (some acc0) = some (units2, stR) →
      units2.map (fun u => (u.block_idx, u.instrs)) =
        acc0.1.map (fun u => (u.block_idx, u.instrs)) ++
          units.map (fun u => (u.block_idx, u.instrs)) := by
  intro units
  induction units with
  | nil =>
    intro acc0 units2 stR h
    simp only [List.foldl_nil, Option.some_inj] at h
    subst h
    simp
  | cons u us ih =>
    intro acc0 units2 stR h
    obtain ⟨us0, stypes0⟩ := acc0
    rw [List.foldl_cons] at h
    simp only [Option.some_bind] at h
    unfold pass2Step at h
    dsimp only at h
    split at h
    · rename_i hcr
      have := ih (us0 ++ [u], stypes0) units2 stR h
      rw [this]
      simp
    · cases hpu : pass2Unit c mr fuel stypes0 u with
      | none =>
        rw [hpu] at h
        rw [foldl_bind_none] at h
        simp at h
      | some ust =>
        rw [hpu] at h
        obtain ⟨u2, stypes2⟩ := ust
        dsimp only at h
        have hfields := pass2Unit_fields c mr fuel stypes0 u u2 stypes2 hpu
        have := ih (us0 ++ [u2], stypes2) units2 stR h
        rw [this]
        simp [hfields.1, hfields.2.1]

/-- A successful `pass3Unit` splices a permutation of the unit's
instructions onto the end of its block. -/
theorem pass3Unit_blocks (c : Collab O) (mr : PerRegFile Int) (fuel : Nat)
    (stf : ScheduleType) (blocks blocks' : List (Block O)) (u : ScheduleUnit O)
    (h : pass3Unit c mr fuel stf blocks u = some blocks') :
    ∃ out blk, out.Perm u.instrs ∧ blocks.get? u.block_idx = some blk ∧
      blocks' = blocks.set u.block_idx ⟨blk.instrs ++ out⟩ := by
  unfold pass3Unit at h
  cases hu : (if u.can_reorder && !(decide (u.last_tried_schedule_type = some stf)) then
      ScheduleUnit.schedule u c mr stf (ScheduleType.thresholds stf mr u) fuel
    else some u) with
  | none => rw [hu] at h; simp at h
  | some u2 =>
    rw [hu] at h
    dsimp only at h
    have hfi : u2.instrs = u.instrs ∧ u2.block_idx = u.block_idx := by
      split at hu
      · have := schedule_fields u u2 c mr stf _ fuel hu
        exact ⟨this.1, this.2.1⟩
      · injection hu with hu
        subst hu
        exact ⟨rfl, rfl⟩
    have hout : ∀ out, (match u2.new_order with
        | some order => order.apply u2.instrs
        | Option.none => some u2.instrs) = some out → out.Perm u.instrs := by
      intro out hm
      cases hno : u2.new_order with
      | none =>
        rw [hno] at hm
        injection hm with hm
        rw [← hm, hfi.1]
      | some order =>
        rw [hno] at hm
        exact (apply_perm order u2.instrs out hm).trans (hfi.1 ▸ List.Perm.refl _)
    cases hm : (match u2.new_order with
        | some order => order.apply u2.instrs
        | Option.none => some u2.instrs) with
    | none =>
      rw [hm] at h
      simp at h
    | some out =>
      rw [hm] at h
      cases hbg : blocks.get? u2.block_idx with
      | none => rw [hbg] at h; simp at h
      | some blk =>
        rw [hbg] at h
        simp only [Option.some_inj] at h
        refine ⟨out, blk, hout out hm, ?_, ?_⟩
        · rw [← hfi.2]
          exact hbg
        · rw [← h, hfi.2]

/-- The third-pass fold adds every unit's output (a permutation of its
instructions) to its block, multiset-wise. -/
theorem pass3_fold_multiset (c : Collab O) (mr : PerRegFile Int) (fuel : Nat)
    (stf : ScheduleType) :
    ∀ (units : List (ScheduleUnit O)) (blocks blocks' : List (Block O)),
      units.foldl (fun acc u => Option.bind acc (fun bl => pass3Unit c mr fuel stf bl u))
        (some blocks) = some blocks' →
      blocks'.length = blocks.length ∧
      ∀ b, (blocksGet blocks' b : Multiset (Instr O)) =
        (blocksGet blocks b : Multiset (Instr O)) + (unitsInstrs b units : Multiset (Instr O)) := by
  intro units
  induction units with
  | nil =>
    intro blocks blocks' h
    simp only [List.foldl_nil, Option.some_inj] at h
    subst h
    refine ⟨rfl, fun b => ?_⟩
    simp [unitsInstrs]
  | cons u us ih =>
    intro blocks blocks' h
    rw [List.foldl_cons] at h
    simp only [Option.some_bind] at h
    cases hp : pass3Unit c mr fuel stf blocks u with
    | none =>
      rw [hp] at h
      rw [foldl_bind_none] at h
      simp at h
    | some bl1 =>
      rw [hp] at h
      obtain ⟨out, blk, hperm, hget, hset⟩ := pass3Unit_blocks c mr fuel stf blocks bl1 u hp
      have hih := ih bl1 blocks' h
      have hlt : u.block_idx < blocks.length := by
        by_contra hge
        rw [List.get?_eq_none.mpr (by omega)] at hget
        exact absurd hget (by simp)
      refine ⟨by rw [hih.1, hset, List.length_set], fun b => ?_⟩
      rw [hih.2 b, unitsInstrs_cons]
      by_cases hb : u.block_idx = b
      · subst hb
        have hb1 : blocksGet bl1 u.block_idx = blk.instrs ++ out := by
          unfold blocksGet
          rw [hset, List.get?_set_eq, List.get?_eq_get hlt]
          simp
        have hb0 : blocksGet blocks u.block_idx = blk.instrs := by
          unfold blocksGet
          rw [hget]
          rfl
        rw [hb1, hb0, if_pos rfl]
        have hcoe : (↑(blk.instrs ++ out) : Multiset (Instr O)) = ↑blk.instrs + ↑out := by
          simp
        rw [hcoe]
        have : (↑out : Multiset (Instr O)) = ↑u.instrs := Multiset.coe_eq_coe.mpr hperm
        rw [this]
        have hcoe2 : (↑(u.instrs ++ unitsInstrs u.block_idx us) : Multiset (Instr O)) =
            ↑u.instrs + ↑(unitsInstrs u.block_idx us) := by
          simp
        rw [hcoe2]
        rw [add_assoc]
      · have hb1 : blocksGet bl1 b = blocksGet blocks b := by
          unfold blocksGet
          rw [hset, List.get?_set_ne _ _ hb]
        rw [hb1, if_neg hb]
        simp

/-- `blocksGet` of the emptied copy of a block list is always `[]`. -/
theorem blocksGet_map_empty (bs : List (Block O)) (b : Nat) :
    blocksGet (bs.map (fun blk => { blk with instrs := ([] : List (Instr O)) })) b = [] := by
  unfold blocksGet
  rw [List.get?_map]
  cases bs.get? b <;> rfl

/-- `blockInstrs F b` is `blocksGet F.blocks b`. -/
theorem blockInstrs_eq_blocksGet (F : Function O) (b : Nat) :
    blockInstrs F b = blocksGet F.blocks b := rfl

/-- Out-of-range blocks have empty instruction lists. -/
theorem blockInstrs_of_ge (F : Function O) (b : Nat) (h : F.blocks.length ≤ b) :
    blockInstrs F b = [] := by
  unfold blockInstrs
  rw [List.get?_eq_none.mpr h]
  rfl

/-- **C1.** For every input function, collaborator bundle, register
limit and fuel, if `Function::opt_instr_sched_prepass` succeeds then the
output function has the same number of blocks, and every block's
instruction list is a permutation of (in particular, has the same length
as) the corresponding input block's instruction list. -/
theorem opt_instr_sched_prepass_block_perm (F F' : Function O) (c : Collab O)
    (mr : PerRegFile Int) (fuel : Nat)
    (h : F.opt_instr_sched_prepass c mr fuel = some F') :
    F'.blocks.length = F.blocks.length ∧
    ∀ b, (blockInstrs F' b).length = (blockInstrs F b).length ∧
      (blockInstrs F' b).Perm (blockInstrs F b) := by
  unfold Function.opt_instr_sched_prepass at h
  dsimp only at h
  cases hp1 : (List.range F.blocks.length).foldl
      (fun acc b => Option.bind acc (pass1Block c mr F b)) (some ([], [], 1, 1)) with
  | none => rw [hp1] at h; simp at h
  | some st1 =>
    rw [hp1] at h
    obtain ⟨lsets, units1, mint, maxt⟩ := st1
    dsimp only at h
    cases hgst : get_schedule_types fuel mr mint maxt
        (SW_RESERVED_GPRS + (c.hw_reserved_gprs : Int)) with
    | none => rw [hgst] at h; simp at h
    | some stypes =>
      rw [hgst] at h
      dsimp only at h
      cases hp2 : units1.foldl
          (fun acc u => Option.bind acc (fun usst => pass2Step c mr fuel usst u))
          (some ([], stypes)) with
      | none => rw [hp2] at h; simp at h
      | some usst =>
        rw [hp2] at h
        obtain ⟨units2, stypesR⟩ := usst
        dsimp only at h
        cases hhd : stypesR.head? with
        | none => rw [hhd] at h; simp at h
        | some stf =>
          rw [hhd] at h
          dsimp only at h
          cases hp3 : units2.foldl
              (fun acc u => Option.bind acc (fun bl => pass3Unit c mr fuel stf bl u))
              (some (F.blocks.map (fun b => { b with instrs := ([] : List (Instr O)) }))) with
          | none => rw [hp3] at h; simp at h
          | some blocks =>
            rw [hp3] at h
            dsimp only at h
            split at h
            · have hFb : F'.blocks = blocks := by
                cases stf with
                | RegLimit limit =>
                  dsimp only at h
                  split at h
                  · injection h with h
                    rw [← h]
                  · simp at h
                | Spill =>
                  dsimp only at h
                  injection h with h
                  rw [← h]
              have h1 := pass1_unitsInstrs c mr F F.blocks.length
                (lsets, units1, mint, maxt) hp1
              have h2p := pass2_fold_proj c mr fuel units1 ([], stypes) units2 stypesR hp2
              simp only [List.nil_append] at h2p
              have h2 := unitsInstrs_congr_proj units2 units1 h2p
              have h3 := pass3_fold_multiset c mr fuel stf units2
                (F.blocks.map (fun b => { b with instrs := ([] : List (Instr O)) }))
                blocks hp3
              have hlen : F'.blocks.length = F.blocks.length := by
                rw [hFb, h3.1, List.length_map]
              have hmult : ∀ b,
                  (blockInstrs F' b : Multiset (Instr O)) = (blockInstrs F b : Multiset (Instr O)) := by
                intro b
                have hm := h3.2 b
                rw [blocksGet_map_empty] at hm
                rw [blockInstrs_eq_blocksGet, hFb, hm, h2 b, h1 b]
                by_cases hb : b < F.blocks.length
                · rw [if_pos hb]
                  simp
                · rw [if_neg hb, blockInstrs_of_ge F b (by omega)]
                  simp
              refine ⟨hlen, fun b => ?_⟩
              have hperm : (blockInstrs F' b).Perm (blockInstrs F b) :=
                Multiset.coe_eq_coe.mp (hmult b)
              exact ⟨hperm.length_eq, hperm⟩
            · simp at h

/-- Witness for C1: the pipeline succeeds on the one-block one-Memory-op
function and returns it with block contents permuted (here: unchanged). -/
theorem opt_instr_sched_prepass_block_perm_witness :
    wFuncM.opt_instr_sched_prepass wCollabM wMaxRegs 5 = some wFuncM ∧
    wFuncM.blocks.length = wFuncM.blocks.length ∧
    ∀ b, (blockInstrs wFuncM b).length = (blockInstrs wFuncM b).length ∧
      (blockInstrs wFuncM b).Perm (blockInstrs wFuncM b) := by
  have h : wFuncM.opt_instr_sched_prepass wCollabM wMaxRegs 5 = some wFuncM := by decide
  exact ⟨h, opt_instr_sched_prepass_block_perm wFuncM wFuncM wCollabM wMaxRegs 5 h⟩

/-! ## Basic graph lemmas -/

/-- `add_edge` keeps the node count. -/
theorem add_edge_length (g : DepGraph) (a b : Nat) (l : EdgeLabel) :
    (g.add_edge a b l).nodes.length = g.nodes.length := by
  unfold DepGraph.add_edge
  cases h : g.nodes.get? a <;> simp

/-- Membership in `edgeList` through the adjacency projection. -/
theorem edgeList_mem_iff (g : DepGraph) (a b : Nat) :
    (a, b) ∈ g.edgeList ↔ ∃ e ∈ edgesOf g a, e.head_idx = b := by
  unfold DepGraph.edgeList
  rw [List.mem_flatten]
  constructor
  · rintro ⟨L, hL, hab⟩
    rw [List.mem_map] at hL
    obtain ⟨⟨pi, pn⟩, hp, rfl⟩ := hL
    simp only [List.mem_map, Prod.mk.injEq] at hab
    obtain ⟨e, he, h1, h2⟩ := hab
    rw [List.mem_enum_iff_get?] at hp
    subst h1
    refine ⟨e, ?_, h2⟩
    unfold edgesOf
    rw [hp]
    simpa using he
  · rintro ⟨e, he, heq⟩
    cases hget : g.nodes.get? a with
    | none =>
      unfold edgesOf at he
      rw [hget] at he
      simp at he
    | some nd =>
      unfold edgesOf at he
      rw [hget] at he
      simp only [Option.map_some', Option.getD_some] at he
      refine ⟨nd.outgoing_edges.map (fun e => (a, e.head_idx)), ?_, ?_⟩
      · rw [List.mem_map]
        exact ⟨(a, nd), List.mem_enum_iff_get?.mpr hget, rfl⟩
      · rw [List.mem_map]
        exact ⟨e, he, by rw [heq]⟩

/-- The adjacency list of the extended source node. -/
theorem add_edge_edgesOf_self (g : DepGraph) (a b : Nat) (l : EdgeLabel)
    (h : a < g.nodes.length) :
    edgesOf (g.add_edge a b l) a = edgesOf g a ++ [⟨b, l⟩] := by
  unfold DepGraph.add_edge
  cases hget : g.nodes.get? a with
  | none =>
    rw [List.get?_eq_none] at hget
    omega
  | some nd =>
    unfold edgesOf
    simp only
    rw [List.get?_set_eq, hget]
    simp [hget]

/-- Other nodes\' adjacency lists are unchanged by `add_edge`. -/
theorem add_edge_edgesOf_ne (g : DepGraph) (a b x : Nat) (l : EdgeLabel) (hx : x ≠ a) :
    edgesOf (g.add_edge a b l) x = edgesOf g x := by
  unfold DepGraph.add_edge
  cases hget : g.nodes.get? a with
  | none => rfl
  | some nd =>
    unfold edgesOf
    simp only
    rw [List.get?_set_ne _ _ (Ne.symm hx)]

/-- The edge pairs of `add_edge`: the old ones plus the new pair when
the source is in range. -/
theorem add_edge_edgeList (g : DepGraph) (a b : Nat) (l : EdgeLabel) (pr : Nat × Nat) :
    pr ∈ (g.add_edge a b l).edgeList ↔
      pr ∈ g.edgeList ∨ (pr = (a, b) ∧ a < g.nodes.length) := by
  obtain ⟨x, y⟩ := pr
  rw [edgeList_mem_iff, edgeList_mem_iff]
  by_cases hx : x = a
  · subst hx
    by_cases hlt : x < g.nodes.length
    · rw [add_edge_edgesOf_self g x b l hlt]
      constructor
      · rintro ⟨e, he, heq⟩
        rw [List.mem_append] at he
        cases he with
        | inl he => exact Or.inl ⟨e, he, heq⟩
        | inr he =>
          simp only [List.mem_singleton] at he
          subst he
          exact Or.inr ⟨by rw [← heq], hlt⟩
      · rintro (⟨e, he, heq⟩ | ⟨heq, _⟩)
        · exact ⟨e, List.mem_append_left _ he, heq⟩
        · injection heq with h1 h2
          exact ⟨⟨b, l⟩, List.mem_append_right _ (List.mem_singleton_self _), h2.symm⟩
    · have : g.add_edge x b l = g := by
        unfold DepGraph.add_edge
        rw [List.get?_eq_none.mpr (by omega)]
      rw [show edgesOf (g.add_edge x b l) x = edgesOf g x from by rw [this]]
      constructor
      · exact Or.inl
      · rintro (h | ⟨_, hlt2⟩)
        · exact h
        · omega
  · rw [add_edge_edgesOf_ne g a b x l hx]
    constructor
    · exact Or.inl
    · rintro (h | ⟨heq, _⟩)
      · exact h
      · injection heq with h1 h2
        exact absurd h1 hx

/-- `add_edge` keeps all existing edge pairs. -/
theorem add_edge_mono (g : DepGraph) (a b : Nat) (l : EdgeLabel) (pr : Nat × Nat)
    (h : pr ∈ g.edgeList) : pr ∈ (g.add_edge a b l).edgeList :=
  (add_edge_edgeList g a b l pr).mpr (Or.inl h)

/-- `add_edge` contains the new edge pair when the source is in range. -/
theorem add_edge_mem (g : DepGraph) (a b : Nat) (l : EdgeLabel) (h : a < g.nodes.length) :
    (a, b) ∈ (g.add_edge a b l).edgeList :=
  (add_edge_edgeList g a b l (a, b)).mpr (Or.inr ⟨rfl, h⟩)

/-- `listMax` returns a member of the list. -/
theorem listMax_mem (le : α → α → Bool) (l : List α) (x : α)
    (h : listMax le l = some x) : x ∈ l := by
  cases l with
  | nil => simp [listMax] at h
  | cons a rest =>
    unfold listMax at h
    injection h with h
    subst h
    have key : ∀ (r : List α) (acc : α) (S : List α), acc ∈ S → (∀ y ∈ r, y ∈ S) →
        r.foldl (fun acc y => if le acc y then y else acc) acc ∈ S := by
      intro r
      induction r with
      | nil => intro acc S hacc _; exact hacc
      | cons y ys ih =>
        intro acc S hacc hsub
        rw [List.foldl_cons]
        by_cases hle : le acc y
        · rw [if_pos hle]
          exact ih y S (hsub y (List.mem_cons_self _ _)) (fun z hz => hsub z (List.mem_cons_of_mem _ hz))
        · rw [if_neg hle]
          exact ih acc S hacc (fun z hz => hsub z (List.mem_cons_of_mem _ hz))
    exact key rest a (a :: rest) (List.mem_cons_self _ _) (fun z hz => List.mem_cons_of_mem _ hz)

/-- Membership after `setInsert`. -/
theorem setInsert_mem [DecidableEq α] (l : List α) (x y : α) (h : y ∈ setInsert l x) :
    y = x ∨ y ∈ l := by
  unfold setInsert at h
  split at h
  · exact Or.inr h
  · rw [List.mem_cons] at h
    exact h

/-- A left member of a `Forall₂` has a related right partner. -/
theorem forall2_left_mem {R : α → β → Prop} :
    ∀ {l1 : List α} {l2 : List β}, List.Forall₂ R l1 l2 → ∀ a ∈ l1, ∃ b ∈ l2, R a b := by
  intro l1
  induction l1 with
  | nil => intro l2 _ a ha; simp at ha
  | cons x xs ih =>
    intro l2 h a ha
    cases h with
    | cons hR hrest =>
      rw [List.mem_cons] at ha
      cases ha with
      | inl ha => subst ha; exact ⟨_, List.mem_cons_self _ _, hR⟩
      | inr ha =>
        obtain ⟨b, hb, hRb⟩ := ih hrest a ha
        exact ⟨b, List.mem_cons_of_mem _ hb, hRb⟩

/-- A successful slot walk visits pairwise-distinct indices, each of
which holds its emitted instruction in the original slot list. -/
theorem applySlots_forall2 :
    ∀ (order : List Nat) (slots : List (Option (Instr O))) (out : List (Instr O)),
      applySlots slots order = some out →
      order.Nodup ∧ List.Forall₂ (fun i v => slots.get? i = some (some v)) order out := by
  intro order
  induction order with
  | nil =>
    intro slots out h
    unfold applySlots at h
    injection h with h
    subst h
    exact ⟨List.nodup_nil, List.Forall₂.nil⟩
  | cons i rest ih =>
    intro slots out h
    unfold applySlots at h
    cases hslot : slots.get? i with
    | none => rw [hslot] at h; simp at h
    | some oi =>
      cases oi with
      | none => rw [hslot] at h; simp at h
      | some instr =>
        rw [hslot] at h
        cases hrec : applySlots (slots.set i Option.none) rest with
        | none => rw [hrec] at h; simp at h
        | some out' =>
          rw [hrec] at h
          simp only [Option.map_some', Option.some_inj] at h
          subst h
          obtain ⟨hnd, hF⟩ := ih (slots.set i Option.none) out' hrec
          have hilt : i < slots.length := by
            by_contra hge
            rw [List.get?_eq_none.mpr (by omega)] at hslot
            exact absurd hslot (by simp)
          have htrans : ∀ j v, (slots.set i Option.none).get? j = some (some v) →
              j ≠ i ∧ slots.get? j = some (some v) := by
            intro j v hj
            by_cases hji : j = i
            · subst hji
              rw [List.get?_set_eq] at hj
              rw [List.get?_eq_some] at hslot
              obtain ⟨hlt, _⟩ := hslot
              simp at hj
            · rw [List.get?_set_ne _ _ (Ne.symm hji)] at hj
              exact ⟨hji, hj⟩
          have hnotmem : i ∉ rest := by
            intro hmem
            obtain ⟨v, _, hv⟩ := forall2_left_mem hF i hmem
            exact absurd rfl (htrans i v hv).1
          refine ⟨List.nodup_cons.mpr ⟨hnotmem, hnd⟩, List.Forall₂.cons hslot ?_⟩
          exact List.Forall₂.imp (fun j v hv => (htrans j v hv).2) hF

/-- The output of a successful slot walk over `instrs.map some` is the
index-selection of the order. -/
theorem applySlots_filterMap (instrs : List (Instr O)) (order : List Nat)
    (out : List (Instr O)) (h : applySlots (instrs.map some) order = some out) :
    out = order.filterMap (fun i => instrs.get? i) := by
  obtain ⟨_, hF⟩ := applySlots_forall2 order (instrs.map some) out h
  clear h
  induction hF with
  | nil => rfl
  | @cons a b l1 l2 h1 h2 ih =>
    rw [List.get?_map] at h1
    cases hga : instrs.get? a with
    | none => rw [hga] at h1; simp at h1
    | some w =>
      rw [hga] at h1
      simp only [Option.map_some', Option.some_inj] at h1
      rw [List.filterMap_cons, hga, ih, h1]
      exact (List.nodup_cons.mp (by assumption)).2

/-- A successful `InstructionOrder::apply` uses an order that is a
permutation of the instruction positions, and emits exactly the
corresponding selection. -/
theorem apply_order_perm_range (io : InstructionOrder) (instrs out : List (Instr O))
    (h : io.apply instrs = some out) :
    io.order.Perm (List.range instrs.length) ∧
      out = io.order.filterMap (fun i => instrs.get? i) := by
  unfold InstructionOrder.apply at h
  split at h
  · rename_i hlen
    obtain ⟨hnd, hF⟩ := applySlots_forall2 io.order (instrs.map some) out h
    have hsub : io.order ⊆ List.range instrs.length := by
      intro i hi
      obtain ⟨v, _, hv⟩ := forall2_left_mem hF i hi
      rw [List.get?_map] at hv
      rw [List.mem_range]
      by_contra hge
      rw [List.get?_eq_none.mpr (by omega)] at hv
      simp at hv
    have hle : (io.order : Multiset Nat) ≤ (List.range instrs.length : Multiset Nat) :=
      (Multiset.le_iff_subset (Multiset.coe_nodup.mpr hnd)).mpr (Multiset.coe_subset.mpr hsub)
    have heq : (io.order : Multiset Nat) = (List.range instrs.length : Multiset Nat) := by
      refine Multiset.eq_of_le_of_card_le hle ?_
      simp [hlen]
    exact ⟨Multiset.coe_eq_coe.mp heq, applySlots_filterMap instrs io.order out h⟩
  · simp at h

/-- A member of a take is at an earlier position. -/
theorem mem_take_get? (l : List Nat) (q a : Nat) (h : a ∈ l.take q) :
    ∃ p, p < q ∧ l.get? p = some a := by
  rw [List.mem_iff_get?] at h
  obtain ⟨p, hp⟩ := h
  have hpq : p < q := by
    by_contra hge
    rw [List.get?_eq_none.mpr (by simpa using by omega)] at hp
    · simp at hp
  rw [List.get?_take hpq] at hp
  exact ⟨p, hpq, hp⟩

/-- An element at an early position is in the take. -/
theorem get?_lt_mem_take (l : List Nat) (p q a : Nat) (hp : p < q)
    (h : l.get? p = some a) : a ∈ l.take q := by
  rw [← List.get?_take hp] at h
  exact List.get?_mem h

/-! ## The defs map of the dependency-graph builder -/

/-- Looking up the freshly inserted key. -/
theorem defsGet_insert_self (m : List (SSAValue × Nat × Nat)) (s : SSAValue) (v : Nat × Nat) :
    defsGet (defsInsert m s v) s = some v := by
  induction m with
  | nil => simp [defsInsert, defsGet]
  | cons p rest ih =>
    unfold defsInsert
    by_cases hp : p.1 = s
    · rw [if_pos hp]
      simp [defsGet]
    · rw [if_neg hp]
      unfold defsGet
      rw [List.find?_cons_of_neg _ (by simpa using hp)]
      exact ih

/-- Looking up a different key after an insert. -/
theorem defsGet_insert_ne (m : List (SSAValue × Nat × Nat)) (s s' : SSAValue) (v : Nat × Nat)
    (h : s' ≠ s) : defsGet (defsInsert m s' v) s = defsGet m s := by
  induction m with
  | nil =>
    unfold defsInsert defsGet
    rw [List.find?_cons_of_neg _ (by simpa using h)]
  | cons p rest ih =>
    unfold defsInsert
    by_cases hp : p.1 = s'
    · rw [if_pos hp]
      unfold defsGet
      rw [List.find?_cons_of_neg _ (by simpa using h),
        List.find?_cons_of_neg _ (by simp [hp, h])]
    · rw [if_neg hp]
      unfold defsGet
      by_cases hps : p.1 = s
      · rw [List.find?_cons_of_pos _ (by simpa using hps),
          List.find?_cons_of_pos _ (by simpa using hps)]
      · rw [List.find?_cons_of_neg _ (by simpa using hps),
          List.find?_cons_of_neg _ (by simpa using hps)]
        exact ih

/-- The inner destination-SSA fold of the defs update: it binds `ssa`
exactly when `ssa` occurs in the list. -/
theorem defsFold_inner (ssa : SSAValue) (v : Nat × Nat) :
    ∀ (l : List SSAValue) (ds : List (SSAValue × Nat × Nat)),
      defsGet (l.foldl (fun ds t => defsInsert ds t v) ds) ssa =
        if ssa ∈ l then some v else defsGet ds ssa := by
  intro l
  induction l with
  | nil => intro ds; simp
  | cons t ts ih =>
    intro ds
    rw [List.foldl_cons, ih]
    by_cases hts : ssa ∈ ts
    · rw [if_pos hts, if_pos (List.mem_cons_of_mem _ hts)]
    · rw [if_neg hts]
      by_cases ht : ssa = t
      · subst ht
        rw [if_pos (List.mem_cons_self _ _), defsGet_insert_self]
      · rw [if_neg (by simp [ht, hts]), defsGet_insert_ne _ _ _ _ (fun hh => ht hh.symm)]

/-- Values produced by the inner fold: either an old binding or the
inserted one. -/
theorem defsFold_inner_val (ssa : SSAValue) (v0 : Nat × Nat) :
    ∀ (l : List SSAValue) (ds : List (SSAValue × Nat × Nat)) (v : Nat × Nat),
      defsGet (l.foldl (fun ds t => defsInsert ds t v0) ds) ssa = some v →
      defsGet ds ssa = some v ∨ v = v0 := by
  intro l ds v h
  rw [defsFold_inner] at h
  split at h
  · injection h with h
    exact Or.inr h.symm
  · exact Or.inl h

/-- The outer destination fold preserves absent keys. -/
theorem defsFold_outer_ne (ssa : SSAValue) (ip : Nat) :
    ∀ (L : List (Nat × Dst)) (ds : List (SSAValue × Nat × Nat)),
      (∀ di ∈ L, ssa ∉ di.2.iter_ssa) →
      defsGet (L.foldl (fun ds di =>
        di.2.iter_ssa.foldl (fun ds t => defsInsert ds t (ip, di.1)) ds) ds) ssa =
        defsGet ds ssa := by
  intro L
  induction L with
  | nil => intro ds _; rfl
  | cons di L' ih =>
    intro ds hmem
    rw [List.foldl_cons, ih _ (fun x hx => hmem x (List.mem_cons_of_mem _ hx)),
      defsFold_inner, if_neg (hmem di (List.mem_cons_self _ _))]

/-- The outer destination fold preserves a binding to step `ip`. -/
theorem defsFold_outer_pres (ssa : SSAValue) (ip : Nat) :
    ∀ (L : List (Nat × Dst)) (ds : List (SSAValue × Nat × Nat)),
      (∃ d, defsGet ds ssa = some (ip, d)) →
      ∃ d, defsGet (L.foldl (fun ds di =>
        di.2.iter_ssa.foldl (fun ds t => defsInsert ds t (ip, di.1)) ds) ds) ssa =
        some (ip, d) := by
  intro L
  induction L with
  | nil => intro ds h; exact h
  | cons di L' ih =>
    intro ds h
    rw [List.foldl_cons]
    refine ih _ ?_
    rw [defsFold_inner]
    by_cases hin : ssa ∈ di.2.iter_ssa
    · rw [if_pos hin]
      exact ⟨di.1, rfl⟩
    · rw [if_neg hin]
      exact h

/-- The outer destination fold establishes a binding to step `ip` when
some destination writes `ssa`. -/
theorem defsFold_outer_est (ssa : SSAValue) (ip : Nat) :
    ∀ (L : List (Nat × Dst)) (ds : List (SSAValue × Nat × Nat)),
      (∃ di ∈ L, ssa ∈ di.2.iter_ssa) →
      ∃ d, defsGet (L.foldl (fun ds di =>
        di.2.iter_ssa.foldl (fun ds t => defsInsert ds t (ip, di.1)) ds) ds) ssa =
        some (ip, d) := by
  intro L
  induction L with
  | nil => intro ds h; simp at h
  | cons di L' ih =>
    intro ds h
    rw [List.foldl_cons]
    by_cases hin : ssa ∈ di.2.iter_ssa
    · refine defsFold_outer_pres ssa ip L' _ ?_
      rw [defsFold_inner, if_pos hin]
      exact ⟨di.1, rfl⟩
    · obtain ⟨dj, hdj, hssa⟩ := h
      rw [List.mem_cons] at hdj
      cases hdj with
      | inl hdj => subst hdj; exact absurd hssa hin
      | inr hdj => exact ih _ ⟨dj, hdj, hssa⟩

/-- Values bound by the outer destination fold: either old, or bound at
step `ip`. -/
theorem defsFold_outer_val (ssa : SSAValue) (ip : Nat) :
    ∀ (L : List (Nat × Dst)) (ds : List (SSAValue × Nat × Nat)) (v : Nat × Nat),
      defsGet (L.foldl (fun ds di =>
        di.2.iter_ssa.foldl (fun ds t => defsInsert ds t (ip, di.1)) ds) ds) ssa = some v →
      defsGet ds ssa = some v ∨ v.1 = ip := by
  intro L
  induction L with
  | nil => intro ds v h; exact Or.inl h
  | cons di L' ih =>
    intro ds v h
    rw [List.foldl_cons] at h
    cases ih _ v h with
    | inl hold =>
      cases defsFold_inner_val ssa (ip, di.1) di.2.iter_ssa ds v hold with
      | inl h2 => exact Or.inl h2
      | inr h2 => subst h2; exact Or.inr rfl
    | inr hip => exact Or.inr hip

/-! ## Generic graph-fold helpers -/

/-- A property preserved by every fold step is preserved by the fold. -/
theorem foldl_pres_prop {β : Type _} (P : DepGraph → Prop) (step : DepGraph → β → DepGraph)
    (h : ∀ g x, P g → P (step g x)) :
    ∀ (l : List β) (g : DepGraph), P g → P (l.foldl step g) := by
  intro l
  induction l with
  | nil => intro g hg; exact hg
  | cons x xs ih => intro g hg; exact ih _ (h g x hg)

/-- A property established by one step and preserved by all holds of the
fold over any list containing that element. -/
theorem foldl_estab_prop {β : Type _} (P : DepGraph → Prop) (step : DepGraph → β → DepGraph)
    (hpres : ∀ g x, P g → P (step g x)) (x : β) (hest : ∀ g, P (step g x)) :
    ∀ (l : List β), x ∈ l → ∀ (g : DepGraph), P (l.foldl step g) := by
  intro l
  induction l with
  | nil => intro hx; simp at hx
  | cons y ys ih =>
    intro hx g
    rw [List.foldl_cons]
    rw [List.mem_cons] at hx
    by_cases hxy : x = y
    · subst hxy
      exact foldl_pres_prop P step hpres ys _ (hest g)
    · cases hx with
      | inl h => exact absurd h hxy
      | inr h => exact ih h _

/-! ## Dependency-graph builder: structure of one step -/

/-- `depUseEdge` keeps the node count. -/
theorem depUseEdge_length (c : Collab O) (instrs : List (Instr O))
    (defs : List (SSAValue × Nat × Nat)) (ip : Nat) (op : O) (si : Nat) (g : DepGraph)
    (ssa : SSAValue) :
    (depUseEdge c instrs defs ip op si g ssa).nodes.length = g.nodes.length := by
  unfold depUseEdge
  cases hd : defsGet defs ssa with
  | none => rfl
  | some dd =>
    dsimp only
    cases hg : instrs.get? dd.1 with
    | none => rfl
    | some di => exact add_edge_length _ _ _ _

/-- `depUseEdge` keeps existing edges. -/
theorem depUseEdge_mono (c : Collab O) (instrs : List (Instr O))
    (defs : List (SSAValue × Nat × Nat)) (ip : Nat) (op : O) (si : Nat) (g : DepGraph)
    (ssa : SSAValue) (pr : Nat × Nat) (h : pr ∈ g.edgeList) :
    pr ∈ (depUseEdge c instrs defs ip op si g ssa).edgeList := by
  unfold depUseEdge
  cases hd : defsGet defs ssa with
  | none => exact h
  | some dd =>
    dsimp only
    cases hg : instrs.get? dd.1 with
    | none => exact h
    | some di => exact add_edge_mono _ _ _ _ _ h

/-- Edges after `depUseEdge`: old, or a defs-sourced edge into `ip`. -/
theorem depUseEdge_edges (c : Collab O) (instrs : List (Instr O))
    (defs : List (SSAValue × Nat × Nat)) (ip : Nat) (op : O) (si : Nat) (g : DepGraph)
    (ssa : SSAValue) (pr : Nat × Nat)
    (h : pr ∈ (depUseEdge c instrs defs ip op si g ssa).edgeList) :
    pr ∈ g.edgeList ∨ ((∃ d, defsGet defs ssa = some (pr.1, d)) ∧ pr.2 = ip) := by
  unfold depUseEdge at h
  cases hd : defsGet defs ssa with
  | none => rw [hd] at h; exact Or.inl h
  | some dd =>
    rw [hd] at h
    dsimp only at h
    cases hg : instrs.get? dd.1 with
    | none => rw [hg] at h; exact Or.inl h
    | some di =>
      rw [hg] at h
      dsimp only at h
      rw [add_edge_edgeList] at h
      cases h with
      | inl h => exact Or.inl h
      | inr h =>
        obtain ⟨heq, _⟩ := h
        subst heq
        exact Or.inr ⟨⟨dd.2, by simp [hd]⟩, rfl⟩

/-- `depPredEdge` keeps the node count. -/
theorem depPredEdge_length (c : Collab O) (instrs : List (Instr O))
    (defs : List (SSAValue × Nat × Nat)) (ip : Nat) (g : DepGraph) (ssa : SSAValue) :
    (depPredEdge c instrs defs ip g ssa).nodes.length = g.nodes.length := by
  unfold depPredEdge
  cases hd : defsGet defs ssa with
  | none => rfl
  | some dd =>
    dsimp only
    cases hg : instrs.get? dd.1 with
    | none => rfl
    | some di => exact add_edge_length _ _ _ _

/-- `depPredEdge` keeps existing edges. -/
theorem depPredEdge_mono (c : Collab O) (instrs : List (Instr O))
    (defs : List (SSAValue × Nat × Nat)) (ip : Nat) (g : DepGraph) (ssa : SSAValue)
    (pr : Nat × Nat) (h : pr ∈ g.edgeList) :
    pr ∈ (depPredEdge c instrs defs ip g ssa).edgeList := by
  unfold depPredEdge
  cases hd : defsGet defs ssa with
  | none => exact h
  | some dd =>
    dsimp only
    cases hg : instrs.get? dd.1 with
    | none => exact h
    | some di => exact add_edge_mono _ _ _ _ _ h

/-- Edges after `depPredEdge`: old, or a defs-sourced edge into `ip`. -/
theorem depPredEdge_edges (c : Collab O) (instrs : List (Instr O))
    (defs : List (SSAValue × Nat × Nat)) (ip : Nat) (g : DepGraph) (ssa : SSAValue)
    (pr : Nat × Nat) (h : pr ∈ (depPredEdge c instrs defs ip g ssa).edgeList) :
    pr ∈ g.edgeList ∨ ((∃ d, defsGet defs ssa = some (pr.1, d)) ∧ pr.2 = ip) := by
  unfold depPredEdge at h
  cases hd : defsGet defs ssa with
  | none => rw [hd] at h; exact Or.inl h
  | some dd =>
    rw [hd] at h
    dsimp only at h
    cases hg : instrs.get? dd.1 with
    | none => rw [hg] at h; exact Or.inl h
    | some di =>
      rw [hg] at h
      dsimp only at h
      rw [add_edge_edgeList] at h
      cases h with
      | inl h => exact Or.inl h
      | inr h =>
        obtain ⟨heq, _⟩ := h
        subst heq
        exact Or.inr ⟨⟨dd.2, by simp [hd]⟩, rfl⟩

/-- The bounds of one `depStep`: the counter advances, the node count is
kept, new edges run from below `ip` into `ip`, and the defs map and
memory marker stay below the new counter. -/
theorem depStep_bounds (c : Collab O) (instrs : List (Instr O)) (g : DepGraph)
    (defs : List (SSAValue × Nat × Nat)) (lm : Option Nat) (ip : Nat) (instr : Instr O)
    (g' : DepGraph) (defs' : List (SSAValue × Nat × Nat)) (lm' : Option Nat) (ip' : Nat)
    (h : depStep c instrs (g, defs, lm, ip) instr = (g', defs', lm', ip'))
    (hdefs : ∀ s v, defsGet defs s = some v → v.1 < ip)
    (hlm : ∀ m, lm = some m → m < ip) :
    ip' = ip + 1 ∧ g'.nodes.length = g.nodes.length ∧
    (∀ pr ∈ g'.edgeList, pr ∈ g.edgeList ∨ (pr.1 < ip ∧ pr.2 = ip)) ∧
    (∀ s v, defsGet defs' s = some v → v.1 < ip + 1) ∧
    (∀ m, lm' = some m → m < ip + 1) := by
  unfold depStep at h
  have hgm : ∀ (gm : DepGraph × Option Nat),
      gm.1.nodes.length = g.nodes.length →
      (∀ pr ∈ gm.1.edgeList, pr ∈ g.edgeList ∨ (pr.1 < ip ∧ pr.2 = ip)) →
      (∀ m, gm.2 = some m → m < ip + 1) →
      (match gm with
        | (g, last_memory_op) =>
          let g := instr.srcs.enum.foldl (fun g si =>
            si.2.ssas.foldl (depUseEdge c instrs defs ip instr.op si.1) g) g
          let g :=
            match instr.pred with
            | PredRef.ssa ssa => depPredEdge c instrs defs ip g ssa
            | _ => g
          let defs := instr.dsts.enum.foldl (fun ds di =>
            di.2.iter_ssa.foldl (fun ds ssa => defsInsert ds ssa (ip, di.1)) ds) defs
          (g, defs, last_memory_op, ip + 1)) = (g', defs', lm', ip') →
      ip' = ip + 1 ∧ g'.nodes.length = g.nodes.length ∧
      (∀ pr ∈ g'.edgeList, pr ∈ g.edgeList ∨ (pr.1 < ip ∧ pr.2 = ip)) ∧
      (∀ s v, defsGet defs' s = some v → v.1 < ip + 1) ∧
      (∀ m, lm' = some m → m < ip + 1) := by
    rintro ⟨gmid, lmid⟩ hlen hedges hlmid hm
    dsimp only at hm
    set P : DepGraph → Prop := fun gg =>
      gg.nodes.length = g.nodes.length ∧
      ∀ pr ∈ gg.edgeList, pr ∈ g.edgeList ∨ (pr.1 < ip ∧ pr.2 = ip) with hP
    have hpresU : ∀ (gg : DepGraph) (ssa : SSAValue) (op : O) (si : Nat),
        P gg → P (depUseEdge c instrs defs ip op si gg ssa) := by
      intro gg ssa op si hp
      refine ⟨(depUseEdge_length c instrs defs ip op si gg ssa).trans hp.1, ?_⟩
      intro pr hpr
      cases depUseEdge_edges c instrs defs ip op si gg ssa pr hpr with
      | inl h2 => exact hp.2 pr h2
      | inr h2 =>
        obtain ⟨⟨d, hd⟩, h22⟩ := h2
        exact Or.inr ⟨hdefs ssa (pr.1, d) hd, h22⟩
    have hfold : P (instr.srcs.enum.foldl (fun g si =>
        si.2.ssas.foldl (depUseEdge c instrs defs ip instr.op si.1) g) gmid) := by
      refine foldl_pres_prop P _ ?_ _ _ ⟨hlen, hedges⟩
      intro gg si hp
      exact foldl_pres_prop P _ (fun gg2 ssa hp2 => hpresU gg2 ssa instr.op si.1 hp2) _ _ hp
    have hfold2 : P (match instr.pred with
        | PredRef.ssa ssa => depPredEdge c instrs defs ip (instr.srcs.enum.foldl (fun g si =>
            si.2.ssas.foldl (depUseEdge c instrs defs ip instr.op si.1) g) gmid) ssa
        | _ => instr.srcs.enum.foldl (fun g si =>
            si.2.ssas.foldl (depUseEdge c instrs defs ip instr.op si.1) g) gmid) := by
      cases instr.pred with
      | ssa ssa =>
        refine ⟨(depPredEdge_length c instrs defs ip _ ssa).trans hfold.1, ?_⟩
        intro pr hpr
        cases depPredEdge_edges c instrs defs ip _ ssa pr hpr with
        | inl h2 => exact hfold.2 pr h2
        | inr h2 =>
          obtain ⟨⟨d, hd⟩, h22⟩ := h2
          exact Or.inr ⟨hdefs ssa (pr.1, d) hd, h22⟩
      | none => exact hfold
      | reg r => exact hfold
    injection hm with hg hm
    injection hm with hdefs2 hm
    injection hm with hlm2 hip2
    refine ⟨hip2.symm, ?_, ?_, ?_, ?_⟩
    · rw [← hg]; exact hfold2.1
    · intro pr hpr
      rw [← hg] at hpr
      exact hfold2.2 pr hpr
    · intro s v hv
      rw [← hdefs2] at hv
      cases defsFold_outer_val s ip instr.dsts.enum defs v hv with
      | inl hold => exact Nat.lt_succ_of_lt (hdefs s v hold)
      | inr hip => omega
    · intro m hm2
      rw [← hlm2] at hm2
      exact hlmid m hm2
  dsimp only at h
  by_cases hmem : c.side_effect_type instr.op = SideEffect.Memory
  · cases hlmc : lm with
    | none =>
      subst hlmc
      rw [if_pos hmem] at h
      dsimp only at h
      refine hgm (g, some ip) rfl (fun pr hpr => Or.inl hpr) ?_ h
      intro m hm
      injection hm with hm
      omega
    | some mip =>
      have hmiplt : mip < ip := hlm mip hlmc
      subst hlmc
      rw [if_pos hmem] at h
      dsimp only at h
      refine hgm (g.add_edge mip ip ⟨0⟩, some ip) (add_edge_length _ _ _ _) ?_ ?_ h
      · intro pr hpr
        rw [add_edge_edgeList] at hpr
        cases hpr with
        | inl h2 => exact Or.inl h2
        | inr h2 =>
          obtain ⟨heq, _⟩ := h2
          subst heq
          exact Or.inr ⟨hmiplt, rfl⟩
      · intro m hm
        injection hm with hm
        omega
  · rw [if_neg hmem] at h
    dsimp only at h
    refine hgm (g, lm) rfl (fun pr hpr => Or.inl hpr) ?_ h
    intro m hm
    exact Nat.lt_succ_of_lt (hlm m hm)

/-- One `depStep` keeps existing edges. -/
theorem depStep_mono (c : Collab O) (instrs : List (Instr O)) (g : DepGraph)
    (defs : List (SSAValue × Nat × Nat)) (lm : Option Nat) (ip : Nat) (instr : Instr O)
    (g' : DepGraph) (defs' : List (SSAValue × Nat × Nat)) (lm' : Option Nat) (ip' : Nat)
    (heq : depStep c instrs (g, defs, lm, ip) instr = (g', defs', lm', ip'))
    (pr : Nat × Nat) (h : pr ∈ g.edgeList) : pr ∈ g'.edgeList := by
  unfold depStep at heq
  have hgm : ∀ (gm : DepGraph × Option Nat),
      pr ∈ gm.1.edgeList →
      (match gm with
        | (g, last_memory_op) =>
          let g := instr.srcs.enum.foldl (fun g si =>
            si.2.ssas.foldl (depUseEdge c instrs defs ip instr.op si.1) g) g
          let g :=
            match instr.pred with
            | PredRef.ssa ssa => depPredEdge c instrs defs ip g ssa
            | _ => g
          let defs := instr.dsts.enum.foldl (fun ds di =>
            di.2.iter_ssa.foldl (fun ds ssa => defsInsert ds ssa (ip, di.1)) ds) defs
          (g, defs, last_memory_op, ip + 1)) = (g', defs', lm', ip') →
      pr ∈ g'.edgeList := by
    rintro ⟨gmid, lmid⟩ hpr hm
    dsimp only at hm
    have hfold : pr ∈ (instr.srcs.enum.foldl (fun g si =>
        si.2.ssas.foldl (depUseEdge c instrs defs ip instr.op si.1) g) gmid).edgeList := by
      refine foldl_pres_prop (fun gg => pr ∈ gg.edgeList) _ ?_ _ _ hpr
      intro gg si hp
      exact foldl_pres_prop (fun gg => pr ∈ gg.edgeList) _
        (fun gg2 ssa hp2 => depUseEdge_mono c instrs defs ip instr.op si.1 gg2 ssa pr hp2) _ _ hp
    have hfold2 : pr ∈ (match instr.pred with
        | PredRef.ssa ssa => depPredEdge c instrs defs ip
            (instr.srcs.enum.foldl (fun g (si : Nat × Src) =>
              si.2.ssas.foldl (depUseEdge c instrs defs ip instr.op si.1) g) gmid) ssa
        | _ => instr.srcs.enum.foldl (fun g (si : Nat × Src) =>
            si.2.ssas.foldl (depUseEdge c instrs defs ip instr.op si.1) g) gmid).edgeList := by
      cases instr.pred with
      | ssa ssa => exact depPredEdge_mono c instrs defs ip _ ssa pr hfold
      | none => exact hfold
      | reg r => exact hfold
    injection hm with hg hm
    rw [← hg]
    exact hfold2
  dsimp only at heq
  by_cases hmem : c.side_effect_type instr.op = SideEffect.Memory
  · cases hlmc : lm with
    | none =>
      subst hlmc
      rw [if_pos hmem] at heq
      dsimp only at heq
      exact hgm (g, some ip) h heq
    | some mip =>
      subst hlmc
      rw [if_pos hmem] at heq
      dsimp only at heq
      exact hgm (g.add_edge mip ip ⟨0⟩, some ip) (add_edge_mono _ _ _ _ _ h) heq
  · rw [if_neg hmem] at heq
    dsimp only at heq
    exact hgm (g, lm) h heq

/-- Bounds through the whole builder fold: the counter advances by the
suffix length, the node count is kept, and every edge runs upward and
below the final counter. -/
theorem depFold_bounds (c : Collab O) (instrs : List (Instr O)) :
    ∀ (suf : List (Instr O)) (g : DepGraph) (defs : List (SSAValue × Nat × Nat))
      (lm : Option Nat) (ip : Nat) (g' : DepGraph) (defs' : List (SSAValue × Nat × Nat))
      (lm' : Option Nat) (ip' : Nat),
      suf.foldl (depStep c instrs) (g, defs, lm, ip) = (g', defs', lm', ip') →
      (∀ pr ∈ g.edgeList, pr.1 < pr.2 ∧ pr.2 < ip) →
      (∀ s v, defsGet defs s = some v → v.1 < ip) →
      (∀ m, lm = some m → m < ip) →
      g.nodes.length = instrs.length →
      ip' = ip + suf.length ∧ g'.nodes.length = instrs.length ∧
      (∀ pr ∈ g'.edgeList, pr.1 < pr.2 ∧ pr.2 < ip') ∧
      (∀ s v, defsGet defs' s = some v → v.1 < ip') ∧
      (∀ m, lm' = some m → m < ip') := by
  intro suf
  induction suf with
  | nil =>
    intro g defs lm ip g' defs' lm' ip' h hedges hdefs hlm hlen
    rw [List.foldl_nil] at h
    injection h with h1 h
    injection h with h2 h
    injection h with h3 h4
    subst h1 h2 h3 h4
    exact ⟨by simp, hlen, hedges, hdefs, hlm⟩
  | cons instr suf' ih =>
    intro g defs lm ip g' defs' lm' ip' h hedges hdefs hlm hlen
    rw [List.foldl_cons] at h
    rcases hstep : depStep c instrs (g, defs, lm, ip) instr with ⟨g1, defs1, lm1, ip1⟩
    rw [hstep] at h
    obtain ⟨hip1, hlen1, hedges1, hdefs1, hlm1⟩ :=
      depStep_bounds c instrs g defs lm ip instr g1 defs1 lm1 ip1 hstep hdefs hlm
    subst hip1
    have hmain := ih g1 defs1 lm1 (ip + 1) g' defs' lm' ip' h ?_ hdefs1 hlm1 (hlen1.trans hlen)
    · refine ⟨by rw [hmain.1]; simp; omega, hmain.2⟩
    · intro pr hpr
      cases hedges1 pr hpr with
      | inl h2 =>
        obtain ⟨ha, hb⟩ := hedges pr h2
        exact ⟨ha, by omega⟩
      | inr h2 => exact ⟨by omega, by omega⟩

/-- The whole builder fold keeps existing edges. -/
theorem depFold_mono (c : Collab O) (instrs : List (Instr O)) (pr : Nat × Nat) :
    ∀ (suf : List (Instr O)) (g : DepGraph) (defs : List (SSAValue × Nat × Nat))
      (lm : Option Nat) (ip : Nat) (g' : DepGraph) (defs' : List (SSAValue × Nat × Nat))
      (lm' : Option Nat) (ip' : Nat),
      suf.foldl (depStep c instrs) (g, defs, lm, ip) = (g', defs', lm', ip') →
      pr ∈ g.edgeList → pr ∈ g'.edgeList := by
  intro suf
  induction suf with
  | nil =>
    intro g defs lm ip g' defs' lm' ip' h hpr
    rw [List.foldl_nil] at h
    injection h with h1 h
    rw [← h1]
    exact hpr
  | cons instr suf' ih =>
    intro g defs lm ip g' defs' lm' ip' h hpr
    rw [List.foldl_cons] at h
    rcases hstep : depStep c instrs (g, defs, lm, ip) instr with ⟨g1, defs1, lm1, ip1⟩
    rw [hstep] at h
    exact ih g1 defs1 lm1 ip1 g' defs' lm' ip' h
      (depStep_mono c instrs g defs lm ip instr g1 defs1 lm1 ip1 hstep pr hpr)

/-- The empty graph has no edges. -/
theorem DepGraph_new_edges (n : Nat) (pr : Nat × Nat) : pr ∉ (DepGraph.new n).edgeList := by
  intro hpr
  obtain ⟨x, y⟩ := pr
  rw [edgeList_mem_iff] at hpr
  obtain ⟨e, he, _⟩ := hpr
  unfold edgesOf DepGraph.new at he
  cases hg : (List.replicate n (DepNode.mk ⟨0, 0⟩ [])).get? x with
  | none => rw [hg] at he; simp at he
  | some nd =>
    have := List.get?_mem hg
    rw [List.mem_replicate] at this
    rw [hg, this.2] at he
    simp at he

/-- Structural bounds of the built graph: node count and upward,
in-range edges. -/
theorem generate_dep_graph_bounds (c : Collab O) (instrs : List (Instr O)) :
    (generate_dep_graph c instrs).nodes.length = instrs.length ∧
    ∀ pr ∈ (generate_dep_graph c instrs).edgeList, pr.1 < pr.2 ∧ pr.2 < instrs.length := by
  rcases hfold : instrs.foldl (depStep c instrs)
      (DepGraph.new instrs.length, [], Option.none, 0) with ⟨gf, defsf, lmf, ipf⟩
  have hg : generate_dep_graph c instrs = gf := by
    unfold generate_dep_graph
    rw [hfold]
  obtain ⟨hip, hlen, hedges, _, _⟩ := depFold_bounds c instrs instrs
    (DepGraph.new instrs.length) [] Option.none 0 gf defsf lmf ipf hfold
    (fun pr hpr => absurd hpr (DepGraph_new_edges _ pr))
    (fun s v hv => by simp [defsGet] at hv)
    (fun m hm => by simp at hm)
    (by simp [DepGraph.new])
  rw [hg]
  refine ⟨hlen, fun pr hpr => ?_⟩
  obtain ⟨ha, hb⟩ := hedges pr hpr
  exact ⟨ha, by omega⟩

/-- The components of one `depStep`, fully characterised. -/
theorem depStep_parts (c : Collab O) (instrs : List (Instr O)) (g : DepGraph)
    (defs : List (SSAValue × Nat × Nat)) (lm : Option Nat) (ip : Nat) (instr : Instr O)
    (g1 : DepGraph) (defs1 : List (SSAValue × Nat × Nat)) (lm1 : Option Nat) (ip1 : Nat)
    (heq : depStep c instrs (g, defs, lm, ip) instr = (g1, defs1, lm1, ip1)) :
    ip1 = ip + 1 ∧
    defs1 = instr.dsts.enum.foldl (fun ds di =>
      di.2.iter_ssa.foldl (fun ds ssa => defsInsert ds ssa (ip, di.1)) ds) defs ∧
    lm1 = (if c.side_effect_type instr.op = SideEffect.Memory then some ip else lm) ∧
    g1 = depPredG c instrs defs ip instr
      (depSrcsG c instrs defs ip instr (depMemG c instr g lm ip)) := by
  unfold depPredG depSrcsG depMemG
  cases lm with
  | none =>
    unfold depStep at heq
    dsimp only at heq ⊢
    by_cases hmem : c.side_effect_type instr.op = SideEffect.Memory
    · simp only [if_pos hmem] at heq ⊢
      injection heq with hg heq
      injection heq with hdefs heq
      injection heq with hlm hip
      exact ⟨hip.symm, hdefs.symm, hlm.symm, hg.symm⟩
    · simp only [if_neg hmem] at heq ⊢
      injection heq with hg heq
      injection heq with hdefs heq
      injection heq with hlm hip
      exact ⟨hip.symm, hdefs.symm, hlm.symm, hg.symm⟩
  | some mip =>
    unfold depStep at heq
    dsimp only at heq ⊢
    by_cases hmem : c.side_effect_type instr.op = SideEffect.Memory
    · simp only [if_pos hmem] at heq ⊢
      injection heq with hg heq
      injection heq with hdefs heq
      injection heq with hlm hip
      exact ⟨hip.symm, hdefs.symm, hlm.symm, hg.symm⟩
    · simp only [if_neg hmem] at heq ⊢
      injection heq with hg heq
      injection heq with hdefs heq
      injection heq with hlm hip
      exact ⟨hip.symm, hdefs.symm, hlm.symm, hg.symm⟩

/-- `depMemG` keeps the node count. -/
theorem depMemG_length (c : Collab O) (instr : Instr O) (g : DepGraph) (lm : Option Nat)
    (ip : Nat) : (depMemG c instr g lm ip).nodes.length = g.nodes.length := by
  unfold depMemG
  split
  · cases lm with
    | none => rfl
    | some m => exact add_edge_length _ _ _ _
  · rfl

/-- `depSrcsG` keeps the node count. -/
theorem depSrcsG_length (c : Collab O) (instrs : List (Instr O))
    (defs : List (SSAValue × Nat × Nat)) (ip : Nat) (instr : Instr O) (g0 : DepGraph) :
    (depSrcsG c instrs defs ip instr g0).nodes.length = g0.nodes.length := by
  unfold depSrcsG
  refine foldl_pres_prop (fun gg => gg.nodes.length = g0.nodes.length) _ ?_ _ _ rfl
  intro gg si hp
  refine foldl_pres_prop (fun gg => gg.nodes.length = g0.nodes.length) _ ?_ _ _ hp
  intro gg2 ssa hp2
  exact (depUseEdge_length c instrs defs ip instr.op si.1 gg2 ssa).trans hp2

/-- `depPredG` keeps the node count. -/
theorem depPredG_length (c : Collab O) (instrs : List (Instr O))
    (defs : List (SSAValue × Nat × Nat)) (ip : Nat) (instr : Instr O) (g0 : DepGraph) :
    (depPredG c instrs defs ip instr g0).nodes.length = g0.nodes.length := by
  unfold depPredG
  cases instr.pred with
  | ssa pssa => exact depPredEdge_length c instrs defs ip g0 pssa
  | none => rfl
  | reg r => rfl

/-- `depSrcsG` keeps existing edges. -/
theorem depSrcsG_mono (c : Collab O) (instrs : List (Instr O))
    (defs : List (SSAValue × Nat × Nat)) (ip : Nat) (instr : Instr O) (g0 : DepGraph)
    (pr : Nat × Nat) (h : pr ∈ g0.edgeList) : pr ∈ (depSrcsG c instrs defs ip instr g0).edgeList := by
  unfold depSrcsG
  refine foldl_pres_prop (fun gg => pr ∈ gg.edgeList) _ ?_ _ _ h
  intro gg si hp
  refine foldl_pres_prop (fun gg => pr ∈ gg.edgeList) _ ?_ _ _ hp
  intro gg2 ssa hp2
  exact depUseEdge_mono c instrs defs ip instr.op si.1 gg2 ssa pr hp2

/-- `depPredG` keeps existing edges. -/
theorem depPredG_mono (c : Collab O) (instrs : List (Instr O))
    (defs : List (SSAValue × Nat × Nat)) (ip : Nat) (instr : Instr O) (g0 : DepGraph)
    (pr : Nat × Nat) (h : pr ∈ g0.edgeList) : pr ∈ (depPredG c instrs defs ip instr g0).edgeList := by
  unfold depPredG
  cases instr.pred with
  | ssa pssa => exact depPredEdge_mono c instrs defs ip g0 pssa pr h
  | none => exact h
  | reg r => exact h

/-- One `depStep` keeps the node count (via the characterisation). -/
theorem depStep_length (c : Collab O) (instrs : List (Instr O)) (g : DepGraph)
    (defs : List (SSAValue × Nat × Nat)) (lm : Option Nat) (ip : Nat) (instr : Instr O)
    (g1 : DepGraph) (defs1 : List (SSAValue × Nat × Nat)) (lm1 : Option Nat) (ip1 : Nat)
    (heq : depStep c instrs (g, defs, lm, ip) instr = (g1, defs1, lm1, ip1)) :
    g1.nodes.length = g.nodes.length := by
  obtain ⟨_, _, _, hg⟩ := depStep_parts c instrs g defs lm ip instr g1 defs1 lm1 ip1 heq
  subst hg
  exact ((depPredG_length c instrs defs ip instr _).trans
    (depSrcsG_length c instrs defs ip instr _)).trans (depMemG_length c instr g lm ip)

/-- The RAW part establishes the def-use edge when the defs map binds a
used SSA value. -/
theorem depSrcsG_use_edge (c : Collab O) (instrs : List (Instr O))
    (defs : List (SSAValue × Nat × Nat)) (ip : Nat) (instr : Instr O) (g0 : DepGraph)
    (i : Nat) (d : Nat) (ui : Instr O) (ssa : SSAValue)
    (hget : defsGet defs ssa = some (i, d)) (hi : instrs.get? i = some ui)
    (hin : i < g0.nodes.length)
    (huse : ∃ src ∈ instr.srcs, ssa ∈ src.ssas) :
    (i, ip) ∈ (depSrcsG c instrs defs ip instr g0).edgeList := by
  obtain ⟨src, hsrc, hssa⟩ := huse
  rw [List.mem_iff_get?] at hsrc
  obtain ⟨k, hk⟩ := hsrc
  unfold depSrcsG
  set P : DepGraph → Prop := fun gg =>
    gg.nodes.length = g0.nodes.length → (i, ip) ∈ gg.edgeList with hP
  have hpres : ∀ (gg : DepGraph) (si : Nat × Src), P gg →
      P (si.2.ssas.foldl (depUseEdge c instrs defs ip instr.op si.1) gg) := by
    intro gg si hp hlen
    have hlen2 : gg.nodes.length = g0.nodes.length := by
      rw [← hlen]
      exact (foldl_pres_prop (fun g2 => g2.nodes.length = gg.nodes.length) _
        (fun g2 ssa2 hp2 => (depUseEdge_length c instrs defs ip instr.op si.1 g2 ssa2).trans hp2)
        _ _ rfl).symm
    refine foldl_pres_prop (fun g2 => (i, ip) ∈ g2.edgeList) _ ?_ _ _ (hp hlen2)
    intro g2 ssa2 hp2
    exact depUseEdge_mono c instrs defs ip instr.op si.1 g2 ssa2 _ hp2
  have hest : ∀ (gg : DepGraph),
      P ((k, src).2.ssas.foldl (depUseEdge c instrs defs ip instr.op (k, src).1) gg) := by
    intro gg hlen
    have hlen2 : gg.nodes.length = g0.nodes.length := by
      rw [← hlen]
      exact (foldl_pres_prop (fun g2 => g2.nodes.length = gg.nodes.length) _
        (fun g2 ssa2 hp2 => (depUseEdge_length c instrs defs ip instr.op k g2 ssa2).trans hp2)
        _ _ rfl).symm
    have hest2 : ∀ (g2 : DepGraph), g2.nodes.length = g0.nodes.length →
        (i, ip) ∈ (depUseEdge c instrs defs ip instr.op k g2 ssa).edgeList := by
      intro g2 hlen3
      unfold depUseEdge
      rw [hget]
      dsimp only
      rw [hi]
      dsimp only
      exact add_edge_mem g2 i ip _ (by omega)
    refine foldl_estab_prop (fun g2 => g2.nodes.length = g0.nodes.length → (i, ip) ∈ g2.edgeList)
      _ ?_ ssa ?_ src.ssas hssa gg ?_
    · intro g2 ssa2 hp2 hlen3
      have hlen4 : g2.nodes.length = g0.nodes.length := by
        rw [← hlen3]
        exact (depUseEdge_length c instrs defs ip instr.op k g2 ssa2).symm
      exact depUseEdge_mono c instrs defs ip instr.op k g2 ssa2 _ (hp2 hlen4)
    · intro g2 hlen3
      have hlen4 : g2.nodes.length = g0.nodes.length := by
        rw [← hlen3]
        exact (depUseEdge_length c instrs defs ip instr.op k g2 ssa).symm
      exact hest2 g2 hlen4
    · exact hlen
  have := foldl_estab_prop P _ hpres (k, src) hest instr.srcs.enum
    (List.mem_enum_iff_get?.mpr hk) g0
  exact this (depSrcsG_length c instrs defs ip instr g0)

/-- The PAW part establishes the def-use edge for a predicate use. -/
theorem depPredG_use_edge (c : Collab O) (instrs : List (Instr O))
    (defs : List (SSAValue × Nat × Nat)) (ip : Nat) (instr : Instr O) (g0 : DepGraph)
    (i : Nat) (d : Nat) (ui : Instr O) (ssa : SSAValue)
    (hget : defsGet defs ssa = some (i, d)) (hi : instrs.get? i = some ui)
    (hin : i < g0.nodes.length) (hpred : instr.pred = PredRef.ssa ssa) :
    (i, ip) ∈ (depPredG c instrs defs ip instr g0).edgeList := by
  unfold depPredG
  rw [hpred]
  dsimp only
  unfold depPredEdge
  rw [hget]
  dsimp only
  rw [hi]
  dsimp only
  exact add_edge_mem g0 i ip _ hin

/-- Through the rest of the builder fold, the def-use edge `(i, j)` is
added at step `j` (or was already added). -/
theorem depFold_use_edge (c : Collab O) (instrs : List (Instr O)) (i j : Nat)
    (ui vj : Instr O) (ssa : SSAValue)
    (hij : i < j) (hjn : j < instrs.length)
    (hi : instrs.get? i = some ui) (hj : instrs.get? j = some vj)
    (hdef : ∃ dst ∈ ui.dsts, ssa ∈ dst.iter_ssa)
    (huse : (∃ src ∈ vj.srcs, ssa ∈ src.ssas) ∨ vj.pred = PredRef.ssa ssa)
    (huniq : ∀ k wk, instrs.get? k = some wk → (∃ dst ∈ wk.dsts, ssa ∈ dst.iter_ssa) → k = i) :
    ∀ (suf : List (Instr O)) (g : DepGraph) (defs : List (SSAValue × Nat × Nat))
      (lm : Option Nat) (ip : Nat) (g' : DepGraph) (defs' : List (SSAValue × Nat × Nat))
      (lm' : Option Nat) (ip' : Nat),
      instrs.drop ip = suf →
      suf.foldl (depStep c instrs) (g, defs, lm, ip) = (g', defs', lm', ip') →
      ip ≤ j →
      g.nodes.length = instrs.length →
      (i < ip → ∃ d, defsGet defs ssa = some (i, d)) →
      (i, j) ∈ g'.edgeList := by
  intro suf
  induction suf with
  | nil =>
    intro g defs lm ip g' defs' lm' ip' hdrop h hle hlen hd
    have : instrs.length ≤ ip := List.drop_eq_nil_iff.mp hdrop
    omega
  | cons instr suf' ih =>
    intro g defs lm ip g' defs' lm' ip' hdrop h hle hlen hd
    have hgetip : instrs.get? ip = some instr := by
      have h0 := List.get?_drop instrs ip 0
      rw [hdrop] at h0
      simpa using h0.symm
    have hdrop' : instrs.drop (ip + 1) = suf' := by
      rw [← List.drop_drop 1 ip instrs, hdrop]
      rfl
    rw [List.foldl_cons] at h
    rcases hstep : depStep c instrs (g, defs, lm, ip) instr with ⟨g1, defs1, lm1, ip1⟩
    rw [hstep] at h
    obtain ⟨hip1, hdefs1, hlm1, hg1⟩ :=
      depStep_parts c instrs g defs lm ip instr g1 defs1 lm1 ip1 hstep
    have hlen1 : g1.nodes.length = instrs.length :=
      (depStep_length c instrs g defs lm ip instr g1 defs1 lm1 ip1 hstep).trans hlen
    subst hip1
    by_cases hipj : ip = j
    · subst hipj
      have hinstr : instr = vj := by
        rw [hgetip] at hj
        exact Option.some.inj hj
      subst hinstr
      obtain ⟨d, hgetd⟩ := hd hij
      have hedge : (i, ip) ∈ g1.edgeList := by
        rw [hg1]
        cases huse with
        | inl husrc =>
          refine depPredG_mono c instrs defs ip instr _ (i, ip) ?_
          refine depSrcsG_use_edge c instrs defs ip instr (depMemG c instr g lm ip)
            i d ui ssa hgetd hi ?_ husrc
          rw [depMemG_length]
          omega
        | inr hpred =>
          refine depPredG_use_edge c instrs defs ip instr _ i d ui ssa hgetd hi ?_ hpred
          rw [depSrcsG_length, depMemG_length]
          omega
      exact depFold_mono c instrs (i, ip) suf' g1 defs1 lm1 (ip + 1) g' defs' lm' ip' h hedge
    · refine ih g1 defs1 lm1 (ip + 1) g' defs' lm' ip' hdrop' h (by omega) hlen1 ?_
      intro hilt
      by_cases hipi : ip = i
      · subst hipi
        have hinstr : instr = ui := by
          rw [hgetip] at hi
          exact Option.some.inj hi
        subst hinstr
        rw [hdefs1]
        refine defsFold_outer_est ssa ip instr.dsts.enum defs ?_
        obtain ⟨dst, hdst, hssa2⟩ := hdef
        rw [List.mem_iff_get?] at hdst
        obtain ⟨k, hk⟩ := hdst
        exact ⟨(k, dst), List.mem_enum_iff_get?.mpr hk, hssa2⟩
      · have hilt2 : i < ip := by omega
        obtain ⟨d, hgetd⟩ := hd hilt2
        rw [hdefs1, defsFold_outer_ne ssa ip _ defs ?_]
        · exact ⟨d, hgetd⟩
        · intro di hdi hssain
          have hdi2 : di.2 ∈ instr.dsts := by
            rw [List.mem_enum_iff_get?] at hdi
            exact List.get?_mem hdi
          exact hipi (huniq ip instr hgetip ⟨di.2, hdi2, hssain⟩)

/-- **Edge existence (data and predicate dependencies).**  If `i` is the
unique definition of `ssa` and instruction `j > i` uses `ssa` as a source
or as its predicate, the built graph has the edge `(i, j)`. -/
theorem generate_dep_graph_use_edge (c : Collab O) (instrs : List (Instr O)) (i j : Nat)
    (ui vj : Instr O) (ssa : SSAValue)
    (hij : i < j) (hjn : j < instrs.length)
    (hi : instrs.get? i = some ui) (hj : instrs.get? j = some vj)
    (hdef : ∃ dst ∈ ui.dsts, ssa ∈ dst.iter_ssa)
    (huse : (∃ src ∈ vj.srcs, ssa ∈ src.ssas) ∨ vj.pred = PredRef.ssa ssa)
    (huniq : ∀ k wk, instrs.get? k = some wk → (∃ dst ∈ wk.dsts, ssa ∈ dst.iter_ssa) → k = i) :
    (i, j) ∈ (generate_dep_graph c instrs).edgeList := by
  rcases hfold : instrs.foldl (depStep c instrs)
      (DepGraph.new instrs.length, [], Option.none, 0) with ⟨gf, defsf, lmf, ipf⟩
  have hg : generate_dep_graph c instrs = gf := by
    unfold generate_dep_graph
    rw [hfold]
  rw [hg]
  exact depFold_use_edge c instrs i j ui vj ssa hij hjn hi hj hdef huse huniq instrs
    (DepGraph.new instrs.length) [] Option.none 0 gf defsf lmf ipf (by simp) hfold
    (by omega) (by simp [DepGraph.new]) (by omega)

/-- The memory part contains the chain edge from the last memory op. -/
theorem depMemG_mem (c : Collab O) (instr : Instr O) (g : DepGraph) (lm : Option Nat)
    (ip m : Nat) (hmem : c.side_effect_type instr.op = SideEffect.Memory)
    (hlm : lm = some m) (hl : m < g.nodes.length) :
    (m, ip) ∈ (depMemG c instr g lm ip).edgeList := by
  unfold depMemG
  rw [if_pos hmem, hlm]
  exact add_edge_mem g m ip _ hl

/-- Through the rest of the builder fold, the chain edge between two
consecutive memory operations is added at the second one. -/
theorem depFold_mem_edge (c : Collab O) (instrs : List (Instr O)) (i j : Nat)
    (ui vj : Instr O)
    (hij : i < j) (hjn : j < instrs.length)
    (hi : instrs.get? i = some ui) (hj : instrs.get? j = some vj)
    (hmi : c.side_effect_type ui.op = SideEffect.Memory)
    (hmj : c.side_effect_type vj.op = SideEffect.Memory)
    (hbetween : ∀ t wt, i < t → t < j → instrs.get? t = some wt →
      c.side_effect_type wt.op ≠ SideEffect.Memory) :
    ∀ (suf : List (Instr O)) (g : DepGraph) (defs : List (SSAValue × Nat × Nat))
      (lm : Option Nat) (ip : Nat) (g' : DepGraph) (defs' : List (SSAValue × Nat × Nat))
      (lm' : Option Nat) (ip' : Nat),
      instrs.drop ip = suf →
      suf.foldl (depStep c instrs) (g, defs, lm, ip) = (g', defs', lm', ip') →
      ip ≤ j →
      g.nodes.length = instrs.length →
      (i < ip → lm = some i) →
      (i, j) ∈ g'.edgeList := by
  intro suf
  induction suf with
  | nil =>
    intro g defs lm ip g' defs' lm' ip' hdrop h hle hlen hd
    have : instrs.length ≤ ip := List.drop_eq_nil_iff.mp hdrop
    omega
  | cons instr suf' ih =>
    intro g defs lm ip g' defs' lm' ip' hdrop h hle hlen hd
    have hgetip : instrs.get? ip = some instr := by
      have h0 := List.get?_drop instrs ip 0
      rw [hdrop] at h0
      simpa using h0.symm
    have hdrop' : instrs.drop (ip + 1) = suf' := by
      rw [← List.drop_drop 1 ip instrs, hdrop]
      rfl
    rw [List.foldl_cons] at h
    rcases hstep : depStep c instrs (g, defs, lm, ip) instr with ⟨g1, defs1, lm1, ip1⟩
    rw [hstep] at h
    obtain ⟨hip1, hdefs1, hlm1, hg1⟩ :=
      depStep_parts c instrs g defs lm ip instr g1 defs1 lm1 ip1 hstep
    have hlen1 : g1.nodes.length = instrs.length :=
      (depStep_length c instrs g defs lm ip instr g1 defs1 lm1 ip1 hstep).trans hlen
    subst hip1
    by_cases hipj : ip = j
    · subst hipj
      have hinstr : instr = vj := by
        rw [hgetip] at hj
        exact Option.some.inj hj
      subst hinstr
      have hedge : (i, ip) ∈ g1.edgeList := by
        rw [hg1]
        refine depPredG_mono c instrs defs ip instr _ (i, ip) ?_
        refine depSrcsG_mono c instrs defs ip instr _ (i, ip) ?_
        exact depMemG_mem c instr g lm ip i hmj (hd hij) (by omega)
      exact depFold_mono c instrs (i, ip) suf' g1 defs1 lm1 (ip + 1) g' defs' lm' ip' h hedge
    · refine ih g1 defs1 lm1 (ip + 1) g' defs' lm' ip' hdrop' h (by omega) hlen1 ?_
      intro hilt
      rw [hlm1]
      by_cases hipi : ip = i
      · subst hipi
        have hinstr : instr = ui := by
          rw [hgetip] at hi
          exact Option.some.inj hi
        subst hinstr
        rw [if_pos hmi]
      · have hilt2 : i < ip := by omega
        have hnot : c.side_effect_type instr.op ≠ SideEffect.Memory :=
          hbetween ip instr hilt2 (by omega) hgetip
        rw [if_neg hnot]
        exact hd hilt2

/-- **Edge existence (memory chain).**  Two consecutive `Memory`
instructions are linked by an edge in the built graph. -/
theorem generate_dep_graph_mem_edge (c : Collab O) (instrs : List (Instr O)) (i j : Nat)
    (ui vj : Instr O)
    (hij : i < j) (hjn : j < instrs.length)
    (hi : instrs.get? i = some ui) (hj : instrs.get? j = some vj)
    (hmi : c.side_effect_type ui.op = SideEffect.Memory)
    (hmj : c.side_effect_type vj.op = SideEffect.Memory)
    (hbetween : ∀ t wt, i < t → t < j → instrs.get? t = some wt →
      c.side_effect_type wt.op ≠ SideEffect.Memory) :
    (i, j) ∈ (generate_dep_graph c instrs).edgeList := by
  rcases hfold : instrs.foldl (depStep c instrs)
      (DepGraph.new instrs.length, [], Option.none, 0) with ⟨gf, defsf, lmf, ipf⟩
  have hg : generate_dep_graph c instrs = gf := by
    unfold generate_dep_graph
    rw [hfold]
  rw [hg]
  exact depFold_mem_edge c instrs i j ui vj hij hjn hi hj hmi hmj hbetween instrs
    (DepGraph.new instrs.length) [] Option.none 0 gf defsf lmf ipf (by simp) hfold
    (by omega) (by simp [DepGraph.new]) (by omega)

/-! ## Counting lemmas for the scheduler invariant -/

/-- Sum of an index indicator over an index range. -/
theorem sum_indicator_range (n v : Nat) (hv : v < n) :
    ((List.range n).map (fun u => if v = u then 1 else 0)).sum = 1 := by
  induction n with
  | zero => omega
  | succ m ih =>
    rw [List.range_succ, List.map_append, List.sum_append]
    by_cases hvm : v = m
    · subst hvm
      have : ((List.range v).map (fun u => if v = u then 1 else 0)).sum = 0 := by
        rw [List.sum_eq_zero_iff]
        intro x hx
        rw [List.mem_map] at hx
        obtain ⟨u, hu, hux⟩ := hx
        rw [List.mem_range] at hu
        rw [← hux, if_neg (by omega)]
      rw [this]
      simp
    · rw [ih (by omega)]
      simp [hvm]

/-- Counting each edge once at its head over an index range. -/
theorem sum_count_heads (E : List DepEdge) (n : Nat) (hE : ∀ e ∈ E, e.head_idx < n) :
    ((List.range n).map (fun u => E.countP (fun e => decide (e.head_idx = u)))).sum = E.length := by
  induction E with
  | nil => simp
  | cons e E' ih =>
    have hsplit : ((List.range n).map (fun u => (e :: E').countP
        (fun e => decide (e.head_idx = u)))).sum =
        ((List.range n).map (fun u => E'.countP (fun e2 => decide (e2.head_idx = u)))).sum +
        ((List.range n).map (fun u => if e.head_idx = u then 1 else 0)).sum := by
      rw [← List.sum_map_add]
      congr 1
      refine List.map_congr_left ?_
      intro u hu
      rw [List.countP_cons]
      congr 1
      split
      · rename_i hd
        rw [if_pos (by simpa using hd)]
      · rename_i hd
        rw [if_neg (by simpa using hd)]
    rw [hsplit, ih (fun e2 he2 => hE e2 (List.mem_cons_of_mem _ he2)),
      sum_indicator_range n e.head_idx (hE e (List.mem_cons_self _ _))]
    simp

/-- Sum of an indexed indicator over `enumFrom`. -/
theorem sum_enumFrom_indicator {α : Type _} (f : α → Nat) (b : Nat) :
    ∀ (l : List α) (k : Nat),
    ((l.enumFrom k).map (fun p => if p.1 = b then f p.2 else 0)).sum =
      (if k ≤ b then ((l.get? (b - k)).map f).getD 0 else 0) := by
  intro l
  induction l with
  | nil =>
    intro k
    simp
  | cons x xs ih =>
    intro k
    rw [show (x :: xs).enumFrom k = (k, x) :: xs.enumFrom (k + 1) from rfl]
    rw [List.map_cons, List.sum_cons, ih (k + 1)]
    by_cases hkb : k = b
    · subst hkb
      rw [if_pos rfl, if_neg (by omega), if_pos (by omega)]
      simp
    · rw [if_neg hkb]
      by_cases hle : k ≤ b
      · rw [if_pos (by omega), if_pos hle]
        have hbk : b - k = (b - (k + 1)) + 1 := by omega
        rw [hbk]
        simp
      · rw [if_neg (by omega), if_neg hle]

/-- Sum over positions of a list through `get?` equals the direct sum. -/
theorem sum_over_nodes {α : Type _} (l : List α) (h : α → Nat) :
    ((List.range l.length).map (fun a => ((l.get? a).map h).getD 0)).sum = (l.map h).sum := by
  induction l with
  | nil => simp
  | cons x xs ih =>
    rw [show (x :: xs).length = xs.length + 1 from rfl, List.range_succ_eq_map]
    rw [List.map_cons, List.sum_cons]
    simp only [List.map_map]
    rw [show ((fun a => ((((x :: xs).get? a).map h).getD 0)) ∘ Nat.succ) =
      (fun a => ((xs.get? a).map h).getD 0) from rfl]
    rw [ih]
    simp

/-- Erasing one term from a filtered sum over a duplicate-free list. -/
theorem sum_filter_erase (f : Nat → Nat) (a0 : Nat) (P : Nat → Bool) (hP : P a0 = true) :
    ∀ (l : List Nat), l.Nodup → a0 ∈ l →
    ((l.filter P).map f).sum =
      ((l.filter (fun x => P x && decide (x ≠ a0))).map f).sum + f a0 := by
  intro l
  induction l with
  | nil => intro _ hmem; simp at hmem
  | cons x xs ih =>
    intro hnd hmem
    rw [List.nodup_cons] at hnd
    rw [List.mem_cons] at hmem
    by_cases hxa : x = a0
    · subst hxa
      rw [List.filter_cons_of_pos hP, List.filter_cons_of_neg (by simp [hP])]
      have : xs.filter (fun y => P y && decide (y ≠ x)) = xs.filter P := by
        refine List.filter_congr' ?_
        intro y hy
        have : y ≠ x := fun he => hnd.1 (he ▸ hy)
        simp [this]
      rw [this, List.map_cons, List.sum_cons]
      omega
    · have hmem2 : a0 ∈ xs := by
        cases hmem with
        | inl h2 => exact absurd h2.symm hxa
        | inr h2 => exact h2
      by_cases hPx : P x = true
      · rw [List.filter_cons_of_pos hPx,
          List.filter_cons_of_pos (by simp [hPx, hxa]),
          List.map_cons, List.sum_cons, List.map_cons, List.sum_cons,
          ih hnd.2 hmem2]
        omega
      · rw [List.filter_cons_of_neg hPx, List.filter_cons_of_neg (by simp [hPx]),
          ih hnd.2 hmem2]

/-- Sources of edges are in range. -/
theorem edgeList_src_lt (g : DepGraph) (pr : Nat × Nat) (h : pr ∈ g.edgeList) :
    pr.1 < g.nodes.length := by
  obtain ⟨a, b⟩ := pr
  rw [edgeList_mem_iff] at h
  obtain ⟨e, he, _⟩ := h
  by_contra hge
  unfold edgesOf at he
  rw [List.get?_eq_none.mpr (by omega)] at he
  simp at he

/-- `pendPreds` vanishes exactly when every edge into `b` has its source
in `order`. -/
theorem pendPreds_zero_iff (G : DepGraph) (order : List Nat) (b : Nat) :
    pendPreds G order b = 0 ↔ ∀ pr ∈ G.edgeList, pr.2 = b → pr.1 ∈ order := by
  unfold pendPreds
  rw [List.sum_eq_zero_iff]
  constructor
  · intro hall pr hpr hhead
    by_contra hnot
    obtain ⟨a, bb⟩ := pr
    have han : a < G.nodes.length := edgeList_src_lt G (a, bb) hpr
    rw [edgeList_mem_iff] at hpr
    obtain ⟨e, he, heq⟩ := hpr
    have hmem : (edgesOf G a).countP (fun e => decide (e.head_idx = b)) ∈
        (((List.range G.nodes.length).filter (fun a => decide (a ∉ order))).map
          (fun a => (edgesOf G a).countP (fun e => decide (e.head_idx = b)))) := by
      refine List.mem_map.mpr ⟨a, ?_, rfl⟩
      rw [List.mem_filter, List.mem_range]
      exact ⟨han, by simpa using hnot⟩
    have hzero := hall _ hmem
    rw [List.countP_eq_zero] at hzero
    have hbb : bb = b := hhead
    exact hzero e he (by simp [heq, hbb])
  · intro hall x hx
    rw [List.mem_map] at hx
    obtain ⟨a, ha, hax⟩ := hx
    rw [List.mem_filter, List.mem_range] at ha
    rw [← hax, List.countP_eq_zero]
    intro e he hhead
    have : (a, b) ∈ G.edgeList := by
      rw [edgeList_mem_iff]
      exact ⟨e, he, by simpa using hhead⟩
    have := hall (a, b) this rfl
    have hno : a ∉ order := by simpa using ha.2
    exact hno this

/-- `pendPreds` stays zero as `order` grows. -/
theorem pendPreds_zero_mono (G : DepGraph) (order order' : List Nat) (b : Nat)
    (hsub : ∀ x ∈ order, x ∈ order') (h : pendPreds G order b = 0) :
    pendPreds G order' b = 0 := by
  rw [pendPreds_zero_iff] at h ⊢
  intro pr hpr hhead
  exact hsub pr.1 (h pr hpr hhead)

/-- Scheduling `a0` removes exactly its edges from the pending count. -/
theorem pendPreds_append (G : DepGraph) (order : List Nat) (a0 b : Nat)
    (ha0n : a0 < G.nodes.length) (ha0 : a0 ∉ order) :
    pendPreds G order b = pendPreds G (order ++ [a0]) b +
      (edgesOf G a0).countP (fun e => decide (e.head_idx = b)) := by
  unfold pendPreds
  have hco : (List.range G.nodes.length).filter (fun a => decide (a ∉ order ++ [a0])) =
      (List.range G.nodes.length).filter
        (fun a => decide (a ∉ order) && decide (a ≠ a0)) := by
    refine List.filter_congr' ?_
    intro a _
    by_cases h1 : a ∈ order
    · simp [h1]
    · by_cases h2 : a = a0 <;> simp [h1, h2]
  rw [hco]
  exact sum_filter_erase (fun a => (edgesOf G a).countP (fun e => decide (e.head_idx = b)))
    a0 (fun a => decide (a ∉ order)) (by simpa using ha0) (List.range G.nodes.length)
    (List.nodup_range _) (List.mem_range.mpr ha0n)

/-- With nothing scheduled, `pendPreds` is the in-edge count. -/
theorem pendPreds_nil (G : DepGraph) (b : Nat) :
    pendPreds G [] b = G.edgeList.countP (fun pr => decide (pr.2 = b)) := by
  unfold pendPreds
  have h1 : (List.range G.nodes.length).filter (fun a => decide (a ∉ ([] : List Nat))) =
      List.range G.nodes.length := by
    refine List.filter_eq_self.mpr ?_
    intro a _
    simp
  rw [h1]
  have h2 : ((List.range G.nodes.length).map
      (fun a => (edgesOf G a).countP (fun e => decide (e.head_idx = b)))).sum =
      ((List.range G.nodes.length).map (fun a =>
        ((G.nodes.get? a).map
          (fun nd => nd.outgoing_edges.countP (fun e => decide (e.head_idx = b)))).getD 0)).sum := by
    congr 1
    refine List.map_congr_left ?_
    intro a _
    unfold edgesOf
    cases G.nodes.get? a <;> simp
  rw [h2, sum_over_nodes]
  unfold DepGraph.edgeList
  rw [List.countP_join, List.map_map]
  have h3 : (List.countP (fun pr => decide (pr.2 = b)) ∘ fun p =>
      p.2.outgoing_edges.map (fun e => (p.1, e.head_idx))) =
      (fun (p : Nat × DepNode) =>
        p.2.outgoing_edges.countP (fun e => decide (e.head_idx = b))) := by
    funext p
    simp only [Function.comp]
    rw [List.countP_map]
    rfl
  rw [h3]
  have h4 : G.nodes.enum.map (fun p =>
      p.2.outgoing_edges.countP (fun e => decide (e.head_idx = b))) =
      G.nodes.map (fun nd => nd.outgoing_edges.countP (fun e => decide (e.head_idx = b))) := by
    rw [show (fun (p : Nat × DepNode) =>
      p.2.outgoing_edges.countP (fun e => decide (e.head_idx = b))) =
      ((fun nd => nd.outgoing_edges.countP (fun e => decide (e.head_idx = b))) ∘ Prod.snd)
      from rfl]
    rw [← List.map_map, List.enum_map_snd]
  rw [h4]

/-! ## The reversed graph and the initial statistics -/

/-- `reverse` keeps the node count. -/
theorem reverse_length (g : DepGraph) : (g.reverse).nodes.length = g.nodes.length := by
  simp [DepGraph.reverse]

/-- `reverse` keeps the node labels. -/
theorem reverse_numUses (g : DepGraph) (u : Nat) (hu : u < g.nodes.length) :
    numUsesOf g.reverse u = numUsesOf g u := by
  unfold numUsesOf DepGraph.reverse
  rw [List.get?_map, List.get?_range hu]
  cases hg : g.nodes.get? u with
  | none =>
    rw [List.get?_eq_none] at hg
    omega
  | some nd => simp only [hg, Option.map_some', Option.getD_some]

/-- The edges of the reversal are the flipped edges (with in-range
sources, which is automatic for edges produced by `enum`). -/
theorem reverse_edge_iff (g : DepGraph) (pr : Nat × Nat) :
    pr ∈ (g.reverse).edgeList ↔ (pr.2, pr.1) ∈ g.edgeList ∧ pr.1 < g.nodes.length := by
  obtain ⟨a, b⟩ := pr
  rw [edgeList_mem_iff, edgeList_mem_iff]
  constructor
  · rintro ⟨e, he, hhead⟩
    have han : a < (g.reverse).nodes.length := by
      by_contra hge
      unfold edgesOf at he
      rw [List.get?_eq_none.mpr (by omega)] at he
      simp at he
    rw [reverse_length] at han
    unfold edgesOf DepGraph.reverse at he
    rw [List.get?_map, List.get?_range han] at he
    simp only [Option.map_some', Option.getD_some] at he
    rw [List.mem_flatten] at he
    obtain ⟨L, hL, heL⟩ := he
    rw [List.mem_map] at hL
    obtain ⟨⟨pi, pn⟩, hp, rfl⟩ := hL
    rw [List.mem_map] at heL
    obtain ⟨e0, he0, he0eq⟩ := heL
    rw [List.mem_filter] at he0
    have hpi : pi = b := by
      rw [← he0eq] at hhead
      exact hhead
    subst hpi
    rw [List.mem_enum_iff_get?] at hp
    refine ⟨⟨e0, ?_, by simpa using he0.2⟩, han⟩
    unfold edgesOf
    rw [hp]
    simpa using he0.1
  · rintro ⟨⟨e0, he0, hhead0⟩, han⟩
    cases hg : g.nodes.get? b with
    | none =>
      unfold edgesOf at he0
      rw [hg] at he0
      simp at he0
    | some nd =>
      unfold edgesOf at he0
      rw [hg] at he0
      simp only [Option.map_some', Option.getD_some] at he0
      refine ⟨⟨b, e0.label⟩, ?_, rfl⟩
      unfold edgesOf DepGraph.reverse
      rw [List.get?_map, List.get?_range han]
      simp only [Option.map_some', Option.getD_some]
      rw [List.mem_flatten]
      refine ⟨(nd.outgoing_edges.filter (fun e => e.head_idx == a)).map
        (fun e => DepEdge.mk b e.label), ?_, ?_⟩
      · rw [List.mem_map]
        exact ⟨(b, nd), List.mem_enum_iff_get?.mpr hg, rfl⟩
      · rw [List.mem_map]
        refine ⟨e0, ?_, rfl⟩
        rw [List.mem_filter]
        exact ⟨he0, by simpa using hhead0⟩

/-- `calc_statistics` keeps the node count. -/
theorem calc_statistics_length (g : DepGraph) :
    (calc_statistics g).1.nodes.length = g.nodes.length := by
  simp [calc_statistics]

/-- `calc_statistics` keeps the adjacency lists. -/
theorem calc_statistics_edgesOf (g : DepGraph) (b : Nat) :
    edgesOf (calc_statistics g).1 b = edgesOf g b := by
  unfold edgesOf calc_statistics
  rw [List.get?_map]
  cases g.nodes.get? b <;> simp

/-- `calc_statistics` keeps the whole edge list. -/
theorem calc_statistics_edgeList (g : DepGraph) (pr : Nat × Nat) :
    pr ∈ (calc_statistics g).1.edgeList ↔ pr ∈ g.edgeList := by
  obtain ⟨a, b⟩ := pr
  rw [edgeList_mem_iff, edgeList_mem_iff, calc_statistics_edgesOf]

/-- `calc_statistics` sets `num_uses` to the out-degree. -/
theorem calc_statistics_numUses (g : DepGraph) (b : Nat) (hb : b < g.nodes.length) :
    numUsesOf (calc_statistics g).1 b = ((edgesOf g b).length : Int) := by
  unfold numUsesOf calc_statistics edgesOf
  rw [List.get?_map]
  cases hg : g.nodes.get? b with
  | none =>
    rw [List.get?_eq_none] at hg
    omega
  | some nd => simp

/-- Membership in the initial ready list. -/
theorem calc_statistics_ready (g : DepGraph) (i : Nat) :
    i ∈ (calc_statistics g).2 ↔ i < g.nodes.length ∧ edgesOf g i = [] := by
  unfold calc_statistics
  rw [List.mem_filter, List.mem_range]
  constructor
  · rintro ⟨hlt, hcond⟩
    refine ⟨hlt, ?_⟩
    cases hg : g.nodes.get? i with
    | none =>
      rw [List.get?_eq_none] at hg
      omega
    | some nd =>
      rw [hg] at hcond
      simp only [Option.map_some', Option.getD_some] at hcond
      unfold edgesOf
      rw [hg]
      simpa using hcond
  · rintro ⟨hlt, hedges⟩
    refine ⟨hlt, ?_⟩
    cases hg : g.nodes.get? i with
    | none =>
      rw [List.get?_eq_none] at hg
      omega
    | some nd =>
      unfold edgesOf at hedges
      rw [hg] at hedges
      simp only [Option.map_some', Option.getD_some] at hedges
      simpa using hedges

/-- Counting a constant predicate. -/
theorem countP_const {α : Type _} (l : List α) (c : Bool) :
    l.countP (fun _ => c) = if c then l.length else 0 := by
  induction l with
  | nil => cases c <;> simp
  | cons x xs ih =>
    rw [List.countP_cons, ih]
    cases c <;> simp

/-- The head count of the edge list through the per-node adjacency
lists. -/
theorem edgeList_countP_head (g : DepGraph) (b : Nat) :
    g.edgeList.countP (fun pr => decide (pr.2 = b)) =
      (g.nodes.map (fun nd =>
        nd.outgoing_edges.countP (fun e => decide (e.head_idx = b)))).sum := by
  unfold DepGraph.edgeList
  rw [List.countP_join, List.map_map]
  have h3 : (List.countP (fun pr => decide (pr.2 = b)) ∘ fun (p : Nat × DepNode) =>
      p.2.outgoing_edges.map (fun e => (p.1, e.head_idx))) =
      (fun (p : Nat × DepNode) =>
        p.2.outgoing_edges.countP (fun e => decide (e.head_idx = b))) := by
    funext p
    simp only [Function.comp]
    rw [List.countP_map]
    rfl
  rw [h3]
  rw [show (fun (p : Nat × DepNode) =>
    p.2.outgoing_edges.countP (fun e => decide (e.head_idx = b))) =
    ((fun nd => nd.outgoing_edges.countP (fun e => decide (e.head_idx = b))) ∘ Prod.snd)
    from rfl]
  rw [← List.map_map, List.enum_map_snd]

/-- In-edge count of node `b` in the reversal: the out-degree of `b`. -/
theorem reverse_head_count (g : DepGraph) (b : Nat)
    (hbd : ∀ pr ∈ g.edgeList, pr.2 < g.nodes.length) (hb : b < g.nodes.length) :
    (g.reverse).edgeList.countP (fun pr => decide (pr.2 = b)) = (edgesOf g b).length := by
  cases hgb : g.nodes.get? b with
  | none =>
    rw [List.get?_eq_none] at hgb
    omega
  | some ndb =>
  have hedges : edgesOf g b = ndb.outgoing_edges := by
    unfold edgesOf
    rw [hgb]
    rfl
  have key : ((List.range g.nodes.length).map (fun u =>
      (ndb.outgoing_edges.filter (fun e => e.head_idx == u)).length)).sum =
      (edgesOf g b).length := by
    have hlen : ∀ u ∈ List.range g.nodes.length,
        (ndb.outgoing_edges.filter (fun e => e.head_idx == u)).length =
        ndb.outgoing_edges.countP (fun e => decide (e.head_idx = u)) := by
      intro u _
      rw [List.countP_eq_length_filter]
      congr 1
    rw [List.map_congr_left hlen, hedges]
    refine sum_count_heads ndb.outgoing_edges g.nodes.length ?_
    intro e he
    refine hbd (b, e.head_idx) ?_
    rw [edgeList_mem_iff]
    exact ⟨e, by rw [hedges]; exact he, rfl⟩
  rw [edgeList_countP_head]
  unfold DepGraph.reverse
  rw [List.map_map]
  refine Eq.trans ?_ key
  congr 1
  refine List.map_congr_left ?_
  intro u hu
  simp only [Function.comp]
  have hmid : ((g.nodes.enum).map (fun (p : Nat × DepNode) => if p.1 = b then
      (p.2.outgoing_edges.filter (fun e => e.head_idx == u)).length else 0)).sum =
      (ndb.outgoing_edges.filter (fun e => e.head_idx == u)).length := by
    rw [show g.nodes.enum = g.nodes.enumFrom 0 from rfl]
    rw [sum_enumFrom_indicator
      (fun nd => (nd.outgoing_edges.filter (fun e => e.head_idx == u)).length) b g.nodes 0]
    rw [if_pos (Nat.zero_le b)]
    simp only [Nat.sub_zero]
    rw [hgb]
    rfl
  rw [List.countP_join, List.map_map]
  refine Eq.trans ?_ hmid
  congr 1
  refine List.map_congr_left ?_
  intro p hp
  simp only [Function.comp]
  rw [List.countP_map]
  rw [show ((fun (e : DepEdge) => decide (e.head_idx = b)) ∘
    (fun (e : DepEdge) => DepEdge.mk p.1 e.label)) =
    (fun (_ : DepEdge) => decide (p.1 = b)) from rfl]
  rw [countP_const]
  by_cases hp1 : p.1 = b
  · rw [if_pos (by simpa using hp1), if_pos hp1]
  · rw [if_neg (by simpa using hp1), if_neg hp1]

/-- At the start, every node\'s `num_uses` equals its pending in-edge
count in the reversed graph. -/
theorem sched_init_numUses (g0 : DepGraph)
    (hbd : ∀ pr ∈ g0.edgeList, pr.2 < g0.nodes.length) (b : Nat) :
    numUsesOf ((calc_statistics g0).1.reverse) b =
      (pendPreds ((calc_statistics g0).1.reverse) [] b : Int) := by
  have hlen1 : (calc_statistics g0).1.nodes.length = g0.nodes.length :=
    calc_statistics_length g0
  by_cases hb : b < g0.nodes.length
  · have hb1 : b < (calc_statistics g0).1.nodes.length := by omega
    rw [reverse_numUses _ b hb1, calc_statistics_numUses g0 b hb]
    rw [pendPreds_nil, reverse_head_count _ b ?_ hb1, calc_statistics_edgesOf]
    intro pr hpr
    rw [calc_statistics_edgeList] at hpr
    have := hbd pr hpr
    omega
  · have hL : numUsesOf ((calc_statistics g0).1.reverse) b = 0 := by
      unfold numUsesOf
      rw [List.get?_eq_none.mpr (by rw [reverse_length]; omega)]
      rfl
    have hR : pendPreds ((calc_statistics g0).1.reverse) [] b = 0 := by
      rw [pendPreds_nil, List.countP_eq_zero]
      intro pr hpr hph
      rw [reverse_edge_iff] at hpr
      have hsrc := edgeList_src_lt _ _ hpr.1
      simp only [decide_eq_true_eq] at hph
      omega
    rw [hL, hR]
    rfl

/-- Initial ready entries have no pending predecessors. -/
theorem sched_init_ready_pend (g0 : DepGraph) (i : Nat)
    (hi : i ∈ (calc_statistics g0).2) :
    pendPreds ((calc_statistics g0).1.reverse) [] i = 0 := by
  rw [calc_statistics_ready] at hi
  rw [pendPreds_zero_iff]
  intro pr hpr hhead
  rw [reverse_edge_iff] at hpr
  obtain ⟨h1, _⟩ := hpr
  obtain ⟨p2, p1⟩ := pr
  simp only at hhead
  subst hhead
  rw [edgeList_mem_iff, calc_statistics_edgesOf, hi.2] at h1
  simp at h1

/-- Well-formedness of the reversed statistics graph. -/
theorem sched_G0_wf (g0 : DepGraph)
    (hbd : ∀ pr ∈ g0.edgeList, pr.1 < pr.2 ∧ pr.2 < g0.nodes.length) :
    GraphWF ((calc_statistics g0).1.reverse) := by
  intro pr hpr
  rw [reverse_edge_iff] at hpr
  obtain ⟨h1, h2⟩ := hpr
  have hsrc := edgeList_src_lt _ _ h1
  rw [calc_statistics_length] at hsrc
  rw [calc_statistics_edgeList] at h1
  have := hbd _ h1
  constructor
  · rw [reverse_length, calc_statistics_length]
    exact hsrc
  · omega

/-! ## The ready/future bookkeeping of the scheduling loop -/

/-- One index occurs at most once: erasing the chosen entry removes its
index entirely. -/
theorem erase_index_free {β : Type _} [DecidableEq β] (idx : β → Nat) (l : List β) (x : β)
    (hx : x ∈ l) (hnd : (l.map idx).Nodup) :
    ∀ y ∈ l.erase x, idx y ≠ idx x := by
  obtain ⟨l1, l2, hx1, hdec, herase⟩ := List.exists_erase_eq hx
  rw [herase]
  rw [hdec, List.map_append, List.map_cons] at hnd
  rw [List.nodup_middle, List.nodup_cons] at hnd
  intro y hy hidx
  refine hnd.1 ?_
  rw [← List.map_append] at hnd ⊢
  rw [← hidx]
  exact List.mem_map_of_mem idx hy

/-- `drainFuture` preserves the pending-entry facts and the joint
duplicate-freeness. -/
theorem drainFuture_inv (G : DepGraph) (g : DepGraph) (order : List Nat) :
    ∀ (dfuel cur : Nat) (ready : List ReadyInstr) (future : List FutureReadyInstr),
      (∀ x ∈ ready, x.index ∉ order ∧ pendPreds G order x.index = 0) →
      (∀ x ∈ future, x.index ∉ order ∧ pendPreds G order x.index = 0) →
      (ready.map (fun r => r.index) ++ future.map (fun f => f.index)).Nodup →
      (∀ x ∈ (drainFuture g dfuel cur ready future).1,
          x.index ∉ order ∧ pendPreds G order x.index = 0) ∧
      (∀ x ∈ (drainFuture g dfuel cur ready future).2,
          x.index ∉ order ∧ pendPreds G order x.index = 0) ∧
      ((drainFuture g dfuel cur ready future).1.map (fun r => r.index) ++
        (drainFuture g dfuel cur ready future).2.map (fun f => f.index)).Nodup := by
  intro dfuel
  induction dfuel with
  | zero =>
    intro cur ready future hr hf hnd
    exact ⟨hr, hf, hnd⟩
  | succ m ih =>
    intro cur ready future hr hf hnd
    unfold drainFuture
    cases hmax : listMax FutureReadyInstr.le future with
    | none => exact ⟨hr, hf, hnd⟩
    | some fr =>
      have hfrmem : fr ∈ future := listMax_mem _ _ _ hmax
      dsimp only
      by_cases hcur : cur ≥ fr.ready_cycle
      · rw [if_pos hcur]
        have hfr := hf fr hfrmem
        have hfresh : ∀ y ∈ future.erase fr, y.index ≠ fr.index :=
          erase_index_free (fun f => f.index) future fr hfrmem (List.Nodup.of_append_right hnd)
        have hnotr : fr.index ∉ ready.map (fun r => r.index) := by
          intro hmem
          exact (List.nodup_append.mp hnd).2.2 hmem
            (List.mem_map_of_mem (fun f => f.index) hfrmem)
        have hnew_notin : ReadyInstr.new g fr.index ∉ ready := by
          intro hmem
          exact hnotr (List.mem_map.mpr ⟨ReadyInstr.new g fr.index, hmem, rfl⟩)
        have hset : setInsert ready (ReadyInstr.new g fr.index) =
            ReadyInstr.new g fr.index :: ready := by
          unfold setInsert
          rw [if_neg hnew_notin]
        refine ih cur _ _ ?_ ?_ ?_
        · intro x hx
          rw [hset, List.mem_cons] at hx
          cases hx with
          | inl hx => subst hx; exact hfr
          | inr hx => exact hr x hx
        · intro x hx
          exact hf x (List.mem_of_mem_erase hx)
        · rw [hset, List.map_cons]
          rw [show (ReadyInstr.new g fr.index).index = fr.index from rfl]
          rw [List.cons_append, List.nodup_cons]
          constructor
          · intro hmem
            rw [List.mem_append] at hmem
            cases hmem with
            | inl hmem => exact hnotr hmem
            | inr hmem =>
              rw [List.mem_map] at hmem
              obtain ⟨y, hy, hyi⟩ := hmem
              exact hfresh y hy hyi
          · refine List.Nodup.sublist ?_ hnd
            refine List.Sublist.append_left ?_ _
            exact List.Sublist.map _ (List.erase_sublist fr future)
      · rw [if_neg hcur]
        exact ⟨hr, hf, hnd⟩

/-- What `pickNext` returns: an entry of the ready or future set; the
sets only shrink, the chosen index is fully removed, and joint
duplicate-freeness is kept. -/
theorem pickNext_props (s : GenerateOrder O) (th : ScheduleThresholds) (used : Int)
    (ready : List ReadyInstr) (future : List FutureReadyInstr) (cur : Nat)
    (next : Nat) (ready2 : List ReadyInstr) (future2 : List FutureReadyInstr) (cur2 : Nat)
    (h : pickNext s th used ready future cur = some (next, ready2, future2, cur2))
    (hnd : (ready.map (fun r => r.index) ++ future.map (fun f => f.index)).Nodup) :
    ((∃ ri ∈ ready, ri.index = next) ∨ (∃ fr ∈ future, fr.index = next)) ∧
    (∀ x ∈ ready2, x ∈ ready) ∧ (∀ x ∈ future2, x ∈ future) ∧
    (∀ x ∈ ready2, x.index ≠ next) ∧ (∀ x ∈ future2, x.index ≠ next) ∧
    (ready2.map (fun r => r.index) ++ future2.map (fun f => f.index)).Nodup := by
  unfold pickNext at h
  have hcase_ready : ∀ (ri : ReadyInstr), ri ∈ ready →
      next = ri.index → ready2 = ready.erase ri → future2 = future →
      ((∃ ri ∈ ready, ri.index = next) ∨ (∃ fr ∈ future, fr.index = next)) ∧
      (∀ x ∈ ready2, x ∈ ready) ∧ (∀ x ∈ future2, x ∈ future) ∧
      (∀ x ∈ ready2, x.index ≠ next) ∧ (∀ x ∈ future2, x.index ≠ next) ∧
      (ready2.map (fun r => r.index) ++ future2.map (fun f => f.index)).Nodup := by
    intro ri hri hnext hr2 hf2
    subst hnext hr2 hf2
    refine ⟨Or.inl ⟨ri, hri, rfl⟩, fun x hx => List.mem_of_mem_erase hx, fun x hx => hx,
      ?_, ?_, ?_⟩
    · exact erase_index_free (fun r => r.index) ready ri hri (List.Nodup.of_append_left hnd)
    · intro x hx hidx
      exact (List.nodup_append.mp hnd).2.2
        (hidx ▸ List.mem_map_of_mem (fun r => r.index) hri)
        (List.mem_map_of_mem (fun f => f.index) hx)
    · refine List.Nodup.sublist ?_ hnd
      have : List.Sublist (ready.erase ri) ready := List.erase_sublist ri ready
      have h2 := List.Sublist.map (fun (r : ReadyInstr) => r.index) this
      exact List.Sublist.append h2 (List.Sublist.refl _)
  split at h
  · cases hmax : listMax ReadyInstr.le ready with
    | none => rw [hmax] at h; simp at h
    | some ri =>
      rw [hmax] at h
      dsimp only at h
      injection h with h
      simp only [Prod.mk.injEq] at h
      obtain ⟨h1, h2, h3, h4⟩ := h
      exact hcase_ready ri (listMax_mem _ _ _ hmax) h1.symm h2.symm h3.symm
  · cases hbest : listMax scoredReadyLe
        (ready.map (fun ri => (s.new_score ri.index 0 th, ri))) with
    | none => rw [hbest] at h; simp at h
    | some best =>
      rw [hbest] at h
      dsimp only at h
      have hbestmem : best.2 ∈ ready := by
        have := listMax_mem _ _ _ hbest
        rw [List.mem_map] at this
        obtain ⟨ri, hri, heq⟩ := this
        rw [← heq]
        exact hri
      cases hcand : listMax scoredFutureLe (future.filterMap (fun fr =>
          let sc := s.new_score fr.index (fr.ready_cycle - cur) th
          if scoreLt best.1 sc then some (sc, fr) else Option.none)) with
      | none =>
        rw [hcand] at h
        dsimp only at h
        injection h with h
        simp only [Prod.mk.injEq] at h
        obtain ⟨h1, h2, h3, h4⟩ := h
        exact hcase_ready best.2 hbestmem h1.symm h2.symm h3.symm
      | some bc =>
        rw [hcand] at h
        have hbcmem : bc.2 ∈ future := by
          have := listMax_mem _ _ _ hcand
          rw [List.mem_filterMap] at this
          obtain ⟨fr, hfr, heq⟩ := this
          dsimp only at heq
          split at heq
          · injection heq with heq
            rw [← heq]
            exact hfr
          · simp at heq
        dsimp only at h
        split at h
        · injection h with h
          simp only [Prod.mk.injEq] at h
          obtain ⟨h1, h2, h3, h4⟩ := h
          subst h2 h3
          refine ⟨Or.inr ⟨bc.2, hbcmem, h1⟩, fun x hx => hx,
            fun x hx => List.mem_of_mem_erase hx, ?_, ?_, ?_⟩
          · intro x hx hidx
            refine (List.nodup_append.mp hnd).2.2
              (hidx ▸ List.mem_map_of_mem (fun (r : ReadyInstr) => r.index) hx) ?_
            rw [← h1]
            exact List.mem_map_of_mem (fun f => f.index) hbcmem
          · intro x hx
            rw [← h1]
            exact erase_index_free (fun f => f.index) future bc.2 hbcmem
              (List.Nodup.of_append_right hnd) x hx
          · refine List.Nodup.sublist ?_ hnd
            have : List.Sublist (future.erase bc.2) future := List.erase_sublist bc.2 future
            exact List.Sublist.append_left (List.Sublist.map _ this) _
        · simp at h

/-- Updating a node\'s label keeps every adjacency list. -/
theorem edgesOf_set_label (g : DepGraph) (i : Nat) (dep : DepNode) (lb : DepNodeLabel)
    (hget : g.nodes.get? i = some dep) (a : Nat) :
    edgesOf ⟨g.nodes.set i { dep with label := lb }⟩ a = edgesOf g a := by
  unfold edgesOf
  by_cases hai : a = i
  · subst hai
    simp only
    rw [List.get?_set_eq, hget]
    rfl
  · simp only
    rw [List.get?_set_ne _ _ (Ne.symm hai)]

/-- The updated node\'s `num_uses` is the new label\'s. -/
theorem numUsesOf_set_self (g : DepGraph) (i : Nat) (dep : DepNode) (lb : DepNodeLabel)
    (hget : g.nodes.get? i = some dep) :
    numUsesOf ⟨g.nodes.set i { dep with label := lb }⟩ i = lb.num_uses := by
  unfold numUsesOf
  simp only
  rw [List.get?_set_eq, hget]
  rfl

/-- Other nodes\' `num_uses` are unchanged. -/
theorem numUsesOf_set_ne (g : DepGraph) (i : Nat) (dep : DepNode) (lb : DepNodeLabel)
    (a : Nat) (hai : a ≠ i) :
    numUsesOf ⟨g.nodes.set i { dep with label := lb }⟩ a = numUsesOf g a := by
  unfold numUsesOf
  simp only
  rw [List.get?_set_ne _ _ (Ne.symm hai)]

/-- Reading `num_uses` through `get?`. -/
theorem numUsesOf_get (g : DepGraph) (i : Nat) (dep : DepNode)
    (hget : g.nodes.get? i = some dep) : numUsesOf g i = dep.label.num_uses := by
  unfold numUsesOf
  rw [hget]
  rfl

/-- The edge-draining fold of `scheduleCand` restores the `num_uses`
accounting for the grown order, and inserts exactly the nodes whose
pending count reaches zero. -/
theorem schedEdges_fold (G : DepGraph) (HWF : GraphWF G) (order : List Nat) (next : Nat)
    (hnext_no : next ∉ order) (hnextlt : next < G.nodes.length)
    (hA8 : ∀ p x, order.get? p = some x → ∀ pr ∈ G.edgeList, pr.2 = x → pr.1 ∈ order.take p)
    (ready2 : List ReadyInstr)
    (hready_pend : ∀ x ∈ ready2, pendPreds G order x.index = 0)
    (future2 : List FutureReadyInstr)
    (hfut2_pend : ∀ x ∈ future2, pendPreds G order x.index = 0)
    (current : Nat) :
    ∀ (es : List DepEdge), (∀ e ∈ es, e ∈ edgesOf G next) →
    ∀ (grem : DepGraph) (futrem : List FutureReadyInstr) (g2 : DepGraph)
      (fut3 : List FutureReadyInstr),
      es.foldl
        (fun (acc : DepGraph × List FutureReadyInstr) edge =>
          match acc with
          | (g, future) =>
          match g.nodes.get? edge.head_idx with
          | Option.none => (g, future)
          | some dep =>
            let newLbl : DepNodeLabel :=
              ⟨max dep.label.ready_cycle (current + edge.label.latency), dep.label.num_uses - 1⟩
            let g : DepGraph := ⟨g.nodes.set edge.head_idx { dep with label := newLbl }⟩
            let future :=
              if newLbl.num_uses ≤ 0 then setInsert future (FutureReadyInstr.new g edge.head_idx)
              else future
            (g, future)) (grem, futrem) = (g2, fut3) →
      grem.nodes.length = G.nodes.length →
      (∀ a, edgesOf grem a = if a ∈ order ++ [next] then [] else edgesOf G a) →
      (∀ b, b ∉ order ++ [next] →
        numUsesOf grem b = (pendPreds G (order ++ [next]) b : Int) +
          (es.countP (fun e => decide (e.head_idx = b)) : Int)) →
      (∀ x ∈ futrem, x.index ∉ order ++ [next] ∧ pendPreds G (order ++ [next]) x.index = 0) →
      (∀ x ∈ futrem, x ∈ future2 ∨ es.countP (fun e2 => decide (e2.head_idx = x.index)) = 0) →
      ((ready2.map (fun r => r.index) ++ futrem.map (fun f => f.index)).Nodup) →
      g2.nodes.length = G.nodes.length ∧
      (∀ a, edgesOf g2 a = if a ∈ order ++ [next] then [] else edgesOf G a) ∧
      (∀ b, b ∉ order ++ [next] → numUsesOf g2 b = (pendPreds G (order ++ [next]) b : Int)) ∧
      (∀ x ∈ fut3, x.index ∉ order ++ [next] ∧ pendPreds G (order ++ [next]) x.index = 0) ∧
      ((ready2.map (fun r => r.index) ++ fut3.map (fun f => f.index)).Nodup) := by
  intro es
  induction es with
  | nil =>
    intro hsub grem futrem g2 fut3 heq h1 h2 h3 h4 h5 h6
    rw [List.foldl_nil] at heq
    injection heq with heqg heqf
    subst heqg heqf
    refine ⟨h1, h2, ?_, h4, h6⟩
    intro b hb
    have := h3 b hb
    simpa using this
  | cons e tail ih =>
    intro hsub grem futrem g2 fut3 heq h1 h2 h3 h4 h5 h6
    have he : e ∈ edgesOf G next := hsub e (List.mem_cons_self _ _)
    have hGe : (next, e.head_idx) ∈ G.edgeList := by
      rw [edgeList_mem_iff]
      exact ⟨e, he, rfl⟩
    have hwf_e := HWF _ hGe
    have hh_lt : e.head_idx < G.nodes.length := hwf_e.1
    have hh_ne_next : e.head_idx ≠ next := fun hh => hwf_e.2 (hh ▸ rfl)
    have hh_no_order : e.head_idx ∉ order := by
      intro hmem
      obtain ⟨p, hp⟩ := List.mem_iff_get?.mp hmem
      have := hA8 p _ hp (next, e.head_idx) hGe rfl
      exact hnext_no (List.take_subset _ _ this)
    have hh_not' : e.head_idx ∉ order ++ [next] := by
      rw [List.mem_append, List.mem_singleton]
      rintro (hmem | hmem)
      · exact hh_no_order hmem
      · exact hh_ne_next hmem
    have hpend_pos : 0 < pendPreds G order e.head_idx := by
      by_contra hz
      have hz0 : pendPreds G order e.head_idx = 0 := by omega
      rw [pendPreds_zero_iff] at hz0
      exact hnext_no (hz0 (next, e.head_idx) hGe rfl)
    rw [List.foldl_cons] at heq
    cases hdep : grem.nodes.get? e.head_idx with
    | none =>
      rw [List.get?_eq_none] at hdep
      omega
    | some dep =>
      dsimp only at heq
      rw [hdep] at heq
      dsimp only at heq
      have hnum_pre := h3 e.head_idx hh_not'
      rw [List.countP_cons, if_pos (by simp)] at hnum_pre
      have hdepval : numUsesOf grem e.head_idx = dep.label.num_uses :=
        numUsesOf_get grem e.head_idx dep hdep
      have hnum_new : dep.label.num_uses - 1 =
          (pendPreds G (order ++ [next]) e.head_idx : Int) +
          (tail.countP (fun e2 => decide (e2.head_idx = e.head_idx)) : Int) := by
        rw [← hdepval]
        push_cast at hnum_pre ⊢
        omega
      by_cases hins : (DepNodeLabel.mk
          (max dep.label.ready_cycle (current + e.label.latency))
          (dep.label.num_uses - 1)).num_uses ≤ 0
      · rw [if_pos hins] at heq
        have hzero : pendPreds G (order ++ [next]) e.head_idx = 0 ∧
            tail.countP (fun e2 => decide (e2.head_idx = e.head_idx)) = 0 := by
          simp only at hins
          rw [hnum_new] at hins
          constructor <;> omega
        have hfresh_fut : ∀ x ∈ futrem, x.index ≠ e.head_idx := by
          intro x hx hidx
          cases h5 x hx with
          | inl hx2 =>
            have := hfut2_pend x hx2
            rw [hidx, pendPreds_zero_iff] at this
            exact hnext_no (this (next, e.head_idx) hGe rfl)
          | inr hx2 =>
            rw [hidx, List.countP_cons, if_pos (by simp)] at hx2
            omega
        have hfresh_ready : ∀ x ∈ ready2, x.index ≠ e.head_idx := by
          intro x hx hidx
          have := hready_pend x hx
          rw [hidx, pendPreds_zero_iff] at this
          exact hnext_no (this (next, e.head_idx) hGe rfl)
        have hnewmem : FutureReadyInstr.new
            (DepGraph.mk (grem.nodes.set e.head_idx { dep with label :=
              ⟨max dep.label.ready_cycle (current + e.label.latency),
                dep.label.num_uses - 1⟩ })) e.head_idx ∉ futrem := by
          intro hmem
          exact hfresh_fut _ hmem rfl
        rw [show setInsert futrem (FutureReadyInstr.new
            (DepGraph.mk (grem.nodes.set e.head_idx { dep with label :=
              ⟨max dep.label.ready_cycle (current + e.label.latency),
                dep.label.num_uses - 1⟩ })) e.head_idx) =
            FutureReadyInstr.new
            (DepGraph.mk (grem.nodes.set e.head_idx { dep with label :=
              ⟨max dep.label.ready_cycle (current + e.label.latency),
                dep.label.num_uses - 1⟩ })) e.head_idx :: futrem from by
          unfold setInsert
          rw [if_neg hnewmem]] at heq
        refine ih (fun e2 he2 => hsub e2 (List.mem_cons_of_mem _ he2)) _ _ g2 fut3 heq
          ?_ ?_ ?_ ?_ ?_ ?_
        · rw [show (DepGraph.mk (grem.nodes.set e.head_idx { dep with label :=
            ⟨max dep.label.ready_cycle (current + e.label.latency),
              dep.label.num_uses - 1⟩ })).nodes.length = grem.nodes.length from
            List.length_set _ _ _]
          exact h1
        · intro a
          rw [edgesOf_set_label grem e.head_idx dep _ hdep a]
          exact h2 a
        · intro b hb
          by_cases hbe : b = e.head_idx
          · subst hbe
            rw [numUsesOf_set_self grem e.head_idx dep _ hdep]
            simp only
            rw [hnum_new]
          · rw [numUsesOf_set_ne grem e.head_idx dep _ b hbe]
            have := h3 b hb
            rw [List.countP_cons, if_neg (by simpa using fun hh => hbe hh.symm)] at this
            simpa using this
        · intro x hx
          rw [List.mem_cons] at hx
          cases hx with
          | inl hx =>
            subst hx
            exact ⟨hh_not', hzero.1⟩
          | inr hx => exact h4 x hx
        · intro x hx
          rw [List.mem_cons] at hx
          cases hx with
          | inl hx =>
            subst hx
            exact Or.inr hzero.2
          | inr hx =>
            cases h5 x hx with
            | inl hx2 => exact Or.inl hx2
            | inr hx2 =>
              rw [List.countP_cons] at hx2
              refine Or.inr ?_
              omega
        · rw [List.map_cons]
          rw [show (FutureReadyInstr.new
              (DepGraph.mk (grem.nodes.set e.head_idx { dep with label :=
                ⟨max dep.label.ready_cycle (current + e.label.latency),
                  dep.label.num_uses - 1⟩ })) e.head_idx).index = e.head_idx from rfl]
          rw [List.nodup_middle, List.nodup_cons]
          constructor
          · intro hmem
            rw [List.mem_append] at hmem
            cases hmem with
            | inl hmem =>
              rw [List.mem_map] at hmem
              obtain ⟨y, hy, hyi⟩ := hmem
              exact hfresh_ready y hy hyi
            | inr hmem =>
              rw [List.mem_map] at hmem
              obtain ⟨y, hy, hyi⟩ := hmem
              exact hfresh_fut y hy hyi
          · exact h6
      · rw [if_neg hins] at heq
        refine ih (fun e2 he2 => hsub e2 (List.mem_cons_of_mem _ he2)) _ _ g2 fut3 heq
          ?_ ?_ ?_ ?_ ?_ ?_
        · rw [show (DepGraph.mk (grem.nodes.set e.head_idx { dep with label :=
            ⟨max dep.label.ready_cycle (current + e.label.latency),
              dep.label.num_uses - 1⟩ })).nodes.length = grem.nodes.length from
            List.length_set _ _ _]
          exact h1
        · intro a
          rw [edgesOf_set_label grem e.head_idx dep _ hdep a]
          exact h2 a
        · intro b hb
          by_cases hbe : b = e.head_idx
          · subst hbe
            rw [numUsesOf_set_self grem e.head_idx dep _ hdep]
            simp only
            rw [hnum_new]
          · rw [numUsesOf_set_ne grem e.head_idx dep _ b hbe]
            have := h3 b hb
            rw [List.countP_cons, if_neg (by simpa using fun hh => hbe hh.symm)] at this
            simpa using this
        · exact h4
        · intro x hx
          cases h5 x hx with
          | inl hx2 => exact Or.inl hx2
          | inr hx2 =>
            rw [List.countP_cons] at hx2
            refine Or.inr ?_
            omega
        · exact h6

/-- `scheduleCand` extends the loop invariant by the chosen index. -/
theorem scheduleCand_inv (G : DepGraph) (HWF : GraphWF G)
    (s : GenerateOrder O) (g : DepGraph) (future2 : List FutureReadyInstr)
    (cur next : Nat) (order : List Nat) (ready2 : List ReadyInstr)
    (s' : GenerateOrder O) (g' : DepGraph) (future3 : List FutureReadyInstr)
    (h : scheduleCand s g future2 cur next = some (s', g', future3))
    (hnd : order.Nodup)
    (hlen : g.nodes.length = G.nodes.length)
    (hedges : ∀ a, edgesOf g a = if a ∈ order then [] else edgesOf G a)
    (hnum : ∀ b, b ∉ order → numUsesOf g b = (pendPreds G order b : Int))
    (hA8 : ∀ p x, order.get? p = some x → ∀ pr ∈ G.edgeList, pr.2 = x → pr.1 ∈ order.take p)
    (hnext_no : next ∉ order) (hnext_pend : pendPreds G order next = 0)
    (hready : ∀ x ∈ ready2, x.index ∉ order ∧ pendPreds G order x.index = 0)
    (hfut : ∀ x ∈ future2, x.index ∉ order ∧ pendPreds G order x.index = 0)
    (hne_r : ∀ x ∈ ready2, x.index ≠ next)
    (hne_f : ∀ x ∈ future2, x.index ≠ next)
    (hjnd : (ready2.map (fun r => r.index) ++ future2.map (fun f => f.index)).Nodup) :
    GoInv G g' ready2 future3 (order ++ [next]) := by
  unfold scheduleCand at h
  cases hnode : g.nodes.get? next with
  | none => rw [hnode] at h; simp at h
  | some node =>
    rw [hnode] at h
    dsimp only at h
    have hnextlt : next < G.nodes.length := by
      have hlt : next < g.nodes.length := by
        by_contra hge
        rw [List.get?_eq_none.mpr (by omega)] at hnode
        exact absurd hnode (by simp)
      omega
    have hnodeedges : node.outgoing_edges = edgesOf G next := by
      have h0 := hedges next
      rw [if_neg hnext_no] at h0
      rw [← h0]
      unfold edgesOf
      rw [hnode]
      rfl
    rcases hfold : node.outgoing_edges.foldl
        (fun (acc : DepGraph × List FutureReadyInstr) edge =>
          match acc with
          | (g, future) =>
          match g.nodes.get? edge.head_idx with
          | Option.none => (g, future)
          | some dep =>
            let newLbl : DepNodeLabel :=
              ⟨max dep.label.ready_cycle (cur + edge.label.latency), dep.label.num_uses - 1⟩
            let g : DepGraph := ⟨g.nodes.set edge.head_idx { dep with label := newLbl }⟩
            let future :=
              if newLbl.num_uses ≤ 0 then setInsert future (FutureReadyInstr.new g edge.head_idx)
              else future
            (g, future))
        (⟨g.nodes.set next { node with outgoing_edges := [] }⟩, future2) with ⟨g2, fut3t⟩
    rw [hfold] at h
    dsimp only at h
    cases hget2 : s.instrs.get? next with
    | none => rw [hget2] at h; simp at h
    | some instr =>
      rw [hget2] at h
      dsimp only at h
      cases hls : liveStep instr s.live s.net_live with
      | none => rw [hls] at h; simp at h
      | some lvnl =>
        rw [hls] at h
        obtain ⟨lv, nl⟩ := lvnl
        dsimp only at h
        injection h with h
        simp only [Prod.mk.injEq] at h
        obtain ⟨hs', hg', hf'⟩ := h
        subst hg' hf'
        have hsubmono : ∀ x ∈ order, x ∈ order ++ [next] :=
          fun x hx => List.mem_append_left _ hx
        have hpre1 : (DepGraph.mk (g.nodes.set next { node with outgoing_edges := [] })
            : DepGraph).nodes.length = G.nodes.length := by
          rw [show (DepGraph.mk (g.nodes.set next { node with outgoing_edges := [] })
            : DepGraph).nodes.length = (g.nodes.set next _).length from rfl]
          rw [List.length_set]
          exact hlen
        have hpre2 : ∀ a, edgesOf
            (DepGraph.mk (g.nodes.set next { node with outgoing_edges := [] })) a =
            if a ∈ order ++ [next] then [] else edgesOf G a := by
          intro a
          by_cases han : a = next
          · subst han
            rw [if_pos (List.mem_append_right _ (List.mem_singleton_self _))]
            unfold edgesOf
            simp only
            rw [List.get?_set_eq, hnode]
            rfl
          · have : edgesOf
                (DepGraph.mk (g.nodes.set next { node with outgoing_edges := [] })) a =
                edgesOf g a := by
              unfold edgesOf
              simp only
              rw [List.get?_set_ne _ _ (Ne.symm han)]
            rw [this, hedges a]
            by_cases hao : a ∈ order
            · rw [if_pos hao, if_pos (hsubmono a hao)]
            · rw [if_neg hao, if_neg ?_]
              rw [List.mem_append, List.mem_singleton]
              rintro (hmem | hmem)
              · exact hao hmem
              · exact han hmem
        have hpre3 : ∀ b, b ∉ order ++ [next] →
            numUsesOf (DepGraph.mk (g.nodes.set next { node with outgoing_edges := [] })) b =
            (pendPreds G (order ++ [next]) b : Int) +
            (node.outgoing_edges.countP (fun e => decide (e.head_idx = b)) : Int) := by
          intro b hb
          have hbo : b ∉ order := fun hmem => hb (List.mem_append_left _ hmem)
          have hbn : b ≠ next := by
            intro he
            exact hb (by rw [he]; exact List.mem_append_right _ (List.mem_singleton_self _))
          have hset : numUsesOf
              (DepGraph.mk (g.nodes.set next { node with outgoing_edges := [] })) b =
              numUsesOf g b := by
            unfold numUsesOf
            simp only
            rw [List.get?_set_ne _ _ (Ne.symm hbn)]
          rw [hset, hnum b hbo, hnodeedges]
          have := pendPreds_append G order next b hnextlt hnext_no
          rw [this]
          push_cast
          ring
        have hpre4 : ∀ x ∈ future2, x.index ∉ order ++ [next] ∧
            pendPreds G (order ++ [next]) x.index = 0 := by
          intro x hx
          refine ⟨?_, pendPreds_zero_mono G order _ _ hsubmono (hfut x hx).2⟩
          rw [List.mem_append, List.mem_singleton]
          rintro (hmem | hmem)
          · exact (hfut x hx).1 hmem
          · exact hne_f x hx hmem
        obtain ⟨K1, K2, K3, K4, K6⟩ := schedEdges_fold G HWF order next hnext_no hnextlt
          hA8 ready2 (fun x hx => (hready x hx).2) future2 (fun x hx => (hfut x hx).2) cur
          node.outgoing_edges (fun e he => hnodeedges ▸ he) _ future2 g2 fut3t hfold
          hpre1 hpre2 hpre3 hpre4 (fun x hx => Or.inl hx) hjnd
        refine ⟨?_, K1, K2, K3, ?_, K4, ?_, K6⟩
        · rw [List.nodup_append]
          refine ⟨hnd, by simp, ?_⟩
          intro x hx hx2
          rw [List.mem_singleton] at hx2
          subst hx2
          exact hnext_no hx
        · intro x hx
          refine ⟨?_, pendPreds_zero_mono G order _ _ hsubmono (hready x hx).2⟩
          rw [List.mem_append, List.mem_singleton]
          rintro (hmem | hmem)
          · exact (hready x hx).1 hmem
          · exact hne_r x hx hmem
        · intro p x hp pr hpr hpr2
          by_cases hplen : p < order.length
          · rw [List.get?_append hplen] at hp
            have := hA8 p x hp pr hpr hpr2
            rw [List.take_append_of_le_length (by omega)]
            exact this
          · rw [List.get?_append_right (by omega)] at hp
            cases hp0 : p - order.length with
            | zero =>
              rw [hp0] at hp
              simp only [List.get?_cons_zero, Option.some_inj] at hp
              subst hp
              have hple : order.length ≤ p := by omega
              have hpeq : p = order.length := by omega
              subst hpeq
              rw [List.take_append_of_le_length (by omega), List.take_length]
              rw [pendPreds_zero_iff] at hnext_pend
              exact hnext_pend pr hpr hpr2
            | succ m =>
              rw [hp0] at hp
              simp at hp

/-- The scheduling loop maintains the invariant and, on success, emits a
duplicate-free, edge-respecting order. -/
theorem generateOrderGo_inv (G : DepGraph) (HWF : GraphWF G) (th : ScheduleThresholds) :
    ∀ (fuel : Nat) (s : GenerateOrder O) (g : DepGraph) (ready : List ReadyInstr)
      (future : List FutureReadyInstr) (cur : Nat) (order : List Nat)
      (ordF : List Nat) (lic : PerRegFile Int),
      GoInv G g ready future order →
      generateOrderGo th fuel s g ready future cur order = some (some (ordF, lic)) →
      ordF.Nodup ∧
      ∀ p x, ordF.get? p = some x → ∀ pr ∈ G.edgeList, pr.2 = x → pr.1 ∈ ordF.take p := by
  intro fuel
  induction fuel with
  | zero =>
    intro s g ready future cur order ordF lic hInv h
    rw [generateOrderGo] at h
    simp at h
  | succ m ih =>
    intro s g ready future cur order ordF lic hInv h
    obtain ⟨A1, A3, A4, A5, A6, A7, A8, A10⟩ := hInv
    rw [generateOrderGo] at h
    dsimp only at h
    rcases hdrain : drainFuture g future.length cur ready future with ⟨readyD, futureD⟩
    rw [hdrain] at h
    dsimp only at h
    have hD := drainFuture_inv G g order future.length cur ready future A6 A7 A10
    rw [hdrain] at hD
    obtain ⟨D6, D7, D10⟩ := hD
    by_cases hre : readyD.isEmpty = true
    · rw [if_pos hre] at h
      cases hmax : listMax FutureReadyInstr.le futureD with
      | none =>
        rw [hmax] at h
        injection h with h
        injection h with h
        injection h with h1 h2
        subst h1
        exact ⟨A1, A8⟩
      | some fr =>
        rw [hmax] at h
        dsimp only at h
        split at h
        · exact ih s g readyD futureD fr.ready_cycle order ordF lic
            ⟨A1, A3, A4, A5, D6, D7, A8, D10⟩ h
        · simp at h
    · rw [if_neg hre] at h
      cases hpick : pickNext s th s.current_used_gprs readyD futureD cur with
      | none =>
        rw [hpick] at h
        simp at h
      | some pk =>
        rw [hpick] at h
        obtain ⟨nxt, readyP, futureP, curP⟩ := pk
        dsimp only at h
        obtain ⟨hfrom, hsubR, hsubF, hneR, hneF, hjnd⟩ :=
          pickNext_props s th s.current_used_gprs readyD futureD cur nxt readyP futureP curP
            hpick D10
        have hnext_no : nxt ∉ order := by
          cases hfrom with
          | inl hfr =>
            obtain ⟨ri, hri, hrieq⟩ := hfr
            exact hrieq ▸ (D6 ri hri).1
          | inr hfr =>
            obtain ⟨fr, hfr2, hfreq⟩ := hfr
            exact hfreq ▸ (D7 fr hfr2).1
        have hnext_pend : pendPreds G order nxt = 0 := by
          cases hfrom with
          | inl hfr =>
            obtain ⟨ri, hri, hrieq⟩ := hfr
            exact hrieq ▸ (D6 ri hri).2
          | inr hfr =>
            obtain ⟨fr, hfr2, hfreq⟩ := hfr
            exact hfreq ▸ (D7 fr hfr2).2
        split at h
        · injection h with h
          simp at h
        · cases hcand : scheduleCand s g futureP curP nxt with
          | none =>
            rw [hcand] at h
            simp at h
          | some sgf =>
            rw [hcand] at h
            obtain ⟨s2, g3, futureS⟩ := sgf
            dsimp only at h
            split at h
            · have hInv2 : GoInv G g3 readyP futureS (order ++ [nxt]) :=
                scheduleCand_inv G HWF s g futureP curP nxt order readyP s2 g3 futureS
                  hcand A1 A3 A4 A5 A8 hnext_no hnext_pend
                  (fun x hx => D6 x (hsubR x hx)) (fun x hx => D7 x (hsubF x hx))
                  hneR hneF hjnd
              exact ih s2 g3 readyP futureS (curP + 1) (order ++ [nxt]) ordF lic hInv2 h
            · simp at h

/-- The initial ready list is duplicate-free. -/
theorem calc_statistics_ready_nodup (g : DepGraph) : (calc_statistics g).2.Nodup := by
  unfold calc_statistics
  exact List.Nodup.filter _ (List.nodup_range _)

/-- Building the initial ready set: members come from the index list and
the indices stay duplicate-free. -/
theorem readyFold_props (G : DepGraph) :
    ∀ (l : List Nat) (r : List ReadyInstr),
      l.Nodup →
      (r.map (fun x => x.index)).Nodup →
      (∀ x ∈ r, ∀ i ∈ l, x.index ≠ i) →
      (∀ x ∈ l.foldl (fun r i => setInsert r (ReadyInstr.new G i)) r,
        x ∈ r ∨ ∃ i ∈ l, x = ReadyInstr.new G i) ∧
      ((l.foldl (fun r i => setInsert r (ReadyInstr.new G i)) r).map
        (fun x => x.index)).Nodup := by
  intro l
  induction l with
  | nil =>
    intro r _ hrnd _
    exact ⟨fun x hx => Or.inl hx, hrnd⟩
  | cons i l1 ih =>
    intro r hlnd hrnd hdisj
    rw [List.nodup_cons] at hlnd
    rw [List.foldl_cons]
    have hnotin : ReadyInstr.new G i ∉ r := by
      intro hmem
      exact hdisj _ hmem i (List.mem_cons_self _ _) rfl
    have hset : setInsert r (ReadyInstr.new G i) = ReadyInstr.new G i :: r := by
      unfold setInsert
      rw [if_neg hnotin]
    rw [hset]
    have hrnd2 : ((ReadyInstr.new G i :: r).map (fun x => x.index)).Nodup := by
      rw [List.map_cons, List.nodup_cons]
      refine ⟨?_, hrnd⟩
      intro hmem
      rw [List.mem_map] at hmem
      obtain ⟨y, hy, hyi⟩ := hmem
      exact hdisj y hy i (List.mem_cons_self _ _) hyi
    have hdisj2 : ∀ x ∈ ReadyInstr.new G i :: r, ∀ j ∈ l1, x.index ≠ j := by
      intro x hx j hj
      rw [List.mem_cons] at hx
      cases hx with
      | inl hx =>
        subst hx
        rw [show (ReadyInstr.new G i).index = i from rfl]
        intro he
        exact hlnd.1 (he ▸ hj)
      | inr hx => exact hdisj x hx j (List.mem_cons_of_mem _ hj)
    obtain ⟨hm, hn⟩ := ih (ReadyInstr.new G i :: r) hlnd.2 hrnd2 hdisj2
    refine ⟨?_, hn⟩
    intro x hx
    cases hm x hx with
    | inl hx2 =>
      rw [List.mem_cons] at hx2
      cases hx2 with
      | inl hx3 => exact Or.inr ⟨i, List.mem_cons_self _ _, hx3⟩
      | inr hx3 => exact Or.inl hx3
    | inr hx2 =>
      obtain ⟨j, hj, hjx⟩ := hx2
      exact Or.inr ⟨j, List.mem_cons_of_mem _ hj, hjx⟩

/-- Transporting forward-respect to the reversed order. -/
theorem respects_reverse (ord : List Nat) (hnd : ord.Nodup) (i j : Nat)
    (hij : ∀ p, ord.get? p = some i → j ∈ ord.take p)
    (q : Nat) (hq : ord.reverse.get? q = some j) (hi : i ∈ ord.reverse) :
    i ∈ ord.reverse.take q := by
  rw [List.mem_reverse] at hi
  obtain ⟨pi, hpi⟩ := List.mem_iff_get?.mp hi
  have hpilt : pi < ord.length := by
    by_contra hge
    rw [List.get?_eq_none.mpr (by omega)] at hpi
    simp at hpi
  have hqlt : q < ord.length := by
    by_contra hge
    rw [List.get?_eq_none.mpr (by rw [List.length_reverse]; omega)] at hq
    simp at hq
  rw [List.get?_reverse (by omega)] at hq
  have hjtake := hij pi hpi
  obtain ⟨pj, hpjlt, hpj⟩ := mem_take_get? ord pi j hjtake
  have hpjeq : ord.length - 1 - q = pj := by
    refine List.get?_inj ?_ hnd ?_
    · omega
    · rw [hq, hpj]
  have hqi : ord.reverse.get? (ord.length - 1 - pi) = some i := by
    rw [List.get?_reverse (by omega)]
    rw [show ord.length - 1 - (ord.length - 1 - pi) = pi from by omega]
    exact hpi
  refine get?_lt_mem_take _ _ _ _ ?_ hqi
  omega

/-- **`sched_buffer` respects the dependency graph.**  A successful run
emits a duplicate-free order in which every edge source of the built
graph that is scheduled at all appears before the edge head. -/
theorem sched_buffer_respects (c : Collab O) (mr : PerRegFile Int) (instrs : List (Instr O))
    (lic : PerRegFile Nat) (lo : LiveSet) (th : ScheduleThresholds) (fuel : Nat)
    (io : InstructionOrder)
    (h : sched_buffer c mr instrs lic lo th fuel = some (some io)) :
    io.order.Nodup ∧
    ∀ pr ∈ (generate_dep_graph c instrs).edgeList, pr.1 ∈ io.order →
      ∀ q, io.order.get? q = some pr.2 → pr.1 ∈ io.order.take q := by
  unfold sched_buffer at h
  dsimp only at h
  rcases hstats : calc_statistics (generate_dep_graph c instrs) with ⟨g1, irl⟩
  rw [hstats] at h
  dsimp only at h
  cases hgen : (GenerateOrder.new mr instrs lo).generate_order g1.reverse irl th fuel with
  | none =>
    rw [hgen] at h
    simp at h
  | some oo =>
    rw [hgen] at h
    cases oo with
    | none => simp at h
    | some res =>
      obtain ⟨ord0, lic2⟩ := res
      dsimp only at h
      split at h
      · injection h with h
        injection h with h
        have hio : io = ⟨ord0.reverse⟩ := h.symm
        subst hio
        obtain ⟨hbound_len, hbounds⟩ := generate_dep_graph_bounds c instrs
        have hg1r1 : g1 = (calc_statistics (generate_dep_graph c instrs)).1 := by
          rw [hstats]
        have hirl : irl = (calc_statistics (generate_dep_graph c instrs)).2 := by
          rw [hstats]
        have hWF : GraphWF g1.reverse := by
          rw [hg1r1]
          exact sched_G0_wf (generate_dep_graph c instrs)
            (fun pr hpr => ⟨(hbounds pr hpr).1, by rw [hbound_len]; exact (hbounds pr hpr).2⟩)
        unfold GenerateOrder.generate_order at hgen
        dsimp only at hgen
        have hready := readyFold_props g1.reverse irl []
          (by rw [hirl]; exact calc_statistics_ready_nodup _)
          (by simp) (by simp)
        obtain ⟨hrmem, hrnd⟩ := hready
        have hInv0 : GoInv g1.reverse g1.reverse
            (irl.foldl (fun r i => setInsert r (ReadyInstr.new g1.reverse i)) []) [] [] := by
          refine ⟨List.nodup_nil, rfl, ?_, ?_, ?_, ?_, ?_, ?_⟩
          · intro a
            rw [if_neg (by simp)]
          · intro b _
            rw [hg1r1]
            exact sched_init_numUses (generate_dep_graph c instrs)
              (fun pr hpr => by rw [hbound_len]; exact (hbounds pr hpr).2) b
          · intro x hx
            cases hrmem x hx with
            | inl hx2 => simp at hx2
            | inr hx2 =>
              obtain ⟨i, hi, hxi⟩ := hx2
              subst hxi
              refine ⟨by simp, ?_⟩
              rw [show (ReadyInstr.new g1.reverse i).index = i from rfl, hg1r1]
              refine sched_init_ready_pend (generate_dep_graph c instrs) i ?_
              rw [← hirl]
              exact hi
          · intro x hx
            simp at hx
          · intro p x hp
            simp at hp
          · simpa using hrnd
        obtain ⟨hnd0, hresp0⟩ := generateOrderGo_inv g1.reverse hWF th fuel
          (GenerateOrder.new mr instrs lo) g1.reverse _ [] 0 [] ord0 lic2 hInv0 hgen
        refine ⟨by simpa using hnd0, ?_⟩
        intro pr hpr hmem q hq
        obtain ⟨i, j⟩ := pr
        have hrevedge : (j, i) ∈ (g1.reverse).edgeList := by
          rw [reverse_edge_iff]
          constructor
          · rw [hg1r1, calc_statistics_edgeList]
            exact hpr
          · have := hbounds (i, j) hpr
            rw [hg1r1, calc_statistics_length]
            omega
        have hij : ∀ p, ord0.get? p = some i → j ∈ ord0.take p := by
          intro p hp
          exact hresp0 p i hp (j, i) hrevedge rfl
        exact respects_reverse ord0 hnd0 i j hij q hq hmem
      · simp at h

/-- **C2.**  In every unit the pass actually reorders, a value defined
by instruction `i` and used by instruction `j` — as a source operand or
as the predicate guard — keeps `i` before `j` in the emitted order. -/
theorem sched_respects_data_deps (c : Collab O) (mr : PerRegFile Int)
    (instrs out : List (Instr O)) (lic : PerRegFile Nat) (lo : LiveSet)
    (th : ScheduleThresholds) (fuel : Nat) (io : InstructionOrder)
    (i j : Nat) (ui vj : Instr O) (ssa : SSAValue)
    (hsb : sched_buffer c mr instrs lic lo th fuel = some (some io))
    (happ : io.apply instrs = some out)
    (hi : instrs.get? i = some ui) (hj : instrs.get? j = some vj)
    (hij : i < j)
    (hdef : ∃ dst ∈ ui.dsts, ssa ∈ dst.iter_ssa)
    (huse : (∃ src ∈ vj.srcs, ssa ∈ src.ssas) ∨ vj.pred = PredRef.ssa ssa)
    (huniq : ∀ k wk, instrs.get? k = some wk →
      (∃ dst ∈ wk.dsts, ssa ∈ dst.iter_ssa) → k = i) :
    ∃ pi pj, pi < pj ∧ io.order.get? pi = some i ∧ io.order.get? pj = some j := by
  have hjn : j < instrs.length := by
    by_contra hge
    rw [List.get?_eq_none.mpr (by omega)] at hj
    exact absurd hj (by simp)
  have hedge : (i, j) ∈ (generate_dep_graph c instrs).edgeList :=
    generate_dep_graph_use_edge c instrs i j ui vj ssa hij hjn hi hj hdef huse huniq
  obtain ⟨hperm, hout⟩ := apply_order_perm_range io instrs out happ
  have hiMem : i ∈ io.order := by
    rw [hperm.mem_iff, List.mem_range]
    omega
  have hjMem : j ∈ io.order := by
    rw [hperm.mem_iff, List.mem_range]
    omega
  obtain ⟨pj, hpj⟩ := List.mem_iff_get?.mp hjMem
  obtain ⟨hnd, hresp⟩ := sched_buffer_respects c mr instrs lic lo th fuel io hsb
  have htake := hresp (i, j) hedge hiMem pj hpj
  obtain ⟨pi, hpilt, hpi⟩ := mem_take_get? io.order pj i htake
  exact ⟨pi, pj, hpilt, hpi, hpj⟩

/-- Witness for C2: the two-instruction def-use pair is kept in order by
the two-instruction schedule. -/
theorem sched_respects_data_deps_witness :
    sched_buffer wCollab wMaxRegs [wInstr0, wInstr1] (PerRegFile.new_with (fun _ => 0))
      LiveSet.new ⟨58, 62⟩ 10 = some (some ⟨[0, 1]⟩) ∧
    InstructionOrder.apply ⟨[0, 1]⟩ [wInstr0, wInstr1] = some [wInstr0, wInstr1] ∧
    ∃ pi pj, pi < pj ∧ (InstructionOrder.mk [0, 1]).order.get? pi = some 0 ∧
      (InstructionOrder.mk [0, 1]).order.get? pj = some 1 := by
  have hsb : sched_buffer wCollab wMaxRegs [wInstr0, wInstr1]
      (PerRegFile.new_with (fun _ => 0)) LiveSet.new ⟨58, 62⟩ 10 =
      some (some ⟨[0, 1]⟩) := by decide
  have happ : InstructionOrder.apply ⟨[0, 1]⟩ [wInstr0, wInstr1] =
      some [wInstr0, wInstr1] := by decide
  refine ⟨hsb, happ, sched_respects_data_deps wCollab wMaxRegs [wInstr0, wInstr1]
    [wInstr0, wInstr1] (PerRegFile.new_with (fun _ => 0)) LiveSet.new ⟨58, 62⟩ 10
    ⟨[0, 1]⟩ 0 1 wInstr0 wInstr1 wS0 hsb happ (by decide) (by decide) (by decide)
    (by decide) (Or.inl (by decide)) ?_⟩
  intro k wk hk hd
  match k with
  | 0 => rfl
  | 1 =>
    have hwk : wk = wInstr1 := by
      rw [show ([wInstr0, wInstr1] : List (Instr Nat)).get? 1 = some wInstr1 from rfl] at hk
      exact (Option.some.inj hk).symm
    subst hwk
    exact absurd hd (by decide)
  | (k2 + 2) =>
    rw [show ([wInstr0, wInstr1] : List (Instr Nat)).get? (k2 + 2) = Option.none from rfl] at hk
    exact absurd hk (by simp)

/-! ## Relative-order tooling for the memory-subsequence claim -/

/-- `listBefore` composes on a duplicate-free list. -/
theorem listBefore_trans (l : List Nat) (hnd : l.Nodup) (a b c2 : Nat)
    (h1 : listBefore l a b) (h2 : listBefore l b c2) : listBefore l a c2 := by
  obtain ⟨p1, q1, hlt1, hp1, hq1⟩ := h1
  obtain ⟨p2, q2, hlt2, hp2, hq2⟩ := h2
  have hq1lt : q1 < l.length := by
    by_contra hge
    rw [List.get?_eq_none.mpr (by omega)] at hq1
    simp at hq1
  have heq : q1 = p2 := by
    refine List.get?_inj hq1lt hnd ?_
    rw [hq1, hp2]
  exact ⟨p1, q2, by omega, hp1, hq2⟩

/-- Stripping a distinct head keeps `listBefore`. -/
theorem listBefore_cons_strip (x : Nat) (l : List Nat) (a b : Nat) (ha : a ≠ x)
    (h : listBefore (x :: l) a b) : listBefore l a b := by
  obtain ⟨p, q, hlt, hp, hq⟩ := h
  cases p with
  | zero =>
    rw [List.get?_cons_zero] at hp
    exact absurd (Option.some.inj hp).symm ha
  | succ p1 =>
    cases q with
    | zero => omega
    | succ q1 =>
      rw [List.get?_cons_succ] at hp hq
      exact ⟨p1, q1, by omega, hp, hq⟩

/-- Adding a head keeps `listBefore`. -/
theorem listBefore_cons (x : Nat) (l : List Nat) (a b : Nat)
    (h : listBefore l a b) : listBefore (x :: l) a b := by
  obtain ⟨p, q, hlt, hp, hq⟩ := h
  exact ⟨p + 1, q + 1, by omega, by rw [List.get?_cons_succ]; exact hp,
    by rw [List.get?_cons_succ]; exact hq⟩

/-- Filtering keeps `listBefore` of two kept elements. -/
theorem listBefore_filter (P : Nat → Bool) :
    ∀ (l : List Nat) (p q a b : Nat), p < q →
      l.get? p = some a → l.get? q = some b → P a = true → P b = true →
      listBefore (l.filter P) a b := by
  intro l
  induction l with
  | nil =>
    intro p q a b hlt hp hq _ _
    simp at hp
  | cons x t ih =>
    intro p q a b hlt hp hq hPa hPb
    cases p with
    | zero =>
      rw [List.get?_cons_zero] at hp
      have hxa : x = a := Option.some.inj hp
      subst hxa
      cases q with
      | zero => omega
      | succ q1 =>
        rw [List.get?_cons_succ] at hq
        have hbt : b ∈ t.filter P := by
          rw [List.mem_filter]
          exact ⟨List.get?_mem hq, hPb⟩
        obtain ⟨qb, hqb⟩ := List.mem_iff_get?.mp hbt
        rw [List.filter_cons_of_pos hPa]
        exact ⟨0, qb + 1, by omega, List.get?_cons_zero,
          by rw [List.get?_cons_succ]; exact hqb⟩
    | succ p1 =>
      cases q with
      | zero => omega
      | succ q1 =>
        rw [List.get?_cons_succ] at hp hq
        have := ih p1 q1 a b (by omega) hp hq hPa hPb
        by_cases hPx : P x = true
        · rw [List.filter_cons_of_pos hPx]
          exact listBefore_cons x _ a b this
        · rw [List.filter_cons_of_neg (by simpa using hPx)]
          exact this

/-- Walking a consecutive chain from the head. -/
theorem chain_walk (L M : List Nat) (hnd : L.Nodup)
    (hchain : ∀ t a b, M.get? t = some a → M.get? (t + 1) = some b → listBefore L a b)
    (m : Nat) (hm : M.get? 0 = some m) :
    ∀ t x, M.get? (t + 1) = some x → listBefore L m x := by
  intro t
  induction t with
  | zero =>
    intro x hx
    exact hchain 0 m x hm hx
  | succ t1 ih =>
    intro x hx
    cases hmid : M.get? (t1 + 1) with
    | none =>
      rw [List.get?_eq_none] at hmid
      rw [List.get?_eq_none.mpr (by omega)] at hx
      simp at hx
    | some y =>
      exact listBefore_trans L hnd m y x (ih y hmid) (hchain (t1 + 1) y x hmid hx)

/-- A duplicate-free permutation whose target\'s consecutive pairs are
already ordered in it equals the target. -/
theorem chain_perm_eq :
    ∀ (M L : List Nat), L.Perm M → L.Nodup →
      (∀ t a b, M.get? t = some a → M.get? (t + 1) = some b → listBefore L a b) →
      L = M := by
  intro M
  induction M with
  | nil =>
    intro L hperm _ _
    exact List.Perm.eq_nil hperm
  | cons m M1 ih =>
    intro L hperm hnd hchain
    cases hL : L with
    | nil =>
      rw [hL] at hperm
      have := hperm.symm.eq_nil
      simp at this
    | cons x L1 =>
      subst hL
      have hxm : x = m := by
        by_contra hne
        have hxM : x ∈ m :: M1 := hperm.subset (List.mem_cons_self _ _)
        rw [List.mem_cons] at hxM
        cases hxM with
        | inl h2 => exact hne h2
        | inr h2 =>
          obtain ⟨t, ht⟩ := List.mem_iff_get?.mp h2
          have hbefore : listBefore (x :: L1) m x :=
            chain_walk (x :: L1) (m :: M1) hnd hchain m (List.get?_cons_zero) t x
              (by rw [List.get?_cons_succ]; exact ht)
          obtain ⟨p, q, hlt, hp, hq⟩ := hbefore
          have hq0 : q = 0 := by
            have hqlt : q < (x :: L1).length := by
              by_contra hge
              rw [List.get?_eq_none.mpr (by omega)] at hq
              simp at hq
            refine List.get?_inj hqlt hnd ?_
            rw [hq, List.get?_cons_zero]
          omega
      subst hxm
      have hperm1 : L1.Perm M1 := (List.perm_cons x).mp hperm
      have hnd1 : L1.Nodup := (List.nodup_cons.mp hnd).2
      have hmnotL1 : x ∉ L1 := (List.nodup_cons.mp hnd).1
      have hchain1 : ∀ t a b, M1.get? t = some a → M1.get? (t + 1) = some b →
          listBefore L1 a b := by
        intro t a b ha hb
        have haM : a ∈ M1 := List.get?_mem ha
        have ham : a ≠ x := by
          intro he
          subst he
          exact hmnotL1 (hperm1.symm.subset haM)
        refine listBefore_cons_strip x L1 a b ham ?_
        exact hchain (t + 1) a b (by rw [List.get?_cons_succ]; exact ha)
          (by rw [List.get?_cons_succ]; exact hb)
      rw [ih L1 hperm1 hnd1 hchain1]

/-- Filtering after a `filterMap` is filtering the keys first. -/
theorem filter_filterMap {α β : Type} (f : α → Option β) (P : β → Bool) (l : List α) :
    (l.filterMap f).filter P =
      (l.filter (fun k => ((f k).map P).getD false)).filterMap f := by
  induction l with
  | nil => rfl
  | cons x t ih =>
    cases hf : f x with
    | none =>
      rw [List.filterMap_cons_none hf,
        List.filter_cons_of_neg (by simp [hf])]
      exact ih
    | some b =>
      rw [List.filterMap_cons_some hf]
      by_cases hPb : P b = true
      · rw [List.filter_cons_of_pos hPb, List.filter_cons_of_pos (by simp [hf, hPb]),
          List.filterMap_cons_some hf, ih]
      · rw [List.filter_cons_of_neg hPb,
          List.filter_cons_of_neg (by simp [hf]; simpa using hPb)]
        exact ih

/-- A filter of a list, written as a filter of its index range. -/
theorem filter_as_range {α : Type} (P : α → Bool) :
    ∀ (l : List α), l.filter P =
      ((List.range l.length).filter
        (fun k => ((l.get? k).map P).getD false)).filterMap l.get? := by
  intro l
  induction l with
  | nil => rfl
  | cons x t ih =>
    rw [List.length_cons, List.range_succ_eq_map]
    have hqs : ((fun k => (((x :: t).get? k).map P).getD false) ∘ Nat.succ) =
        (fun k => ((t.get? k).map P).getD false) := by
      funext k
      simp [Function.comp, List.get?_cons_succ]
    have hgs : ∀ (m : List Nat), List.filterMap ((x :: t).get? ∘ Nat.succ) m
        = List.filterMap t.get? m := by
      intro m
      refine List.filterMap_congr ?_
      intro k _
      simp [Function.comp, List.get?_cons_succ]
    by_cases hPx : P x = true
    · rw [List.filter_cons_of_pos hPx, List.filter_cons_of_pos (by simp [hPx]),
        List.filterMap_cons_some (by rw [List.get?_cons_zero]),
        List.filter_map, List.filterMap_map, hqs, hgs, ← ih]
    · rw [List.filter_cons_of_neg hPx,
        List.filter_cons_of_neg (by simp; simpa using hPx),
        List.filter_map, List.filterMap_map, hqs, hgs, ← ih]

/-- A successful `sched_buffer` order, applied to the unit\'s
instructions, keeps the `Memory` subsequence unchanged. -/
theorem sched_mem_filter (c : Collab O) (mr : PerRegFile Int) (instrs : List (Instr O))
    (lic : PerRegFile Nat) (lo : LiveSet) (th : ScheduleThresholds) (fuel : Nat)
    (io : InstructionOrder) (out : List (Instr O))
    (hsb : sched_buffer c mr instrs lic lo th fuel = some (some io))
    (happ : io.apply instrs = some out) :
    memFilter c out = memFilter c instrs := by
  obtain ⟨hperm, hout⟩ := apply_order_perm_range io instrs out happ
  obtain ⟨hnd, hresp⟩ := sched_buffer_respects c mr instrs lic lo th fuel io hsb
  have hstepA : memFilter c out = (io.order.filter (memIdxP c instrs)).filterMap instrs.get? := by
    rw [hout]
    exact filter_filterMap instrs.get? (memP c) io.order
  have hstepB : memFilter c instrs =
      ((List.range instrs.length).filter (memIdxP c instrs)).filterMap instrs.get? :=
    filter_as_range (memP c) instrs
  have hsorted : ((List.range instrs.length).filter (memIdxP c instrs)).Pairwise (· < ·) :=
    (List.pairwise_lt_range _).filter _
  have hdecode : ∀ a, memIdxP c instrs a = true →
      ∃ ua, instrs.get? a = some ua ∧ c.side_effect_type ua.op = SideEffect.Memory := by
    intro a hqa
    cases hia : instrs.get? a with
    | none =>
      unfold memIdxP at hqa
      rw [hia] at hqa
      simp at hqa
    | some ua =>
      unfold memIdxP memP at hqa
      rw [hia] at hqa
      refine ⟨ua, rfl, ?_⟩
      simpa using hqa
  have hchain : ∀ t a b,
      ((List.range instrs.length).filter (memIdxP c instrs)).get? t = some a →
      ((List.range instrs.length).filter (memIdxP c instrs)).get? (t + 1) = some b →
      listBefore (io.order.filter (memIdxP c instrs)) a b := by
    intro t a b hga hgb
    have hqa : memIdxP c instrs a = true := (List.mem_filter.mp (List.get?_mem hga)).2
    have hqb : memIdxP c instrs b = true := (List.mem_filter.mp (List.get?_mem hgb)).2
    have han : a < instrs.length :=
      List.mem_range.mp (List.mem_filter.mp (List.get?_mem hga)).1
    have hbn : b < instrs.length :=
      List.mem_range.mp (List.mem_filter.mp (List.get?_mem hgb)).1
    obtain ⟨hta, hga2⟩ := List.get?_eq_some.mp hga
    obtain ⟨htb, hgb2⟩ := List.get?_eq_some.mp hgb
    have hab : a < b := by
      have := (List.pairwise_iff_get.mp hsorted) ⟨t, hta⟩ ⟨t + 1, htb⟩
        (Fin.mk_lt_mk.mpr (Nat.lt_succ_self t))
      rw [hga2, hgb2] at this
      exact this
    have hbetween : ∀ t2 wt, a < t2 → t2 < b → instrs.get? t2 = some wt →
        c.side_effect_type wt.op ≠ SideEffect.Memory := by
      intro t2 wt h1 h2 hw hmem2
      have hq2 : memIdxP c instrs t2 = true := by
        unfold memIdxP memP
        rw [hw]
        simp [hmem2]
      have ht2n : t2 < instrs.length := by
        by_contra hge
        rw [List.get?_eq_none.mpr (by omega)] at hw
        simp at hw
      have ht2M : t2 ∈ (List.range instrs.length).filter (memIdxP c instrs) :=
        List.mem_filter.mpr ⟨List.mem_range.mpr ht2n, hq2⟩
      obtain ⟨s, hs⟩ := List.mem_iff_get?.mp ht2M
      obtain ⟨hsl, hs2⟩ := List.get?_eq_some.mp hs
      rcases Nat.lt_trichotomy s t with hst | hst | hst
      · have := (List.pairwise_iff_get.mp hsorted) ⟨s, hsl⟩ ⟨t, hta⟩
          (Fin.mk_lt_mk.mpr hst)
        rw [hs2, hga2] at this
        omega
      · subst hst
        rw [hga] at hs
        have := Option.some.inj hs
        omega
      · rcases Nat.lt_or_ge (t + 1) s with hs1 | hs1
        · have := (List.pairwise_iff_get.mp hsorted) ⟨t + 1, htb⟩ ⟨s, hsl⟩
            (Fin.mk_lt_mk.mpr hs1)
          rw [hs2, hgb2] at this
          omega
        · have hseq : s = t + 1 := by omega
          subst hseq
          rw [hgb] at hs
          have := Option.some.inj hs
          omega
    obtain ⟨ua, hia, hma⟩ := hdecode a hqa
    obtain ⟨ub, hib, hmb⟩ := hdecode b hqb
    have hedge := generate_dep_graph_mem_edge c instrs a b ua ub hab hbn hia hib hma hmb hbetween
    have haord : a ∈ io.order := hperm.mem_iff.mpr (List.mem_range.mpr han)
    have hbord : b ∈ io.order := hperm.mem_iff.mpr (List.mem_range.mpr hbn)
    obtain ⟨qb, hqb2⟩ := List.mem_iff_get?.mp hbord
    have htake := hresp (a, b) hedge haord qb hqb2
    obtain ⟨p, hpq, hp2⟩ := mem_take_get? io.order qb a htake
    exact listBefore_filter (memIdxP c instrs) io.order p qb a b hpq hp2 hqb2 hqa hqb
  have heq := chain_perm_eq ((List.range instrs.length).filter (memIdxP c instrs))
    (io.order.filter (memIdxP c instrs)) (hperm.filter _) (hnd.filter _) hchain
  rw [hstepA, hstepB, heq]

/-- `memFilter` distributes over append. -/
theorem memFilter_append (c : Collab O) (l1 l2 : List (Instr O)) :
    memFilter c (l1 ++ l2) = memFilter c l1 ++ memFilter c l2 :=
  List.filter_append l1 l2

/-- A generic preservation principle for `Option`-bind folds. -/
theorem foldl_bind_pres {σ α : Type} (P : σ → Prop) (g : σ → α → Option σ)
    (hstep : ∀ s x, P s → ∀ s2, g s x = some s2 → P s2) :
    ∀ (l : List α) (s0 s1 : σ), P s0 →
      l.foldl (fun acc x => Option.bind acc (fun s => g s x)) (some s0) = some s1 →
      P s1 := by
  intro l
  induction l with
  | nil =>
    intro s0 s1 h0 hf
    simp only [List.foldl_nil, Option.some_inj] at hf
    subst hf
    exact h0
  | cons x xs ih =>
    intro s0 s1 h0 hf
    rw [List.foldl_cons] at hf
    simp only [Option.some_bind] at hf
    cases hg : g s0 x with
    | none =>
      rw [hg, foldl_bind_none] at hf
      simp at hf
    | some s2 =>
      rw [hg] at hf
      exact ih s2 s1 (hstep s0 x h0 s2 hg) hf

/-- Membership in a drop-last-and-replace list. -/
theorem mem_dropLast_concat {α : Type} (units : List α) (v u : α)
    (h : u ∈ units.dropLast ++ [v]) : u ∈ units ∨ u = v := by
  rw [List.mem_append, List.mem_singleton] at h
  cases h with
  | inl h2 => exact Or.inl (List.dropLast_subset units h2)
  | inr h2 => exact Or.inr h2

/-- `closeLastUnit` never records an order. -/
theorem closeLastUnit_none (units units2 : List (ScheduleUnit O)) (bi : Nat) (lb : LiveSet)
    (h : closeLastUnit units bi lb = some units2)
    (hall : ∀ u ∈ units, u.new_order = Option.none) :
    ∀ u ∈ units2, u.new_order = Option.none := by
  unfold closeLastUnit at h
  cases hl : units.getLast? with
  | none =>
    rw [hl] at h
    injection h with h
    subst h
    exact hall
  | some last =>
    rw [hl] at h
    dsimp only at h
    split at h
    · split at h
      · injection h with h
        subst h
        intro u hu
        cases mem_dropLast_concat units _ u hu with
        | inl h2 => exact hall u h2
        | inr h2 =>
          subst h2
          exact hall last (List.mem_of_getLast?_eq_some hl)
      · simp at h
    · injection h with h
      subst h
      exact hall

/-- `ScheduleUnits::push_instr` never records an order. -/
theorem pushInstrUnits_none (units units2 : List (ScheduleUnit O)) (instr : Instr O)
    (bi : Nat) (cr : Bool) (lv : LiveSet) (mr : PerRegFile Int)
    (h : pushInstrUnits units instr bi cr lv mr = some units2)
    (hall : ∀ u ∈ units, u.new_order = Option.none) :
    ∀ u ∈ units2, u.new_order = Option.none := by
  unfold pushInstrUnits at h
  cases hgl : units.getLast? with
  | some last =>
    rw [hgl] at h
    by_cases hcu : last.block_idx = bi ∧ last.can_reorder = cr
    · have hcond : (decide (last.block_idx = bi) && decide (last.can_reorder = cr)) = true := by
        simp [hcu.1, hcu.2]
      simp only [hcond, if_true, hgl, Option.some_inj] at h
      subst h
      intro u hu
      cases mem_dropLast_concat units _ u hu with
      | inl h2 => exact hall u h2
      | inr h2 =>
        subst h2
        exact hall last (List.mem_of_getLast?_eq_some hgl)
    · have hcond : (decide (last.block_idx = bi) && decide (last.can_reorder = cr)) = false := by
        rcases Decidable.not_and_iff_or_not.mp hcu with hx | hx <;> simp [hx]
      simp only [hcond, Bool.false_eq_true, if_false] at h
      cases hcl : closeLastUnit units bi lv with
      | none => rw [hcl] at h; simp at h
      | some units1 =>
        rw [hcl] at h
        simp only [Option.some_inj] at h
        subst h
        have h1 := closeLastUnit_none units units1 bi lv hcl hall
        intro u hu
        rw [List.mem_append, List.mem_singleton] at hu
        cases hu with
        | inl h2 => exact h1 u h2
        | inr h2 =>
          subst h2
          rfl
  | none =>
    rw [hgl] at h
    simp only [Bool.false_eq_true, if_false] at h
    cases hcl : closeLastUnit units bi lv with
    | none => rw [hcl] at h; simp at h
    | some units1 =>
      rw [hcl] at h
      simp only [Option.some_inj] at h
      subst h
      have h1 := closeLastUnit_none units units1 bi lv hcl hall
      intro u hu
      rw [List.mem_append, List.mem_singleton] at hu
      cases hu with
      | inl h2 => exact h1 u h2
      | inr h2 =>
        subst h2
        rfl

/-- `ScheduleUnits::update_gpr_count` never records an order. -/
theorem updateGprCount_none (units units2 : List (ScheduleUnit O)) (cnt : Int)
    (h : updateGprCount units cnt = some units2)
    (hall : ∀ u ∈ units, u.new_order = Option.none) :
    ∀ u ∈ units2, u.new_order = Option.none := by
  unfold updateGprCount at h
  cases hl : units.getLast? with
  | none => rw [hl] at h; simp at h
  | some last =>
    rw [hl] at h
    simp only [Option.some_inj] at h
    subst h
    intro u hu
    cases mem_dropLast_concat units _ u hu with
    | inl h2 => exact hall u h2
    | inr h2 =>
      subst h2
      exact hall last (List.mem_of_getLast?_eq_some hl)

/-- `ScheduleUnits::finish_block` never records an order. -/
theorem finishBlock_none (units units2 : List (ScheduleUnit O)) (bi : Nat) (lo : LiveSet)
    (h : finishBlock units bi lo = some units2)
    (hall : ∀ u ∈ units, u.new_order = Option.none) :
    ∀ u ∈ units2, u.new_order = Option.none := by
  unfold finishBlock at h
  cases hl : units.getLast? with
  | none => rw [hl] at h; simp at h
  | some last =>
    rw [hl] at h
    dsimp only at h
    split at h
    · split at h
      · injection h with h
        subst h
        intro u hu
        cases mem_dropLast_concat units _ u hu with
        | inl h2 => exact hall u h2
        | inr h2 =>
          subst h2
          exact hall last (List.mem_of_getLast?_eq_some hl)
      · simp at h
    · injection h with h
      subst h
      exact hall

/-- One first-pass step never records an order. -/
theorem pass1Step_none (c : Collab O) (mr : PerRegFile Int) (bi : Nat)
    (st1 st12 : Nat × LiveSet × List (ScheduleUnit O) × Int × Int) (instr : Instr O)
    (h : pass1Step c mr bi st1 instr = some st12)
    (hall : ∀ u ∈ st1.2.2.1, u.new_order = Option.none) :
    ∀ u ∈ st12.2.2.1, u.new_order = Option.none := by
  obtain ⟨ip, lv, units, mint, maxt⟩ := st1
  rw [pass1Step] at h
  rcases hins : c.insert_instr_top_down bi ip instr lv with ⟨lv2, cnts⟩
  rw [hins] at h
  dsimp only at h
  cases hpush : pushInstrUnits units instr bi
      (match c.side_effect_type instr.op with
       | SideEffect.Barrier => false
       | _ => true) lv mr with
  | none => rw [hpush] at h; simp at h
  | some units1 =>
    rw [hpush] at h
    dsimp only at h
    cases hupd : updateGprCount units1
        (calc_used_gprs (PerRegFile.new_with (fun f => ((cnts.get f : Nat) : Int))) mr) with
    | none => rw [hupd] at h; simp at h
    | some units2 =>
      rw [hupd] at h
      simp only [Option.some_inj] at h
      subst h
      exact updateGprCount_none units1 units2 _ hupd
        (pushInstrUnits_none units units1 instr bi _ lv mr hpush hall)

/-- One first-pass block never records an order. -/
theorem pass1Block_none (c : Collab O) (mr : PerRegFile Int) (F : Function O) (bi : Nat)
    (st st2 : List LiveSet × List (ScheduleUnit O) × Int × Int)
    (h : pass1Block c mr F bi st = some st2)
    (hall : ∀ u ∈ st.2.1, u.new_order = Option.none) :
    ∀ u ∈ st2.2.1, u.new_order = Option.none := by
  obtain ⟨lsets, units0, min0, max0⟩ := st
  unfold pass1Block at h
  dsimp only at h
  split at h
  · rename_i live_init block hlive hblock
    cases hin : (block.instrs.foldl
        (fun acc instr => Option.bind acc (fun s => pass1Step c mr bi s instr))
        (some (0, live_init, units0, min0, max0))) with
    | none => rw [hin] at h; simp at h
    | some st1 =>
      rw [hin] at h
      simp only at h
      obtain ⟨ip1, lv1, units1, mint1, maxt1⟩ := st1
      cases hfin : finishBlock units1 bi lv1 with
      | none => rw [hfin] at h; simp at h
      | some units2 =>
        rw [hfin] at h
        simp only [Option.some_inj] at h
        subst h
        have hinner : ∀ u ∈ units1, u.new_order = Option.none := by
          have := foldl_bind_pres
            (fun (s : Nat × LiveSet × List (ScheduleUnit O) × Int × Int) =>
              ∀ u ∈ s.2.2.1, u.new_order = Option.none)
            (fun s instr => pass1Step c mr bi s instr)
            (fun s x hP s2 hs2 => pass1Step_none c mr bi s s2 x hs2 hP)
            block.instrs (0, live_init, units0, min0, max0)
            (ip1, lv1, units1, mint1, maxt1) hall hin
          exact this
        exact finishBlock_none units1 units2 bi lv1 hfin hinner
  · simp at h

/-- After the whole first pass, no unit has a recorded order. -/
theorem pass1_fold_none (c : Collab O) (mr : PerRegFile Int) (F : Function O)
    (n : Nat) (st2 : List LiveSet × List (ScheduleUnit O) × Int × Int)
    (h : (List.range n).foldl (fun acc b => Option.bind acc (fun s => pass1Block c mr F b s))
      (some ([], [], 1, 1)) = some st2) :
    ∀ u ∈ st2.2.1, u.new_order = Option.none := by
  refine foldl_bind_pres
    (fun (s : List LiveSet × List (ScheduleUnit O) × Int × Int) =>
      ∀ u ∈ s.2.1, u.new_order = Option.none)
    (fun s b => pass1Block c mr F b s) ?_ (List.range n) ([], [], 1, 1) st2 ?_ h
  · intro s b hP s2 hs2
    exact pass1Block_none c mr F b s s2 hs2 hP
  · intro u hu
    simp at hu

/-- A unit with no recorded order is vacuously sound. -/
theorem none_orderSound (c : Collab O) (mr : PerRegFile Int) (u : ScheduleUnit O)
    (h : u.new_order = Option.none) : orderSound c mr u := by
  intro io hio
  rw [h] at hio
  exact absurd hio (by simp)

/-- `ScheduleUnit::schedule` keeps the recorded order sound. -/
theorem schedule_orderSound (c : Collab O) (mr : PerRegFile Int) (u u2 : ScheduleUnit O)
    (st : ScheduleType) (th : ScheduleThresholds) (fuel : Nat)
    (h : u.schedule c mr st th fuel = some u2) (hs : orderSound c mr u) :
    orderSound c mr u2 := by
  unfold ScheduleUnit.schedule at h
  split at h
  · split at h
    · simp at h
    · rename_i lo hlo
      dsimp only at h
      split at h
      · simp at h
      · injection h with h
        subst h
        intro io hio
        exact hs io hio
      · rename_i x hsb
        injection h with h
        subst h
        intro io hio
        have hx := Option.some.inj hio
        subst hx
        exact ⟨u.live_in_count, lo, th, fuel, hsb⟩
  · simp at h

/-- The second-pass type loop keeps the recorded order sound. -/
theorem pass2Unit_orderSound (c : Collab O) (mr : PerRegFile Int) (fuel : Nat) :
    ∀ (stypes : List ScheduleType) (u u2 : ScheduleUnit O) (stR : List ScheduleType),
      pass2Unit c mr fuel stypes u = some (u2, stR) → orderSound c mr u →
      orderSound c mr u2 := by
  intro stypes
  induction stypes with
  | nil =>
    intro u u2 stR h hs
    exact absurd h (by rw [pass2Unit]; simp)
  | cons st rest ih =>
    intro u u2 stR h hs
    rw [pass2Unit] at h
    cases hsch : ScheduleUnit.schedule u c mr st (ScheduleType.thresholds st mr u) fuel with
    | none => rw [hsch] at h; simp at h
    | some u1 =>
      rw [hsch] at h
      dsimp only at h
      have hs1 : orderSound c mr u1 := schedule_orderSound c mr u u1 st _ fuel hsch hs
      split at h
      · simp only [Option.some_inj, Prod.mk.injEq] at h
        rw [← h.1]
        exact hs1
      · cases rest with
        | nil =>
          simp only [Option.some_inj, Prod.mk.injEq] at h
          rw [← h.1]
          exact hs1
        | cons r1 rrest => exact ih u1 u2 stR h hs1

/-- The second-pass fold keeps every unit\'s recorded order sound. -/
theorem pass2_fold_orderSound (c : Collab O) (mr : PerRegFile Int) (fuel : Nat) :
    ∀ (units : List (ScheduleUnit O)) (acc0 : List (ScheduleUnit O) × List ScheduleType)
      (units2 : List (ScheduleUnit O)) (stR : List ScheduleType),
      units.foldl (fun acc u => Option.bind acc (fun usst => pass2Step c mr fuel usst u))
        (some acc0) = some (units2, stR) →
      (∀ u ∈ acc0.1, orderSound c mr u) →
      (∀ u ∈ units, orderSound c mr u) →
      ∀ u ∈ units2, orderSound c mr u := by
  intro units
  induction units with
  | nil =>
    intro acc0 units2 stR h hacc huni
    obtain ⟨us0, st0⟩ := acc0
    simp only [List.foldl_nil, Option.some_inj, Prod.mk.injEq] at h
    rw [← h.1]
    exact hacc
  | cons u us ih =>
    intro acc0 units2 stR h hacc huni
    obtain ⟨us0, stypes0⟩ := acc0
    rw [List.foldl_cons] at h
    simp only [Option.some_bind] at h
    unfold pass2Step at h
    dsimp only at h
    split at h
    · refine ih (us0 ++ [u], stypes0) units2 stR h ?_ (fun v hv => huni v (List.mem_cons_of_mem u hv))
      intro v hv
      rw [List.mem_append, List.mem_singleton] at hv
      cases hv with
      | inl h2 => exact hacc v h2
      | inr h2 =>
        subst h2
        exact huni v (List.mem_cons_self v us)
    · cases hpu : pass2Unit c mr fuel stypes0 u with
      | none =>
        rw [hpu] at h
        rw [foldl_bind_none] at h
        simp at h
      | some ust =>
        rw [hpu] at h
        obtain ⟨u2, stypes2⟩ := ust
        dsimp only at h
        have hu2 : orderSound c mr u2 :=
          pass2Unit_orderSound c mr fuel stypes0 u u2 stypes2 hpu
            (huni u (List.mem_cons_self u us))
        refine ih (us0 ++ [u2], stypes2) units2 stR h ?_ (fun v hv => huni v (List.mem_cons_of_mem u hv))
        intro v hv
        rw [List.mem_append, List.mem_singleton] at hv
        cases hv with
        | inl h2 => exact hacc v h2
        | inr h2 =>
          subst h2
          exact hu2

/-- A successful `pass3Unit` on a unit with a sound order splices a list
with the same `Memory` subsequence onto its block. -/
theorem pass3Unit_mem (c : Collab O) (mr : PerRegFile Int) (fuel : Nat)
    (stf : ScheduleType) (blocks blocks2 : List (Block O)) (u : ScheduleUnit O)
    (h : pass3Unit c mr fuel stf blocks u = some blocks2)
    (hs : orderSound c mr u) :
    ∃ out blk, memFilter c out = memFilter c u.instrs ∧
      blocks.get? u.block_idx = some blk ∧
      blocks2 = blocks.set u.block_idx ⟨blk.instrs ++ out⟩ := by
  unfold pass3Unit at h
  cases hu : (if u.can_reorder && !(decide (u.last_tried_schedule_type = some stf)) then
      ScheduleUnit.schedule u c mr stf (ScheduleType.thresholds stf mr u) fuel
    else some u) with
  | none => rw [hu] at h; simp at h
  | some u2 =>
    rw [hu] at h
    dsimp only at h
    have hfi : u2.instrs = u.instrs ∧ u2.block_idx = u.block_idx := by
      split at hu
      · have := schedule_fields u u2 c mr stf _ fuel hu
        exact ⟨this.1, this.2.1⟩
      · injection hu with hu
        subst hu
        exact ⟨rfl, rfl⟩
    have hs2 : orderSound c mr u2 := by
      split at hu
      · exact schedule_orderSound c mr u u2 stf _ fuel hu hs
      · injection hu with hu
        subst hu
        exact hs
    have hout : ∀ out, (match u2.new_order with
        | some order => order.apply u2.instrs
        | Option.none => some u2.instrs) = some out →
        memFilter c out = memFilter c u.instrs := by
      intro out hm
      cases hno : u2.new_order with
      | none =>
        rw [hno] at hm
        injection hm with hm
        rw [← hm, hfi.1]
      | some order =>
        rw [hno] at hm
        obtain ⟨lic, lo, th, fu, hsb⟩ := hs2 order hno
        rw [sched_mem_filter c mr u2.instrs lic lo th fu order out hsb hm, hfi.1]
    cases hm : (match u2.new_order with
        | some order => order.apply u2.instrs
        | Option.none => some u2.instrs) with
    | none =>
      rw [hm] at h
      simp at h
    | some out =>
      rw [hm] at h
      cases hbg : blocks.get? u2.block_idx with
      | none => rw [hbg] at h; simp at h
      | some blk =>
        rw [hbg] at h
        simp only [Option.some_inj] at h
        refine ⟨out, blk, hout out hm, ?_, ?_⟩
        · rw [← hfi.2]
          exact hbg
        · rw [← h, hfi.2]

/-- The third-pass fold appends unit streams block-wise, preserving the
`Memory` subsequence of every spliced unit. -/
theorem pass3_fold_mem (c : Collab O) (mr : PerRegFile Int) (fuel : Nat)
    (stf : ScheduleType) :
    ∀ (units : List (ScheduleUnit O)) (blocks blocks2 : List (Block O)),
      units.foldl (fun acc u => Option.bind acc (fun bl => pass3Unit c mr fuel stf bl u))
        (some blocks) = some blocks2 →
      (∀ u ∈ units, orderSound c mr u) →
      ∀ b, memFilter c (blocksGet blocks2 b) =
        memFilter c (blocksGet blocks b) ++ memFilter c (unitsInstrs b units) := by
  intro units
  induction units with
  | nil =>
    intro blocks blocks2 h hsound b
    simp only [List.foldl_nil, Option.some_inj] at h
    subst h
    simp [unitsInstrs, memFilter]
  | cons u us ih =>
    intro blocks blocks2 h hsound b
    rw [List.foldl_cons] at h
    simp only [Option.some_bind] at h
    cases hp : pass3Unit c mr fuel stf blocks u with
    | none =>
      rw [hp] at h
      rw [foldl_bind_none] at h
      simp at h
    | some bl1 =>
      rw [hp] at h
      obtain ⟨out, blk, hmf, hget, hset⟩ :=
        pass3Unit_mem c mr fuel stf blocks bl1 u hp (hsound u (List.mem_cons_self u us))
      have hih := ih bl1 blocks2 h (fun v hv => hsound v (List.mem_cons_of_mem u hv))
      have hlt : u.block_idx < blocks.length := by
        by_contra hge
        rw [List.get?_eq_none.mpr (by omega)] at hget
        exact absurd hget (by simp)
      rw [hih b, unitsInstrs_cons]
      by_cases hb : u.block_idx = b
      · subst hb
        have hb1 : blocksGet bl1 u.block_idx = blk.instrs ++ out := by
          unfold blocksGet
          rw [hset, List.get?_set_eq, List.get?_eq_get hlt]
          simp
        have hb0 : blocksGet blocks u.block_idx = blk.instrs := by
          unfold blocksGet
          rw [hget]
          rfl
        rw [hb1, hb0, if_pos rfl, memFilter_append, hmf, memFilter_append,
          List.append_assoc]
      · have hb1 : blocksGet bl1 b = blocksGet blocks b := by
          unfold blocksGet
          rw [hset, List.get?_set_ne _ _ hb]
        rw [hb1, if_neg hb, List.nil_append]

/-- **C3.** For every input function, collaborator bundle, register
limit and fuel, if `Function::opt_instr_sched_prepass` succeeds then in
every block the subsequence of instructions whose `side_effect_type` is
`Memory` is identical before and after the pass. -/
theorem opt_instr_sched_prepass_mem_order (F F2 : Function O) (c : Collab O)
    (mr : PerRegFile Int) (fuel : Nat)
    (h : F.opt_instr_sched_prepass c mr fuel = some F2) :
    ∀ b, memFilter c (blockInstrs F2 b) = memFilter c (blockInstrs F b) := by
  unfold Function.opt_instr_sched_prepass at h
  dsimp only at h
  cases hp1 : (List.range F.blocks.length).foldl
      (fun acc b => Option.bind acc (pass1Block c mr F b)) (some ([], [], 1, 1)) with
  | none => rw [hp1] at h; simp at h
  | some st1 =>
    rw [hp1] at h
    obtain ⟨lsets, units1, mint, maxt⟩ := st1
    dsimp only at h
    cases hgst : get_schedule_types fuel mr mint maxt
        (SW_RESERVED_GPRS + (c.hw_reserved_gprs : Int)) with
    | none => rw [hgst] at h; simp at h
    | some stypes =>
      rw [hgst] at h
      dsimp only at h
      cases hp2 : units1.foldl
          (fun acc u => Option.bind acc (fun usst => pass2Step c mr fuel usst u))
          (some ([], stypes)) with
      | none => rw [hp2] at h; simp at h
      | some usst =>
        rw [hp2] at h
        obtain ⟨units2, stypesR⟩ := usst
        dsimp only at h
        cases hhd : stypesR.head? with
        | none => rw [hhd] at h; simp at h
        | some stf =>
          rw [hhd] at h
          dsimp only at h
          cases hp3 : units2.foldl
              (fun acc u => Option.bind acc (fun bl => pass3Unit c mr fuel stf bl u))
              (some (F.blocks.map (fun b => { b with instrs := ([] : List (Instr O)) }))) with
          | none => rw [hp3] at h; simp at h
          | some blocks =>
            rw [hp3] at h
            dsimp only at h
            split at h
            · have hFb : F2.blocks = blocks := by
                cases stf with
                | RegLimit limit =>
                  dsimp only at h
                  split at h
                  · injection h with h
                    rw [← h]
                  · simp at h
                | Spill =>
                  dsimp only at h
                  injection h with h
                  rw [← h]
              have h1 := pass1_unitsInstrs c mr F F.blocks.length
                (lsets, units1, mint, maxt) hp1
              have h1n := pass1_fold_none c mr F F.blocks.length
                (lsets, units1, mint, maxt) hp1
              have h2p := pass2_fold_proj c mr fuel units1 ([], stypes) units2 stypesR hp2
              simp only [List.nil_append] at h2p
              have h2 := unitsInstrs_congr_proj units2 units1 h2p
              have hs1 : ∀ u ∈ units1, orderSound c mr u :=
                fun u hu => none_orderSound c mr u (h1n u hu)
              have hs2 : ∀ u ∈ units2, orderSound c mr u :=
                pass2_fold_orderSound c mr fuel units1 ([], stypes) units2 stypesR hp2
                  (by intro u hu; simp at hu) hs1
              have h3 := pass3_fold_mem c mr fuel stf units2
                (F.blocks.map (fun b => { b with instrs := ([] : List (Instr O)) }))
                blocks hp3 hs2
              intro b
              have hm := h3 b
              rw [blocksGet_map_empty] at hm
              rw [blockInstrs_eq_blocksGet, hFb, hm, h2 b, h1 b]
              by_cases hb : b < F.blocks.length
              · rw [if_pos hb]
                simp [memFilter]
              · rw [if_neg hb, blockInstrs_of_ge F b (by omega)]
                simp [memFilter]
            · simp at h

/-- Witness for C3: the pipeline succeeds on the one-block function whose
single instruction is classified `Memory`, and the (here: one-element)
`Memory` subsequence is preserved. -/
theorem opt_instr_sched_prepass_mem_order_witness :
    wFuncM.opt_instr_sched_prepass wCollabM wMaxRegs 5 = some wFuncM ∧
    memFilter wCollabM (blockInstrs wFuncM 0) = [wInstr0] ∧
    ∀ b, memFilter wCollabM (blockInstrs wFuncM b) = memFilter wCollabM (blockInstrs wFuncM b) := by
  have h : wFuncM.opt_instr_sched_prepass wCollabM wMaxRegs 5 = some wFuncM := by decide
  exact ⟨h, by decide,
    opt_instr_sched_prepass_mem_order wFuncM wFuncM wCollabM wMaxRegs 5 h⟩

/-! ## Net-live tracker: basic container lemmas -/

/-- `PerRegFile.get` after `PerRegFile.set`. -/
theorem PerRegFile_get_set {α : Type} (p : PerRegFile α) (f f2 : RegFile) (x : α) :
    (p.set f x).get f2 = if f2 = f then x else p.get f2 := by
  cases f <;> cases f2 <;> simp [PerRegFile.set, PerRegFile.get]

/-- `LiveSet.insert` on a present element. -/
theorem LiveSet_insert_mem (l : LiveSet) (s : SSAValue) (h : s ∈ l) :
    LiveSet.insert l s = (l, false) := by
  unfold LiveSet.insert
  rw [if_pos h]

/-- `LiveSet.insert` on an absent element. -/
theorem LiveSet_insert_not_mem (l : LiveSet) (s : SSAValue) (h : s ∉ l) :
    LiveSet.insert l s = (s :: l, true) := by
  unfold LiveSet.insert
  rw [if_neg h]

/-- `LiveSet.remove` on a present element. -/
theorem LiveSet_remove_mem (l : LiveSet) (s : SSAValue) (h : s ∈ l) :
    LiveSet.remove l s = (l.erase s, true) := by
  unfold LiveSet.remove
  rw [if_pos h]

/-- `LiveSet.remove` on an absent element. -/
theorem LiveSet_remove_not_mem (l : LiveSet) (s : SSAValue) (h : s ∉ l) :
    LiveSet.remove l s = (l, false) := by
  unfold LiveSet.remove
  rw [if_neg h]

/-- `LiveSet.count` is a `countP`. -/
theorem LiveSet_count_eq_countP (l : LiveSet) (f : RegFile) :
    l.count f = l.countP (fun s => decide (s.file = f)) := by
  unfold LiveSet.count
  rw [List.countP_eq_length_filter]

/-- `countP` of a one-element erase. -/
theorem countP_erase {α : Type} [DecidableEq α] (l : List α) (a : α) (P : α → Bool)
    (h : a ∈ l) :
    l.countP P = (l.erase a).countP P + (if P a then 1 else 0) := by
  have hperm := List.perm_cons_erase h
  rw [hperm.countP_eq P, List.countP_cons]

/-- Two predicates agreeing except at one absent point count equally. -/
theorem countP_congr_ne {α : Type} (l : List α) (P Q : α → Bool)
    (hagree : ∀ x ∈ l, P x = Q x) : l.countP P = l.countP Q := by
  induction l with
  | nil => rfl
  | cons x t ih =>
    rw [List.countP_cons, List.countP_cons, hagree x (List.mem_cons_self x t),
      ih (fun y hy => hagree y (List.mem_cons_of_mem x hy))]

/-- `alistGet` on a cons cell. -/
theorem alistGet_cons (p : SSAValue × List Nat) (rest : List (SSAValue × List Nat))
    (s2 : SSAValue) :
    alistGet (p :: rest) s2 = if p.1 = s2 then some p.2 else alistGet rest s2 := by
  unfold alistGet
  by_cases h : p.1 = s2
  · rw [List.find?_cons_of_pos _ (by simp [h]), if_pos h]
    rfl
  · rw [List.find?_cons_of_neg _ (by simp [h]), if_neg h]

/-- An absent key looks up to `none`. -/
theorem alistGet_eq_none_of_not_mem :
    ∀ (m : List (SSAValue × List Nat)) (s : SSAValue),
      s ∉ m.map Prod.fst → alistGet m s = Option.none := by
  intro m
  induction m with
  | nil => intro s _; rfl
  | cons p rest ih =>
    intro s h
    rw [List.map_cons, List.mem_cons] at h
    push_neg at h
    rw [alistGet_cons, if_neg (fun hc => h.1 hc.symm), ih s h.2]

/-- `alistGet` after `alistPush`. -/
theorem alistGet_push :
    ∀ (m : List (SSAValue × List Nat)) (s s2 : SSAValue) (j : Nat),
      alistGet (alistPush m s j) s2 =
        if s2 = s then some ((alistGet m s).getD [] ++ [j]) else alistGet m s2 := by
  intro m
  induction m with
  | nil =>
    intro s s2 j
    show alistGet [(s, [j])] s2 = _
    rw [alistGet_cons]
    by_cases h : s2 = s
    · subst h
      rw [if_pos rfl, if_pos rfl]
      rfl
    · rw [if_neg (fun hc => h hc.symm), if_neg h]
  | cons p rest ih =>
    intro s s2 j
    by_cases hp : p.1 = s
    · rw [show alistPush (p :: rest) s j = (p.1, p.2 ++ [j]) :: rest from by
        unfold alistPush; rw [if_pos hp]]
      simp only [alistGet_cons]
      by_cases h : s2 = s
      · subst h
        rw [if_pos hp, if_pos hp, if_pos rfl]
        rfl
      · have hne : ¬ p.1 = s2 := by
          rw [hp]
          exact fun hc => h hc.symm
        rw [if_neg h, if_neg hne, if_neg hne]
    · rw [show alistPush (p :: rest) s j
          = if p.1 = s then (p.1, p.2 ++ [j]) :: rest else p :: alistPush rest s j
        from rfl, if_neg hp]
      simp only [alistGet_cons]
      rw [if_neg hp]
      by_cases h : s2 = s
      · subst h
        rw [if_neg hp, ih, if_pos rfl, if_pos rfl]
      · rw [if_neg h, ih, if_neg h]

/-- `alistPush` keys: unchanged when present, appended when absent. -/
theorem alistPush_keys :
    ∀ (m : List (SSAValue × List Nat)) (s : SSAValue) (j : Nat),
      (alistPush m s j).map Prod.fst =
        if alistContains m s then m.map Prod.fst else m.map Prod.fst ++ [s] := by
  intro m
  induction m with
  | nil =>
    intro s j
    simp [alistPush, alistContains, alistGet]
  | cons p rest ih =>
    intro s j
    have hc : alistContains (p :: rest) s =
        if p.1 = s then true else alistContains rest s := by
      unfold alistContains
      rw [alistGet_cons]
      by_cases h : p.1 = s
      · rw [if_pos h, if_pos h]
        rfl
      · rw [if_neg h, if_neg h]
    by_cases hp : p.1 = s
    · rw [show alistPush (p :: rest) s j = (p.1, p.2 ++ [j]) :: rest from by
        unfold alistPush; rw [if_pos hp]]
      rw [hc, if_pos hp, if_pos rfl]
      simp
    · rw [show alistPush (p :: rest) s j
          = if p.1 = s then (p.1, p.2 ++ [j]) :: rest else p :: alistPush rest s j
        from rfl, if_neg hp]
      rw [List.map_cons, ih s j, hc, if_neg hp]
      by_cases h2 : alistContains rest s
      · rw [if_pos h2, if_pos h2]
        rfl
      · rw [if_neg h2, if_neg h2]
        simp

/-- The removed value of `alistRemove` is the lookup. -/
theorem alistRemove_snd :
    ∀ (m : List (SSAValue × List Nat)) (s : SSAValue),
      (alistRemove m s).2 = alistGet m s := by
  intro m
  induction m with
  | nil => intro s; rfl
  | cons p rest ih =>
    intro s
    rw [alistGet_cons]
    by_cases hp : p.1 = s
    · unfold alistRemove
      rw [if_pos hp, if_pos hp]
    · unfold alistRemove
      rw [if_neg hp, if_neg hp]
      exact ih s

/-- `alistRemove` leaves other keys\' lookups unchanged. -/
theorem alistRemove_get_ne :
    ∀ (m : List (SSAValue × List Nat)) (s s2 : SSAValue), s2 ≠ s →
      alistGet (alistRemove m s).1 s2 = alistGet m s2 := by
  intro m
  induction m with
  | nil => intro s s2 h; rfl
  | cons p rest ih =>
    intro s s2 h
    by_cases hp : p.1 = s
    · unfold alistRemove
      rw [if_pos hp, alistGet_cons,
        if_neg (by rw [hp]; exact fun hc => h hc.symm)]
    · unfold alistRemove
      rw [if_neg hp]
      rw [alistGet_cons, alistGet_cons, ih s s2 h]

/-- With unique keys, a removed key\'s lookup is `none`. -/
theorem alistRemove_get_self :
    ∀ (m : List (SSAValue × List Nat)) (s : SSAValue),
      (m.map Prod.fst).Nodup →
      alistGet (alistRemove m s).1 s = Option.none := by
  intro m
  induction m with
  | nil => intro s _; rfl
  | cons p rest ih =>
    intro s hnd
    rw [List.map_cons, List.nodup_cons] at hnd
    by_cases hp : p.1 = s
    · unfold alistRemove
      rw [if_pos hp]
      refine alistGet_eq_none_of_not_mem rest s ?_
      rw [← hp]
      exact hnd.1
    · unfold alistRemove
      rw [if_neg hp, alistGet_cons, if_neg hp]
      exact ih s hnd.2

/-- The list part of `alistRemove` is a sublist. -/
theorem alistRemove_fst_sublist :
    ∀ (m : List (SSAValue × List Nat)) (s : SSAValue),
      (alistRemove m s).1.Sublist m := by
  intro m
  induction m with
  | nil => intro s; simp [alistRemove]
  | cons p rest ih =>
    intro s
    unfold alistRemove
    by_cases hp : p.1 = s
    · rw [if_pos hp]
      exact List.sublist_cons_self p rest
    · rw [if_neg hp]
      exact List.Sublist.cons₂ p (ih s)

/-- `alistRemove` keeps the key list duplicate-free. -/
theorem alistRemove_keys_nodup (m : List (SSAValue × List Nat)) (s : SSAValue)
    (hnd : (m.map Prod.fst).Nodup) : ((alistRemove m s).1.map Prod.fst).Nodup :=
  ((alistRemove_fst_sublist m s).map Prod.fst).nodup hnd

/-- Membership in the first component of `LiveSet.insert`. -/
theorem LiveSet_insert_fst_mem (l : LiveSet) (x s : SSAValue) :
    s ∈ (LiveSet.insert l x).1 ↔ s = x ∨ s ∈ l := by
  unfold LiveSet.insert
  by_cases h : x ∈ l
  · rw [if_pos h]
    constructor
    · exact Or.inr
    · intro hc
      cases hc with
      | inl h2 => rw [h2]; exact h
      | inr h2 => exact h2
  · rw [if_neg h]
    exact List.mem_cons

/-- `LiveSet.insert` keeps the set duplicate-free. -/
theorem LiveSet_insert_fst_nodup (l : LiveSet) (x : SSAValue) (h : l.Nodup) :
    (LiveSet.insert l x).1.Nodup := by
  unfold LiveSet.insert
  by_cases hx : x ∈ l
  · rw [if_pos hx]
    exact h
  · rw [if_neg hx]
    exact List.nodup_cons.mpr ⟨hx, h⟩

/-- Membership in the use-set fold. -/
theorem useFold_mem (lo : LiveSet) :
    ∀ (l : List SSAValue) (a : LiveSet) (s : SSAValue),
      s ∈ l.foldl (useStep lo) a ↔
        s ∈ a ∨ (s ∈ l ∧ lo.contains s = false) := by
  intro l
  induction l with
  | nil =>
    intro a s
    simp
  | cons x t ih =>
    intro a s
    rw [List.foldl_cons,
      show useStep lo a x = if lo.contains x then a else (LiveSet.insert a x).1 from rfl]
    by_cases hx : lo.contains x = true
    · rw [if_pos hx, ih]
      constructor
      · intro hc
        cases hc with
        | inl h2 => exact Or.inl h2
        | inr h2 => exact Or.inr ⟨List.mem_cons_of_mem x h2.1, h2.2⟩
      · intro hc
        cases hc with
        | inl h2 => exact Or.inl h2
        | inr h2 =>
          rcases List.mem_cons.mp h2.1 with h3 | h3
          · subst h3
            rw [h2.2] at hx
            simp at hx
          · exact Or.inr ⟨h3, h2.2⟩
    · rw [if_neg hx, ih]
      rw [Bool.not_eq_true] at hx
      constructor
      · intro hc
        cases hc with
        | inl h2 =>
          rcases (LiveSet_insert_fst_mem a x s).mp h2 with h3 | h3
          · subst h3
            exact Or.inr ⟨List.mem_cons_self s t, hx⟩
          · exact Or.inl h3
        | inr h2 => exact Or.inr ⟨List.mem_cons_of_mem x h2.1, h2.2⟩
      · intro hc
        cases hc with
        | inl h2 => exact Or.inl ((LiveSet_insert_fst_mem a x s).mpr (Or.inr h2))
        | inr h2 =>
          rcases List.mem_cons.mp h2.1 with h3 | h3
          · subst h3
            exact Or.inl ((LiveSet_insert_fst_mem a s s).mpr (Or.inl rfl))
          · exact Or.inr ⟨h3, h2.2⟩

/-- The use-set fold keeps the set duplicate-free. -/
theorem useFold_nodup (lo : LiveSet) :
    ∀ (l : List SSAValue) (a : LiveSet), a.Nodup →
      (l.foldl (useStep lo) a).Nodup := by
  intro l
  induction l with
  | nil => intro a h; exact h
  | cons x t ih =>
    intro a h
    rw [List.foldl_cons,
      show useStep lo a x = if lo.contains x then a else (LiveSet.insert a x).1 from rfl]
    by_cases hx : lo.contains x = true
    · rw [if_pos hx]
      exact ih a h
    · rw [if_neg hx]
      exact ih _ (LiveSet_insert_fst_nodup a x h)

/-- Membership in `useSet`. -/
theorem useSet_mem (lo : LiveSet) (u : Instr O) (s : SSAValue) :
    s ∈ useSet lo u ↔ s ∈ flatSrcs u ∧ lo.contains s = false := by
  unfold useSet
  rw [useFold_mem]
  constructor
  · intro hc
    cases hc with
    | inl h2 => exact absurd h2 (by simp [LiveSet.new])
    | inr h2 => exact h2
  · exact Or.inr

/-- `useSet` is duplicate-free. -/
theorem useSet_nodup (lo : LiveSet) (u : Instr O) : (useSet lo u).Nodup :=
  useFold_nodup lo (flatSrcs u) LiveSet.new (by simp [LiveSet.new])

/-- `usersOf` is duplicate-free. -/
theorem usersOf_nodup (instrs : List (Instr O)) (lo : LiveSet) (s : SSAValue) :
    (usersOf instrs lo s).Nodup :=
  (List.nodup_range instrs.length).filter _

/-- Membership in `usersOf`. -/
theorem mem_usersOf (instrs : List (Instr O)) (lo : LiveSet) (s : SSAValue) (j : Nat) :
    j ∈ usersOf instrs lo s ↔ j < instrs.length ∧ userB instrs lo s j = true := by
  unfold usersOf
  rw [List.mem_filter, List.mem_range]

/-- `userB` through the instruction lookup. -/
theorem userB_eq_true (instrs : List (Instr O)) (lo : LiveSet) (s : SSAValue) (j : Nat)
    (u : Instr O) (h : instrs.get? j = some u) :
    userB instrs lo s j = (useSet lo u).contains s := by
  unfold userB
  rw [h]
  rfl

/-- An instruction using `s` puts its index into `usersOf`. -/
theorem usersOf_ne_nil (instrs : List (Instr O)) (lo : LiveSet) (s : SSAValue) (i : Nat)
    (ui : Instr O) (hi : instrs.get? i = some ui)
    (hu : (useSet lo ui).contains s = true) : usersOf instrs lo s ≠ [] := by
  refine List.ne_nil_of_mem ((mem_usersOf instrs lo s i).mpr ⟨?_, ?_⟩)
  · by_contra hge
    rw [List.get?_eq_none.mpr (by omega)] at hi
    simp at hi
  · rw [userB_eq_true instrs lo s i ui hi]
    exact hu

/-- A live-out value has no users. -/
theorem usersOf_lo_nil (instrs : List (Instr O)) (lo : LiveSet) (s : SSAValue)
    (h : lo.contains s = true) : usersOf instrs lo s = [] := by
  unfold usersOf
  rw [List.filter_eq_nil]
  intro j _
  unfold userB
  cases hj : instrs.get? j with
  | none => simp
  | some u =>
    simp only [Option.map_some', Option.getD_some]
    intro hc
    have := (useSet_mem lo u s).mp (by
      unfold LiveSet.contains at hc
      exact of_decide_eq_true hc)
    rw [h] at this
    simp at this

/-- A processed user forces `usersOf` non-empty. -/
theorem usersOf_ne_nil_of_any (instrs : List (Instr O)) (lo : LiveSet) (s : SSAValue)
    (done : List Nat) (h : done.any (userB instrs lo s) = true) :
    usersOf instrs lo s ≠ [] := by
  rw [List.any_eq_true] at h
  obtain ⟨j, _, hj⟩ := h
  unfold userB at hj
  cases hget : instrs.get? j with
  | none =>
    rw [hget] at hj
    simp at hj
  | some u =>
    rw [hget] at hj
    simp only [Option.map_some', Option.getD_some] at hj
    exact usersOf_ne_nil instrs lo s j u hget hj

/-- The counter-decrement fold of `NetLive::remove`, characterised. -/
theorem netDecFold (ssa : SSAValue) :
    ∀ (idxs : List Nat) (cs : List InstrCount),
      idxs.Nodup → (∀ j ∈ idxs, j < cs.length) →
      (idxs.foldl (fun cs2 i =>
          match cs2.get? i with
          | some c => cs2.set i { c with
              net := c.net.set ssa.file (c.net.get ssa.file - 1),
              peak2 := c.peak2.set ssa.file (c.peak2.get ssa.file - 1) }
          | Option.none => cs2) cs).length = cs.length ∧
      ∀ i2 f,
        (((idxs.foldl (fun cs2 i =>
            match cs2.get? i with
            | some c => cs2.set i { c with
                net := c.net.set ssa.file (c.net.get ssa.file - 1),
                peak2 := c.peak2.set ssa.file (c.peak2.get ssa.file - 1) }
            | Option.none => cs2) cs).get? i2).getD InstrCount.zero).net.get f =
          ((cs.get? i2).getD InstrCount.zero).net.get f -
            (if i2 ∈ idxs ∧ f = ssa.file then 1 else 0) := by
  intro idxs
  induction idxs with
  | nil =>
    intro cs _ _
    refine ⟨rfl, fun i2 f => ?_⟩
    simp
  | cons j rest ih =>
    intro cs hnd hbound
    rw [List.nodup_cons] at hnd
    have hj : j < cs.length := hbound j (List.mem_cons_self j rest)
    obtain ⟨c, hc⟩ : ∃ c, cs.get? j = some c := by
      cases h : cs.get? j with
      | none =>
        rw [List.get?_eq_none] at h
        omega
      | some c => exact ⟨c, rfl⟩
    rw [List.foldl_cons, hc]
    dsimp only
    have ihres := ih (cs.set j { c with
        net := c.net.set ssa.file (c.net.get ssa.file - 1),
        peak2 := c.peak2.set ssa.file (c.peak2.get ssa.file - 1) }) hnd.2
      (by
        intro q hq
        rw [List.length_set]
        exact hbound q (List.mem_cons_of_mem j hq))
    refine ⟨by rw [ihres.1, List.length_set], fun i2 f => ?_⟩
    rw [ihres.2 i2 f]
    by_cases hij : i2 = j
    · subst hij
      rw [List.get?_set_eq, hc]
      simp only [Option.map_eq_map, Option.map_some', Option.getD_some]
      rw [PerRegFile_get_set]
      have hnotin : ¬ (i2 ∈ rest ∧ f = ssa.file) := fun hcc => hnd.1 hcc.1
      rw [if_neg hnotin]
      by_cases hf : f = ssa.file
      · subst hf
        rw [if_pos rfl, if_pos ⟨List.mem_cons_self i2 rest, rfl⟩]
        omega
      · rw [if_neg hf, if_neg (fun hcc => hf hcc.2)]
    · rw [List.get?_set_ne _ _ (fun hcc => hij hcc.symm)]
      have hmem : (i2 ∈ j :: rest ∧ f = ssa.file) ↔ (i2 ∈ rest ∧ f = ssa.file) := by
        constructor
        · intro hcc
          rcases List.mem_cons.mp hcc.1 with h2 | h2
          · exact absurd h2 hij
          · exact ⟨h2, hcc.2⟩
        · intro hcc
          exact ⟨List.mem_cons_of_mem j hcc.1, hcc.2⟩
      by_cases hcond : i2 ∈ rest ∧ f = ssa.file
      · rw [if_pos hcond, if_pos (hmem.mpr hcond)]
      · rw [if_neg hcond, if_neg (fun hcc => hcond (hmem.mp hcc))]

/-- `PerRegFile.get` of `new_with`. -/
theorem PerRegFile_get_new_with {α : Type} (g : RegFile → α) (f : RegFile) :
    (PerRegFile.new_with g).get f = g f := by
  cases f <;> rfl

/-- A key is present exactly when its lookup succeeds. -/
theorem alistGet_none_iff :
    ∀ (m : List (SSAValue × List Nat)) (s : SSAValue),
      alistGet m s = Option.none ↔ s ∉ m.map Prod.fst := by
  intro m
  induction m with
  | nil =>
    intro s
    simp [alistGet]
  | cons p rest ih =>
    intro s
    rw [alistGet_cons, List.map_cons, List.mem_cons]
    by_cases hp : p.1 = s
    · rw [if_pos hp]
      constructor
      · intro hc
        simp at hc
      · intro hc
        exact absurd hp.symm (fun h2 => hc (Or.inl h2))
    · rw [if_neg hp, ih]
      constructor
      · intro hc h2
        cases h2 with
        | inl h3 => exact hp h3.symm
        | inr h3 => exact hc h3
      · intro hc h2
        exact hc (Or.inr h2)

/-- A fold of per-source folds is a fold over the flattened sources. -/
theorem foldl_nested_srcs {β : Type} (b : β → SSAValue → β) :
    ∀ (srcs : List Src) (z : β),
      srcs.foldl (fun acc src => src.ssas.foldl b acc) z =
        ((srcs.map (fun s => s.ssas)).flatten).foldl b z := by
  intro srcs
  induction srcs with
  | nil => intro z; rfl
  | cons x t ih =>
    intro z
    rw [List.foldl_cons, List.map_cons, List.flatten_cons, List.foldl_append, ih]

/-- A fold of per-destination folds is a fold over the flattened
destinations. -/
theorem foldl_nested_dsts {β : Type} (b : Dst → β → SSAValue → β) :
    ∀ (dsts : List Dst) (z : β),
      dsts.foldl (fun acc dst => dst.iter_ssa.foldl (b dst) acc) z =
        (dsts.map (fun d => (d, d.iter_ssa))).foldl
          (fun acc dl => dl.2.foldl (b dl.1) acc) z := by
  intro dsts
  induction dsts with
  | nil => intro z; rfl
  | cons x t ih =>
    intro z
    rw [List.foldl_cons, List.map_cons, List.foldl_cons, ih]

/-- The use set built by the pair fold. -/
theorem pairFold_fst (lo : LiveSet) (j : Nat) :
    ∀ (l : List SSAValue) (a : LiveSet) (m : List (SSAValue × List Nat)),
      (l.foldl (usePairStep lo j) (a, m)).1 = l.foldl (useStep lo) a := by
  intro l
  induction l with
  | nil => intro a m; rfl
  | cons x t ih =>
    intro a m
    rw [List.foldl_cons, List.foldl_cons]
    by_cases hx : lo.contains x = true
    · rw [show usePairStep lo j (a, m) x = (a, m) from by
          unfold usePairStep; rw [if_pos hx],
        show useStep lo a x = a from by unfold useStep; rw [if_pos hx]]
      exact ih a m
    · by_cases hxa : x ∈ a
      · rw [show usePairStep lo j (a, m) x = (a, m) from by
            unfold usePairStep; rw [if_neg hx]; dsimp only; rw [LiveSet_insert_mem a x hxa],
          show useStep lo a x = a from by
            unfold useStep; rw [if_neg hx, LiveSet_insert_mem a x hxa]]
        exact ih a m
      · rw [show usePairStep lo j (a, m) x = (x :: a, alistPush m x j) from by
            unfold usePairStep; rw [if_neg hx]; dsimp only; rw [LiveSet_insert_not_mem a x hxa],
          show useStep lo a x = x :: a from by
            unfold useStep; rw [if_neg hx, LiveSet_insert_not_mem a x hxa]]
        exact ih (x :: a) (alistPush m x j)

/-- The map built by the pair fold: every value newly entering the use
set gets `j` appended to its user list. -/
theorem pairFold_snd (lo : LiveSet) (j : Nat) :
    ∀ (l : List SSAValue) (a : LiveSet) (m : List (SSAValue × List Nat)) (s : SSAValue),
      alistGet (l.foldl (usePairStep lo j) (a, m)).2 s =
        if s ∈ l.foldl (useStep lo) a ∧ s ∉ a then some ((alistGet m s).getD [] ++ [j])
        else alistGet m s := by
  intro l
  induction l with
  | nil =>
    intro a m s
    rw [if_neg (fun hc => hc.2 hc.1)]
    rfl
  | cons x t ih =>
    intro a m s
    rw [List.foldl_cons, List.foldl_cons]
    by_cases hx : lo.contains x = true
    · rw [show usePairStep lo j (a, m) x = (a, m) from by
          unfold usePairStep; rw [if_pos hx],
        show useStep lo a x = a from by unfold useStep; rw [if_pos hx]]
      exact ih a m s
    · by_cases hxa : x ∈ a
      · rw [show usePairStep lo j (a, m) x = (a, m) from by
            unfold usePairStep; rw [if_neg hx]; dsimp only; rw [LiveSet_insert_mem a x hxa],
          show useStep lo a x = a from by
            unfold useStep; rw [if_neg hx, LiveSet_insert_mem a x hxa]]
        exact ih a m s
      · rw [show usePairStep lo j (a, m) x = (x :: a, alistPush m x j) from by
            unfold usePairStep; rw [if_neg hx]; dsimp only; rw [LiveSet_insert_not_mem a x hxa],
          show useStep lo a x = x :: a from by
            unfold useStep; rw [if_neg hx, LiveSet_insert_not_mem a x hxa]]
        rw [ih (x :: a) (alistPush m x j) s, alistGet_push]
        by_cases hsx : s = x
        · subst hsx
          rw [if_neg (fun hc => hc.2 (List.mem_cons_self s a)), if_pos rfl,
            if_pos ⟨(useFold_mem lo t (s :: a) s).mpr (Or.inl (List.mem_cons_self s a)), hxa⟩]
        · rw [if_neg hsx]
          by_cases hcond : s ∈ t.foldl (useStep lo) (x :: a) ∧ s ∉ a
          · rw [if_pos ⟨hcond.1, fun hc => hcond.2 ((List.mem_cons.mp hc).resolve_left hsx)⟩,
              if_pos hcond]
          · rw [if_neg (fun hc => hcond ⟨hc.1, fun h2 => hc.2 (List.mem_cons_of_mem x h2)⟩),
              if_neg hcond]

/-- The pair fold keeps the key list duplicate-free. -/
theorem pairFold_keys (lo : LiveSet) (j : Nat) :
    ∀ (l : List SSAValue) (a : LiveSet) (m : List (SSAValue × List Nat)),
      (m.map Prod.fst).Nodup → ((l.foldl (usePairStep lo j) (a, m)).2.map Prod.fst).Nodup := by
  intro l
  induction l with
  | nil => intro a m h; exact h
  | cons x t ih =>
    intro a m h
    rw [List.foldl_cons]
    by_cases hx : lo.contains x = true
    · rw [show usePairStep lo j (a, m) x = (a, m) from by
          unfold usePairStep; rw [if_pos hx]]
      exact ih a m h
    · by_cases hxa : x ∈ a
      · rw [show usePairStep lo j (a, m) x = (a, m) from by
            unfold usePairStep; rw [if_neg hx]; dsimp only; rw [LiveSet_insert_mem a x hxa]]
        exact ih a m h
      · rw [show usePairStep lo j (a, m) x = (x :: a, alistPush m x j) from by
            unfold usePairStep; rw [if_neg hx]; dsimp only; rw [LiveSet_insert_not_mem a x hxa]]
        refine ih (x :: a) (alistPush m x j) ?_
        rw [alistPush_keys]
        by_cases hc : alistContains m x
        · rw [if_pos hc]
          exact h
        · rw [if_neg hc]
          rw [List.nodup_append]
          refine ⟨h, List.nodup_singleton x, ?_⟩
          intro y hy hy2
          rw [List.mem_singleton] at hy2
          subst hy2
          have : alistGet m y = Option.none := by
            unfold alistContains at hc
            cases hg : alistGet m y with
            | none => rfl
            | some v => rw [hg] at hc; simp at hc
          exact (alistGet_none_iff m y).mp this hy

/-- `usersFrom` of a cons. -/
theorem usersFrom_cons (lo : LiveSet) (u : Instr O) (l : List (Instr O)) (k0 : Nat)
    (s : SSAValue) :
    usersFrom lo (u :: l) k0 s =
      (if (useSet lo u).contains s = true then [k0] else []) ++ usersFrom lo l (k0 + 1) s := by
  unfold usersFrom
  rw [List.length_cons, List.range_succ_eq_map]
  have hcomp : ((fun j => (((u :: l).get? j).map (fun u2 => (useSet lo u2).contains s)).getD false)
      ∘ Nat.succ) = (fun j => ((l.get? j).map (fun u2 => (useSet lo u2).contains s)).getD false) := by
    funext j
    simp [Function.comp, List.get?_cons_succ]
  by_cases hc : (useSet lo u).contains s = true
  · rw [List.filter_cons_of_pos (by exact hc), List.filter_map, hcomp, List.map_cons,
      List.map_map, if_pos hc, List.singleton_append, Nat.add_zero]
    congr 1
    refine List.map_congr_left ?_
    intro j _
    simp [Function.comp]
    omega
  · rw [List.filter_cons_of_neg (by exact hc), List.filter_map, hcomp, List.map_map,
      if_neg hc, List.nil_append]
    refine List.map_congr_left ?_
    intro j _
    simp [Function.comp]
    omega

/-- The first sweep of `NetLive::new`, characterised: the counters are
the per-instruction use counts and the map sends every value to its full
user list. -/
theorem sweep1_char (lo : LiveSet) :
    ∀ (l : List (Instr O)) (m0 : List (SSAValue × List Nat)) (cs0 : List InstrCount) (k0 : Nat),
      (l.foldl (sweep1Step lo) (m0, cs0, k0)).2.1 =
          cs0 ++ l.map (fun u => ⟨netPR lo u, PerRegFile.new_with (fun _ => 0), netPR lo u⟩) ∧
      (l.foldl (sweep1Step lo) (m0, cs0, k0)).2.2 = k0 + l.length ∧
      ((m0.map Prod.fst).Nodup → ((l.foldl (sweep1Step lo) (m0, cs0, k0)).1.map Prod.fst).Nodup) ∧
      ∀ s, alistGet (l.foldl (sweep1Step lo) (m0, cs0, k0)).1 s =
        if usersFrom lo l k0 s = [] then alistGet m0 s
        else some ((alistGet m0 s).getD [] ++ usersFrom lo l k0 s) := by
  intro l
  induction l with
  | nil =>
    intro m0 cs0 k0
    refine ⟨by simp, by simp, fun h => h, fun s => ?_⟩
    rw [if_pos (show usersFrom lo ([] : List (Instr O)) k0 s = [] from rfl)]
    rfl
  | cons u l2 ih =>
    intro m0 cs0 k0
    have hstep : sweep1Step lo (m0, cs0, k0) u =
        (((flatSrcs u).foldl (usePairStep lo k0) (LiveSet.new, m0)).2,
         cs0 ++ [⟨netPR lo u, PerRegFile.new_with (fun _ => 0), netPR lo u⟩], k0 + 1) := by
      unfold sweep1Step
      dsimp only
      rw [show u.srcs.foldl (fun (acc2 : LiveSet × List (SSAValue × List Nat)) src =>
            src.ssas.foldl (usePairStep lo k0) acc2) (LiveSet.new, m0)
          = (flatSrcs u).foldl (usePairStep lo k0) (LiveSet.new, m0) from by
        rw [foldl_nested_srcs (usePairStep lo k0) u.srcs (LiveSet.new, m0)]
        rfl]
      rcases hr : (flatSrcs u).foldl (usePairStep lo k0) (LiveSet.new, m0) with ⟨us, m1⟩
      have hus : us = useSet lo u := by
        have := pairFold_fst lo k0 (flatSrcs u) LiveSet.new m0
        rw [hr] at this
        exact this
      dsimp only
      rw [hus]
      rfl
    rw [List.foldl_cons, hstep]
    obtain ⟨ih1, ih2, ih3, ih4⟩ := ih
      (((flatSrcs u).foldl (usePairStep lo k0) (LiveSet.new, m0)).2)
      (cs0 ++ [⟨netPR lo u, PerRegFile.new_with (fun _ => 0), netPR lo u⟩]) (k0 + 1)
    refine ⟨?_, ?_, ?_, ?_⟩
    · rw [ih1, List.map_cons]
      simp
    · rw [ih2, List.length_cons]
      omega
    · intro h
      exact ih3 (pairFold_keys lo k0 (flatSrcs u) LiveSet.new m0 h)
    · intro s
      rw [ih4 s]
      have hm1 : alistGet ((flatSrcs u).foldl (usePairStep lo k0) (LiveSet.new, m0)).2 s =
          if (useSet lo u).contains s = true then some ((alistGet m0 s).getD [] ++ [k0])
          else alistGet m0 s := by
        rw [pairFold_snd lo k0 (flatSrcs u) LiveSet.new m0 s]
        by_cases hc : (useSet lo u).contains s = true
        · rw [if_pos hc, if_pos ⟨of_decide_eq_true hc, by simp [LiveSet.new]⟩]
        · rw [if_neg hc, if_neg (fun hcc => hc (decide_eq_true hcc.1))]
      rw [hm1, usersFrom_cons lo u l2 k0 s]
      by_cases hc : (useSet lo u).contains s = true
      · simp only [if_pos hc]
        rw [List.singleton_append, if_neg (List.cons_ne_nil k0 (usersFrom lo l2 (k0 + 1) s))]
        by_cases hrest : usersFrom lo l2 (k0 + 1) s = []
        · rw [if_pos hrest, hrest]
        · rw [if_neg hrest]
          simp
      · simp only [if_neg hc]
        rw [List.nil_append]

/-- `usersFrom` at offset zero is `usersOf`. -/
theorem usersFrom_zero (instrs : List (Instr O)) (lo : LiveSet) (s : SSAValue) :
    usersFrom lo instrs 0 s = usersOf instrs lo s := by
  unfold usersFrom usersOf
  rw [show (fun j => ((instrs.get? j).map (fun u => (useSet lo u).contains s)).getD false)
      = userB instrs lo s from rfl]
  rw [show (fun j => 0 + j) = (id : Nat → Nat) from funext (fun j => Nat.zero_add j),
    List.map_id]

/-- `get?` of a zip at a doubly-defined index. -/
theorem get?_zip_both {α β : Type} :
    ∀ (l1 : List α) (l2 : List β) (i : Nat) (a : α) (b : β),
      l1.get? i = some a → l2.get? i = some b → (l1.zip l2).get? i = some (a, b) := by
  intro l1
  induction l1 with
  | nil =>
    intro l2 i a b h1 _
    simp at h1
  | cons x t ih =>
    intro l2 i a b h1 h2
    cases l2 with
    | nil => simp at h2
    | cons y t2 =>
      cases i with
      | zero =>
        rw [List.get?_cons_zero] at h1 h2
        rw [List.zip_cons_cons, List.get?_cons_zero, Option.some.inj h1, Option.some.inj h2]
      | succ i2 =>
        rw [List.get?_cons_succ] at h1 h2
        rw [List.zip_cons_cons, List.get?_cons_succ]
        exact ih t2 i2 a b h1 h2

/-- The pending-use map of a fresh `NetLive`, characterised. -/
theorem NetLive_new_s2i (instrs : List (Instr O)) (lo : LiveSet) :
    ((NetLive.new instrs lo).ssa_to_instr.map Prod.fst).Nodup ∧
    ∀ s, alistGet (NetLive.new instrs lo).ssa_to_instr s =
      (if usersOf instrs lo s = [] then Option.none else some (usersOf instrs lo s)) := by
  obtain ⟨h1, h2, h3, h4⟩ := sweep1_char lo instrs [] [] 0
  rcases hfold : instrs.foldl (sweep1Step lo) ([], [], 0) with ⟨s2iF, cs1, kF⟩
  rw [hfold] at h3 h4
  dsimp only at h3 h4
  have hs2i : (NetLive.new instrs lo).ssa_to_instr = s2iF := by
    unfold NetLive.new
    rw [hfold]
  rw [hs2i]
  refine ⟨h3 (by simp), fun s => ?_⟩
  rw [h4 s, usersFrom_zero]
  by_cases hu : usersOf instrs lo s = []
  · rw [if_pos hu, if_pos hu]
    rfl
  · rw [if_neg hu, if_neg hu]
    rfl

/-- The net counter of the inner destination fold of the second sweep. -/
theorem dstSsaFoldNet (s2i : List (SSAValue × List Nat)) (lo : LiveSet) (isv : Bool) :
    ∀ (ssas : List SSAValue) (c : InstrCount) (f : RegFile),
      (ssas.foldl (dstStep s2i lo isv) c).net.get f =
        c.net.get f - (ssas.countP
          (fun d => decide (d.file = f) && (alistContains s2i d || lo.contains d)) : Int) := by
  intro ssas
  induction ssas with
  | nil =>
    intro c f
    simp
  | cons x t ih =>
    intro c f
    rw [List.foldl_cons, ih, List.countP_cons]
    have hnet : (dstStep s2i lo isv c x).net =
        if (alistContains s2i x || lo.contains x) = true then
          c.net.set x.file (c.net.get x.file - 1) else c.net := by
      unfold dstStep
      cases isv <;> by_cases hdy : (alistContains s2i x || lo.contains x) = true <;>
        simp [hdy]
    rw [hnet]
    by_cases hx : (decide (x.file = f) && (alistContains s2i x || lo.contains x)) = true
    · have hx2 := (Bool.and_eq_true _ _).mp hx
      have hf : x.file = f := of_decide_eq_true hx2.1
      subst hf
      rw [if_pos hx2.2, PerRegFile_get_set, if_pos rfl, if_pos hx]
      push_cast
      omega
    · by_cases hdy : (alistContains s2i x || lo.contains x) = true
      · have hf : ¬ f = x.file := by
          intro hf2
          subst hf2
          exact hx (by simp [hdy])
        rw [if_pos hdy, PerRegFile_get_set, if_neg hf, if_neg hx]
        push_cast
        omega
      · rw [if_neg hdy, if_neg hx]
        push_cast
        omega

/-- The net counter of the whole destination fold of the second sweep. -/
theorem dstFoldNet (s2i : List (SSAValue × List Nat)) (lo : LiveSet) :
    ∀ (dsts : List Dst) (c : InstrCount) (f : RegFile),
      (dsts.foldl (fun c2 dst =>
          dst.iter_ssa.foldl (dstStep s2i lo (decide (dst.iter_ssa.length > 1))) c2) c).net.get f =
        c.net.get f - (((dsts.map Dst.iter_ssa).flatten).countP
          (fun d => decide (d.file = f) && (alistContains s2i d || lo.contains d)) : Int) := by
  intro dsts
  induction dsts with
  | nil =>
    intro c f
    simp
  | cons d t ih =>
    intro c f
    rw [List.foldl_cons, ih, dstSsaFoldNet, List.map_cons, List.flatten_cons,
      List.countP_append]
    push_cast
    omega

/-- The counters of a fresh `NetLive`, characterised. -/
theorem NetLive_new_counts (instrs : List (Instr O)) (lo : LiveSet) :
    (NetLive.new instrs lo).counts.length = instrs.length ∧
    ∀ i ui, instrs.get? i = some ui → ∀ f : RegFile,
      ((NetLive.new instrs lo).idx i).net.get f =
        ((useSet lo ui).countP (fun s => decide (s.file = f)) : Int) -
          ((flatDsts ui).countP (fun d => decide (d.file = f) && dyingB instrs lo d) : Int) := by
  obtain ⟨h1, h2, h3, h4⟩ := sweep1_char lo instrs [] [] 0
  rcases hfold : instrs.foldl (sweep1Step lo) ([], [], 0) with ⟨s2iF, cs1, kF⟩
  rw [hfold] at h1 h4
  dsimp only at h1 h4
  rw [List.nil_append] at h1
  have hcounts : (NetLive.new instrs lo).counts =
      (cs1.zip instrs).map (fun ci => ci.2.dsts.foldl (fun c dst =>
        dst.iter_ssa.foldl (dstStep s2iF lo (decide (dst.iter_ssa.length > 1))) c) ci.1) := by
    unfold NetLive.new
    rw [hfold]
  have hlen1 : cs1.length = instrs.length := by
    rw [h1, List.length_map]
  have hdy : ∀ d, (alistContains s2iF d || lo.contains d) = dyingB instrs lo d := by
    intro d
    unfold dyingB alistContains
    rw [h4 d, usersFrom_zero]
    by_cases hu : usersOf instrs lo d = []
    · rw [if_pos hu, hu]
      simp [alistGet]
    · rw [if_neg hu]
      have : (usersOf instrs lo d).isEmpty = false := by
        cases hl : usersOf instrs lo d with
        | nil => exact absurd hl hu
        | cons a b => rfl
      rw [this]
      simp
  constructor
  · rw [hcounts, List.length_map, List.length_zip, hlen1, Nat.min_self]
  · intro i ui hi f
    have hc1 : cs1.get? i =
        some ⟨netPR lo ui, PerRegFile.new_with (fun _ => 0), netPR lo ui⟩ := by
      rw [h1, List.get?_map, hi]
      rfl
    have hzip := get?_zip_both cs1 instrs i _ ui hc1 hi
    unfold NetLive.idx
    rw [hcounts, List.get?_map, hzip]
    simp only [Option.map_some', Option.getD_some]
    rw [dstFoldNet s2iF lo ui.dsts _ f]
    have hnetget : (netPR lo ui).get f = ((useSet lo ui).countP (fun s => decide (s.file = f)) : Int) := by
      unfold netPR
      rw [PerRegFile_get_new_with, LiveSet_count_eq_countP]
    rw [hnetget]
    have hcong : ((ui.dsts.map Dst.iter_ssa).flatten).countP
          (fun d => decide (d.file = f) && (alistContains s2iF d || lo.contains d)) =
        (flatDsts ui).countP (fun d => decide (d.file = f) && dyingB instrs lo d) := by
      refine countP_congr_ne _ _ _ (fun d _ => ?_)
      rw [hdy d]
    rw [hcong]

/-- The net-live invariant holds for a fresh `NetLive` before any
instruction has been processed. -/
theorem NLInv_init (instrs : List (Instr O)) (lo : LiveSet) (hnd : lo.Nodup) :
    NLInv instrs lo [] lo (NetLive.new instrs lo) := by
  obtain ⟨hkeys, hget⟩ := NetLive_new_s2i instrs lo
  obtain ⟨hlen, hnet⟩ := NetLive_new_counts instrs lo
  refine ⟨hlen, hkeys, hnd, ?_, ?_, ?_⟩
  · intro s
    simp
  · intro s
    rw [hget s]
    simp
  · intro i ui _ hi f
    rw [hnet i ui hi f]
    have : (fun (s : SSAValue) => decide (s.file = f) && !(List.any [] (userB instrs lo s)))
        = (fun (s : SSAValue) => decide (s.file = f)) := by
      funext s
      simp
    rw [this]

/-- A fold of per-destination-vector folds over the flattened list. -/
theorem foldl_nested_iter {β : Type} (b : β → SSAValue → β) :
    ∀ (dsts : List Dst) (z : β),
      dsts.foldl (fun acc dst => dst.iter_ssa.foldl b acc) z =
        ((dsts.map Dst.iter_ssa).flatten).foldl b z := by
  intro dsts
  induction dsts with
  | nil => intro z; rfl
  | cons x t ih =>
    intro z
    rw [List.foldl_cons, List.map_cons, List.flatten_cons, List.foldl_append, ih]

/-- The kill loop of the bottom-up replay: removing a duplicate-free
batch of values from a duplicate-free live set. -/
theorem remFold_char :
    ∀ (D : List SSAValue) (l : LiveSet), l.Nodup → D.Nodup →
      (D.foldl (fun lv d => (LiveSet.remove lv d).1) l).Nodup ∧
      (∀ s, s ∈ D.foldl (fun lv d => (LiveSet.remove lv d).1) l ↔ s ∈ l ∧ s ∉ D) ∧
      ∀ f : RegFile, ((D.foldl (fun lv d => (LiveSet.remove lv d).1) l).countP
          (fun s => decide (s.file = f)) : Int) =
        (l.countP (fun s => decide (s.file = f)) : Int) -
          (D.countP (fun d => decide (d.file = f) && decide (d ∈ l)) : Int) := by
  intro D
  induction D with
  | nil =>
    intro l hl _
    refine ⟨hl, fun s => by simp, fun f => by simp⟩
  | cons d D2 ih =>
    intro l hl hD
    rw [List.nodup_cons] at hD
    rw [List.foldl_cons]
    by_cases hdl : d ∈ l
    · have hseed : (LiveSet.remove l d).1 = l.erase d := by
        rw [LiveSet_remove_mem l d hdl]
      rw [hseed]
      obtain ⟨ih1, ih2, ih3⟩ := ih (l.erase d) (hl.erase d) hD.2
      refine ⟨ih1, fun s => ?_, fun f => ?_⟩
      · rw [ih2 s, hl.mem_erase_iff]
        constructor
        · rintro ⟨⟨hne, hsl⟩, hnD⟩
          refine ⟨hsl, fun hc => ?_⟩
          rcases List.mem_cons.mp hc with h2 | h2
          · exact hne h2
          · exact hnD h2
        · rintro ⟨hsl, hnc⟩
          exact ⟨⟨fun he => hnc (he ▸ List.mem_cons_self d D2),
              hsl⟩, fun hm => hnc (List.mem_cons_of_mem d hm)⟩
      · rw [ih3 f, List.countP_cons]
        have hagree : ∀ d2 ∈ D2,
            (fun (x : SSAValue) => decide (x.file = f) && decide (x ∈ l.erase d)) d2 =
            (fun (x : SSAValue) => decide (x.file = f) && decide (x ∈ l)) d2 := by
          intro d2 hd2
          have hne : d2 ≠ d := fun he => hD.1 (he ▸ hd2)
          by_cases hm : d2 ∈ l
          · have h2 : d2 ∈ l.erase d := hl.mem_erase_iff.mpr ⟨hne, hm⟩
            simp [hm, h2]
          · have h2 : d2 ∉ l.erase d := fun hc => hm (hl.mem_erase_iff.mp hc).2
            simp [hm, h2]
        rw [countP_congr_ne D2 _ _ hagree]
        have hce := countP_erase l d (fun s => decide (s.file = f)) hdl
        by_cases hdf : decide (d.file = f) = true
        · rw [if_pos hdf] at hce
          rw [if_pos (show (decide (d.file = f) && decide (d ∈ l)) = true by
            simp [hdf, hdl])]
          push_cast
          omega
        · rw [if_neg hdf] at hce
          rw [if_neg (show ¬ (decide (d.file = f) && decide (d ∈ l)) = true by
            simp [hdf])]
          push_cast
          omega
    · have hseed : (LiveSet.remove l d).1 = l := by
        rw [LiveSet_remove_not_mem l d hdl]
      rw [hseed]
      obtain ⟨ih1, ih2, ih3⟩ := ih l hl hD.2
      refine ⟨ih1, fun s => ?_, fun f => ?_⟩
      · rw [ih2 s]
        constructor
        · rintro ⟨hsl, hnD⟩
          refine ⟨hsl, fun hc => ?_⟩
          rcases List.mem_cons.mp hc with h2 | h2
          · exact hdl (h2 ▸ hsl)
          · exact hnD h2
        · rintro ⟨hsl, hnc⟩
          exact ⟨hsl, fun hm => hnc (List.mem_cons_of_mem d hm)⟩
      · rw [ih3 f, List.countP_cons,
          if_neg (show ¬ (decide (d.file = f) && decide (d ∈ l)) = true by simp [hdl])]
        push_cast
        omega

/-- Difference of two counts over predicates differing at one point. -/
theorem countP_update_one (l : List SSAValue) (x : SSAValue) (hnd : l.Nodup)
    (p q : SSAValue → Bool) (hag : ∀ s ∈ l, s ≠ x → p s = q s) :
    (l.countP p : Int) - (l.countP q : Int) =
      if x ∈ l then (if p x then 1 else 0) - (if q x then 1 else 0) else 0 := by
  by_cases hx : x ∈ l
  · rw [if_pos hx]
    have hperm := List.perm_cons_erase hx
    rw [hperm.countP_eq p, hperm.countP_eq q, List.countP_cons, List.countP_cons]
    have heq : (l.erase x).countP p = (l.erase x).countP q :=
      countP_congr_ne _ _ _ (fun s hs => hag s (List.erase_subset x l hs)
        (hnd.mem_erase_iff.mp hs).1)
    rw [heq]
    by_cases hp : p x = true <;> by_cases hq : q x = true <;>
      simp [hp, hq] <;> push_cast <;> omega
  · rw [if_neg hx]
    have heq : l.countP p = l.countP q :=
      countP_congr_ne _ _ _ (fun s hs => hag s hs (fun he => hx (he ▸ hs)))
    rw [heq]
    omega

/-- `NetLive::remove` of an untracked value is a no-op. -/
theorem NetLive_remove_none (nl : NetLive) (ssa : SSAValue)
    (h : alistGet nl.ssa_to_instr ssa = Option.none) :
    NetLive.remove nl ssa = (nl, false) := by
  unfold NetLive.remove
  rcases hr : alistRemove nl.ssa_to_instr ssa with ⟨m, v⟩
  have hv : v = Option.none := by
    have h2 := alistRemove_snd nl.ssa_to_instr ssa
    rw [hr] at h2
    rw [← h2] at h
    exact h
  subst hv
  rfl

/-- `NetLive::remove` of a tracked value: the entry disappears and every
user\'s net counter drops by one in the value\'s file. -/
theorem NetLive_remove_some (nl : NetLive) (ssa : SSAValue) (idxs : List Nat)
    (h : alistGet nl.ssa_to_instr ssa = some idxs)
    (hnd : idxs.Nodup) (hb : ∀ j ∈ idxs, j < nl.counts.length) :
    ∃ cs2, NetLive.remove nl ssa = (⟨cs2, (alistRemove nl.ssa_to_instr ssa).1⟩, true) ∧
      cs2.length = nl.counts.length ∧
      ∀ i2 f, ((cs2.get? i2).getD InstrCount.zero).net.get f =
        ((nl.counts.get? i2).getD InstrCount.zero).net.get f -
          (if i2 ∈ idxs ∧ f = ssa.file then 1 else 0) := by
  obtain ⟨hlen, hget⟩ := netDecFold ssa idxs nl.counts hnd hb
  rcases hr : alistRemove nl.ssa_to_instr ssa with ⟨m, v⟩
  have hv : v = some idxs := by
    have h2 := alistRemove_snd nl.ssa_to_instr ssa
    rw [hr] at h2
    rw [← h2] at h
    exact h
  subst hv
  refine ⟨_, ?_, hlen, hget⟩
  unfold NetLive.remove
  rw [hr]

/-- Extending the processed-source prefix by an already-irrelevant value
keeps the replay invariant. -/
theorem MidInv_extend (instrs : List (Instr O)) (lo : LiveSet) (done : List Nat)
    (ui : Instr O) (live1 : LiveSet) (pre : List SSAValue) (lv : LiveSet) (nl : NetLive)
    (x : SSAValue)
    (hmi : MidInv instrs lo done ui live1 pre lv nl)
    (hirr : lo.contains x = true ∨ done.any (userB instrs lo x) = true ∨ x ∈ pre) :
    MidInv instrs lo done ui live1 (pre ++ [x]) lv nl := by
  obtain ⟨m0len, mkeys, mnodup, mmem, mget, mnet, mcount⟩ := hmi
  have hmemx : ∀ s : SSAValue, s ∈ pre ++ [x] ↔ s ∈ pre ∨ s = x := by
    intro s
    rw [List.mem_append, List.mem_singleton]
  refine ⟨m0len, mkeys, mnodup, ?_, ?_, ?_, ?_⟩
  · intro s
    rw [mmem s]
    by_cases hsx : s = x
    · subst hsx
      constructor
      · rintro (h | h)
        · exact Or.inl h
        · exact Or.inr ⟨(hmemx s).mpr (Or.inl h.1), h.2⟩
      · rintro (h | h)
        · exact Or.inl h
        · rcases hirr with h2 | h2 | h2
          · rw [h2] at h
            exact absurd h.2.1 (by simp)
          · rw [h2] at h
            exact absurd h.2.2 (by simp)
          · exact Or.inr ⟨h2, h.2⟩
    · constructor
      · rintro (h | h)
        · exact Or.inl h
        · exact Or.inr ⟨(hmemx s).mpr (Or.inl h.1), h.2⟩
      · rintro (h | h)
        · exact Or.inl h
        · refine Or.inr ⟨((hmemx s).mp h.1).resolve_right hsx, h.2⟩
  · intro s
    rw [mget s]
    by_cases hsx : s = x
    · subst hsx
      have hnew : done.any (userB instrs lo s) = true ∨ s ∈ pre ++ [s] ∨
          usersOf instrs lo s = [] :=
        Or.inr (Or.inl ((hmemx s).mpr (Or.inr rfl)))
      rcases hirr with h2 | h2 | h2
      · rw [if_pos (Or.inr (Or.inr (usersOf_lo_nil instrs lo s h2))), if_pos hnew]
      · rw [if_pos (Or.inl h2), if_pos hnew]
      · rw [if_pos (Or.inr (Or.inl h2)), if_pos hnew]
    · have hcond : (done.any (userB instrs lo s) = true ∨ s ∈ pre ∨
          usersOf instrs lo s = []) ↔
        (done.any (userB instrs lo s) = true ∨ s ∈ pre ++ [x] ∨
          usersOf instrs lo s = []) := by
        constructor
        · rintro (h | h | h)
          · exact Or.inl h
          · exact Or.inr (Or.inl ((hmemx s).mpr (Or.inl h)))
          · exact Or.inr (Or.inr h)
        · rintro (h | h | h)
          · exact Or.inl h
          · exact Or.inr (Or.inl (((hmemx s).mp h).resolve_right hsx))
          · exact Or.inr (Or.inr h)
      by_cases hc : done.any (userB instrs lo s) = true ∨ s ∈ pre ∨
          usersOf instrs lo s = []
      · rw [if_pos hc, if_pos (hcond.mp hc)]
      · rw [if_neg hc, if_neg (fun h2 => hc (hcond.mpr h2))]
  · intro i2 ui2 hi2 hgi2 f
    rw [mnet i2 ui2 hi2 hgi2 f]
    have hagree : ∀ s ∈ useSet lo ui2,
        (fun (s : SSAValue) => decide (s.file = f) &&
          (!(done.any (userB instrs lo s)) && !(decide (s ∈ pre)))) s =
        (fun (s : SSAValue) => decide (s.file = f) &&
          (!(done.any (userB instrs lo s)) && !(decide (s ∈ pre ++ [x])))) s := by
      intro s hs
      by_cases hsx : s = x
      · subst hsx
        have hlo_s : lo.contains s = false := ((useSet_mem lo ui2 s).mp hs).2
        rcases hirr with h2 | h2 | h2
        · rw [h2] at hlo_s
          simp at hlo_s
        · simp [h2]
        · have : s ∈ pre ++ [s] := (hmemx s).mpr (Or.inl h2)
          simp [h2, this]
      · have hiff : (s ∈ pre ++ [x]) ↔ s ∈ pre := by
          rw [hmemx s]
          exact ⟨fun hc => hc.resolve_right hsx, Or.inl⟩
        dsimp only
        rw [show (decide (s ∈ pre ++ [x])) = decide (s ∈ pre) from decide_eq_decide.mpr hiff]
    rw [countP_congr_ne _ _ _ hagree]
  · intro f
    rw [mcount f]
    have hagree : ∀ s ∈ useSet lo ui,
        (fun (s : SSAValue) => decide (s.file = f) &&
          (!(done.any (userB instrs lo s)) && decide (s ∈ pre))) s =
        (fun (s : SSAValue) => decide (s.file = f) &&
          (!(done.any (userB instrs lo s)) && decide (s ∈ pre ++ [x]))) s := by
      intro s hs
      by_cases hsx : s = x
      · subst hsx
        have hlo_s : lo.contains s = false := ((useSet_mem lo ui s).mp hs).2
        rcases hirr with h2 | h2 | h2
        · rw [h2] at hlo_s
          simp at hlo_s
        · simp [h2]
        · have : s ∈ pre ++ [s] := (hmemx s).mpr (Or.inl h2)
          simp [h2, this]
      · have hiff : (s ∈ pre ++ [x]) ↔ s ∈ pre := by
          rw [hmemx s]
          exact ⟨fun hc => hc.resolve_right hsx, Or.inl⟩
        dsimp only
        rw [show (decide (s ∈ pre ++ [x])) = decide (s ∈ pre) from decide_eq_decide.mpr hiff]
    rw [countP_congr_ne _ _ _ hagree]

/-- The source loop of the bottom-up replay: every pending use becomes
live (removing it from the pending map and decrementing its users\'
counters), every other source is already live, and the invariant is
carried to the full processed source list. -/
theorem srcPhase (instrs : List (Instr O)) (lo : LiveSet) (done : List Nat)
    (i : Nat) (ui : Instr O) (live1 : LiveSet)
    (hi : instrs.get? i = some ui)
    (hlive1 : ∀ s : SSAValue, s ∈ live1 ↔
      ((s ∈ lo ∨ done.any (userB instrs lo s) = true) ∧
        done.any (definerB instrs s) = false ∧ s ∉ flatDsts ui))
    (hE2 : ∀ s ∈ flatSrcs ui, done.any (definerB instrs s) = false)
    (hDJ : ∀ s ∈ flatSrcs ui, s ∉ flatDsts ui) :
    ∀ (rest pre : List SSAValue) (lv : LiveSet) (nl : NetLive),
      flatSrcs ui = pre ++ rest →
      MidInv instrs lo done ui live1 pre lv nl →
      ∃ lv2 nl2,
        rest.foldl (fun (acc2 : Option (LiveSet × NetLive)) ssa =>
          match acc2 with
          | Option.none => Option.none
          | some lvnl =>
            match lvnl with
            | (lv, nl) =>
            match NetLive.remove nl ssa with
            | (nl, true) => some ((LiveSet.insert lv ssa).1, nl)
            | (nl, false) =>
              match LiveSet.insert lv ssa with
              | (_, true) => Option.none
              | (lv, false) => some (lv, nl)) (some (lv, nl)) = some (lv2, nl2) ∧
        MidInv instrs lo done ui live1 (pre ++ rest) lv2 nl2 := by
  intro rest
  induction rest with
  | nil =>
    intro pre lv nl hflat hmi
    refine ⟨lv, nl, rfl, ?_⟩
    rw [List.append_nil]
    exact hmi
  | cons x rest2 ih =>
    intro pre lv nl hflat hmi
    have hx_mem : x ∈ flatSrcs ui := by
      rw [hflat]
      exact List.mem_append.mpr (Or.inr (List.mem_cons_self x rest2))
    have hflat2 : flatSrcs ui = (pre ++ [x]) ++ rest2 := by
      rw [hflat]
      simp
    have happc : pre ++ x :: rest2 = (pre ++ [x]) ++ rest2 := by
      simp
    rw [List.foldl_cons]
    by_cases hAlo : lo.contains x = true
    · have husers := usersOf_lo_nil instrs lo x hAlo
      have hgetx : alistGet nl.ssa_to_instr x = Option.none := by
        rw [hmi.2.2.2.2.1 x, if_pos (Or.inr (Or.inr husers))]
      have hrem := NetLive_remove_none nl x hgetx
      have hxlv : x ∈ lv := by
        rw [hmi.2.2.2.1 x]
        refine Or.inl ((hlive1 x).mpr ⟨Or.inl ?_, hE2 x hx_mem, hDJ x hx_mem⟩)
        exact of_decide_eq_true hAlo
      have hins := LiveSet_insert_mem lv x hxlv
      dsimp only
      rw [hrem]
      dsimp only
      rw [hins]
      obtain ⟨lv2, nl2, hfold, hmi2⟩ := ih (pre ++ [x]) lv nl hflat2
        (MidInv_extend instrs lo done ui live1 pre lv nl x hmi (Or.inl hAlo))
      refine ⟨lv2, nl2, hfold, ?_⟩
      rw [happc]
      exact hmi2
    · by_cases hBdu : done.any (userB instrs lo x) = true
      · have hgetx : alistGet nl.ssa_to_instr x = Option.none := by
          rw [hmi.2.2.2.2.1 x, if_pos (Or.inl hBdu)]
        have hrem := NetLive_remove_none nl x hgetx
        have hxlv : x ∈ lv := by
          rw [hmi.2.2.2.1 x]
          exact Or.inl ((hlive1 x).mpr ⟨Or.inr hBdu, hE2 x hx_mem, hDJ x hx_mem⟩)
        have hins := LiveSet_insert_mem lv x hxlv
        dsimp only
        rw [hrem]
        dsimp only
        rw [hins]
        obtain ⟨lv2, nl2, hfold, hmi2⟩ := ih (pre ++ [x]) lv nl hflat2
          (MidInv_extend instrs lo done ui live1 pre lv nl x hmi (Or.inr (Or.inl hBdu)))
        refine ⟨lv2, nl2, hfold, ?_⟩
        rw [happc]
        exact hmi2
      · by_cases hCpre : x ∈ pre
        · have hgetx : alistGet nl.ssa_to_instr x = Option.none := by
            rw [hmi.2.2.2.2.1 x, if_pos (Or.inr (Or.inl hCpre))]
          have hrem := NetLive_remove_none nl x hgetx
          have hxlv : x ∈ lv := by
            rw [hmi.2.2.2.1 x]
            exact Or.inr ⟨hCpre, Bool.eq_false_of_ne_true hAlo,
              Bool.eq_false_of_ne_true hBdu⟩
          have hins := LiveSet_insert_mem lv x hxlv
          dsimp only
          rw [hrem]
          dsimp only
          rw [hins]
          obtain ⟨lv2, nl2, hfold, hmi2⟩ := ih (pre ++ [x]) lv nl hflat2
            (MidInv_extend instrs lo done ui live1 pre lv nl x hmi (Or.inr (Or.inr hCpre)))
          refine ⟨lv2, nl2, hfold, ?_⟩
          rw [happc]
          exact hmi2
        · -- the value becomes live here
          have hlo_false : lo.contains x = false := Bool.eq_false_of_ne_true hAlo
          have hdu_false : done.any (userB instrs lo x) = false := Bool.eq_false_of_ne_true hBdu
          have hxuse : x ∈ useSet lo ui := (useSet_mem lo ui x).mpr ⟨hx_mem, hlo_false⟩
          have hcont : (useSet lo ui).contains x = true := decide_eq_true hxuse
          have husers_ne := usersOf_ne_nil instrs lo x i ui hi hcont
          have hgetx : alistGet nl.ssa_to_instr x = some (usersOf instrs lo x) := by
            rw [hmi.2.2.2.2.1 x, if_neg ?_]
            rintro (h2 | h2 | h2)
            · rw [h2] at hdu_false
              simp at hdu_false
            · exact hCpre h2
            · exact husers_ne h2
          have hboundu : ∀ j ∈ usersOf instrs lo x, j < nl.counts.length := by
            intro j hj
            rw [hmi.1]
            exact ((mem_usersOf instrs lo x j).mp hj).1
          obtain ⟨cs2, hremeq, hcslen, hcsget⟩ := NetLive_remove_some nl x
            (usersOf instrs lo x) hgetx (usersOf_nodup instrs lo x) hboundu
          have hxnotlv : x ∉ lv := by
            rw [hmi.2.2.2.1 x]
            rintro (h | h)
            · rcases ((hlive1 x).mp h).1 with h2 | h2
              · exact absurd hlo_false (by
                  unfold LiveSet.contains
                  simp [h2])
              · rw [h2] at hdu_false
                simp at hdu_false
            · exact hCpre h.1
          have hins := LiveSet_insert_not_mem lv x hxnotlv
          dsimp only
          rw [hremeq]
          dsimp only
          rw [hins]
          dsimp only
          -- the invariant at the extended prefix
          have hmemx : ∀ s : SSAValue, s ∈ pre ++ [x] ↔ s ∈ pre ∨ s = x := by
            intro s
            rw [List.mem_append, List.mem_singleton]
          have hmi2 : MidInv instrs lo done ui live1 (pre ++ [x]) (x :: lv)
              ⟨cs2, (alistRemove nl.ssa_to_instr x).1⟩ := by
            obtain ⟨m0len, mkeys, mnodup, mmem, mget, mnet, mcount⟩ := hmi
            refine ⟨?_, ?_, ?_, ?_, ?_, ?_, ?_⟩
            · rw [show (NetLive.mk cs2 (alistRemove nl.ssa_to_instr x).1).counts = cs2 from rfl,
                hcslen, m0len]
            · exact alistRemove_keys_nodup nl.ssa_to_instr x mkeys
            · exact List.nodup_cons.mpr ⟨hxnotlv, mnodup⟩
            · intro s
              rw [List.mem_cons]
              by_cases hsx : s = x
              · subst hsx
                constructor
                · intro _
                  exact Or.inr ⟨(hmemx s).mpr (Or.inr rfl), hlo_false, hdu_false⟩
                · intro _
                  exact Or.inl rfl
              · rw [mmem s]
                constructor
                · rintro (h | h | h)
                  · exact absurd h hsx
                  · exact Or.inl h
                  · exact Or.inr ⟨(hmemx s).mpr (Or.inl h.1), h.2⟩
                · rintro (h | h)
                  · exact Or.inr (Or.inl h)
                  · exact Or.inr (Or.inr ⟨((hmemx s).mp h.1).resolve_right hsx, h.2⟩)
            · intro s
              by_cases hsx : s = x
              · subst hsx
                rw [show (NetLive.mk cs2 (alistRemove nl.ssa_to_instr s).1).ssa_to_instr
                    = (alistRemove nl.ssa_to_instr s).1 from rfl]
                rw [alistRemove_get_self nl.ssa_to_instr s mkeys,
                  if_pos (Or.inr (Or.inl ((hmemx s).mpr (Or.inr rfl))))]
              · rw [show (NetLive.mk cs2 (alistRemove nl.ssa_to_instr x).1).ssa_to_instr
                    = (alistRemove nl.ssa_to_instr x).1 from rfl]
                rw [alistRemove_get_ne nl.ssa_to_instr x s hsx, mget s]
                have hcond : (done.any (userB instrs lo s) = true ∨ s ∈ pre ∨
                    usersOf instrs lo s = []) ↔
                  (done.any (userB instrs lo s) = true ∨ s ∈ pre ++ [x] ∨
                    usersOf instrs lo s = []) := by
                  constructor
                  · rintro (h | h | h)
                    · exact Or.inl h
                    · exact Or.inr (Or.inl ((hmemx s).mpr (Or.inl h)))
                    · exact Or.inr (Or.inr h)
                  · rintro (h | h | h)
                    · exact Or.inl h
                    · exact Or.inr (Or.inl (((hmemx s).mp h).resolve_right hsx))
                    · exact Or.inr (Or.inr h)
                by_cases hc : done.any (userB instrs lo s) = true ∨ s ∈ pre ∨
                    usersOf instrs lo s = []
                · rw [if_pos hc, if_pos (hcond.mp hc)]
                · rw [if_neg hc, if_neg (fun h2 => hc (hcond.mpr h2))]
            · intro i2 ui2 hi2d hgi2 f
              have hold := mnet i2 ui2 hi2d hgi2 f
              have hi2n : i2 < instrs.length := by
                by_contra hge
                rw [List.get?_eq_none.mpr (by omega)] at hgi2
                simp at hgi2
              have hnewidx : ((NetLive.mk cs2 (alistRemove nl.ssa_to_instr x).1).idx i2).net.get f =
                  (nl.idx i2).net.get f -
                    (if i2 ∈ usersOf instrs lo x ∧ f = x.file then 1 else 0) := by
                unfold NetLive.idx
                exact hcsget i2 f
              rw [hnewidx, hold]
              have hdelta := countP_update_one (useSet lo ui2) x (useSet_nodup lo ui2)
                (fun s => decide (s.file = f) &&
                  (!(done.any (userB instrs lo s)) && !(decide (s ∈ pre))))
                (fun s => decide (s.file = f) &&
                  (!(done.any (userB instrs lo s)) && !(decide (s ∈ pre ++ [x]))))
                (fun s _ hne => by
                  have hiff : (s ∈ pre ++ [x]) ↔ s ∈ pre := by
                    rw [hmemx s]
                    exact ⟨fun hc => hc.resolve_right hne, Or.inl⟩
                  dsimp only
                  rw [show (decide (s ∈ pre ++ [x])) = decide (s ∈ pre) from
                    decide_eq_decide.mpr hiff])
              by_cases hxu2 : x ∈ useSet lo ui2
              · have hiu : i2 ∈ usersOf instrs lo x := by
                  refine (mem_usersOf instrs lo x i2).mpr ⟨hi2n, ?_⟩
                  rw [userB_eq_true instrs lo x i2 ui2 hgi2]
                  exact decide_eq_true hxu2
                rw [if_pos hxu2] at hdelta
                have hqx : (fun (s : SSAValue) => decide (s.file = f) &&
                    (!(done.any (userB instrs lo s)) && !(decide (s ∈ pre ++ [x])))) x = false := by
                  have : x ∈ pre ++ [x] := (hmemx x).mpr (Or.inr rfl)
                  simp [this]
                have hpx : (fun (s : SSAValue) => decide (s.file = f) &&
                    (!(done.any (userB instrs lo s)) && !(decide (s ∈ pre)))) x
                    = decide (x.file = f) := by
                  simp [hdu_false, hCpre]
                rw [hpx, hqx] at hdelta
                by_cases hf : f = x.file
                · rw [if_pos ⟨hiu, hf⟩]
                  rw [if_pos (decide_eq_true hf.symm), if_neg (by simp)] at hdelta
                  omega
                · rw [if_neg (fun hcc => hf hcc.2)]
                  rw [if_neg (by
                      intro hcc
                      exact hf (of_decide_eq_true hcc).symm), if_neg (by simp)] at hdelta
                  omega
              · have hiu : i2 ∉ usersOf instrs lo x := by
                  intro hc
                  have := ((mem_usersOf instrs lo x i2).mp hc).2
                  rw [userB_eq_true instrs lo x i2 ui2 hgi2] at this
                  exact hxu2 (of_decide_eq_true this)
                rw [if_neg hxu2] at hdelta
                rw [if_neg (fun hcc => hiu hcc.1)]
                omega
            · intro f
              rw [List.countP_cons]
              push_cast
              rw [mcount f]
              have hdelta := countP_update_one (useSet lo ui) x (useSet_nodup lo ui)
                (fun s => decide (s.file = f) &&
                  (!(done.any (userB instrs lo s)) && decide (s ∈ pre ++ [x])))
                (fun s => decide (s.file = f) &&
                  (!(done.any (userB instrs lo s)) && decide (s ∈ pre)))
                (fun s _ hne => by
                  have hiff : (s ∈ pre ++ [x]) ↔ s ∈ pre := by
                    rw [hmemx s]
                    exact ⟨fun hc => hc.resolve_right hne, Or.inl⟩
                  dsimp only
                  rw [show (decide (s ∈ pre ++ [x])) = decide (s ∈ pre) from
                    decide_eq_decide.mpr hiff])
              rw [if_pos hxuse] at hdelta
              have hpx : (fun (s : SSAValue) => decide (s.file = f) &&
                  (!(done.any (userB instrs lo s)) && decide (s ∈ pre ++ [x]))) x
                  = decide (x.file = f) := by
                have : x ∈ pre ++ [x] := (hmemx x).mpr (Or.inr rfl)
                simp [hdu_false, this]
              have hqx : (fun (s : SSAValue) => decide (s.file = f) &&
                  (!(done.any (userB instrs lo s)) && decide (s ∈ pre))) x = false := by
                simp [hCpre]
              rw [hpx, hqx] at hdelta
              by_cases hf : x.file = f
              · rw [if_pos (decide_eq_true hf), if_neg (by simp)] at hdelta
                rw [if_pos (decide_eq_true hf)]
                push_cast
                omega
              · rw [if_neg (by
                    intro hcc
                    exact hf (of_decide_eq_true hcc)), if_neg (by simp)] at hdelta
                rw [if_neg (by
                  intro hcc
                  exact hf (of_decide_eq_true hcc))]
                push_cast
                omega
          obtain ⟨lv2, nl2, hfold, hmi3⟩ := ih (pre ++ [x]) (x :: lv)
            ⟨cs2, (alistRemove nl.ssa_to_instr x).1⟩ hflat2 hmi2
          refine ⟨lv2, nl2, hfold, ?_⟩
          rw [happc]
          exact hmi3

/-- `definerB` through the instruction lookup. -/
theorem definerB_eq (instrs : List (Instr O)) (s : SSAValue) (i : Nat) (ui : Instr O)
    (h : instrs.get? i = some ui) :
    definerB instrs s i = decide (s ∈ flatDsts ui) := by
  unfold definerB
  rw [h]
  rfl

/-- Any of an appended one-element batch. -/
theorem any_append_one (done : List Nat) (i : Nat) (p : Nat → Bool) :
    (done ++ [i]).any p = (done.any p || p i) := by
  simp

/-- **C4.** One step of the bottom-up scheduling replay: on a well-formed
unit state satisfying the net-live invariant, emitting instruction `i`
next succeeds, and for every register file the new live count is the old
live count plus `net[file]` of `i` as maintained by `NetLive::new` and
`NetLive::remove`; the invariant carries to the extended schedule. -/
theorem net_live_step_correct (instrs : List (Instr O)) (lo : LiveSet) (done : List Nat)
    (live : LiveSet) (nl : NetLive) (i : Nat) (ui : Instr O)
    (hinv : NLInv instrs lo done live nl)
    (hi : instrs.get? i = some ui)
    (hidone : i ∉ done)
    (hE1 : ∀ d ∈ flatDsts ui, usersOf instrs lo d ≠ [] → done.any (userB instrs lo d) = true)
    (hE3 : ∀ d ∈ flatDsts ui, done.any (definerB instrs d) = false)
    (hE2 : ∀ s ∈ flatSrcs ui, done.any (definerB instrs s) = false)
    (hWd : (flatDsts ui).Nodup)
    (hDJ : ∀ s ∈ flatSrcs ui, s ∉ flatDsts ui) :
    ∃ live2 nl2, liveStep ui live nl = some (live2, nl2) ∧
      (∀ f : RegFile, (live2.count f : Int) = (live.count f : Int) + (nl.idx i).net.get f) ∧
      NLInv instrs lo (done ++ [i]) live2 nl2 := by
  obtain ⟨W0, Wk, W1, W2, W3, W4⟩ := hinv
  obtain ⟨h1nodup, h1mem, h1count⟩ :=
    remFold_char (flatDsts ui) live W1 hWd
  have hlive1 : ∀ s : SSAValue,
      s ∈ (flatDsts ui).foldl (fun lv d => (LiveSet.remove lv d).1) live ↔
      ((s ∈ lo ∨ done.any (userB instrs lo s) = true) ∧
        done.any (definerB instrs s) = false ∧ s ∉ flatDsts ui) := by
    intro s
    rw [h1mem s, W2 s, and_assoc]
  have hmid0 : MidInv instrs lo done ui
      ((flatDsts ui).foldl (fun lv d => (LiveSet.remove lv d).1) live) [] 
      ((flatDsts ui).foldl (fun lv d => (LiveSet.remove lv d).1) live) nl := by
    refine ⟨W0, Wk, h1nodup, ?_, ?_, ?_, ?_⟩
    · intro s
      simp
    · intro s
      rw [W3 s]
      have hcond : (done.any (userB instrs lo s) = true ∨ usersOf instrs lo s = []) ↔
          (done.any (userB instrs lo s) = true ∨ s ∈ ([] : List SSAValue) ∨
            usersOf instrs lo s = []) := by
        simp
      by_cases hc : done.any (userB instrs lo s) = true ∨ usersOf instrs lo s = []
      · rw [if_pos hc, if_pos (hcond.mp hc)]
      · rw [if_neg hc, if_neg (fun h2 => hc (hcond.mpr h2))]
    · intro i2 ui2 hi2 hg f
      rw [W4 i2 ui2 hi2 hg f]
      have : ∀ s ∈ useSet lo ui2,
          (fun (s : SSAValue) => decide (s.file = f) && !(done.any (userB instrs lo s))) s =
          (fun (s : SSAValue) => decide (s.file = f) &&
            (!(done.any (userB instrs lo s)) && !(decide (s ∈ ([] : List SSAValue))))) s := by
        intro s _
        simp
      rw [countP_congr_ne _ _ _ this]
    · intro f
      have hzero : (useSet lo ui).countP (fun s => decide (s.file = f) &&
          (!(done.any (userB instrs lo s)) && decide (s ∈ ([] : List SSAValue)))) = 0 := by
        rw [List.countP_eq_zero]
        intro s _
        simp
      rw [hzero]
      simp
  obtain ⟨lv2, nl2, hfold, hmidF⟩ := srcPhase instrs lo done i ui
    ((flatDsts ui).foldl (fun lv d => (LiveSet.remove lv d).1) live)
    hi hlive1 hE2 hDJ (flatSrcs ui) []
    ((flatDsts ui).foldl (fun lv d => (LiveSet.remove lv d).1) live) nl
    (by rw [List.nil_append]) hmid0
  obtain ⟨F0, Fk, Fnodup, Fmem, Fget, Fnet, Fcount⟩ := hmidF
  have hkill : ui.dsts.foldl (fun lv dst =>
        dst.iter_ssa.foldl (fun lv ssa => (LiveSet.remove lv ssa).1) lv) live =
      (flatDsts ui).foldl (fun lv d => (LiveSet.remove lv d).1) live := by
    rw [foldl_nested_iter]
    rfl
  have hstep : liveStep ui live nl = some (lv2, nl2) := by
    unfold liveStep
    dsimp only
    rw [hkill, foldl_nested_srcs]
    exact hfold
  have huseflat : ∀ s ∈ useSet lo ui, s ∈ flatSrcs ui :=
    fun s hs => ((useSet_mem lo ui s).mp hs).1
  have huselo : ∀ s ∈ useSet lo ui, lo.contains s = false :=
    fun s hs => ((useSet_mem lo ui s).mp hs).2
  have huser_i : ∀ s : SSAValue, userB instrs lo s i = decide (s ∈ useSet lo ui) :=
    fun s => userB_eq_true instrs lo s i ui hi
  have hdef_i : ∀ s : SSAValue, definerB instrs s i = decide (s ∈ flatDsts ui) :=
    fun s => definerB_eq instrs s i ui hi
  have hanyu : ∀ s : SSAValue, ((done ++ [i]).any (userB instrs lo s) = true) ↔
      (done.any (userB instrs lo s) = true ∨ s ∈ useSet lo ui) := by
    intro s
    rw [any_append_one, Bool.or_eq_true, huser_i s]
    constructor
    · rintro (h | h)
      · exact Or.inl h
      · exact Or.inr (of_decide_eq_true h)
    · rintro (h | h)
      · exact Or.inl h
      · exact Or.inr (decide_eq_true h)
  have hanyd : ∀ s : SSAValue, ((done ++ [i]).any (definerB instrs s) = false) ↔
      (done.any (definerB instrs s) = false ∧ s ∉ flatDsts ui) := by
    intro s
    rw [any_append_one, hdef_i s, Bool.or_eq_false_iff]
    constructor
    · rintro ⟨h2, h3⟩
      refine ⟨h2, fun hc => ?_⟩
      rw [decide_eq_true hc] at h3
      simp at h3
    · rintro ⟨h2, h3⟩
      exact ⟨h2, decide_eq_false h3⟩
  refine ⟨lv2, nl2, hstep, ?_, F0, Fk, Fnodup, ?_, ?_, ?_⟩
  · -- the count equation
    intro f
    have hc2 := Fcount f
    have hcong1 : ∀ s ∈ useSet lo ui,
        (fun (s : SSAValue) => decide (s.file = f) &&
          (!(done.any (userB instrs lo s)) && decide (s ∈ [] ++ flatSrcs ui))) s =
        (fun (s : SSAValue) => decide (s.file = f) && !(done.any (userB instrs lo s))) s := by
      intro s hs
      have hmem : s ∈ flatSrcs ui := huseflat s hs
      simp [hmem]
    rw [countP_congr_ne _ _ _ hcong1] at hc2
    have hdying : ∀ d ∈ flatDsts ui,
        (fun (d : SSAValue) => decide (d.file = f) && decide (d ∈ live)) d =
        (fun (d : SSAValue) => decide (d.file = f) && dyingB instrs lo d) d := by
      intro d hd
      have hlivemem : (d ∈ live) ↔ (d ∈ lo ∨ done.any (userB instrs lo d) = true) := by
        rw [W2 d]
        constructor
        · intro h2
          exact h2.1
        · intro h2
          exact ⟨h2, hE3 d hd⟩
      have hdec : decide (d ∈ live) = dyingB instrs lo d := by
        unfold dyingB
        by_cases hlo2 : lo.contains d = true
        · rw [hlo2]
          have hdl : d ∈ live := hlivemem.mpr (Or.inl (of_decide_eq_true hlo2))
          simp [hdl]
        · have hlo3 : lo.contains d = false := Bool.eq_false_of_ne_true hlo2
          rw [hlo3]
          by_cases hun : usersOf instrs lo d = []
          · have hdu : done.any (userB instrs lo d) = false := by
              cases hb : done.any (userB instrs lo d) with
              | false => rfl
              | true => exact absurd hun (usersOf_ne_nil_of_any instrs lo d done hb)
            have hdnl : d ∉ live := by
              intro hc
              rcases hlivemem.mp hc with h2 | h2
              · exact hlo2 (decide_eq_true h2)
              · rw [h2] at hdu
                simp at hdu
            rw [hun]
            simp [hdnl]
          · have hdu := hE1 d hd hun
            have hdl : d ∈ live := hlivemem.mpr (Or.inr hdu)
            have hne2 : (usersOf instrs lo d).isEmpty = false := by
              cases hl : usersOf instrs lo d with
              | nil => exact absurd hl hun
              | cons a b => rfl
            rw [hne2]
            simp [hdl]
      dsimp only
      rw [hdec]
    have hkillc := h1count f
    rw [countP_congr_ne _ _ _ hdying] at hkillc
    have hnet := W4 i ui hidone hi f
    rw [LiveSet_count_eq_countP, LiveSet_count_eq_countP, hnet]
    omega
  · -- membership after the step
    intro s
    rw [Fmem s, hlive1 s, List.nil_append, hanyu s, hanyd s]
    constructor
    · rintro (⟨hA, hD, hnotd⟩ | ⟨hFs, hlo_b, hdu_b⟩)
      · refine ⟨?_, hD, hnotd⟩
        rcases hA with h | h
        · exact Or.inl h
        · exact Or.inr (Or.inl h)
      · have huse : s ∈ useSet lo ui := (useSet_mem lo ui s).mpr ⟨hFs, hlo_b⟩
        exact ⟨Or.inr (Or.inr huse), hE2 s hFs, hDJ s hFs⟩
    · rintro ⟨hor, hD, hnotd⟩
      rcases hor with h | h | h
      · exact Or.inl ⟨Or.inl h, hD, hnotd⟩
      · exact Or.inl ⟨Or.inr h, hD, hnotd⟩
      · by_cases hdu : done.any (userB instrs lo s) = true
        · exact Or.inl ⟨Or.inr hdu, hD, hnotd⟩
        · exact Or.inr ⟨huseflat s h, huselo s h, Bool.eq_false_of_ne_true hdu⟩
  · -- the pending-use map after the step
    intro s
    rw [Fget s]
    have hcond : (done.any (userB instrs lo s) = true ∨ s ∈ [] ++ flatSrcs ui ∨
        usersOf instrs lo s = []) ↔
      ((done ++ [i]).any (userB instrs lo s) = true ∨ usersOf instrs lo s = []) := by
      rw [hanyu s]
      constructor
      · rintro (h | h | h)
        · exact Or.inl (Or.inl h)
        · rw [List.nil_append] at h
          by_cases hlo2 : lo.contains s = true
          · exact Or.inr (usersOf_lo_nil instrs lo s hlo2)
          · exact Or.inl (Or.inr ((useSet_mem lo ui s).mpr
              ⟨h, Bool.eq_false_of_ne_true hlo2⟩))
        · exact Or.inr h
      · rintro ((h | h) | h)
        · exact Or.inl h
        · refine Or.inr (Or.inl ?_)
          rw [List.nil_append]
          exact huseflat s h
        · exact Or.inr (Or.inr h)
    by_cases hc : done.any (userB instrs lo s) = true ∨ s ∈ [] ++ flatSrcs ui ∨
        usersOf instrs lo s = []
    · rw [if_pos hc, if_pos (hcond.mp hc)]
    · rw [if_neg hc, if_neg (fun h2 => hc (hcond.mpr h2))]
  · -- the unprocessed counters after the step
    intro i2 ui2 hi2m hg f
    have hi2d : i2 ∉ done := fun h => hi2m (List.mem_append.mpr (Or.inl h))
    rw [Fnet i2 ui2 hi2d hg f]
    have hagree : ∀ s ∈ useSet lo ui2,
        (fun (s : SSAValue) => decide (s.file = f) &&
          (!(done.any (userB instrs lo s)) && !(decide (s ∈ [] ++ flatSrcs ui)))) s =
        (fun (s : SSAValue) => decide (s.file = f) &&
          !((done ++ [i]).any (userB instrs lo s))) s := by
      intro s hs
      have hlo2 : lo.contains s = false := ((useSet_mem lo ui2 s).mp hs).2
      have hiff : (s ∈ [] ++ flatSrcs ui) ↔ s ∈ useSet lo ui := by
        rw [List.nil_append]
        constructor
        · intro h
          exact (useSet_mem lo ui s).mpr ⟨h, hlo2⟩
        · intro h
          exact huseflat s h
      dsimp only
      rw [any_append_one, Bool.not_or, huser_i s,
        show (decide (s ∈ [] ++ flatSrcs ui)) = decide (s ∈ useSet lo ui) from
          decide_eq_decide.mpr hiff]
    rw [countP_congr_ne _ _ _ hagree]

/-- Witness for C4: on the two-instruction unit (a def and its use) with
empty live-out, the step hypotheses hold for bottom-up-first instruction
1, and the step equation and invariant follow. -/
theorem net_live_step_correct_witness :
    (LiveSet.new : LiveSet).Nodup ∧
    ([wInstr0, wInstr1] : List (Instr Nat)).get? 1 = some wInstr1 ∧
    (1 : Nat) ∉ ([] : List Nat) ∧
    (∀ d ∈ flatDsts wInstr1, usersOf [wInstr0, wInstr1] LiveSet.new d ≠ [] →
      ([] : List Nat).any (userB [wInstr0, wInstr1] LiveSet.new d) = true) ∧
    (∀ d ∈ flatDsts wInstr1, ([] : List Nat).any (definerB [wInstr0, wInstr1] d) = false) ∧
    (∀ s ∈ flatSrcs wInstr1, ([] : List Nat).any (definerB [wInstr0, wInstr1] s) = false) ∧
    (flatDsts wInstr1).Nodup ∧
    (∀ s ∈ flatSrcs wInstr1, s ∉ flatDsts wInstr1) ∧
    ∃ live2 nl2,
      liveStep wInstr1 LiveSet.new (NetLive.new [wInstr0, wInstr1] LiveSet.new)
        = some (live2, nl2) ∧
      (∀ f : RegFile, (live2.count f : Int) = (LiveSet.new.count f : Int) +
        ((NetLive.new [wInstr0, wInstr1] LiveSet.new).idx 1).net.get f) ∧
      NLInv [wInstr0, wInstr1] LiveSet.new ([] ++ [1]) live2 nl2 := by
  refine ⟨by decide, by decide, by decide, by decide, by decide, by decide, by decide, by decide, ?_⟩
  exact net_live_step_correct [wInstr0, wInstr1] LiveSet.new [] LiveSet.new
    (NetLive.new [wInstr0, wInstr1] LiveSet.new) 1 wInstr1
    (NLInv_init [wInstr0, wInstr1] LiveSet.new (by decide))
    (by decide) (by decide) (by decide) (by decide) (by decide) (by decide) (by decide)

end Nak
